import Mathlib

/-!
# The Prefix nodes of the adaptive radix tree (`src/execution/index/art/prefix.cpp`)

A shallow embedding of the Prefix node operations and the properties proved of them.

* `Node::PREFIX_SIZE` is declared in `node.hpp`; it is the parameter `P` of every operation.
  The byte buffer of a Prefix node is `data[0 .. P]`, the entry `data[P]` holding the count.
* Memory is explicit: an `ART` holds the segments of the Prefix allocator (addressed by
  natural numbers), the set of addresses handed out and freed, and the `Node` variables that
  live outside Prefix nodes. A C++ `Node &` or `reference<Node>` is a `Ref`.
* A result `none` stands for an execution that leaves the model: a Prefix read through a
  `Node` that is not a live in-memory Prefix, a byte access beyond `data[P]`, a swizzled
  successor that would have to be read from storage, or a loop that ran out of fuel.
* `D_ASSERT` is compiled out of release builds and is not part of the operations.
* Block storage is a list of typed primitives to which the writer appends; a block location
  is the position of a primitive in the block. The writer, the reader and the entry points
  of `node.cpp` (`Node::Free`, `Node::Serialize`, `Node::Deserialize`) are not in this source
  file; their models say so and follow the specification.
-/

namespace duckdb

/-- `DConstants::INVALID_INDEX`, the largest `idx_t`. -/
def INVALID_INDEX : Nat := 2 ^ 64 - 1

/-- A `Node` handle: unset, an in-memory Prefix node at an allocator address, an in-memory
node of another type (leaf or branching node), or a swizzled block pointer. -/
inductive Node where
  | unset : Node
  | pfx (addr : Nat) : Node
  | inner (id : Nat) : Node
  | swizzled (block_id offset : Nat) : Node
  deriving DecidableEq

/-- `Node::IsSet`. -/
def Node.IsSet : Node → Bool
  | Node.unset => false
  | _ => true

/-- `Node::IsSwizzled`. -/
def Node.IsSwizzled : Node → Bool
  | Node.swizzled _ _ => true
  | _ => false

/-- `node.DecodeARTNodeType() == NType::PREFIX`. The type of an unset or swizzled handle is
read as not `PREFIX`: the operations decode the type of handles that are set and in memory. -/
def Node.IsPrefix : Node → Bool
  | Node.pfx _ => true
  | _ => false

/-- An `ARTKey`: `len` bytes at `data`; `key[i]` is `key.data i`. -/
structure ARTKey where
  len : Nat
  data : Nat → Nat

/-- A Prefix node: `uint8_t data[PREFIX_SIZE + 1]` and `Node ptr`. -/
structure Prefix where
  data : Nat → Nat
  ptr : Node

/-- A place that holds a `Node`: a variable outside the Prefix nodes, or the `ptr` field of
the Prefix node at an address. -/
inductive Ref where
  | var (i : Nat) : Ref
  | ptr (a : Nat) : Ref
  deriving DecidableEq

/-- The memory the operations work on. `segments a` is the content of the Prefix allocator at
address `a`; the addresses below `next` have been handed out, those in `freed` were given
back; `vars` are the `Node` variables outside Prefix nodes; `released` lists the nodes of
other types handed to the node-free entry point. Only addresses that were handed out can
have been given back (`freed_lt`). -/
structure ART where
  segments : Nat → Prefix
  next : Nat
  freed : List Nat
  vars : Nat → Node
  released : List Nat
  freed_lt : ∀ x ∈ freed, x < next

/-- The address holds an allocated Prefix node that has not been freed. -/
def ART.live (art : ART) (a : Nat) : Prop := a < art.next ∧ a ∉ art.freed

instance (art : ART) (a : Nat) : Decidable (art.live a) :=
  inferInstanceAs (Decidable (a < art.next ∧ a ∉ art.freed))

/-- Overwrite the Prefix node at an address. -/
def ART.setPfx (art : ART) (a : Nat) (p : Prefix) : ART :=
  { art with segments := Function.update art.segments a p }

/-- Overwrite the `ptr` field of the Prefix node at an address. -/
def ART.setPtr (art : ART) (a : Nat) (n : Node) : ART :=
  art.setPfx a { art.segments a with ptr := n }

/-- Overwrite the byte buffer of the Prefix node at an address. -/
def ART.setData (art : ART) (a : Nat) (d : Nat → Nat) : ART :=
  art.setPfx a { art.segments a with data := d }

/-- Modelled from the spec: the external Prefix allocator, `allocate(variant) -> handle`. It
hands out an address that is not in use; the memory there is not initialised. -/
def ART.allocNew (art : ART) : ART × Nat :=
  ({ art with next := art.next + 1,
              freed_lt := fun x h => Nat.lt_succ_of_lt (art.freed_lt x h) }, art.next)

/-- Modelled from the spec: the external Prefix allocator, `free(handle)`. Freeing frees one
node and does not follow its successor. -/
def ART.allocFree (art : ART) (a : Nat) : Option ART :=
  if h : art.live a then
    some { art with freed := a :: art.freed,
                    freed_lt := fun x hx => (List.mem_cons.1 hx).elim (fun e => e ▸ h.1)
                      (art.freed_lt x) }
  else none

/-- Read the `Node` at a place. -/
def ART.read (art : ART) : Ref → Option Node
  | Ref.var i => some (art.vars i)
  | Ref.ptr a => if art.live a then some (art.segments a).ptr else none

/-- Write the `Node` at a place. -/
def ART.write (art : ART) : Ref → Node → Option ART
  | Ref.var i, n => some { art with vars := Function.update art.vars i n }
  | Ref.ptr a, n => if art.live a then some (art.setPtr a n) else none

/-- `Prefix::Get(art, node)`: the address of the Prefix node a `Node` points to. -/
def Prefix.Get (art : ART) : Node → Option Nat
  | Node.pfx a => if art.live a then some a else none
  | _ => none

/-- Modelled from the spec: `Node::Free` of `node.cpp`, "freeing a PrefixNode recursively
frees successor", the recursion ending at an unset or swizzled reference or, through the
external entry point, at a node of another type; the reference is unset afterwards.
The Prefix case is `Prefix::Free` (lines 57-65) followed by the allocator's free. -/
def Node.Free : Nat → ART → Ref → Option ART
  | 0, _, _ => none
  | fuel + 1, art, node =>
    match art.read node with
    | none => none
    | some Node.unset => some art
    | some (Node.swizzled _ _) => art.write node Node.unset
    | some (Node.inner id) => { art with released := id :: art.released }.write node Node.unset
    | some (Node.pfx a) =>
      match Prefix.Get art (Node.pfx a) with
      | none => none
      | some a =>
        match Node.Free fuel art (Ref.ptr a) with
        | none => none
        | some art1 =>
          match art1.allocFree a with
          | none => none
          | some art2 => art2.write node Node.unset

/-- `Prefix::New(ART &art, Node &node)` (lines 11-19): a fresh node with count 0; its bytes
and its `ptr` are left as the allocator delivered them. Returns the new node's address. -/
def Prefix.New (P : Nat) (art : ART) (node : Ref) : Option (ART × Nat) :=
  let a := art.allocNew.2
  match art.allocNew.1.write node (Node.pfx a) with
  | none => none
  | some art2 => some (art2.setData a (Function.update (art2.segments a).data P 0), a)

/-- `Prefix::New(ART &art, Node &node, uint8_t byte, Node next)` (lines 21-33). -/
def Prefix.New_byte (P : Nat) (art : ART) (node : Ref) (byte : Nat) (next : Node) :
    Option (ART × Nat) :=
  let a := art.allocNew.2
  match art.allocNew.1.write node (Node.pfx a) with
  | none => none
  | some art2 =>
    let d1 := Function.update (art2.segments a).data P 1
    let d2 := Function.update d1 0 byte
    some (art2.setPfx a { data := d2, ptr := next }, a)

/-- The loop of `Prefix::New(art, node, key, depth, count)` (lines 42-54); `node` is rebound
to the `ptr` of each node it allocates. -/
def Prefix.New_key_loop (P : Nat) (key : ARTKey) (depth : Nat) :
    Nat → ART → Ref → Nat → Nat → Option (ART × Ref)
  | 0, _, _, _, _ => none
  | fuel + 1, art, node, copy_count, count =>
    if count = 0 then some (art, node)
    else
      let a := art.allocNew.2
      match art.allocNew.1.write node (Node.pfx a) with
      | none => none
      | some art2 =>
        let this_count := min P count
        let d1 := Function.update (art2.segments a).data P (this_count % 256)
        let d2 := fun j => if j < this_count then key.data (depth + copy_count + j) else d1 j
        Prefix.New_key_loop P key depth fuel (art2.setData a d2) (Ref.ptr a)
          (copy_count + this_count) (count - this_count)

/-- `Prefix::New(ART &art, reference<Node> &node, const ARTKey &key, uint32_t depth,
uint32_t count)` (lines 35-55). Returns the memory and the place `node` refers to at the end. -/
def Prefix.New_key (P : Nat) (fuel : Nat) (art : ART) (node : Ref) (key : ARTKey)
    (depth count : Nat) : Option (ART × Ref) :=
  if count = 0 then some (art, node)
  else Prefix.New_key_loop P key depth fuel art node 0 count

/-- The inner loop of `Prefix::Traverse(art, prefix_node, key, depth)` (lines 192-197) over
the `n` remaining bytes of one node from index `i`: the index of the first byte that differs
from the key, if any, and the depth reached. -/
def Prefix.Traverse_key_bytes (P : Nat) (key : ARTKey) (p : Prefix) :
    Nat → Nat → Nat → Option (Option Nat × Nat)
  | 0, _, depth => some (none, depth)
  | n + 1, i, depth =>
    if P < i then none
    else if p.data i ≠ key.data depth then some (some i, depth)
    else Prefix.Traverse_key_bytes P key p n (i + 1) (depth + 1)

/-- `Prefix::Traverse(ART &art, reference<Node> &prefix_node, const ARTKey &key, idx_t &depth)`
(lines 184-206). Returns the result, the place `prefix_node` refers to at the end and the
final `depth`. -/
def Prefix.Traverse_key (P : Nat) (key : ARTKey) : Nat → ART → Ref → Nat → Option (Nat × Ref × Nat)
  | 0, _, _, _ => none
  | fuel + 1, art, prefix_node, depth =>
    match art.read prefix_node with
    | none => none
    | some (Node.pfx a) =>
      match Prefix.Get art (Node.pfx a) with
      | none => none
      | some a =>
        match Prefix.Traverse_key_bytes P key (art.segments a) ((art.segments a).data P) 0 depth with
        | none => none
        | some (some i, depth1) => some (i, prefix_node, depth1)
        | some (none, depth1) =>
          if (art.segments a).ptr.IsSwizzled then none
          else Prefix.Traverse_key P key fuel art (Ref.ptr a) depth1
    | some _ => some (INVALID_INDEX, prefix_node, depth)

/-- `Prefix::Append(ART &art, const uint8_t byte)` (lines 335-347) on the Prefix node at
address `a`. Returns the address of the node the byte landed in. -/
def Prefix.Append (P : Nat) (art : ART) (a : Nat) (byte : Nat) : Option (ART × Nat) :=
  if ¬ art.live a then none
  else
    match (if (art.segments a).data P = P then Prefix.New P art (Ref.ptr a) else some (art, a)) with
    | none => none
    | some (art1, b) =>
      if P < (art1.segments b).data P then none
      else
        let d1 := Function.update (art1.segments b).data ((art1.segments b).data P) byte
        let d2 := Function.update d1 P ((d1 P + 1) % 256)
        some (art1.setData b d2, b)

/-- The byte-copy loops of `Prefix::Append(art, other_prefix)` (lines 361-363) and of
`Prefix::Split` (lines 254-256): from index `i`, append every byte of the node at `o` to the
node at `a`, following the node each byte landed in. The count of `o` is read at every step. -/
def Prefix.Append_bytes (P : Nat) (o : Nat) : Nat → ART → Nat → Nat → Option (ART × Nat)
  | 0, _, _, _ => none
  | fuel + 1, art, a, i =>
    if i < (art.segments o).data P then
      if P < i then none
      else
        match Prefix.Append P art a ((art.segments o).data i) with
        | none => none
        | some (art1, a1) => Prefix.Append_bytes P o fuel art1 a1 (i + 1)
    else some (art, a)

/-- The loop of `Prefix::Append(art, other_prefix)` (lines 357-373). -/
def Prefix.Append_node_loop (P : Nat) : Nat → ART → Nat → Node → Option (ART × Nat)
  | 0, _, _, _ => none
  | fuel + 1, art, a, other_prefix =>
    match other_prefix with
    | Node.pfx o =>
      match Prefix.Get art (Node.pfx o) with
      | none => none
      | some o =>
        match Prefix.Append_bytes P o fuel art a 0 with
        | none => none
        | some (art1, a1) =>
          if (art1.segments o).ptr.IsSwizzled then none
          else if ¬ art1.live a1 then none
          else
            match (art1.setPtr a1 (art1.segments o).ptr).allocFree o with
            | none => none
            | some art3 => Prefix.Append_node_loop P fuel art3 a1 (art3.segments a1).ptr
    | _ => some (art, a)

/-- `Prefix::Append(ART &art, Node other_prefix)` (lines 349-376) on the Prefix node at
address `a`. Returns the memory and the address the local `prefix` refers to at the end. -/
def Prefix.Append_node (P : Nat) (fuel : Nat) (art : ART) (a : Nat) ( other_prefix : Node) :
    Option (ART × Nat) :=
  if other_prefix.IsSwizzled then none
  else Prefix.Append_node_loop P fuel art a other_prefix

/-- The tail walk of `Prefix::Concatenate` (lines 76-87): the last Prefix node of the chain
that starts at address `a`. -/
def Prefix.Concatenate_tail : Nat → ART → Nat → Option Nat
  | 0, _, _ => none
  | fuel + 1, art, a =>
    if (art.segments a).ptr.IsSwizzled then none
    else
      match (art.segments a).ptr with
      | Node.pfx b =>
        match Prefix.Get art (Node.pfx b) with
        | none => none
        | some b => Prefix.Concatenate_tail fuel art b
      | _ => some a

/-- `Prefix::Concatenate(ART &art, Node &prefix_node, const uint8_t byte,
Node &child_prefix_node)` (lines 67-114). -/
def Prefix.Concatenate (P : Nat) (fuel : Nat) (art : ART) (prefix_node : Ref) (byte : Nat)
    (child_prefix_node : Ref) : Option ART :=
  match art.read prefix_node with
  | none => none
  | some (Node.pfx a) =>
    match Prefix.Get art (Node.pfx a) with
    | none => none
    | some a =>
      match Prefix.Concatenate_tail fuel art a with
      | none => none
      | some t =>
        match Prefix.Append P art t byte with
        | none => none
        | some (art1, t1) =>
          match art1.read child_prefix_node with
          | none => none
          | some (Node.pfx c) => (Prefix.Append_node P fuel art1 t1 (Node.pfx c)).map Prod.fst
          | some child => if art1.live t1 then some (art1.setPtr t1 child) else none
  | some _ =>
    match art.read child_prefix_node with
    | none => none
    | some (Node.pfx c) =>
      match Prefix.New_byte P art prefix_node byte Node.unset with
      | none => none
      | some (art1, a) => (Prefix.Append_node P fuel art1 a (Node.pfx c)).map Prod.fst
    | some child => (Prefix.New_byte P art prefix_node byte child).map Prod.fst

/-- The shift loop of `Prefix::Reduce` (lines 226-228): `k` more steps from index `i`. -/
def Prefix.Reduce_shift (n : Nat) : Nat → Nat → (Nat → Nat) → (Nat → Nat)
  | 0, _, d => d
  | k + 1, i, d => Prefix.Reduce_shift n k (i + 1) (Function.update d i (d (n + i + 1)))

/-- `Prefix::Reduce(ART &art, Node &prefix_node, const idx_t n)` (lines 208-233). The call
leaves the model when `n < Node::PREFIX_SIZE` (line 211) does not hold. -/
def Prefix.Reduce (P : Nat) (fuel : Nat) (art : ART) (prefix_node : Ref) (n : Nat) :
    Option ART :=
  if ¬ n < P then none
  else
    match art.read prefix_node with
    | none => none
    | some pn =>
      match Prefix.Get art pn with
      | none => none
      | some a =>
        if n = P - 1 then
          let next_ptr := (art.segments a).ptr
          match Node.Free fuel (art.setPtr a Node.unset) prefix_node with
          | none => none
          | some art2 => art2.write prefix_node next_ptr
        else
          let d1 := Prefix.Reduce_shift n (P - n - 1) 0 (art.segments a).data
          let d2 := Function.update d1 P ((P - n - 1) % 256)
          let art1 := art.setData a d2
          (Prefix.Append_node P fuel art1 a (art1.segments a).ptr).map Prod.fst

/-- `Prefix::Split(ART &art, reference<Node> &prefix_node, Node &child_node, idx_t position)`
(lines 235-284). Returns the memory and the place `prefix_node` refers to at the end. -/
def Prefix.Split (P : Nat) (fuel : Nat) (art : ART) (prefix_node : Ref) (child_node : Ref)
    (position : Nat) : Option (ART × Ref) :=
  match art.read prefix_node with
  | none => none
  | some pn =>
    match Prefix.Get art pn with
    | none => none
    | some a =>
      if position + 1 = P then
        let art1 := art.setData a
          (Function.update (art.segments a).data P (((art.segments a).data P + 255) % 256))
        match art1.write child_node (art1.segments a).ptr with
        | none => none
        | some art2 => some (art2, Ref.ptr a)
      else
        let step1 : Option ART :=
          if position + 1 < (art.segments a).data P then
            match Prefix.New P art child_node with
            | none => none
            | some (art1, c) =>
              match Prefix.Append_bytes P a fuel art1 c (position + 1) with
              | none => none
              | some (art2, c1) =>
                if (art2.segments a).ptr.IsPrefix then
                  (Prefix.Append_node P fuel art2 c1 (art2.segments a).ptr).map Prod.fst
                else if art2.live c1 then some (art2.setPtr c1 (art2.segments a).ptr)
                else none
          else some art
        match step1 with
        | none => none
        | some art3 =>
          let step2 : Option ART :=
            if position + 1 = (art3.segments a).data P then
              art3.write child_node (art3.segments a).ptr
            else some art3
          match step2 with
          | none => none
          | some art4 =>
            let art5 := art4.setData a (Function.update (art4.segments a).data P (position % 256))
            if position = 0 then
              match Node.Free fuel (art5.setPtr a Node.unset) prefix_node with
              | none => none
              | some art6 => some (art6, prefix_node)
            else some (art5, Ref.ptr a)

/-- The bytes a Prefix node holds: `data[0 .. count)`. -/
def Prefix.bytes (P : Nat) (p : Prefix) : List Nat := (List.range (p.data P)).map p.data

/-- The count of the Prefix node at an address, `data[PREFIX_SIZE]`. -/
def ART.count (P : Nat) (art : ART) (a : Nat) : Nat := (art.segments a).data P

/-- The node `n` leads through the live Prefix nodes at the addresses `as`, in this order,
to the node `t`, the `ptr` of the last of them. -/
def Chain (art : ART) : Node → List Nat → Node → Prop
  | n, [], t => n = t
  | n, a :: as, t => n = Node.pfx a ∧ art.live a ∧ Chain art (art.segments a).ptr as t

instance Chain.decide (art : ART) : (n : Node) → (as : List Nat) → (t : Node) →
    Decidable (Chain art n as t)
  | n, [], t => inferInstanceAs (Decidable (n = t))
  | n, a :: as, t =>
    have := Chain.decide art (art.segments a).ptr as t
    inferInstanceAs (Decidable (n = Node.pfx a ∧ art.live a ∧ Chain art (art.segments a).ptr as t))

/-- The bytes of the Prefix nodes at the addresses `as`, concatenated in order. -/
def flat (P : Nat) (art : ART) : List Nat → List Nat
  | [] => []
  | a :: as => (art.segments a).bytes P ++ flat P art as

/-- The bytes `key[d .. d + L)`. -/
def ARTKey.slice (key : ARTKey) (d L : Nat) : List Nat := (List.range L).map fun j => key.data (d + j)

/-- A place that can be written: a variable, or the `ptr` of a live Prefix node. -/
def ART.valid (art : ART) : Ref → Prop
  | Ref.var _ => True
  | Ref.ptr a => art.live a

instance (art : ART) (r : Ref) : Decidable (art.valid r) := by
  cases r <;> unfold ART.valid <;> infer_instance

/-- The counts of a chain built from `L` bytes: `P` in every node but the last, the rest,
between 1 and `P`, in the last. -/
def Shape (P : Nat) (art : ART) : List Nat → Nat → Prop
  | [], _ => False
  | [a], L => art.count P a = L ∧ 1 ≤ L ∧ L ≤ P
  | a :: b :: rest, L => art.count P a = P ∧ P < L ∧ Shape P art (b :: rest) (L - P)

/-- The number of leading positions at which two byte sequences agree. -/
def matched : List Nat → List Nat → Nat
  | b :: bs, k :: ks => if b = k then matched bs ks + 1 else 0
  | _, _ => 0

/-- The bytes `data[i .. i + n)` of a node. -/
def Prefix.bytesFrom (p : Prefix) (i n : Nat) : List Nat := (List.range n).map fun j => p.data (i + j)

/-- The effect of appending bytes to the node at `a`: in `art1` the node at `a` heads the chain
`L` that ends in the node at `a1`, the one the last byte landed in; the chain holds the bytes
the node at `a` held in `art` followed by `bs`; the nodes `dead` were returned to the
allocator; no other node that existed in `art` was written. -/
structure Ext (P : Nat) (art : ART) (a : Nat) (bs : List Nat) (dead : List Nat)
    (art1 : ART) (a1 : Nat) (L : List Nat) : Prop where
  next_le : art.next ≤ art1.next
  freed : art1.freed = dead.reverse ++ art.freed
  vars : art1.vars = art.vars
  released : art1.released = art.released
  seg : ∀ x, x < art.next → x ≠ a → art1.segments x = art.segments x
  chain : Chain art1 (Node.pfx a) L (art1.segments a1).ptr
  last : L.getLast? = some a1
  fresh : ∀ x ∈ L, x = a ∨ art.next ≤ x
  nodup : L.Nodup
  flat_eq : flat P art1 L = (art.segments a).bytes P ++ bs
  count : ∀ x ∈ L, art1.count P x ≤ P
  full : ∀ x ∈ L, x ≠ a1 → art1.count P x = P

/-- A well-formed Prefix chain: the node `n` leads through the Prefix nodes at `as`, each
holding between 1 and `P` bytes, to the in-memory node `t` that is not a Prefix. -/
def WfChain (P : Nat) (art : ART) (n : Node) (as : List Nat) (t : Node) : Prop :=
  Chain art n as t ∧ as ≠ [] ∧ (∀ a ∈ as, 1 ≤ art.count P a ∧ art.count P a ≤ P) ∧
    t.IsPrefix = false ∧ t.IsSwizzled = false

instance (P : Nat) (art : ART) (n : Node) (as : List Nat) (t : Node) :
    Decidable (WfChain P art n as t) := by
  unfold WfChain; infer_instance

/-- The memory of the spec's scenario: capacity 4, the chain `[10,20,30,40] → [50,60]` at the
addresses 0 and 1, ending in a node that is not a Prefix; variable 0 refers to the chain. -/
def scenario : ART where
  segments := fun a =>
    if a = 0 then ⟨fun i => if i = 4 then 4 else 10 * (i + 1), Node.pfx 1⟩
    else ⟨fun i => if i = 4 then 2 else 10 * (i + 5), Node.inner 7⟩
  next := 2
  freed := []
  vars := fun i => if i = 0 then Node.pfx 0 else Node.unset
  released := []
  freed_lt := by simp

/-- The memory `scenario` with one more Prefix node at address 2, holding the byte 5, whose
`ptr` is unset (as `Prefix::New(art, node, byte, Node())` leaves it); variable 1 refers to it. -/
def scenario_node : ART where
  segments := fun a =>
    if a = 2 then ⟨fun i => if i = 4 then 1 else 5, Node.unset⟩ else scenario.segments a
  next := 3
  freed := []
  vars := fun i => if i = 0 then Node.pfx 0 else if i = 1 then Node.pfx 2 else Node.unset
  released := []
  freed_lt := by simp

/-- `Append(art, byte)` for each byte of a list in turn, every call made on the node the
previous call returned (as the loops of lines 254-256 and 361-363 do). -/
def Prefix.Append_all (P : Nat) : List Nat → ART → Nat → Option (ART × Nat)
  | [], art, a => some (art, a)
  | b :: bs, art, a =>
    match Prefix.Append P art a b with
    | none => none
    | some (art1, a1) => Prefix.Append_all P bs art1 a1

/-- What `Split(prefix_node, child_node, position)` leaves behind when called on the node at
`a`, whose successor chain `ss` ends in `t`: the child reference names a chain `L` that holds
the bytes after the position followed by the bytes of `ss` and ends in `t` (it is the
successor chain itself when no byte follows the position in the node); the node at `a`
keeps its bytes with its count cut to `p`; it is freed, and the caller's reference unset,
when `p = 0` (and the capacity is not 1), otherwise the caller's reference is rebound to the
`ptr` of the node, which is not written; nothing else that existed is written. -/
structure SplitPost (P : Nat) (art : ART) (prefix_node child_node : Ref) (a p : Nat)
    (ss : List Nat) (t : Node) (art1 : ART) (r1 : Ref) (cn : Node) (L : List Nat) : Prop where
  child_read : art1.read child_node = some cn
  child_chain : Chain art1 cn L t
  child_flat : flat P art1 L = ((art.segments a).bytes P).drop (p + 1) ++ flat P art ss
  child_count : ∀ x ∈ L, art1.count P x ≤ P
  child_fresh : ∀ x ∈ L, x ∈ ss ∨ art.next ≤ x
  child_pos : (∀ x ∈ ss, 1 ≤ art.count P x) → ∀ x ∈ L, 1 ≤ art1.count P x
  unfolded : (p + 1 = P ∨ ¬ p + 1 < art.count P a) → L = ss ∧ cn = (art.segments a).ptr
  data_a : (art1.segments a).data = Function.update (art.segments a).data P p
  freed_case : p = 0 → P ≠ 1 →
    r1 = prefix_node ∧ art1.read prefix_node = some Node.unset ∧ ¬ art1.live a
  kept_case : 0 < p ∨ P = 1 →
    r1 = Ref.ptr a ∧ art1.read prefix_node = some (Node.pfx a) ∧ art1.live a ∧
      (art1.segments a).ptr = (art.segments a).ptr
  folded : p + 1 < art.count P a → p + 1 ≠ P → ∀ x ∈ ss, ¬ art1.live x
  next_le : art.next ≤ art1.next
  live_keep : ∀ x, art.live x → x ≠ a → x ∉ ss → art1.live x
  data_keep : ∀ x, x < art.next → x ≠ a → (art1.segments x).data = (art.segments x).data
  ptr_keep : ∀ x, x < art.next → x ≠ a → prefix_node ≠ Ref.ptr x → child_node ≠ Ref.ptr x →
    (art1.segments x).ptr = (art.segments x).ptr
  vars_keep : ∀ i, child_node ≠ Ref.var i → prefix_node ≠ Ref.var i → art1.vars i = art.vars i

/-- A memory with capacity 4 in mind: one Prefix node at address 0 that holds the two bytes
`[10, 20]` (the unused rest of its buffer holds 77 and 88) and is followed by a node that is
not a Prefix; variable 0 refers to it. -/
def short_head : ART where
  segments := fun _ =>
    ⟨fun i => if i = 4 then 2 else if i = 0 then 10 else if i = 1 then 20 else if i = 2 then 77
      else 88, Node.inner 7⟩
  next := 1
  freed := []
  vars := fun i => if i = 0 then Node.pfx 0 else Node.unset
  released := []
  freed_lt := by simp

/-- The comparison loop of `Prefix::Traverse(art, l_node, r_node)` (lines 134-139) over the
`n` remaining bytes of a node pair from index `i`: the index of the first byte at which the
two nodes differ, if any. -/
def Prefix.Traverse_bytes (P : Nat) (l r : Prefix) : Nat → Nat → Option (Option Nat)
  | 0, _ => some none
  | n + 1, i =>
    if P < i then none
    else if l.data i ≠ r.data i then some (some i)
    else Prefix.Traverse_bytes P l r n (i + 1)

/-- The release of the preceding nodes of one side in `Prefix::Traverse(art, l_node, r_node)`
(lines 155-159 and 167-171): the `ptr` of the node the last traversed reference names is
reset, then `Node::Free` is called on the first traversed reference. -/
def Prefix.Traverse_free (fuel : Nat) (art : ART) (traversed : List Ref) : Option ART :=
  match traversed.getLast?, traversed.head? with
  | some back, some front =>
    match art.read back with
    | none => none
    | some pn =>
      match Prefix.Get art pn with
      | none => none
      | some b => Node.Free fuel (art.setPtr b Node.unset) front
  | _, _ => some art

/-- The loop of `Prefix::Traverse(ART &art, reference<Node> &l_node, reference<Node> &r_node)`
(lines 127-181) with the two vectors of traversed references. Returns the memory, the
result and the places `l_node` and `r_node` refer to at the end. -/
def Prefix.Traverse_loop (P : Nat) :
    Nat → ART → Ref → Ref → List Ref → List Ref → Option (ART × Nat × Ref × Ref)
  | 0, _, _, _, _, _ => none
  | fuel + 1, art, l_node, r_node, traversed_l_nodes, traversed_r_nodes =>
    match art.read l_node, art.read r_node with
    | none, _ => none
    | _, none => none
    | some ln, some rn =>
      if ln.IsPrefix ∧ rn.IsPrefix then
        match Prefix.Get art ln, Prefix.Get art rn with
        | some l, some r =>
          let max_count := min ((art.segments l).data P) ((art.segments r).data P)
          match Prefix.Traverse_bytes P (art.segments l) (art.segments r) max_count 0 with
          | none => none
          | some (some i) => some (art, i, l_node, r_node)
          | some none =>
            if (art.segments l).data P = (art.segments r).data P then
              Prefix.Traverse_loop P fuel art (Ref.ptr l) (Ref.ptr r)
                (traversed_l_nodes ++ [l_node]) (traversed_r_nodes ++ [r_node])
            else if (art.segments l).data P = max_count then
              match Prefix.Traverse_free fuel art traversed_r_nodes with
              | none => none
              | some art1 => some (art1, max_count, Ref.ptr l, r_node)
            else if (art.segments r).data P = max_count then
              match Prefix.Traverse_free fuel art traversed_l_nodes with
              | none => none
              | some art1 => some (art1, max_count, l_node, Ref.ptr r)
            else Prefix.Traverse_loop P fuel art l_node r_node traversed_l_nodes
              traversed_r_nodes
        | _, _ => none
      else some (art, INVALID_INDEX, l_node, r_node)

/-- `Prefix::Traverse(ART &art, reference<Node> &l_node, reference<Node> &r_node)`
(lines 116-182). -/
def Prefix.Traverse (P : Nat) (fuel : Nat) (art : ART) (l_node r_node : Ref) :
    Option (ART × Nat × Ref × Ref) :=
  Prefix.Traverse_loop P fuel art l_node r_node [] []

/-- A Prefix node for capacity 4 that holds the given bytes, followed by the given node. -/
def node4 (bs : List Nat) (next : Node) : Prefix :=
  ⟨fun i => if i = 4 then bs.length else bs.getD i 0, next⟩

/-- The place a cursor refers to after it advanced from `r` over the nodes `as`: the `ptr` of
the last of them. -/
def cursor : Ref → List Nat → Ref
  | r, [] => r
  | _, a :: as => cursor (Ref.ptr a) as

/-- The references a cursor held while it advanced from `r` over the nodes `as`, in order. -/
def visited : Ref → List Nat → List Ref
  | _, [] => []
  | r, a :: as => r :: visited (Ref.ptr a) as

/-- A memory for capacity 4: Prefix nodes with the given bytes and successors at the
addresses 0, 1, ..., and the variables 0, 1, ... with the given values. -/
def memory4 (nodes : List (List Nat × Node)) (vars : List Node) : ART where
  segments := fun a => node4 (nodes.getD a ([], Node.unset)).1 (nodes.getD a ([], Node.unset)).2
  next := nodes.length
  freed := []
  vars := fun i => vars.getD i Node.unset
  released := []
  freed_lt := by simp

/-- Two chains for capacity 4: variable 0 names `[10,20,30,40] → [50,60]` (addresses 0, 1),
variable 1 names `[10,20,30,40] → last` (addresses 2, 3); they end in different nodes that
are not Prefix nodes. -/
def chains_with (last : List Nat) : ART :=
  memory4 [([10, 20, 30, 40], Node.pfx 1), ([50, 60], Node.inner 7),
    ([10, 20, 30, 40], Node.pfx 3), (last, Node.inner 8)] [Node.pfx 0, Node.pfx 2]

/-- Two chains for capacity 4 whose nodes are not aligned: variable 0 names `[1,2] → [3,4]`
(addresses 0, 1), variable 1 names the single node `[1,2,3,9]` (address 2). -/
def misaligned : ART :=
  memory4 [([1, 2], Node.pfx 1), ([3, 4], Node.inner 7), ([1, 2, 3, 9], Node.inner 8)]
    [Node.pfx 0, Node.pfx 2]

/-- Two chains for capacity 4 of which one is the beginning of the other, node by node:
variable 0 names the single node `[10,20,30,40]` (address 0), variable 1 names
`[10,20,30,40] → [50,60]` (addresses 1, 2). -/
def short_and_long : ART :=
  memory4 [([10, 20, 30, 40], Node.inner 7), ([10, 20, 30, 40], Node.pfx 2),
    ([50, 60], Node.inner 8)] [Node.pfx 0, Node.pfx 1]

/-- Two chains of one node each for capacity 4: variable 0 names `[10,20]` (address 0),
variable 1 names `[10,20,30,40]` (address 1). -/
def one_in_other : ART :=
  memory4 [([10, 20], Node.inner 7), ([10, 20, 30, 40], Node.inner 8)] [Node.pfx 0, Node.pfx 1]

/-- Modelled from the spec: a primitive value in block storage, as `writePrimitive(T)` of the
BlockStore writer puts it there: the type tag of a Prefix node, a `uint8_t`, the two
fixed-width integers of a block location, or the record the external node-serialize entry
point writes for a node of another type. -/
inductive Prim where
  | PREFIX : Prim
  | uint8 (v : Nat) : Prim
  | block_id (v : Nat) : Prim
  | offset (v : Nat) : Prim
  | other (id : Nat) : Prim
  deriving DecidableEq

/-- Modelled from the spec: `BlockPointer`, a block location, "pair (container id,
offset)". -/
structure BlockPointer where
  block_id : Nat
  offset : Nat
  deriving DecidableEq

/-- Modelled from the spec: `MetaBlockWriter`, the BlockStore writer: the block it writes to
and the primitives written so far; offsets count primitives. -/
structure MetaBlockWriter where
  block_id : Nat
  written : List Prim
  deriving DecidableEq

/-- Modelled from the spec: `MetaBlockWriter::GetBlockPointer`, "reserveLocation() ->
BlockLocation": the location the next primitive is written to. -/
def MetaBlockWriter.GetBlockPointer (writer : MetaBlockWriter) : BlockPointer :=
  ⟨writer.block_id, writer.written.length⟩

/-- Modelled from the spec: `MetaBlockWriter::Write`, "writePrimitive(T)". -/
def MetaBlockWriter.Write (writer : MetaBlockWriter) (v : Prim) : MetaBlockWriter :=
  { writer with written := writer.written ++ [v] }

/-- Modelled from the spec: `MetaBlockReader`, the BlockStore reader: a block and the offset
of the next primitive to read. -/
structure MetaBlockReader where
  block : List Prim
  offset : Nat

/-- Modelled from the spec: `MetaBlockReader::Read<uint8_t>`, "readPrimitive<T>()". -/
def MetaBlockReader.Read_uint8 (reader : MetaBlockReader) : Option (Nat × MetaBlockReader) :=
  match reader.block.drop reader.offset with
  | Prim.uint8 v :: _ => some (v, { reader with offset := reader.offset + 1 })
  | _ => none

/-- Modelled from the spec: the constructor `Node(MetaBlockReader &reader)` of node.cpp:
"construct a successor NodeRef in swizzled state carrying the stored block location (not yet
materialized)", the location being read as two fixed-width integers. -/
def Node.ofReader (reader : MetaBlockReader) : Option (Node × MetaBlockReader) :=
  match reader.block.drop reader.offset with
  | Prim.block_id b :: Prim.offset o :: _ =>
    some (Node.swizzled b o, { reader with offset := reader.offset + 2 })
  | _ => none

/-- The loop of `Prefix::Serialize` (lines 311-313): `n` more bytes from index `i`. -/
def Prefix.Serialize_bytes (P : Nat) (p : Prefix) : Nat → Nat → MetaBlockWriter →
    Option MetaBlockWriter
  | 0, _, writer => some writer
  | n + 1, i, writer =>
    if P < i then none
    else Prefix.Serialize_bytes P p n (i + 1) (writer.Write (Prim.uint8 (p.data i)))

/-- `Prefix::Serialize(ART &art, MetaBlockWriter &writer)` (lines 300-320) on the Prefix node
`p`; `Node_Serialize` is `Node::Serialize(art, writer)`, called on `ptr`. -/
def Prefix.Serialize (P : Nat)
    (Node_Serialize : Node → MetaBlockWriter → Option (MetaBlockWriter × BlockPointer))
    (p : Prefix) (writer : MetaBlockWriter) : Option (MetaBlockWriter × BlockPointer) :=
  match Node_Serialize p.ptr writer with
  | none => none
  | some (writer1, child_block_pointer) =>
    let block_pointer := writer1.GetBlockPointer
    let writer2 := (writer1.Write Prim.PREFIX).Write (Prim.uint8 (p.data P))
    match Prefix.Serialize_bytes P p (p.data P) 0 writer2 with
    | none => none
    | some writer3 =>
      some ((writer3.Write (Prim.block_id child_block_pointer.block_id)).Write
        (Prim.offset child_block_pointer.offset), block_pointer)

/-- Modelled from the spec: `Node::Serialize(ART &art, MetaBlockWriter &writer)` of node.cpp:
"if successor is itself a Prefix, this recurses into this same routine; if it is a
branching/leaf node, the external node-serialize entrypoint is used", which writes the
node's record at the next location and returns that location. The spec says nothing of
references that are unset or swizzled. -/
def Node.Serialize (P : Nat) : Nat → ART → Node → MetaBlockWriter →
    Option (MetaBlockWriter × BlockPointer)
  | 0, _, _, _ => none
  | fuel + 1, art, node, writer =>
    match node with
    | Node.pfx a =>
      match Prefix.Get art (Node.pfx a) with
      | none => none
      | some a => Prefix.Serialize P (Node.Serialize P fuel art) (art.segments a) writer
    | Node.inner id => some (writer.Write (Prim.other id), writer.GetBlockPointer)
    | _ => none

/-- The loop of `Prefix::Deserialize` (lines 327-329) from index `i`, on the byte buffer `d`
of the node; the count `d P` is read at every step. The loop stays inside `data[0 .. P]` for
at most `P + 1` steps, which `k` counts down. -/
def Prefix.Deserialize_bytes (P : Nat) : Nat → (Nat → Nat) → Nat → MetaBlockReader →
    Option ((Nat → Nat) × MetaBlockReader)
  | 0, _, _, _ => none
  | k + 1, d, i, reader =>
    if i < d P then
      if P < i then none
      else
        match reader.Read_uint8 with
        | none => none
        | some (v, reader1) =>
          Prefix.Deserialize_bytes P k (Function.update d i v) (i + 1) reader1
    else some (d, reader)

/-- `Prefix::Deserialize(MetaBlockReader &reader)` (lines 322-333) on the Prefix node `p`. -/
def Prefix.Deserialize (P : Nat) (p : Prefix) (reader : MetaBlockReader) :
    Option (Prefix × MetaBlockReader) :=
  match reader.Read_uint8 with
  | none => none
  | some (count, reader1) =>
    match Prefix.Deserialize_bytes P (P + 2) (Function.update p.data P count) 0 reader1 with
    | none => none
    | some (d, reader2) =>
      match Node.ofReader reader2 with
      | none => none
      | some (n, reader3) => some ({ data := d, ptr := n }, reader3)

/-- Modelled from the spec: `Node::Deserialize(ART &art)` of node.cpp, "materialize()": a
swizzled reference is "read from the block store" and the swizzled marker replaced "with a
live handle". The type tag at the stored location is read; for a Prefix node a node is
allocated, the reference made a handle to it and `Prefix::Deserialize` called on it; the
record of a node of another type yields a handle to that node. `storage` is the block
written before. -/
def Node.Deserialize (P : Nat) (storage : MetaBlockWriter) (art : ART) (node : Ref) :
    Option ART :=
  match art.read node with
  | some (Node.swizzled b o) =>
    if b ≠ storage.block_id then none
    else
      match storage.written.drop o with
      | Prim.PREFIX :: _ =>
        match art.allocNew.1.write node (Node.pfx art.allocNew.2) with
        | none => none
        | some art2 =>
          match Prefix.Deserialize P (art2.segments art.allocNew.2) ⟨storage.written, o + 1⟩ with
          | none => none
          | some (p, _) => some (art2.setPfx art.allocNew.2 p)
      | Prim.other id :: _ => art.write node (Node.inner id)
      | _ => none
  | _ => none

/-- The reading side of the round trip: `Node::Deserialize` on a swizzled reference and then
on the `ptr` of every Prefix node this produces, until a node that is not a Prefix has been
materialized. -/
def Node.Deserialize_chain (P : Nat) (storage : MetaBlockWriter) : Nat → ART → Ref → Option ART
  | 0, _, _ => none
  | fuel + 1, art, node =>
    match Node.Deserialize P storage art node with
    | none => none
    | some art1 =>
      match art1.read node with
      | some (Node.pfx a) => Node.Deserialize_chain P storage fuel art1 (Ref.ptr a)
      | some _ => some art1
      | none => none

/-- A chain of `3 * 4 + 2` bytes for capacity 4 at the addresses 0 to 3, named by
variable 0. -/
def long_chain : ART :=
  memory4 [([1, 2, 3, 4], Node.pfx 1), ([5, 6, 7, 8], Node.pfx 2), ([9, 10, 11, 12], Node.pfx 3),
    ([13, 14], Node.inner 7)] [Node.pfx 0]

/-- The primitives `Prefix::Serialize` writes for a node that holds the bytes `bs` and whose
successor was serialized at `child`: the type tag, the count, the bytes, the location. -/
def record (bs : List Nat) (child : BlockPointer) : List Prim :=
  [Prim.PREFIX, Prim.uint8 bs.length] ++ bs.map Prim.uint8 ++
    [Prim.block_id child.block_id, Prim.offset child.offset]

/-- The block `cells` with the id `bid` holds, at the location `bp`, the records of a chain
of Prefix nodes with the bytes `bss`, each naming the location of the next, followed by the
record of the node `id` that is not a Prefix. -/
def Stored (cells : List Prim) (bid : Nat) : BlockPointer → List (List Nat) → Nat → Prop
  | bp, [], id => bp.block_id = bid ∧ ∃ tl, cells.drop bp.offset = Prim.other id :: tl
  | bp, bs :: rest, id => bp.block_id = bid ∧
    ∃ child tl, cells.drop bp.offset = record bs child ++ tl ∧ Stored cells bid child rest id

/-- A chain is compact when every Prefix node that is followed by another Prefix node has
count `PREFIX_SIZE`: every node of the chain `as` but the last is full. -/
def Compact (P : Nat) (art : ART) (as : List Nat) : Prop :=
  ∀ x ∈ as.dropLast, art.count P x = P

instance (P : Nat) (art : ART) (as : List Nat) : Decidable (Compact P art as) := by
  unfold Compact; infer_instance

/-- The empty memory: nothing allocated, every variable unset. -/
def empty_memory : ART := memory4 [] []

/-! ## Memory: what the primitive writes change -/

@[simp] theorem setPfx_segments_self (art : ART) (a : Nat) (p : Prefix) :
    (art.setPfx a p).segments a = p := by
  simp [ART.setPfx]

@[simp] theorem setPfx_segments_ne (art : ART) (a : Nat) (x : Nat) (p : Prefix) (h : x ≠ a) :
    (art.setPfx a p).segments x = art.segments x := by
  simp [ART.setPfx, h]

@[simp] theorem setPfx_next (art : ART) (a : Nat) (p : Prefix) :
    (art.setPfx a p).next = art.next := rfl

@[simp] theorem setPfx_freed (art : ART) (a : Nat) (p : Prefix) :
    (art.setPfx a p).freed = art.freed := rfl

@[simp] theorem setPfx_vars (art : ART) (a : Nat) (p : Prefix) :
    (art.setPfx a p).vars = art.vars := rfl

@[simp] theorem setPfx_released (art : ART) (a : Nat) (p : Prefix) :
    (art.setPfx a p).released = art.released := rfl

@[simp] theorem setPfx_live (art : ART) (a : Nat) (x : Nat) (p : Prefix) :
    (art.setPfx a p).live x ↔ art.live x := Iff.rfl

@[simp] theorem setPtr_ptr_self (art : ART) (a : Nat) (n : Node) :
    ((art.setPtr a n).segments a).ptr = n := by
  simp [ART.setPtr]

@[simp] theorem setPtr_data (art : ART) (a : Nat) (x : Nat) (n : Node) :
    ((art.setPtr a n).segments x).data = (art.segments x).data := by
  by_cases h : x = a
  · subst h; simp [ART.setPtr]
  · simp [ART.setPtr, h]

@[simp] theorem setPtr_segments_ne (art : ART) (a : Nat) (x : Nat) (n : Node) (h : x ≠ a) :
    (art.setPtr a n).segments x = art.segments x := by
  simp [ART.setPtr, h]

@[simp] theorem setPtr_next (art : ART) (a : Nat) (n : Node) :
    (art.setPtr a n).next = art.next := rfl

@[simp] theorem setPtr_freed (art : ART) (a : Nat) (n : Node) :
    (art.setPtr a n).freed = art.freed := rfl

@[simp] theorem setPtr_vars (art : ART) (a : Nat) (n : Node) :
    (art.setPtr a n).vars = art.vars := rfl

@[simp] theorem setPtr_released (art : ART) (a : Nat) (n : Node) :
    (art.setPtr a n).released = art.released := rfl

@[simp] theorem setPtr_live (art : ART) (a : Nat) (x : Nat) (n : Node) :
    (art.setPtr a n).live x ↔ art.live x := Iff.rfl

@[simp] theorem setData_data_self (art : ART) (a : Nat) (d : Nat → Nat) :
    ((art.setData a d).segments a).data = d := by
  simp [ART.setData]

@[simp] theorem setData_ptr (art : ART) (a : Nat) (x : Nat) (d : Nat → Nat) :
    ((art.setData a d).segments x).ptr = (art.segments x).ptr := by
  by_cases h : x = a
  · subst h; simp [ART.setData]
  · simp [ART.setData, h]

@[simp] theorem setData_segments_ne (art : ART) (a : Nat) (x : Nat) (d : Nat → Nat) (h : x ≠ a) :
    (art.setData a d).segments x = art.segments x := by
  simp [ART.setData, h]

@[simp] theorem setData_next (art : ART) (a : Nat) (d : Nat → Nat) :
    (art.setData a d).next = art.next := rfl

@[simp] theorem setData_freed (art : ART) (a : Nat) (d : Nat → Nat) :
    (art.setData a d).freed = art.freed := rfl

@[simp] theorem setData_vars (art : ART) (a : Nat) (d : Nat → Nat) :
    (art.setData a d).vars = art.vars := rfl

@[simp] theorem setData_released (art : ART) (a : Nat) (d : Nat → Nat) :
    (art.setData a d).released = art.released := rfl

@[simp] theorem setData_live (art : ART) (a : Nat) (x : Nat) (d : Nat → Nat) :
    (art.setData a d).live x ↔ art.live x := Iff.rfl

theorem Chain.frame {art art1 : ART} {as : List Nat} :
    ∀ {n t : Node}, (∀ a ∈ as, art.live a → art1.live a ∧ (art1.segments a).ptr = (art.segments a).ptr) →
    Chain art n as t → Chain art1 n as t := by
  induction as with
  | nil => intro n t _ h; exact h
  | cons a as ih =>
    intro n t hf h
    obtain ⟨h1, h2, h3⟩ := h
    obtain ⟨l, e⟩ := hf a (List.mem_cons_self _ _) h2
    refine ⟨h1, l, ?_⟩
    rw [e]
    exact ih (fun b hb => hf b (List.mem_cons_of_mem _ hb)) h3

theorem flat_frame {P : Nat} {art art1 : ART} {as : List Nat}
    (hf : ∀ a ∈ as, (art1.segments a).data = (art.segments a).data) :
    flat P art1 as = flat P art as := by
  induction as with
  | nil => rfl
  | cons a as ih =>
    simp only [flat, Prefix.bytes]
    rw [hf a (List.mem_cons_self _ _), ih (fun b hb => hf b (List.mem_cons_of_mem _ hb))]

theorem Chain.append {art : ART} {as bs : List Nat} :
    ∀ {n m t : Node}, Chain art n as m → Chain art m bs t → Chain art n (as ++ bs) t := by
  induction as with
  | nil => intro n m t h1 h2; cases h1; exact h2
  | cons a as ih =>
    intro n m t h1 h2
    exact ⟨h1.1, h1.2.1, ih h1.2.2 h2⟩

theorem Chain.split {art : ART} {as bs : List Nat} :
    ∀ {n t : Node}, Chain art n (as ++ bs) t → ∃ m, Chain art n as m ∧ Chain art m bs t := by
  induction as with
  | nil => intro n t h; exact ⟨n, rfl, h⟩
  | cons a as ih =>
    intro n t h
    obtain ⟨m, h1, h2⟩ := ih h.2.2
    exact ⟨m, ⟨h.1, h.2.1, h1⟩, h2⟩

theorem flat_append (P : Nat) (art : ART) (as bs : List Nat) :
    flat P art (as ++ bs) = flat P art as ++ flat P art bs := by
  induction as with
  | nil => rfl
  | cons a as ih => simp [flat, ih]

theorem Chain.live {art : ART} {as : List Nat} :
    ∀ {n t : Node}, Chain art n as t → ∀ a ∈ as, art.live a := by
  induction as with
  | nil => intro n t _ a ha; cases ha
  | cons b as ih =>
    intro n t h a ha
    rcases List.mem_cons.1 ha with e | e
    · subst e; exact h.2.1
    · exact ih h.2.2 a e

/-- A chain that ends in a node that is not a Prefix is determined by where it starts. -/
theorem Chain.unique {art : ART} {as : List Nat} :
    ∀ {bs : List Nat} {n t u : Node}, Chain art n as t → Chain art n bs u →
      t.IsPrefix = false → u.IsPrefix = false → as = bs ∧ t = u := by
  induction as with
  | nil =>
    intro bs n t u h1 h2 ht hu
    cases bs with
    | nil => cases h1; cases h2; exact ⟨rfl, rfl⟩
    | cons b bs => cases h1; rw [h2.1] at ht; simp [Node.IsPrefix] at ht
  | cons a as ih =>
    intro bs n t u h1 h2 ht hu
    cases bs with
    | nil => cases h2; rw [h1.1] at hu; simp [Node.IsPrefix] at hu
    | cons b bs =>
      have e : a = b := by
        have := h1.1.symm.trans h2.1
        injection this
      subst e
      obtain ⟨e1, e2⟩ := ih h1.2.2 h2.2.2 ht hu
      exact ⟨by rw [e1], e2⟩

theorem Chain.nodup {art : ART} {as : List Nat} :
    ∀ {n t : Node}, Chain art n as t → t.IsPrefix = false → as.Nodup := by
  induction as with
  | nil => intro n t _ _; exact List.nodup_nil
  | cons a as ih =>
    intro n t h ht
    refine List.nodup_cons.2 ⟨?_, ih h.2.2 ht⟩
    intro hmem
    obtain ⟨l1, l2, e⟩ := List.append_of_mem hmem
    rw [e] at h
    obtain ⟨m, hm1, hm2⟩ := Chain.split h.2.2
    have := (Chain.unique hm2.2.2 h.2.2 ht ht).1
    have hl := congrArg List.length this
    simp at hl
    omega

/-! ## Byte sequences -/

theorem matched_le (B : List Nat) : ∀ K, matched B K ≤ B.length := by
  induction B with
  | nil => intro K; simp [matched]
  | cons b bs ih =>
    intro K
    cases K with
    | nil => simp [matched]
    | cons k ks =>
      simp only [matched]
      split
      · have := ih ks; simp; omega
      · simp

theorem matched_eq_length (B : List Nat) :
    ∀ K, B.length = K.length → (matched B K = B.length ↔ B = K) := by
  induction B with
  | nil => intro K h; cases K with
    | nil => simp [matched]
    | cons k ks => simp at h
  | cons b bs ih =>
    intro K h
    cases K with
    | nil => simp at h
    | cons k ks =>
      simp only [List.length_cons, Nat.add_right_cancel_iff] at h
      simp only [matched, List.length_cons, List.cons.injEq]
      by_cases e : b = k
      · simp [e, ih ks h]
      · simp [e]

theorem matched_take (B : List Nat) : ∀ K, B.take (matched B K) = K.take (matched B K) := by
  induction B with
  | nil => intro K; simp [matched]
  | cons b bs ih =>
    intro K
    cases K with
    | nil => simp [matched]
    | cons k ks =>
      simp only [matched]
      by_cases e : b = k
      · simp [e, ih ks]
      · simp [e]

theorem matched_differs (B : List Nat) :
    ∀ K, matched B K < B.length → B.length ≤ K.length → B[matched B K]? ≠ K[matched B K]? := by
  induction B with
  | nil => intro K h; simp at h
  | cons b bs ih =>
    intro K h hk
    cases K with
    | nil => simp at hk
    | cons k ks =>
      simp only [matched] at h ⊢
      by_cases e : b = k
      · simp only [e, if_true, List.length_cons, Nat.add_lt_add_iff_right] at h ⊢
        simp only [List.getElem?_cons_succ]
        exact ih ks h (by simpa using hk)
      · simp [e]

theorem matched_append (B1 B2 : List Nat) :
    ∀ K1 K2, B1.length = K1.length →
      matched (B1 ++ B2) (K1 ++ K2) =
        if matched B1 K1 = B1.length then B1.length + matched B2 K2 else matched B1 K1 := by
  induction B1 with
  | nil => intro K1 K2 h; cases K1 with
    | nil => simp [matched]
    | cons k ks => simp at h
  | cons b bs ih =>
    intro K1 K2 h
    cases K1 with
    | nil => simp at h
    | cons k ks =>
      simp only [List.length_cons, Nat.add_right_cancel_iff] at h
      show (if b = k then matched (bs ++ B2) (ks ++ K2) + 1 else 0) =
        if (if b = k then matched bs ks + 1 else 0) = bs.length + 1
        then bs.length + 1 + matched B2 K2 else (if b = k then matched bs ks + 1 else 0)
      by_cases e : b = k
      · simp only [e, if_true, ih ks K2 h, Nat.add_right_cancel_iff]
        split <;> omega
      · simp [e]

theorem slice_length (key : ARTKey) (d L : Nat) : (key.slice d L).length = L := by
  simp [ARTKey.slice]

theorem slice_add (key : ARTKey) (d m n : Nat) :
    key.slice d (m + n) = key.slice d m ++ key.slice (d + m) n := by
  unfold ARTKey.slice
  rw [List.range_add, List.map_append, List.map_map]
  congr 1
  apply List.map_congr_left
  intro j _
  simp [Nat.add_assoc]

theorem slice_succ (key : ARTKey) (d n : Nat) :
    key.slice d (n + 1) = key.data d :: key.slice (d + 1) n := by
  rw [Nat.add_comm n 1, slice_add]
  rfl

theorem bytesFrom_succ (p : Prefix) (i n : Nat) :
    p.bytesFrom i (n + 1) = p.data i :: p.bytesFrom (i + 1) n := by
  unfold Prefix.bytesFrom
  rw [Nat.add_comm n 1, List.range_add, List.map_append, List.map_map]
  show [p.data (i + 0)] ++ _ = _
  simp only [Nat.add_zero, List.singleton_append, List.cons.injEq, true_and]
  apply List.map_congr_left
  intro j _
  simp [Nat.add_assoc]

theorem bytes_eq_bytesFrom (P : Nat) (p : Prefix) : p.bytes P = p.bytesFrom 0 (p.data P) := by
  simp [Prefix.bytes, Prefix.bytesFrom]

theorem bytes_length (P : Nat) (p : Prefix) : (p.bytes P).length = p.data P := by
  simp [Prefix.bytes]

/-! ## Allocation and the chain built from a key -/

@[simp] theorem allocNew_next (art : ART) : art.allocNew.1.next = art.next + 1 := rfl

@[simp] theorem allocNew_snd (art : ART) : art.allocNew.2 = art.next := rfl

@[simp] theorem allocNew_segments (art : ART) : art.allocNew.1.segments = art.segments := rfl

@[simp] theorem allocNew_freed (art : ART) : art.allocNew.1.freed = art.freed := rfl

@[simp] theorem allocNew_vars (art : ART) : art.allocNew.1.vars = art.vars := rfl

@[simp] theorem allocNew_released (art : ART) : art.allocNew.1.released = art.released := rfl

theorem allocNew_live (art : ART) (x : Nat) :
    art.allocNew.1.live x ↔ art.live x ∨ x = art.next := by
  unfold ART.live
  simp only [allocNew_next, allocNew_freed]
  constructor
  · rintro ⟨h1, h2⟩
    by_cases e : x = art.next
    · exact Or.inr e
    · exact Or.inl ⟨by omega, h2⟩
  · rintro (⟨h1, h2⟩ | e)
    · exact ⟨by omega, h2⟩
    · subst e
      exact ⟨by omega, fun h => Nat.lt_irrefl _ (art.freed_lt _ h)⟩

theorem live_lt {art : ART} {x : Nat} (h : art.live x) : x < art.next := h.1

theorem not_live_next (art : ART) : ¬ art.live art.next := fun h => Nat.lt_irrefl _ h.1

/-- What a write through a valid place does. -/
theorem write_spec {art : ART} {node : Ref} (n : Node) (h : art.valid node) :
    ∃ art1, art.write node n = some art1 ∧ art1.next = art.next ∧ art1.freed = art.freed ∧
      art1.released = art.released ∧ art1.read node = some n ∧
      (∀ x, (art1.segments x).data = (art.segments x).data) ∧
      (∀ x, node ≠ Ref.ptr x → (art1.segments x).ptr = (art.segments x).ptr) ∧
      (∀ i, node ≠ Ref.var i → art1.vars i = art.vars i) ∧
      (∀ x, art1.live x ↔ art.live x) := by
  cases node with
  | var i =>
    refine ⟨_, rfl, rfl, rfl, rfl, ?_, fun x => rfl, fun x _ => rfl, ?_, fun x => Iff.rfl⟩
    · simp [ART.read]
    · intro j hj
      have : j ≠ i := fun e => hj (by rw [e])
      simp [Function.update_apply, this]
  | ptr a =>
    have ha : art.live a := h
    refine ⟨art.setPtr a n, by simp [ART.write, ha], rfl, rfl, rfl, ?_, ?_, ?_, fun _ _ => rfl,
      fun x => Iff.rfl⟩
    · simp [ART.read, ha]
    · intro x; simp
    · intro x hx
      have : x ≠ a := fun e => hx (by rw [e])
      simp [this]

theorem Shape.congr_data {P : Nat} {art art1 : ART} {as : List Nat} :
    ∀ {L : Nat}, (∀ a ∈ as, (art1.segments a).data = (art.segments a).data) →
      Shape P art as L → Shape P art1 as L := by
  induction as with
  | nil => intro L _ h; exact h
  | cons a as ih =>
    intro L hf h
    cases as with
    | nil =>
      simp only [Shape, ART.count] at h ⊢
      rw [hf a (List.mem_cons_self _ _)]; exact h
    | cons b rest =>
      simp only [Shape, ART.count] at h ⊢
      rw [hf a (List.mem_cons_self _ _)]
      exact ⟨h.1, h.2.1, ih (fun x hx => hf x (List.mem_cons_of_mem _ hx)) h.2.2⟩

theorem New_key_loop_spec (P : Nat) (hP : 0 < P) (hP2 : P < 256) (key : ARTKey) (depth : Nat) :
    ∀ (fuel : Nat) (art : ART) (node : Ref) (cc count : Nat), 1 ≤ count → count < fuel →
      art.valid node →
      ∃ art1 as last, Prefix.New_key_loop P key depth fuel art node cc count
          = some (art1, Ref.ptr last) ∧
        as.getLast? = some last ∧
        as = List.range' art.next as.length ∧
        art1.next = art.next + as.length ∧ art1.freed = art.freed ∧
        art1.released = art.released ∧
        art1.read node = some (Node.pfx art.next) ∧
        Chain art1 (Node.pfx art.next) as (art1.segments last).ptr ∧
        Shape P art1 as count ∧
        flat P art1 as = key.slice (depth + cc) count ∧
        (∀ x, x < art.next → (art1.segments x).data = (art.segments x).data) ∧
        (∀ x, x < art.next → node ≠ Ref.ptr x → (art1.segments x).ptr = (art.segments x).ptr) ∧
        (∀ i, node ≠ Ref.var i → art1.vars i = art.vars i) := by
  intro fuel
  induction fuel with
  | zero => intro art node cc count h1 h2; omega
  | succ fuel ih =>
    intro art node cc count h1 h2 hv
    have hv1 : art.allocNew.1.valid node := by
      cases node with
      | var i => trivial
      | ptr b => exact (allocNew_live art b).2 (Or.inl hv)
    obtain ⟨art2, hw, hn2, hf2, hr2, hrd2, hd2, hp2, hvar2, hl2⟩ :=
      write_spec (Node.pfx art.next) hv1
    have hne : count ≠ 0 := by omega
    have hnode_ne : node ≠ Ref.ptr art.next := by
      intro e; subst e; exact not_live_next art hv
    have hlive_a : art2.live art.next := (hl2 _).2 ((allocNew_live art _).2 (Or.inr rfl))
    unfold Prefix.New_key_loop
    simp only [hne, if_false, allocNew_snd, hw]
    by_cases hc : count ≤ P
    · -- the last node
      have hmin : min P count = count := by omega
      have hzero : count - min P count = 0 := by omega
      rw [hzero]
      cases fuel with
      | zero => omega
      | succ f =>
        unfold Prefix.New_key_loop
        simp only [if_true]
        refine ⟨_, [art.next], art.next, rfl, rfl, rfl, ?_, ?_, ?_, ?_, ?_, ?_, ?_, ?_, ?_, ?_⟩
        · simp [hn2]
        · simp [hf2]
        · simp [hr2]
        · cases node with
          | var i => simpa [ART.read] using hrd2
          | ptr b =>
            have hb : b ≠ art.next := fun e => hnode_ne (by rw [e])
            have hlb : art2.live b := (hl2 _).2 hv1
            simp only [ART.read, hlb, if_true, Option.some.injEq] at hrd2
            simp [ART.read, hlb, hrd2]
        · exact ⟨rfl, hlive_a, rfl⟩
        · simp only [Shape, ART.count, setData_data_self, hmin]
          have : ¬ P < count := by omega
          simp [this]
          omega
        · simp only [flat, Prefix.bytes, setData_data_self, hmin, List.append_nil]
          have hP' : ¬ P < count := by omega
          simp only [hP', if_false, Function.update_same]
          rw [Nat.mod_eq_of_lt (by omega)]
          unfold ARTKey.slice
          apply List.map_congr_left
          intro j hj
          have := List.mem_range.1 hj
          simp [this]
        · intro x hx
          have : x ≠ art.next := by omega
          rw [setData_segments_ne _ _ _ _ this, hd2]; rfl
        · intro x hx hxn
          rw [setData_ptr, hp2 x hxn]; rfl
        · intro i hi
          rw [setData_vars, hvar2 i hi]; rfl
    · -- a full node, and more to come
      have hmin : min P count = P := by omega
      rw [hmin]
      have hv3 : (art2.setData art.next (fun j => if j < P then key.data (depth + cc + j)
          else Function.update (art2.segments art.next).data P (P % 256) j)).valid
          (Ref.ptr art.next) := hlive_a
      obtain ⟨art1, as, last, hrun, hlast, has, hn1, hf1, hr1, hrd1, hch1, hsh1, hfl1, hd1, hp1,
        hvar1⟩ := ih _ (Ref.ptr art.next) (cc + P) (count - P) (by omega) (by omega) hv3
      simp only [setData_next, setData_freed, setData_released, hn2, hf2, hr2, allocNew_next,
        allocNew_freed, allocNew_released] at hn1 hf1 hr1 has hrd1 hch1 hd1 hp1
      have ha_live1 : art1.live art.next := by
        simp only [ART.read] at hrd1
        by_contra hcon
        simp [hcon] at hrd1
      have ha_ptr1 : (art1.segments art.next).ptr = Node.pfx (art.next + 1) := by
        simp only [ART.read, ha_live1, if_true, Option.some.injEq] at hrd1
        exact hrd1
      have ha_data1 : (art1.segments art.next).data = fun j => if j < P then
          key.data (depth + cc + j)
          else Function.update (art2.segments art.next).data P (P % 256) j := by
        rw [hd1 art.next (by omega)]; simp
      have has_ne : as ≠ [] := by
        intro e; subst e; simp at hlast
      have hlen : 0 < as.length := List.length_pos.2 has_ne
      refine ⟨art1, art.next :: as, last, hrun, ?_, ?_, ?_, hf1, hr1, ?_, ?_, ?_, ?_, ?_, ?_, ?_⟩
      · obtain ⟨b, rest, e⟩ := List.exists_cons_of_ne_nil has_ne
        rw [e, List.getLast?_cons_cons, ← e]; exact hlast
      · simp only [List.length_cons, List.range'_succ]
        rw [← has]
      · simp only [List.length_cons]; omega
      · -- the place `node` still holds the first node
        cases node with
        | var i =>
          have := hvar1 i (by simp)
          simp only [setData_vars] at this
          simp only [ART.read] at hrd2 ⊢
          rw [this]; exact hrd2
        | ptr b =>
          have hb : b ≠ art.next := fun e => hnode_ne (by rw [e])
          have hlb : art.live b := hv
          have hb2 := hp1 b (by have := hlb.1; omega) (by simp; exact fun e => hb e.symm)
          have hlb2 : art2.live b := (hl2 _).2 hv1
          simp only [ART.read, hlb2, if_true, Option.some.injEq] at hrd2
          have hlb1 : art1.live b := ⟨by have := hlb.1; omega, by rw [hf1]; exact hlb.2⟩
          simp only [ART.read, hlb1, if_true, Option.some.injEq]
          rw [hb2, setData_ptr, hrd2]
      · exact ⟨rfl, ha_live1, by rw [ha_ptr1]; exact hch1⟩
      · cases as with
        | nil => exact absurd rfl has_ne
        | cons b rest =>
          refine ⟨?_, by omega, hsh1⟩
          simp only [ART.count, ha_data1]
          simp [Nat.mod_eq_of_lt hP2]
      · simp only [flat]
        rw [hfl1]
        have : count = P + (count - P) := by omega
        conv_rhs => rw [this, slice_add]
        congr 1
        · simp only [Prefix.bytes, ha_data1]
          simp only [Nat.lt_irrefl, if_false, Function.update_same, Nat.mod_eq_of_lt hP2]
          unfold ARTKey.slice
          apply List.map_congr_left
          intro j hj
          have := List.mem_range.1 hj
          simp [this]
        · simp [Nat.add_assoc]
      · intro x hx
        rw [hd1 x (by omega), setData_segments_ne _ _ _ _ (by omega), hd2]; rfl
      · intro x hx hxn
        rw [hp1 x (by omega) (by simp; omega), setData_ptr, hp2 x hxn]; rfl
      · intro i hi
        rw [hvar1 i (by simp), setData_vars, hvar2 i hi]; rfl

theorem Traverse_key_bytes_spec (P : Nat) (key : ARTKey) (p : Prefix) :
    ∀ (n i depth : Nat), i + n ≤ P + 1 →
      Prefix.Traverse_key_bytes P key p n i depth =
        some (if matched (p.bytesFrom i n) (key.slice depth n) = n then none
              else some (i + matched (p.bytesFrom i n) (key.slice depth n)),
              depth + matched (p.bytesFrom i n) (key.slice depth n)) := by
  intro n
  induction n with
  | zero => intro i depth _; simp [Prefix.Traverse_key_bytes, Prefix.bytesFrom, matched]
  | succ n ih =>
    intro i depth h
    have hi : ¬ P < i := by omega
    unfold Prefix.Traverse_key_bytes
    simp only [hi, if_false]
    rw [bytesFrom_succ, slice_succ]
    simp only [matched]
    by_cases e : p.data i = key.data depth
    · simp only [e, ne_eq, not_true_eq_false, if_false, if_true]
      rw [ih (i + 1) (depth + 1) (by omega)]
      simp only [Nat.add_right_cancel_iff]
      by_cases hm : matched (p.bytesFrom (i + 1) n) (key.slice (depth + 1) n) = n
      · simp [hm]; omega
      · simp [hm]; omega
    · simp [e]

theorem Traverse_key_spec (P : Nat) (hP2 : P < 256) (key : ARTKey) (art : ART) :
    ∀ (as : List Nat) (fuel : Nat) (cur : Ref) (depth : Nat) (n t : Node),
      art.read cur = some n → Chain art n as t → t.IsPrefix = false → t.IsSwizzled = false →
      (∀ a ∈ as, art.count P a ≤ P) → as.length < fuel →
      ∃ r cur1, Prefix.Traverse_key P key fuel art cur depth
          = some (r, cur1, depth + matched (flat P art as) (key.slice depth (flat P art as).length)) ∧
        (matched (flat P art as) (key.slice depth (flat P art as).length) = (flat P art as).length →
          r = INVALID_INDEX ∧ art.read cur1 = some t) ∧
        (matched (flat P art as) (key.slice depth (flat P art as).length) < (flat P art as).length →
          r ≠ INVALID_INDEX ∧
          ∃ pre a post, as = pre ++ a :: post ∧ art.read cur1 = some (Node.pfx a) ∧
            matched (flat P art as) (key.slice depth (flat P art as).length)
              = (flat P art pre).length + r ∧ r < art.count P a) := by
  intro as
  induction as with
  | nil =>
    intro fuel cur depth n t hrd hch ht hs _ hfuel
    cases hch
    cases fuel with
    | zero => simp at hfuel
    | succ fuel =>
      unfold Prefix.Traverse_key
      rw [hrd]
      cases n with
      | pfx a => simp [Node.IsPrefix] at ht
      | unset => exact ⟨INVALID_INDEX, cur, by simp [flat, matched], by simp [flat, matched, hrd], by simp [flat]⟩
      | inner id => exact ⟨INVALID_INDEX, cur, by simp [flat, matched], by simp [flat, matched, hrd], by simp [flat]⟩
      | swizzled b o => exact ⟨INVALID_INDEX, cur, by simp [flat, matched], by simp [flat, matched, hrd], by simp [flat]⟩
  | cons a rest ih =>
    intro fuel cur depth n t hrd hch ht hs hcnt hfuel
    obtain ⟨hn, hla, hch2⟩ := hch
    subst hn
    cases fuel with
    | zero => simp at hfuel
    | succ fuel =>
      have hca : (art.segments a).data P ≤ P := hcnt a (List.mem_cons_self _ _)
      unfold Prefix.Traverse_key
      rw [hrd]
      simp only [Prefix.Get, hla, if_true]
      rw [Traverse_key_bytes_spec P key _ _ 0 depth (by omega)]
      rw [← bytes_eq_bytesFrom]
      have hm := matched_append ((art.segments a).bytes P) (flat P art rest)
        (key.slice depth ((art.segments a).data P))
        (key.slice (depth + (art.segments a).data P) (flat P art rest).length)
        (by rw [bytes_length, slice_length])
      rw [bytes_length] at hm
      simp only [flat, List.length_append, bytes_length, slice_add]
      rw [hm]
      by_cases hfull : matched ((art.segments a).bytes P) (key.slice depth ((art.segments a).data P))
          = (art.segments a).data P
      · -- all bytes of this node match
        simp only [hfull, if_true]
        have hns : (art.segments a).ptr.IsSwizzled = false := by
          cases rest with
          | nil => cases hch2; exact hs
          | cons b rest2 => rw [hch2.1]; rfl
        simp only [hns, Bool.false_eq_true, if_false]
        have hrd2 : art.read (Ref.ptr a) = some (art.segments a).ptr := by simp [ART.read, hla]
        obtain ⟨r, cur1, hrun, hA, hB⟩ := ih fuel (Ref.ptr a) (depth + (art.segments a).data P) _ t
          hrd2 hch2 ht hs (fun x hx => hcnt x (List.mem_cons_of_mem _ hx))
          (by simp at hfuel; omega)
        refine ⟨r, cur1, ?_, ?_, ?_⟩
        · rw [hrun]; simp [Nat.add_assoc]
        · intro h
          apply hA
          omega
        · intro h
          obtain ⟨hne, pre, b, post, e1, e2, e3, e4⟩ := hB (by omega)
          refine ⟨hne, a :: pre, b, post, by rw [e1]; rfl, e2, ?_, e4⟩
          simp only [flat, List.length_append, bytes_length]
          omega
      · -- a byte of this node differs
        simp only [hfull, if_false, Nat.zero_add]
        have hlt := matched_le ((art.segments a).bytes P) (key.slice depth ((art.segments a).data P))
        rw [bytes_length] at hlt
        refine ⟨_, cur, rfl, ?_, ?_⟩
        · intro h
          omega
        · intro _
          refine ⟨?_, [], a, rest, rfl, hrd, by simp [flat], ?_⟩
          · simp only [INVALID_INDEX]; omega
          · simp only [ART.count]; omega

theorem Ext.refl (P : Nat) (art : ART) (a : Nat) (hl : art.live a) (hc : art.count P a ≤ P) :
    Ext P art a [] [] art a [a] where
  next_le := Nat.le_refl _
  freed := rfl
  vars := rfl
  released := rfl
  seg := fun _ _ _ => rfl
  chain := ⟨rfl, hl, rfl⟩
  last := rfl
  fresh := fun x hx => Or.inl (List.mem_singleton.1 hx)
  nodup := List.nodup_singleton a
  flat_eq := by simp [flat]
  count := fun x hx => by rw [List.mem_singleton.1 hx]; exact hc
  full := fun x hx hne => absurd (List.mem_singleton.1 hx) hne

theorem getLast?_eq_some_iff_append {l : List Nat} {a : Nat} (h : l.getLast? = some a) :
    ∃ front, l = front ++ [a] := by
  have hne : l ≠ [] := by intro e; subst e; simp at h
  refine ⟨l.dropLast, ?_⟩
  have := List.dropLast_append_getLast hne
  rw [List.getLast?_eq_getLast _ hne] at h
  injection h with h
  rw [← h]; exact this.symm

theorem Chain.last_ptr {art : ART} {front : List Nat} :
    ∀ {n g : Node} {a : Nat}, Chain art n (front ++ [a]) g →
      Chain art n front (Node.pfx a) ∧ art.live a ∧ g = (art.segments a).ptr := by
  intro n g a h
  obtain ⟨m, h1, h2⟩ := Chain.split h
  obtain ⟨e1, e2, e3⟩ := h2
  subst e1
  exact ⟨h1, e2, e3.symm⟩

theorem Ext.live_last {P : Nat} {art art1 : ART} {a a1 : Nat} {bs dead L : List Nat}
    (h : Ext P art a bs dead art1 a1 L) : art1.live a1 := by
  obtain ⟨front, e⟩ := getLast?_eq_some_iff_append h.last
  have := h.chain
  rw [e] at this
  exact (Chain.last_ptr this).2.1

theorem Ext.mem_last {P : Nat} {art art1 : ART} {a a1 : Nat} {bs dead L : List Nat}
    (h : Ext P art a bs dead art1 a1 L) : a1 ∈ L := by
  obtain ⟨front, e⟩ := getLast?_eq_some_iff_append h.last
  rw [e]; simp

theorem Ext.head {P : Nat} {art art1 : ART} {a a1 : Nat} {bs dead L : List Nat}
    (h : Ext P art a bs dead art1 a1 L) : ∃ L1, L = a :: L1 := by
  have hc := h.chain
  cases hL : L with
  | nil => have := h.last; rw [hL] at this; simp at this
  | cons b L1 =>
    rw [hL] at hc
    have := hc.1
    injection this with e
    exact ⟨L1, by rw [e]⟩

theorem Ext.last_cases {P : Nat} {art art1 : ART} {a a1 : Nat} {bs dead L : List Nat}
    (h : Ext P art a bs dead art1 a1 L) : a1 = a ∨ art.next ≤ a1 := h.fresh a1 h.mem_last

/-- Two extensions in a row. -/
theorem Ext.trans {P : Nat} {art art1 art2 : ART} {a a1 a2 : Nat}
    {bs cs dead1 dead2 L1 L2 : List Nat}
    (h1 : Ext P art a bs dead1 art1 a1 L1) (h2 : Ext P art1 a1 cs dead2 art2 a2 L2)
    (hd : ∀ x ∈ L1, x ∉ dead2) :
    Ext P art a (bs ++ cs) (dead1 ++ dead2) art2 a2 (L1.dropLast ++ L2) := by
  obtain ⟨front, e⟩ := getLast?_eq_some_iff_append h1.last
  have hfront : L1.dropLast = front := by rw [e]; simp
  obtain ⟨hc1, hl1, hg1⟩ := Chain.last_ptr (e ▸ h1.chain)
  have hnd : (front ++ [a1]).Nodup := e ▸ h1.nodup
  have hnot : a1 ∉ front := by
    intro hm
    have := List.nodup_append.1 hnd
    exact this.2.2 hm (List.mem_singleton_self _) 
  have hlive1 : ∀ x ∈ front, art1.live x := Chain.live hc1
  have hseg2 : ∀ x ∈ front, art2.segments x = art1.segments x := fun x hx =>
    h2.seg x (hlive1 x hx).1 (fun e2 => hnot (e2 ▸ hx))
  have hlive2 : ∀ x ∈ front, art2.live x := by
    intro x hx
    have hl := hlive1 x hx
    refine ⟨Nat.lt_of_lt_of_le hl.1 h2.next_le, ?_⟩
    rw [h2.freed]
    intro hm
    rcases List.mem_append.1 hm with hm | hm
    · exact hd x (by rw [e]; exact List.mem_append_left _ hx) (List.mem_reverse.1 hm)
    · exact hl.2 hm
  have hc2 : Chain art2 (Node.pfx a) front (Node.pfx a1) :=
    Chain.frame (fun x hx _ => ⟨hlive2 x hx, by rw [hseg2 x hx]⟩) hc1
  obtain ⟨T2, hT2⟩ := h2.head
  rw [hfront]
  refine
    { next_le := Nat.le_trans h1.next_le h2.next_le
      freed := by rw [h2.freed, h1.freed]; simp
      vars := by rw [h2.vars, h1.vars]
      released := by rw [h2.released, h1.released]
      seg := ?_
      chain := Chain.append hc2 h2.chain
      last := ?_
      fresh := ?_
      nodup := ?_
      flat_eq := ?_
      count := ?_
      full := ?_ }
  · intro x hx hne
    by_cases hx1 : x = a1
    · -- then a1 is new or a itself
      rcases h1.last_cases with e1 | e1
      · exact absurd (hx1.trans e1) hne
      · omega
    · rw [h2.seg x (Nat.lt_of_lt_of_le hx h1.next_le) hx1, h1.seg x hx hne]
  · rw [List.getLast?_append, h2.last]; rfl
  · intro x hx
    rcases List.mem_append.1 hx with hx | hx
    · exact h1.fresh x (by rw [e]; exact List.mem_append_left _ hx)
    · rcases h2.fresh x hx with e2 | e2
      · rw [e2]; exact h1.last_cases
      · exact Or.inr (Nat.le_trans h1.next_le e2)
  · refine List.nodup_append.2 ⟨(List.nodup_append.1 hnd).1, h2.nodup, ?_⟩
    intro x hx hx2
    rcases h2.fresh x hx2 with e2 | e2
    · exact hnot (e2 ▸ hx)
    · have := (hlive1 x hx).1; omega
  · have hff : duckdb.flat P art2 front = duckdb.flat P art1 front :=
      flat_frame (fun x hx => by rw [hseg2 x hx])
    rw [flat_append, h2.flat_eq, hff]
    have := h1.flat_eq
    rw [e, flat_append] at this
    simp only [duckdb.flat, List.append_nil] at this
    rw [← List.append_assoc, this, List.append_assoc]
  · intro x hx
    rcases List.mem_append.1 hx with hx | hx
    · simp only [ART.count]
      rw [hseg2 x hx]
      exact h1.count x (by rw [e]; exact List.mem_append_left _ hx)
    · exact h2.count x hx
  · intro x hx hne
    rcases List.mem_append.1 hx with hx | hx
    · simp only [ART.count]
      rw [hseg2 x hx]
      exact h1.full x (by rw [e]; exact List.mem_append_left _ hx) (fun e2 => hnot (e2 ▸ hx))
    · exact h2.full x hx hne

theorem range_succ_map_update (d : Nat → Nat) (c byte P v : Nat) (h : c < P) :
    (List.range (c + 1)).map (Function.update (Function.update d c byte) P v)
      = (List.range c).map d ++ [byte] := by
  rw [List.range_succ, List.map_append]
  congr 1
  · apply List.map_congr_left
    intro j hj
    have := List.mem_range.1 hj
    have h1 : j ≠ P := by omega
    have h2 : j ≠ c := by omega
    simp [Function.update_apply, h1, h2]
  · have h1 : c ≠ P := by omega
    simp [Function.update_apply, h1]

/-- Appending one byte to a node that has room. -/
theorem Append_room (P : Nat) (hP2 : P < 256) (art : ART) (a byte : Nat) (hl : art.live a)
    (hc : art.count P a < P) :
    ∃ art1, Prefix.Append P art a byte = some (art1, a) ∧ Ext P art a [byte] [] art1 a [a] ∧
      art1.next = art.next ∧ art1.count P a = art.count P a + 1 ∧
      (art1.segments a).ptr = (art.segments a).ptr := by
  have hc1 : (art.segments a).data P < P := hc
  have hne : (art.segments a).data P ≠ P := by omega
  have hnlt : ¬ P < (art.segments a).data P := by omega
  have hcount : (Function.update (Function.update (art.segments a).data ((art.segments a).data P) byte)
      P (((art.segments a).data P + 1) % 256)) P = (art.segments a).data P + 1 := by
    rw [Function.update_same, Nat.mod_eq_of_lt (by omega)]
  refine ⟨art.setData a (Function.update (Function.update (art.segments a).data
    ((art.segments a).data P) byte) P (((art.segments a).data P + 1) % 256)), ?_, ?_, ?_, ?_, ?_⟩
  · unfold Prefix.Append
    simp only [hl, not_true_eq_false, if_false, hne, hnlt]
    rw [Function.update_noteq (Ne.symm hne)]
  · exact
      { next_le := Nat.le_refl _
        freed := rfl
        vars := rfl
        released := rfl
        seg := fun x _ hx => setData_segments_ne _ _ _ _ hx
        chain := ⟨rfl, hl, rfl⟩
        last := rfl
        fresh := fun x hx => Or.inl (List.mem_singleton.1 hx)
        nodup := List.nodup_singleton a
        flat_eq := by
          simp only [flat, Prefix.bytes, setData_data_self, List.append_nil, hcount]
          exact range_succ_map_update _ _ _ _ _ hc1
        count := fun x hx => by
          rw [List.mem_singleton.1 hx]
          simp only [ART.count, setData_data_self, hcount]; omega
        full := fun x hx hn => absurd (List.mem_singleton.1 hx) hn }
  · rfl
  · simp only [ART.count, setData_data_self, hcount]
  · simp

/-- Appending one byte to a full node: the byte goes to a fresh node chained behind it. -/
theorem Append_full (P : Nat) (hP : 0 < P) (art : ART) (a byte : Nat) (hl : art.live a)
    (hc : art.count P a = P) :
    ∃ art1, Prefix.Append P art a byte = some (art1, art.next) ∧
      Ext P art a [byte] [] art1 art.next [a, art.next] ∧
      art1.next = art.next + 1 ∧ art1.count P art.next = 1 ∧
      (art1.segments art.next).data 0 = byte ∧
      (art1.segments art.next).ptr = (art.segments art.next).ptr := by
  have hc1 : (art.segments a).data P = P := hc
  have hl1 : art.allocNew.1.live a := (allocNew_live art a).2 (Or.inl hl)
  have hlb : art.allocNew.1.live art.next := (allocNew_live art _).2 (Or.inr rfl)
  have hne : art.next ≠ a := by have := hl.1; omega
  have hP0 : P ≠ 0 := by omega
  have hP0' : (0 : Nat) ≠ P := by omega
  have hnew : Prefix.New P art (Ref.ptr a) = some
      ((art.allocNew.1.setPtr a (Node.pfx art.next)).setData art.next
        (Function.update (art.segments art.next).data P 0), art.next) := by
    unfold Prefix.New
    simp only [ART.write, hl1, if_true, allocNew_snd]
    rw [setPtr_segments_ne _ _ _ _ hne]
    rfl
  refine ⟨((art.allocNew.1.setPtr a (Node.pfx art.next)).setData art.next
        (Function.update (art.segments art.next).data P 0)).setData art.next
        (Function.update (Function.update (Function.update (art.segments art.next).data P 0)
          0 byte) P 1), ?_, ?_, ?_, ?_, ?_, ?_⟩
  · unfold Prefix.Append
    simp only [hl, not_true_eq_false, if_false, hc1, if_true, hnew, setData_data_self,
      Function.update_same, Nat.not_lt_zero]
    simp [Function.update_apply, hP0]
  · exact
      { next_le := Nat.le_succ _
        freed := rfl
        vars := rfl
        released := rfl
        seg := fun x hx hxa => by
          have : x ≠ art.next := by omega
          rw [setData_segments_ne _ _ _ _ this, setData_segments_ne _ _ _ _ this,
            setPtr_segments_ne _ _ _ _ hxa]
          rfl
        chain := by
          refine ⟨rfl, hl1, ?_, hlb, rfl⟩
          simp only [setData_ptr, setPtr_ptr_self]
        last := rfl
        fresh := fun x hx => by
          simp only [List.mem_cons, List.mem_singleton, List.not_mem_nil, or_false] at hx
          rcases hx with e | e
          · exact Or.inl e
          · exact Or.inr (by omega)
        nodup := by simp [Ne.symm hne]
        flat_eq := by
          simp only [flat, Prefix.bytes, setData_data_self, List.append_nil]
          rw [setData_segments_ne _ _ _ _ (Ne.symm hne), setData_segments_ne _ _ _ _ (Ne.symm hne)]
          simp only [setPtr_data, allocNew_segments, Function.update_same]
          congr 1
          show [_] = [byte]
          simp [Function.update_apply, hP0']
        count := fun x hx => by
          simp only [List.mem_cons, List.mem_singleton, List.not_mem_nil, or_false] at hx
          rcases hx with e | e
          · subst e
            simp only [ART.count]
            rw [setData_segments_ne _ _ _ _ (Ne.symm hne),
              setData_segments_ne _ _ _ _ (Ne.symm hne)]
            simp only [setPtr_data, allocNew_segments]
            omega
          · subst e
            simp only [ART.count, setData_data_self, Function.update_same]
            omega
        full := fun x hx hn => by
          simp only [List.mem_cons, List.mem_singleton, List.not_mem_nil, or_false] at hx
          rcases hx with e | e
          · subst e
            simp only [ART.count]
            rw [setData_segments_ne _ _ _ _ (Ne.symm hne),
              setData_segments_ne _ _ _ _ (Ne.symm hne)]
            simp only [setPtr_data, allocNew_segments]
            exact hc1
          · exact absurd e hn }
  · rfl
  · simp only [ART.count, setData_data_self, Function.update_same]
  · simp only [setData_data_self]
    simp [Function.update_apply, hP0']
  · simp only [setData_ptr]
    rw [setPtr_segments_ne _ _ _ _ hne]
    rfl

/-- Appending one byte to a live node whose count is within the capacity. -/
theorem Append_spec (P : Nat) (hP : 0 < P) (hP2 : P < 256) (art : ART) (a byte : Nat)
    (hl : art.live a) (hc : art.count P a ≤ P) :
    ∃ art1 a1 L, Prefix.Append P art a byte = some (art1, a1) ∧
      Ext P art a [byte] [] art1 a1 L ∧ 1 ≤ art1.count P a1 := by
  by_cases h : art.count P a < P
  · obtain ⟨art1, h1, h2, _, h4, _⟩ := Append_room P hP2 art a byte hl h
    exact ⟨art1, a, [a], h1, h2, by omega⟩
  · obtain ⟨art1, h1, h2, _, h4, _⟩ := Append_full P hP art a byte hl (by omega)
    exact ⟨art1, art.next, [a, art.next], h1, h2, by omega⟩

/-- The byte-copy loop: the `n` bytes of the node at `o` from index `i` are appended. -/
theorem Append_bytes_spec (P : Nat) (hP : 0 < P) (hP2 : P < 256) (o : Nat) :
    ∀ (n fuel : Nat) (art : ART) (a i : Nat), n < fuel → art.live a → art.count P a ≤ P →
      o ≠ a → o < art.next → art.count P o = i + n → art.count P o ≤ P →
      ∃ art1 a1 L, Prefix.Append_bytes P o fuel art a i = some (art1, a1) ∧
        Ext P art a ((art.segments o).bytesFrom i n) [] art1 a1 L ∧
        (n = 0 → art1 = art ∧ a1 = a) ∧ (0 < n → 1 ≤ art1.count P a1) := by
  intro n
  induction n with
  | zero =>
    intro fuel art a i hf hl hc _ _ hi _
    cases fuel with
    | zero => omega
    | succ fuel =>
      have : ¬ i < (art.segments o).data P := by simp only [ART.count] at hi; omega
      refine ⟨art, a, [a], ?_, ?_, fun _ => ⟨rfl, rfl⟩, fun h => absurd h (Nat.lt_irrefl 0)⟩
      · unfold Prefix.Append_bytes; simp [this]
      · exact Ext.refl P art a hl hc
  | succ n ih =>
    intro fuel art a i hf hl hc hoa ho hi hco
    cases fuel with
    | zero => omega
    | succ fuel =>
      have hi1 : i < (art.segments o).data P := by simp only [ART.count] at hi; omega
      have hi2 : ¬ P < i := by simp only [ART.count] at hi hco; omega
      obtain ⟨art1, a1, L1, hrun1, hE1, hpos1⟩ :=
        Append_spec P hP hP2 art a ((art.segments o).data i) hl hc
      have hseg : art1.segments o = art.segments o := hE1.seg o ho hoa
      have hoa1 : o ≠ a1 := by
        rcases hE1.last_cases with e | e
        · rw [e]; exact hoa
        · omega
      obtain ⟨art2, a2, L2, hrun2, hE2, _, hpos2⟩ := ih fuel art1 a1 (i + 1) (by omega) hE1.live_last
        (hE1.count a1 hE1.mem_last) hoa1 (Nat.lt_of_lt_of_le ho hE1.next_le)
        (by simp only [ART.count, hseg]; simp only [ART.count] at hi; omega)
        (by simp only [ART.count, hseg]; exact hco)
      refine ⟨art2, a2, L1.dropLast ++ L2, ?_, ?_, fun h => by omega, fun _ => ?_⟩
      · unfold Prefix.Append_bytes
        simp only [hi1, if_true, hi2, if_false, hrun1, hrun2]
      · rw [bytesFrom_succ]
        have := Ext.trans hE1 hE2 (fun x _ h => by cases h)
        rw [hseg] at this
        exact this
      · by_cases hn : n = 0
        · subst hn
          have h0 := (ih fuel art1 a1 (i + 1) (by omega) hE1.live_last
            (hE1.count a1 hE1.mem_last) hoa1 (Nat.lt_of_lt_of_le ho hE1.next_le)
            (by simp only [ART.count, hseg]; simp only [ART.count] at hi; omega)
            (by simp only [ART.count, hseg]; exact hco))
          obtain ⟨art3, a3, L3, hrun3, _, hz, _⟩ := h0
          rw [hrun2] at hrun3
          injection hrun3 with hrun3
          injection hrun3 with e1 e2
          obtain ⟨e3, e4⟩ := hz rfl
          rw [e1, e2, e3, e4]; exact hpos1
        · exact hpos2 (by omega)

/-- Replacing the `ptr` of the last node of a chain and freeing a node outside it. -/
theorem Chain.set_last {art art1 : ART} {L : List Nat} {n g t : Node} {a1 : Nat}
    (hch : Chain art n L g) (hlast : L.getLast? = some a1) (hnd : L.Nodup)
    (hseg : ∀ x ∈ L, x ≠ a1 → art1.segments x = art.segments x)
    (hlive : ∀ x ∈ L, art.live x → art1.live x)
    (hptr : (art1.segments a1).ptr = t) :
    Chain art1 n L t := by
  obtain ⟨front, e⟩ := getLast?_eq_some_iff_append hlast
  subst e
  obtain ⟨hc1, hl1, _⟩ := Chain.last_ptr hch
  have hnot : a1 ∉ front := fun hm =>
    (List.nodup_append.1 hnd).2.2 hm (List.mem_singleton_self _)
  refine Chain.append (m := Node.pfx a1) ?_ ⟨rfl, hlive a1 (by simp) hl1, hptr⟩
  exact Chain.frame (fun x hx hl => ⟨hlive x (List.mem_append_left _ hx) hl,
    by rw [hseg x (List.mem_append_left _ hx) (fun e => hnot (e ▸ hx))]⟩) hc1

theorem allocFree_spec {art : ART} {o : Nat} (h : art.live o) :
    ∃ art1, art.allocFree o = some art1 ∧ art1.segments = art.segments ∧ art1.next = art.next ∧
      art1.freed = o :: art.freed ∧ art1.vars = art.vars ∧ art1.released = art.released := by
  unfold ART.allocFree
  simp only [h, dite_true]
  exact ⟨_, rfl, rfl, rfl, rfl, rfl, rfl⟩

/-- After the bytes of the node at `o` were appended: chain the last node to the successor of
`o` and free `o`. -/
theorem Ext.free_step {P : Nat} {art art1 art3 : ART} {a a1 o : Nat} {bs L : List Nat}
    {n : Node} (h : Ext P art a bs [] art1 a1 L) (ho : art.live o) (hoa : o ≠ a)
    (hf : (art1.setPtr a1 n).allocFree o = some art3) :
    Ext P art a bs [o] art3 a1 L ∧ (art3.segments a1).ptr = n := by
  have ho1 : (art1.setPtr a1 n).live o :=
    ⟨Nat.lt_of_lt_of_le ho.1 h.next_le, by rw [setPtr_freed, h.freed]; simpa using ho.2⟩
  obtain ⟨art3b, hf2, hs, hn, hfr, hv, hr⟩ := allocFree_spec ho1
  rw [hf] at hf2
  injection hf2 with hf2
  subst hf2
  have hoL : o ∉ L := by
    intro hm
    rcases h.fresh o hm with e | e
    · exact hoa e
    · have := ho.1; omega
  have hptr : (art3.segments a1).ptr = n := by rw [hs]; simp
  refine ⟨?_, hptr⟩
  exact
    { next_le := by rw [hn]; exact h.next_le
      freed := by rw [hfr, setPtr_freed, h.freed]; simp
      vars := by rw [hv, setPtr_vars, h.vars]
      released := by rw [hr, setPtr_released, h.released]
      seg := fun x hx hxa => by
        have hx1 : x ≠ a1 := by
          rcases h.last_cases with e | e
          · rw [e]; exact hxa
          · omega
        rw [hs, setPtr_segments_ne _ _ _ _ hx1, h.seg x hx hxa]
      chain := by
        refine Chain.set_last h.chain h.last h.nodup ?_ ?_ rfl
        · intro x _ hx1
          rw [hs, setPtr_segments_ne _ _ _ _ hx1]
        · intro x hx hl
          refine ⟨by rw [hn]; exact hl.1, ?_⟩
          rw [hfr, setPtr_freed]
          intro hm
          rcases List.mem_cons.1 hm with e | e
          · exact hoL (e ▸ hx)
          · exact hl.2 e
      last := h.last
      fresh := h.fresh
      nodup := h.nodup
      flat_eq := by
        rw [← h.flat_eq]
        exact flat_frame (fun x _ => by rw [hs, setPtr_data])
      count := fun x hx => by
        have := h.count x hx
        simp only [ART.count] at this ⊢
        rw [hs, setPtr_data]; exact this
      full := fun x hx hne => by
        have := h.full x hx hne
        simp only [ART.count] at this ⊢
        rw [hs, setPtr_data]; exact this }

/-- The loop of `Append(art, other_prefix)` over the chain `os` that ends in `t`. -/
theorem Append_node_loop_spec (P : Nat) (hP : 0 < P) (hP2 : P < 256) :
    ∀ (os : List Nat) (fuel : Nat) (art : ART) (a : Nat) (n t : Node),
      Chain art n os t → t.IsPrefix = false → t.IsSwizzled = false → art.live a → a ∉ os →
      art.count P a ≤ P → (∀ o ∈ os, art.count P o ≤ P) → os.length + P + 1 ≤ fuel →
      ∃ art1 a1 L, Prefix.Append_node_loop P fuel art a n = some (art1, a1) ∧
        Ext P art a (flat P art os) os art1 a1 L ∧
        (os ≠ [] → (art1.segments a1).ptr = t) ∧ (os = [] → art1 = art ∧ a1 = a) := by
  intro os
  induction os with
  | nil =>
    intro fuel art a n t hch ht _ hl _ hc _ hfuel
    cases hch
    cases fuel with
    | zero => omega
    | succ fuel =>
      refine ⟨art, a, [a], ?_, Ext.refl P art a hl hc, fun h => absurd rfl h, fun _ => ⟨rfl, rfl⟩⟩
      unfold Prefix.Append_node_loop
      cases n with
      | pfx b => simp [Node.IsPrefix] at ht
      | unset => rfl
      | inner id => rfl
      | swizzled b o => rfl
  | cons o rest ih =>
    intro fuel art a n t hch ht hs hl hnot hc hcs hfuel
    obtain ⟨hn, hlo, hch2⟩ := hch
    subst hn
    have hnd : (o :: rest).Nodup := Chain.nodup (n := Node.pfx o) ⟨rfl, hlo, hch2⟩ ht
    have hoa : o ≠ a := fun e => hnot (e ▸ List.mem_cons_self _ _)
    have hco : art.count P o ≤ P := hcs o (List.mem_cons_self _ _)
    cases fuel with
    | zero => omega
    | succ fuel =>
      simp only [List.length_cons] at hfuel
      obtain ⟨art1, a1, L1, hrun1, hE1, _, _⟩ := Append_bytes_spec P hP hP2 o (art.count P o) fuel
        art a 0 (by omega) hl hc hoa hlo.1 (by omega) hco
      have hseg_o : art1.segments o = art.segments o := hE1.seg o hlo.1 hoa
      have hns : (art.segments o).ptr.IsSwizzled = false := by
        cases rest with
        | nil => cases hch2; exact hs
        | cons b rest2 => rw [hch2.1]; rfl
      have hl1 : art1.live a1 := hE1.live_last
      have ho1 : (art1.setPtr a1 (art.segments o).ptr).live o :=
        ⟨Nat.lt_of_lt_of_le hlo.1 hE1.next_le, by rw [setPtr_freed, hE1.freed]; simpa using hlo.2⟩
      obtain ⟨art3, hfree, hs3, hn3, hfr3, _, _⟩ := allocFree_spec ho1
      obtain ⟨hE3, hptr3⟩ := Ext.free_step hE1 hlo hoa hfree
      have ha1 : a1 = a ∨ art.next ≤ a1 := hE1.last_cases
      -- the rest of the other chain is untouched
      have hrest_seg : ∀ x ∈ rest, art3.segments x = art.segments x := by
        intro x hx
        have hlx : art.live x := Chain.live hch2 x hx
        exact hE3.seg x hlx.1 (fun e => hnot (e ▸ List.mem_cons_of_mem _ hx))
      have hrest_live : ∀ x ∈ rest, art3.live x := by
        intro x hx
        have hlx : art.live x := Chain.live hch2 x hx
        refine ⟨Nat.lt_of_lt_of_le hlx.1 hE3.next_le, ?_⟩
        rw [hE3.freed]
        simp only [List.reverse_cons, List.reverse_nil, List.nil_append, List.singleton_append,
          List.mem_cons, not_or]
        exact ⟨fun e => (List.nodup_cons.1 hnd).1 (e ▸ hx), hlx.2⟩
      have hch3 : Chain art3 (art3.segments a1).ptr rest t := by
        rw [hptr3]
        exact Chain.frame (fun x hx _ => ⟨hrest_live x hx, by rw [hrest_seg x hx]⟩) hch2
      have ha1rest : a1 ∉ rest := by
        intro hm
        rcases ha1 with e | e
        · exact hnot (e ▸ List.mem_cons_of_mem _ hm)
        · have := (Chain.live hch2 a1 hm).1; omega
      obtain ⟨art4, a2, L2, hrun2, hE4, hp4, hz4⟩ := ih fuel art3 a1 (art3.segments a1).ptr t hch3
        ht hs hE3.live_last ha1rest (hE3.count a1 hE3.mem_last)
        (fun x hx => by
          simp only [ART.count, hrest_seg x hx]
          exact hcs x (List.mem_cons_of_mem _ hx))
        (by omega)
      refine ⟨art4, a2, L1.dropLast ++ L2, ?_, ?_, fun _ => ?_, fun h => by cases h⟩
      · unfold Prefix.Append_node_loop
        simp only [Prefix.Get, hlo, if_true]
        simp only [hrun1, hseg_o, hns, Bool.false_eq_true, if_false, hl1, not_true_eq_false,
          hfree, hrun2]
      · have := Ext.trans hE3 hE4 (fun x hx hm => by
          rcases hE3.fresh x hx with e | e
          · exact hnot (e ▸ List.mem_cons_of_mem _ hm)
          · have := (Chain.live hch2 x hm).1; omega)
        rw [@flat_frame P art art3 rest
          (fun x hx => by rw [hrest_seg x hx])] at this
        have e : (art.segments o).bytesFrom 0 (ART.count P art o) = (art.segments o).bytes P :=
          (bytes_eq_bytesFrom P _).symm
        rw [e] at this
        exact this
      · by_cases hr : rest = []
        · subst hr
          obtain ⟨e1, e2⟩ := hz4 rfl
          cases hch2
          rw [e1, e2, hptr3]
        · exact hp4 hr

/-- `Append(art, other_prefix)` with a Prefix chain `os` (ending in `t`) as argument. -/
theorem Append_node_spec (P : Nat) (hP : 0 < P) (hP2 : P < 256) (os : List Nat) (fuel : Nat)
    (art : ART) (a : Nat) (n t : Node) (hch : Chain art n os t) (ht : t.IsPrefix = false)
    (hs : t.IsSwizzled = false) (hl : art.live a) (hnot : a ∉ os) (hc : art.count P a ≤ P)
    (hcs : ∀ o ∈ os, art.count P o ≤ P) (hfuel : os.length + P + 1 ≤ fuel) :
    ∃ art1 a1 L, Prefix.Append_node P fuel art a n = some (art1, a1) ∧
      Ext P art a (flat P art os) os art1 a1 L ∧
      (os ≠ [] → (art1.segments a1).ptr = t) ∧ (os = [] → art1 = art ∧ a1 = a) := by
  have hns : n.IsSwizzled = false := by
    cases os with
    | nil => cases hch; exact hs
    | cons b rest => rw [hch.1]; rfl
  unfold Prefix.Append_node
  simp only [hns, Bool.false_eq_true, if_false]
  exact Append_node_loop_spec P hP hP2 os fuel art a n t hch ht hs hl hnot hc hcs hfuel

/-- The node a byte landed in holds at least one byte. -/
theorem Append_pos (P : Nat) (hP : 0 < P) (hP2 : P < 256) (art : ART) (a byte : Nat) (art1 : ART)
    (a1 : Nat) (h : Prefix.Append P art a byte = some (art1, a1)) : 1 ≤ art1.count P a1 := by
  by_cases hl : art.live a
  · by_cases hc : art.count P a ≤ P
    · obtain ⟨x, y, L, hrun, _, hpos⟩ := Append_spec P hP hP2 art a byte hl hc
      rw [hrun] at h
      cases h
      exact hpos
    · exfalso
      unfold Prefix.Append at h
      have hne : (art.segments a).data P ≠ P := by unfold ART.count at hc; omega
      have hlt : P < (art.segments a).data P := by unfold ART.count at hc; omega
      simp [hl, hne, hlt] at h
  · unfold Prefix.Append at h
    simp [hl] at h

/-- The byte-copy loop ends on a node that holds at least one byte when it started on one. -/
theorem Append_bytes_pos (P : Nat) (hP : 0 < P) (hP2 : P < 256) (o : Nat) :
    ∀ (fuel : Nat) (art : ART) (a i : Nat) (art1 : ART) (a1 : Nat),
      Prefix.Append_bytes P o fuel art a i = some (art1, a1) → 1 ≤ art.count P a →
      1 ≤ art1.count P a1 := by
  intro fuel
  induction fuel with
  | zero => intro art a i art1 a1 h; cases h
  | succ fuel ih =>
    intro art a i art1 a1 h hpos
    unfold Prefix.Append_bytes at h
    split at h
    · split at h
      · cases h
      · split at h
        · cases h
        · rename_i art2 a2 happ
          exact ih art2 a2 (i + 1) art1 a1 h (Append_pos P hP hP2 art a _ art2 a2 happ)
    · cases h
      exact hpos

theorem allocFree_segments {art art1 : ART} {o : Nat} (h : art.allocFree o = some art1) :
    art1.segments = art.segments := by
  unfold ART.allocFree at h
  split at h
  · cases h; rfl
  · cases h

/-- The loop of `Append(art, other_prefix)` ends on a node that holds at least one byte when
it started on one. -/
theorem Append_node_loop_pos (P : Nat) (hP : 0 < P) (hP2 : P < 256) :
    ∀ (fuel : Nat) (art : ART) (a : Nat) (n : Node) (art1 : ART) (a1 : Nat),
      Prefix.Append_node_loop P fuel art a n = some (art1, a1) → 1 ≤ art.count P a →
      1 ≤ art1.count P a1 := by
  intro fuel
  induction fuel with
  | zero => intro art a n art1 a1 h; cases h
  | succ fuel ih =>
    intro art a n art1 a1 h hpos
    unfold Prefix.Append_node_loop at h
    split at h
    · split at h
      · cases h
      · split at h
        · cases h
        · rename_i art2 a2 hb
          split at h
          · cases h
          · split at h
            · cases h
            · split at h
              · cases h
              · rename_i art3 hf
                refine ih art3 a2 _ art1 a1 h ?_
                have h2 := Append_bytes_pos P hP hP2 _ fuel art a 0 art2 a2 hb hpos
                have hs := allocFree_segments hf
                unfold ART.count at h2 ⊢
                rw [hs]
                simpa [ART.setPtr, ART.setPfx] using h2
    · cases h
      exact hpos

theorem Append_node_pos (P : Nat) (hP : 0 < P) (hP2 : P < 256) (fuel : Nat) (art : ART) (a : Nat)
    (n : Node) (art1 : ART) (a1 : Nat) (h : Prefix.Append_node P fuel art a n = some (art1, a1))
    (hpos : 1 ≤ art.count P a) : 1 ≤ art1.count P a1 := by
  unfold Prefix.Append_node at h
  split at h
  · cases h
  · exact Append_node_loop_pos P hP hP2 fuel art a n art1 a1 h hpos

theorem mem_dropLast_of_last {L : List Nat} {a1 x : Nat} (hnd : L.Nodup)
    (hlast : L.getLast? = some a1) (hx : x ∈ L.dropLast) : x ∈ L ∧ x ≠ a1 := by
  obtain ⟨front, rfl⟩ := getLast?_eq_some_iff_append hlast
  rw [List.dropLast_concat] at hx
  refine ⟨List.mem_append_left _ hx, fun e => ?_⟩
  exact (List.nodup_append.1 hnd).2.2 hx (by simp [e])

/-- Every node of the chain an append built holds between 1 and `P` bytes, when the node
the last byte landed in holds one. -/
theorem Ext.bounds {P : Nat} {art art1 : ART} {a a1 : Nat} {bs dead L : List Nat}
    (h : Ext P art a bs dead art1 a1 L) (hP : 0 < P) (hpos : 1 ≤ art1.count P a1) :
    ∀ x ∈ L, 1 ≤ art1.count P x ∧ art1.count P x ≤ P := by
  intro x hx
  refine ⟨?_, h.count x hx⟩
  by_cases e : x = a1
  · rw [e]; exact hpos
  · rw [h.full x hx e]; exact hP

/-- Every node of the chain an append built is full, but the one the last byte landed in. -/
theorem Ext.all_full {P : Nat} {art art1 : ART} {a a1 : Nat} {bs dead L : List Nat}
    (h : Ext P art a bs dead art1 a1 L) : ∀ x ∈ L.dropLast, art1.count P x = P := by
  intro x hx
  obtain ⟨h1, h2⟩ := mem_dropLast_of_last h.nodup h.last hx
  exact h.full x h1 h2

theorem Shape.length_eq {P : Nat} (hP : 0 < P) {art : ART} {as : List Nat} :
    ∀ {L : Nat}, Shape P art as L → as.length = (L + P - 1) / P := by
  induction as with
  | nil => intro L h; exact h.elim
  | cons a as ih =>
    intro L h
    cases as with
    | nil =>
      obtain ⟨_, h1, h2⟩ := h
      have : L + P - 1 = (L - 1) + P := by omega
      rw [this, Nat.add_div_right _ hP, Nat.div_eq_of_lt (by omega)]
      rfl
    | cons b rest =>
      obtain ⟨_, h1, h2⟩ := h
      have := ih h2
      have e : L + P - 1 = (L - P + P - 1) + P := by omega
      rw [e, Nat.add_div_right _ hP, ← this]
      rfl

theorem Shape.count_at {P : Nat} {art : ART} {as : List Nat} :
    ∀ {L : Nat}, Shape P art as L → ∀ (i a : Nat), as[i]? = some a →
      art.count P a = if i + 1 < as.length then P else L - P * (as.length - 1) := by
  induction as with
  | nil => intro L h; exact h.elim
  | cons b as ih =>
    intro L h i a hi
    cases as with
    | nil =>
      obtain ⟨h0, h1, h2⟩ := h
      cases i with
      | zero =>
        simp only [List.getElem?_cons_zero, Option.some.injEq] at hi
        subst hi
        simp [h0]
      | succ j => simp at hi
    | cons c rest =>
      obtain ⟨h0, h1, h2⟩ := h
      cases i with
      | zero =>
        simp only [List.getElem?_cons_zero, Option.some.injEq] at hi
        subst hi
        simp [h0]
      | succ j =>
        simp only [List.getElem?_cons_succ] at hi
        have := ih h2 j a hi
        rw [this]
        simp only [List.length_cons, Nat.add_lt_add_iff_right, Nat.add_sub_cancel]
        split
        · rfl
        · rw [Nat.mul_succ]
          have : P * rest.length + P ≤ L ∨ L < P * rest.length + P := by omega
          omega

theorem Shape.count_bounds {P : Nat} {art : ART} {as : List Nat} :
    ∀ {L : Nat}, Shape P art as L → 0 < P → ∀ a ∈ as, 1 ≤ art.count P a ∧ art.count P a ≤ P := by
  induction as with
  | nil => intro L h; exact h.elim
  | cons b as ih =>
    intro L h hP a ha
    cases as with
    | nil =>
      obtain ⟨h0, h1, h2⟩ := h
      rw [List.mem_singleton.1 ha, h0]; exact ⟨h1, h2⟩
    | cons c rest =>
      obtain ⟨h0, h1, h2⟩ := h
      rcases List.mem_cons.1 ha with e | e
      · rw [e, h0]; exact ⟨hP, Nat.le_refl _⟩
      · exact ih h2 hP a e

theorem Shape.length_le {P : Nat} {art : ART} {as : List Nat} :
    ∀ {L : Nat}, Shape P art as L → 0 < P → as.length ≤ L := by
  induction as with
  | nil => intro L h; exact h.elim
  | cons b as ih =>
    intro L h hP
    cases as with
    | nil => obtain ⟨_, h1, _⟩ := h; simpa using h1
    | cons c rest =>
      obtain ⟨_, h1, h2⟩ := h
      have := ih h2 hP
      simp only [List.length_cons] at this ⊢
      omega

/-- C1: for every key, start depth `d` and length `L ≥ 1` with `d + L` within the key,
`Prefix::New` with a key returns, builds exactly `ceil(L / P)` Prefix nodes (the addresses
`as`, all fresh), chained in this order from the caller's reference; every node but the last
holds `P` bytes and the last holds the remainder; the bytes of the nodes in chain order are
`key[d .. d + L)`; the reference handed back is the `ptr` of the last node. -/
theorem C1_New_key_builds_chain (P : Nat) (hP : 0 < P) (hP2 : P < 256) (art : ART) (node : Ref)
    (hnode : art.valid node) (key : ARTKey) (d L : Nat) (hL : 1 ≤ L) (_hkey : d + L ≤ key.len)
    (fuel : Nat) (hfuel : L < fuel) :
    ∃ art1 as last n,
      Prefix.New_key P fuel art node key d L = some (art1, Ref.ptr last) ∧
      art1.read node = some n ∧ Chain art1 n as (art1.segments last).ptr ∧
      as.getLast? = some last ∧
      as.length = (L + P - 1) / P ∧
      as = List.range' art.next as.length ∧ art1.next = art.next + as.length ∧
      (∀ (i a : Nat), as[i]? = some a →
        art1.count P a = if i + 1 < as.length then P else L - P * (as.length - 1)) ∧
      flat P art1 as = key.slice d L := by
  obtain ⟨art1, as, last, hrun, hlast, has, hn, _, _, hrd, hch, hsh, hfl, _⟩ :=
    New_key_loop_spec P hP hP2 key d fuel art node 0 L hL hfuel hnode
  refine ⟨art1, as, last, Node.pfx art.next, ?_, hrd, hch, hlast, Shape.length_eq hP hsh, has, hn,
    Shape.count_at hsh, by simpa using hfl⟩
  unfold Prefix.New_key
  have : L ≠ 0 := by omega
  simp only [this, if_false]
  exact hrun

theorem C1_witness :
    ∃ art1 as last n,
      Prefix.New_key 4 7 ⟨fun _ => ⟨fun _ => 0, Node.unset⟩, 0, [], fun _ => Node.unset, [],
          by simp⟩ (Ref.var 0) ⟨6, fun i => 10 * (i + 1)⟩ 0 6 = some (art1, Ref.ptr last) ∧
      art1.read (Ref.var 0) = some n ∧ Chain art1 n as (art1.segments last).ptr ∧
      as.getLast? = some last ∧
      as.length = (6 + 4 - 1) / 4 ∧
      as = List.range' 0 as.length ∧ art1.next = 0 + as.length ∧
      (∀ (i a : Nat), as[i]? = some a →
        art1.count 4 a = if i + 1 < as.length then 4 else 6 - 4 * (as.length - 1)) ∧
      flat 4 art1 as = ARTKey.slice ⟨6, fun i => 10 * (i + 1)⟩ 0 6 :=
  C1_New_key_builds_chain 4 (by decide) (by decide)
    ⟨fun _ => ⟨fun _ => 0, Node.unset⟩, 0, [], fun _ => Node.unset, [], by simp⟩ (Ref.var 0)
    trivial ⟨6, fun i => 10 * (i + 1)⟩ 0 6 (by decide) (by decide) 7 (by decide)

/-- C3: for a well-formed Prefix chain with flattened bytes `B` and a key covering the
positions `depth0 .. depth0 + |B|`, the traversal against the key returns; the final depth is
`depth0` plus the number `m` of leading bytes of `B` that equal the key's (the two agree on
their first `m` bytes); the result is the sentinel exactly when `B` equals
`key[depth0 .. depth0 + |B|)`, and then the cursor is on the node that ends the chain;
otherwise the cursor is on a node `a` of the chain and the result `r` is the offset within
that node of the byte `B[m]`, the first that differs from the key. -/
theorem C3_Traverse_key_result (P : Nat) (hP2 : P < 256) (key : ARTKey) (art : ART) (cur : Ref)
    (depth0 : Nat) (n : Node) (as : List Nat) (t : Node) (hwf : WfChain P art n as t)
    (hrd : art.read cur = some n) (_hkey : depth0 + (flat P art as).length ≤ key.len)
    (fuel : Nat) (hfuel : as.length < fuel) :
    ∃ r cur1 m,
      Prefix.Traverse_key P key fuel art cur depth0 = some (r, cur1, depth0 + m) ∧
      m = matched (flat P art as) (key.slice depth0 (flat P art as).length) ∧
      (flat P art as).take m = (key.slice depth0 (flat P art as).length).take m ∧
      (r = INVALID_INDEX ↔ flat P art as = key.slice depth0 (flat P art as).length) ∧
      (r = INVALID_INDEX → art.read cur1 = some t) ∧
      (r ≠ INVALID_INDEX →
        ∃ pre a post, as = pre ++ a :: post ∧ art.read cur1 = some (Node.pfx a) ∧
          r < art.count P a ∧ m = (flat P art pre).length + r ∧
          (flat P art as)[m]? ≠ (key.slice depth0 (flat P art as).length)[m]?) := by
  obtain ⟨hch, _, hcnt, ht, hs⟩ := hwf
  obtain ⟨r, cur1, hrun, hA, hB⟩ := Traverse_key_spec P hP2 key art as fuel cur depth0 n t hrd hch
    ht hs (fun a ha => (hcnt a ha).2) hfuel
  have hlen : (flat P art as).length = (key.slice depth0 (flat P art as).length).length := by
    rw [slice_length]
  have hle := matched_le (flat P art as) (key.slice depth0 (flat P art as).length)
  have hiff := matched_eq_length (flat P art as) (key.slice depth0 (flat P art as).length) hlen
  refine ⟨r, cur1, _, hrun, rfl, matched_take _ _, ?_, ?_, ?_⟩
  · constructor
    · intro hr
      by_contra hne
      have hlt : matched (flat P art as) (key.slice depth0 (flat P art as).length)
          < (flat P art as).length := by
        rcases Nat.lt_or_eq_of_le hle with h | h
        · exact h
        · exact absurd (hiff.1 h) hne
      exact (hB hlt).1 hr
    · intro he
      exact (hA (hiff.2 he)).1
  · intro hr
    by_cases hm : matched (flat P art as) (key.slice depth0 (flat P art as).length)
        = (flat P art as).length
    · exact (hA hm).2
    · exact absurd hr (hB (by omega)).1
  · intro hr
    have hlt : matched (flat P art as) (key.slice depth0 (flat P art as).length)
        < (flat P art as).length := by
      rcases Nat.lt_or_eq_of_le hle with h | h
      · exact h
      · exact absurd (hA h).1 hr
    obtain ⟨_, pre, a, post, e1, e2, e3, e4⟩ := hB hlt
    exact ⟨pre, a, post, e1, e2, e4, e3, matched_differs _ _ hlt (by rw [slice_length])⟩

theorem C3_witness :
    ∃ r cur1 m,
      Prefix.Traverse_key 4 ⟨6, fun i => if i = 5 then 0 else 10 * (i + 1)⟩ 3 scenario (Ref.var 0) 0
        = some (r, cur1, 0 + m) ∧
      m = matched (flat 4 scenario [0, 1])
        (ARTKey.slice ⟨6, fun i => if i = 5 then 0 else 10 * (i + 1)⟩ 0 (flat 4 scenario [0, 1]).length) ∧
      (flat 4 scenario [0, 1]).take m = (ARTKey.slice ⟨6, fun i => if i = 5 then 0 else 10 * (i + 1)⟩ 0
        (flat 4 scenario [0, 1]).length).take m ∧
      (r = INVALID_INDEX ↔ flat 4 scenario [0, 1] =
        ARTKey.slice ⟨6, fun i => if i = 5 then 0 else 10 * (i + 1)⟩ 0 (flat 4 scenario [0, 1]).length) ∧
      (r = INVALID_INDEX → scenario.read cur1 = some (Node.inner 7)) ∧
      (r ≠ INVALID_INDEX →
        ∃ pre a post, [0, 1] = pre ++ a :: post ∧ scenario.read cur1 = some (Node.pfx a) ∧
          r < scenario.count 4 a ∧ m = (flat 4 scenario pre).length + r ∧
          (flat 4 scenario [0, 1])[m]? ≠ (ARTKey.slice ⟨6, fun i => if i = 5 then 0 else 10 * (i + 1)⟩ 0
            (flat 4 scenario [0, 1]).length)[m]?) :=
  C3_Traverse_key_result 4 (by decide) ⟨6, fun i => if i = 5 then 0 else 10 * (i + 1)⟩ scenario
    (Ref.var 0) 0 (Node.pfx 0) [0, 1] (Node.inner 7) (by decide) (by decide) (by decide) 3
    (by decide)

theorem Chain.mem_lt_of_range {as : List Nat} {k x : Nat} (has : as = List.range' k as.length)
    (hx : x ∈ as) : k ≤ x := by
  rw [has] at hx
  exact (List.mem_range'_1.1 hx).1

/-- C2: the chain built from `key`, depth `d` and length `L ≥ 1`, once its final successor
is set to a node `t` that is not a Prefix, is traversed against the same key from depth `d`
with the sentinel as result and `d + L` as final depth. -/
theorem C2_New_key_then_Traverse_key (P : Nat) (hP : 0 < P) (hP2 : P < 256) (art : ART)
    (node : Ref) (hnode : art.valid node) (key : ARTKey) (d L : Nat) (hL : 1 ≤ L) (t : Node)
    (ht : t.IsPrefix = false) (hs : t.IsSwizzled = false) (fuel : Nat) (hfuel : L < fuel) :
    ∃ art1 r1 art2 cur1,
      Prefix.New_key P fuel art node key d L = some (art1, r1) ∧
      art1.write r1 t = some art2 ∧
      Prefix.Traverse_key P key fuel art2 node d = some (INVALID_INDEX, cur1, d + L) ∧
      art2.read cur1 = some t := by
  obtain ⟨art1, as, last, hrun, hlast, has, hn, hfr, _, hrd, hch, hsh, hfl, hdata, hptr, hvars⟩ :=
    New_key_loop_spec P hP hP2 key d fuel art node 0 L hL hfuel hnode
  have hnew : Prefix.New_key P fuel art node key d L = some (art1, Ref.ptr last) := by
    unfold Prefix.New_key
    have : L ≠ 0 := by omega
    simp only [this, if_false]
    exact hrun
  obtain ⟨front, e⟩ := getLast?_eq_some_iff_append hlast
  have hlast_mem : last ∈ as := by rw [e]; simp
  have hlive := Chain.live hch
  have hl_last : art1.live last := hlive last hlast_mem
  have hnd : as.Nodup := by rw [has]; exact List.nodup_range' _ _
  have hch2 : Chain (art1.setPtr last t) (Node.pfx art.next) as t :=
    Chain.set_last hch hlast hnd (fun x _ hx => setPtr_segments_ne _ _ _ _ hx)
      (fun x _ h => h) (by simp)
  have hlast_ge : art.next ≤ last := Chain.mem_lt_of_range has hlast_mem
  have hrd2 : (art1.setPtr last t).read node = some (Node.pfx art.next) := by
    cases node with
    | var i => exact hrd
    | ptr b =>
      have hb : art.live b := hnode
      have hne : b ≠ last := by have := hb.1; omega
      simp only [ART.read] at hrd ⊢
      by_cases hlb : art1.live b
      · simp only [hlb, if_true] at hrd
        simp only [setPtr_live, hlb, if_true, setPtr_segments_ne _ _ _ _ hne]
        exact hrd
      · simp [hlb] at hrd
  have hcnt := Shape.count_bounds hsh hP
  have hfl2 : flat P (art1.setPtr last t) as = key.slice d L := by
    rw [@flat_frame P art1 _ as (fun x _ => setPtr_data _ _ _ _)]
    simpa using hfl
  obtain ⟨r, cur1, hrun2, hA, _⟩ := Traverse_key_spec P hP2 key (art1.setPtr last t) as fuel node d
    (Node.pfx art.next) t hrd2 hch2 ht hs
    (fun a ha => by simp only [ART.count, setPtr_data]; exact (hcnt a ha).2)
    (Nat.lt_of_le_of_lt (Shape.length_le hsh hP) hfuel)
  rw [hfl2, slice_length] at hrun2 hA
  have hm : matched (key.slice d L) (key.slice d L) = L := by
    have := (matched_eq_length (key.slice d L) (key.slice d L) rfl).2 rfl
    rw [slice_length] at this
    exact this
  rw [hm] at hrun2 hA
  obtain ⟨hr, hc⟩ := hA rfl
  subst hr
  exact ⟨art1, Ref.ptr last, art1.setPtr last t, cur1, hnew, by simp [ART.write, hl_last], hrun2, hc⟩

theorem C2_witness :
    ∃ art1 r1 art2 cur1,
      Prefix.New_key 4 7 ⟨fun _ => ⟨fun _ => 0, Node.unset⟩, 0, [], fun _ => Node.unset, [],
          by simp⟩ (Ref.var 0) ⟨6, fun i => 10 * (i + 1)⟩ 0 6 = some (art1, r1) ∧
      art1.write r1 (Node.inner 7) = some art2 ∧
      Prefix.Traverse_key 4 ⟨6, fun i => 10 * (i + 1)⟩ 7 art2 (Ref.var 0) 0
        = some (INVALID_INDEX, cur1, 0 + 6) ∧
      art2.read cur1 = some (Node.inner 7) :=
  C2_New_key_then_Traverse_key 4 (by decide) (by decide)
    ⟨fun _ => ⟨fun _ => 0, Node.unset⟩, 0, [], fun _ => Node.unset, [], by simp⟩ (Ref.var 0)
    trivial ⟨6, fun i => 10 * (i + 1)⟩ 0 6 (by decide) (Node.inner 7) rfl rfl 7 (by decide)

theorem Ext.live_keep {P : Nat} {art art1 : ART} {a a1 : Nat} {bs dead L : List Nat}
    (h : Ext P art a bs dead art1 a1 L) {x : Nat} (hx : art.live x) (hd : x ∉ dead) :
    art1.live x := by
  refine ⟨Nat.lt_of_lt_of_le hx.1 h.next_le, ?_⟩
  rw [h.freed]
  intro hm
  rcases List.mem_append.1 hm with e | e
  · exact hd (List.mem_reverse.1 e)
  · exact hx.2 e

theorem Ext.dead_not_live {P : Nat} {art art1 : ART} {a a1 : Nat} {bs dead L : List Nat}
    (h : Ext P art a bs dead art1 a1 L) {x : Nat} (hd : x ∈ dead) : ¬ art1.live x := by
  intro hl
  apply hl.2
  rw [h.freed]
  exact List.mem_append_left _ (List.mem_reverse.2 hd)

/-- C8: `Append(art, other_prefix)` on the Prefix node at `a` with a well-formed Prefix chain
`os` (not containing `a`) as argument returns; afterwards the chain that starts at `a` holds
the bytes the node held before followed by all bytes of the other chain in order and ends in
the node `t` the other chain ended in; the nodes freed by the call are exactly the nodes of
the other chain, none of which is live afterwards. -/
theorem C8_Append_node_folds_chain (P : Nat) (hP : 0 < P) (hP2 : P < 256) (art : ART) (a : Nat)
    (n : Node) (os : List Nat) (t : Node) (hwf : WfChain P art n os t) (hl : art.live a)
    (hc : art.count P a ≤ P) (hnot : a ∉ os) (fuel : Nat) (hfuel : os.length + P + 1 ≤ fuel) :
    ∃ art1 a1 L, Prefix.Append_node P fuel art a n = some (art1, a1) ∧
      Chain art1 (Node.pfx a) L t ∧ L.getLast? = some a1 ∧
      flat P art1 L = (art.segments a).bytes P ++ flat P art os ∧
      art1.freed = os.reverse ++ art.freed ∧ (∀ o ∈ os, ¬ art1.live o) ∧
      t.IsPrefix = false := by
  obtain ⟨hch, hne, hcnt, ht, hs⟩ := hwf
  obtain ⟨art1, a1, L, hrun, hE, hp, _⟩ := Append_node_spec P hP hP2 os fuel art a n t hch ht hs hl
    hnot hc (fun o ho => (hcnt o ho).2) hfuel
  refine ⟨art1, a1, L, hrun, ?_, hE.last, hE.flat_eq, hE.freed, fun o ho => hE.dead_not_live ho, ht⟩
  have := hE.chain
  rw [hp hne] at this
  exact this

theorem C8_witness :
    ∃ art1 a1 L, Prefix.Append_node 4 7 scenario_node 2 (Node.pfx 0) = some (art1, a1) ∧
      Chain art1 (Node.pfx 2) L (Node.inner 7) ∧ L.getLast? = some a1 ∧
      flat 4 art1 L = (scenario_node.segments 2).bytes 4 ++ flat 4 scenario_node [0, 1] ∧
      art1.freed = [0, 1].reverse ++ scenario_node.freed ∧ (∀ o ∈ [0, 1], ¬ art1.live o) ∧
      (Node.inner 7).IsPrefix = false :=
  C8_Append_node_folds_chain 4 (by decide) (by decide) scenario_node 2 (Node.pfx 0) [0, 1]
    (Node.inner 7) (by decide) (by decide) (by decide) (by decide) 7 (by decide)

/-- C9 (as stated) fails: on a node whose `ptr` is unset, `Append` with the node `inner 9`,
which is set and not a Prefix, never makes that node the successor; and on a node whose `ptr`
is a Prefix node the same call returns with a Prefix node as final successor. -/
theorem C9_counterexample :
    (¬ ∃ fuel art1 a1, Prefix.Append_node 4 fuel scenario_node 2 (Node.inner 9) = some (art1, a1) ∧
        (art1.segments a1).ptr = Node.inner 9) ∧
    (∃ art1 a1, Prefix.Append_node 4 1 scenario_node 0 (Node.inner 9) = some (art1, a1) ∧
        (art1.segments a1).ptr.IsPrefix = true) := by
  constructor
  · rintro ⟨fuel, art1, a1, h, hp⟩
    cases fuel with
    | zero => simp [Prefix.Append_node, Prefix.Append_node_loop, Node.IsSwizzled] at h
    | succ f =>
      simp only [Prefix.Append_node, Prefix.Append_node_loop, Node.IsSwizzled,
        Bool.false_eq_true, if_false, Option.some.injEq, Prod.mk.injEq] at h
      obtain ⟨e1, e2⟩ := h
      subst e1; subst e2
      simp [scenario_node] at hp
  · exact ⟨scenario_node, 0, rfl, rfl⟩

/-- C9 (amended): when the argument of `Append(art, other_prefix)` is a well-formed Prefix
chain that does not contain this node, the call returns and the node `t` the other chain
ended in is the `ptr` of the last node of this node's chain, and it is not a Prefix node
(the closing assertion holds); when the argument is in memory and not a Prefix node, the
call returns at once and changes nothing, so this node's successor stays what it was. -/
theorem C9_Append_node_final_successor (P : Nat) (hP : 0 < P) (hP2 : P < 256) (art : ART)
    (a : Nat) (n : Node) (hl : art.live a) (hc : art.count P a ≤ P) :
    (∀ (os : List Nat) (t : Node) (fuel : Nat), WfChain P art n os t → a ∉ os →
      os.length + P + 1 ≤ fuel →
      ∃ art1 a1 L, Prefix.Append_node P fuel art a n = some (art1, a1) ∧
        Chain art1 (Node.pfx a) L t ∧ L.getLast? = some a1 ∧
        (art1.segments a1).ptr = t ∧ (art1.segments a1).ptr.IsPrefix = false) ∧
    (n.IsPrefix = false → n.IsSwizzled = false →
      ∀ fuel, Prefix.Append_node P (fuel + 1) art a n = some (art, a)) := by
  constructor
  · intro os t fuel hwf hnot hfuel
    obtain ⟨hch, hne, hcnt, ht, hs⟩ := hwf
    obtain ⟨art1, a1, L, hrun, hE, hp, _⟩ := Append_node_spec P hP hP2 os fuel art a n t hch ht hs
      hl hnot hc (fun o ho => (hcnt o ho).2) hfuel
    refine ⟨art1, a1, L, hrun, ?_, hE.last, hp hne, by rw [hp hne]; exact ht⟩
    have := hE.chain
    rw [hp hne] at this
    exact this
  · intro hn hs fuel
    unfold Prefix.Append_node
    simp only [hs, Bool.false_eq_true, if_false]
    unfold Prefix.Append_node_loop
    cases n with
    | pfx b => simp [Node.IsPrefix] at hn
    | unset => rfl
    | inner id => rfl
    | swizzled b o => rfl

theorem C9_witness :
    (∃ art1 a1 L, Prefix.Append_node 4 7 scenario_node 2 (Node.pfx 0) = some (art1, a1) ∧
        Chain art1 (Node.pfx 2) L (Node.inner 7) ∧ L.getLast? = some a1 ∧
        (art1.segments a1).ptr = Node.inner 7 ∧ (art1.segments a1).ptr.IsPrefix = false) ∧
    Prefix.Append_node 4 1 scenario_node 2 (Node.inner 9) = some (scenario_node, 2) :=
  ⟨(C9_Append_node_final_successor 4 (by decide) (by decide) scenario_node 2 (Node.pfx 0)
      (by decide) (by decide)).1 [0, 1] (Node.inner 7) 7 (by decide) (by decide) (by decide),
    (C9_Append_node_final_successor 4 (by decide) (by decide) scenario_node 2 (Node.inner 9)
      (by decide) (by decide)).2 rfl rfl 0⟩

/-- What `Prefix::New(art, node)` does. -/
theorem New_spec (P : Nat) (art : ART) (node : Ref) (hv : art.valid node) :
    ∃ art1, Prefix.New P art node = some (art1, art.next) ∧ art1.next = art.next + 1 ∧
      art1.freed = art.freed ∧ art1.released = art.released ∧ art1.live art.next ∧
      art1.count P art.next = 0 ∧ art1.read node = some (Node.pfx art.next) ∧
      (art1.segments art.next).ptr = (art.segments art.next).ptr ∧
      (∀ x, x ≠ art.next → (art1.segments x).data = (art.segments x).data) ∧
      (∀ x, node ≠ Ref.ptr x → (art1.segments x).ptr = (art.segments x).ptr) ∧
      (∀ i, node ≠ Ref.var i → art1.vars i = art.vars i) := by
  have hv1 : art.allocNew.1.valid node := by
    cases node with
    | var i => trivial
    | ptr b => exact (allocNew_live art b).2 (Or.inl hv)
  obtain ⟨art2, hw, hn2, hf2, hr2, hrd2, hd2, hp2, hvar2, hl2⟩ :=
    write_spec (Node.pfx art.next) hv1
  have hnode_ne : node ≠ Ref.ptr art.next := by
    intro e; subst e; exact not_live_next art hv
  have hlive_a : art2.live art.next := (hl2 _).2 ((allocNew_live art _).2 (Or.inr rfl))
  refine ⟨art2.setData art.next (Function.update (art2.segments art.next).data P 0), ?_, ?_, ?_,
    ?_, ?_, ?_, ?_, ?_, ?_, ?_, ?_⟩
  · unfold Prefix.New
    simp only [allocNew_snd, hw]
  · simp [hn2]
  · simp [hf2]
  · simp [hr2]
  · exact hlive_a
  · simp [ART.count]
  · cases node with
    | var i => simpa [ART.read] using hrd2
    | ptr b =>
      have hlb : art2.live b := (hl2 _).2 hv1
      simp only [ART.read, hlb, if_true, Option.some.injEq] at hrd2
      simp [ART.read, hlb, hrd2]
  · rw [setData_ptr, hp2 _ hnode_ne]; rfl
  · intro x hx
    rw [setData_segments_ne _ _ _ _ hx, hd2]; rfl
  · intro x hx
    rw [setData_ptr, hp2 x hx]; rfl
  · intro i hi
    rw [setData_vars, hvar2 i hi]; rfl

/-- Appending a list of bytes that fits into the node. -/
theorem Append_all_room (P : Nat) (hP2 : P < 256) :
    ∀ (bs : List Nat) (art : ART) (a : Nat), art.live a → art.count P a + bs.length ≤ P →
      ∃ art1, Prefix.Append_all P bs art a = some (art1, a) ∧ Ext P art a bs [] art1 a [a] ∧
        art1.next = art.next ∧ art1.count P a = art.count P a + bs.length ∧
        (art1.segments a).ptr = (art.segments a).ptr := by
  intro bs
  induction bs with
  | nil =>
    intro art a hl hc
    exact ⟨art, rfl, Ext.refl P art a hl (by simpa using hc), rfl, rfl, rfl⟩
  | cons b bs ih =>
    intro art a hl hc
    simp only [List.length_cons] at hc
    obtain ⟨art1, h1, hE1, hn1, hc1, hp1⟩ := Append_room P hP2 art a b hl (by omega)
    obtain ⟨art2, h2, hE2, hn2, hc2, hp2⟩ := ih art1 a hE1.live_last (by omega)
    refine ⟨art2, ?_, ?_, by rw [hn2, hn1], ?_, by rw [hp2, hp1]⟩
    · simp only [Prefix.Append_all, h1, h2]
    · exact Ext.trans hE1 hE2 (fun x _ h => by cases h)
    · rw [hc2, hc1, List.length_cons]; omega

theorem Append_all_append (P : Nat) :
    ∀ (l1 l2 : List Nat) (art : ART) (a : Nat),
      Prefix.Append_all P (l1 ++ l2) art a =
        match Prefix.Append_all P l1 art a with
        | none => none
        | some (art1, a1) => Prefix.Append_all P l2 art1 a1 := by
  intro l1
  induction l1 with
  | nil => intro l2 art a; rfl
  | cons b l1 ih =>
    intro l2 art a
    simp only [List.cons_append, Prefix.Append_all]
    cases h : Prefix.Append P art a b with
    | none => rfl
    | some r => exact ih l2 r.1 r.2

theorem Ext.read_keep {P : Nat} {art art1 : ART} {a a1 : Nat} {bs dead L : List Nat}
    (h : Ext P art a bs dead art1 a1 L) {node : Ref} {n : Node} (hv : art.valid node)
    (hne : node ≠ Ref.ptr a) (hd : ∀ x, node = Ref.ptr x → x ∉ dead)
    (hrd : art.read node = some n) : art1.read node = some n := by
  cases node with
  | var i => simp only [ART.read] at hrd ⊢; rw [h.vars]; exact hrd
  | ptr b =>
    have hb : art.live b := hv
    have hb1 : art1.live b := h.live_keep hb (hd b rfl)
    have hba : b ≠ a := fun e => hne (by rw [e])
    simp only [ART.read, hb, hb1, if_true] at hrd ⊢
    rw [h.seg b hb.1 hba]; exact hrd

/-- C10: starting from a fresh empty Prefix node and appending the `P + 1` bytes `bs` one by
one, each on the node the previous call returned, gives exactly two Prefix nodes (two
allocations): the first, still the one the caller's reference names, holds `P` bytes, the
first `P` of `bs` in order, and is chained to the second, which holds the last byte and is
the node the last call returned. -/
theorem C10_Append_byte_overflow (P : Nat) (hP : 0 < P) (hP2 : P < 256) (art : ART) (node : Ref)
    (hv : art.valid node) (bs : List Nat) (hlen : bs.length = P + 1) :
    ∃ art0 art1, Prefix.New P art node = some (art0, art.next) ∧
      Prefix.Append_all P bs art0 art.next = some (art1, art.next + 1) ∧
      art1.next = art.next + 2 ∧ art1.read node = some (Node.pfx art.next) ∧
      Chain art1 (Node.pfx art.next) [art.next, art.next + 1] (art1.segments (art.next + 1)).ptr ∧
      art1.count P art.next = P ∧ (art1.segments art.next).bytes P = bs.take P ∧
      art1.count P (art.next + 1) = 1 ∧ (art1.segments (art.next + 1)).bytes P = bs.drop P := by
  obtain ⟨art0, hnew, hn0, hf0, hr0, hl0, hc0, hrd0, hp0, hd0, hpp0, hv0⟩ := New_spec P art node hv
  have htake : (bs.take P).length = P := by rw [List.length_take]; omega
  obtain ⟨x, hx⟩ : ∃ x, bs.drop P = [x] := by
    have : (bs.drop P).length = 1 := by rw [List.length_drop]; omega
    match h : bs.drop P, this with
    | [x], _ => exact ⟨x, rfl⟩
  obtain ⟨art1, hrun1, hE1, hn1, hc1, hp1⟩ := Append_all_room P hP2 (bs.take P) art0 art.next hl0
    (by rw [hc0, htake]; omega)
  rw [hc0, htake, Nat.zero_add] at hc1
  obtain ⟨art2, hrun2, hE2, hn2, hc2, hb2, hp2⟩ :=
    Append_full P hP art1 art.next x hE1.live_last hc1
  rw [hn1, hn0] at hrun2 hE2 hn2 hc2 hb2 hp2
  have hnode_ne : node ≠ Ref.ptr art.next := by
    intro e; subst e; exact not_live_next art hv
  have hv0' : art0.valid node := by
    cases node with
    | var i => trivial
    | ptr b => exact ⟨by have := hv.1; omega, by rw [hf0]; exact hv.2⟩
  have hv1' : art1.valid node := by
    cases node with
    | var i => trivial
    | ptr b => exact hE1.live_keep hv0' (by simp)
  have hbytes1 : (art1.segments art.next).bytes P = bs.take P := by
    have := hE1.flat_eq
    simp only [flat, List.append_nil] at this
    rw [this]
    have : (art0.segments art.next).bytes P = [] := by
      simp only [Prefix.bytes]
      simp only [ART.count] at hc0
      rw [hc0]; rfl
    rw [this]; rfl
  have hfull := hE2.full art.next (by simp) (by omega)
  have hsplit := hE2.flat_eq
  simp only [flat, List.append_nil] at hsplit
  have hlen_a : ((art2.segments art.next).bytes P).length = ((art1.segments art.next).bytes P).length := by
    rw [bytes_length, bytes_length]
    simp only [ART.count] at hfull hc1
    rw [hfull, hc1]
  obtain ⟨e1, e2⟩ := List.append_inj hsplit hlen_a
  refine ⟨art0, art2, hnew, ?_, by omega, ?_, hE2.chain, hfull, by rw [e1, hbytes1], hc2,
    by rw [e2, hx]⟩
  · conv_lhs => rw [← List.take_append_drop P bs]
    rw [Append_all_append, hrun1, hx]
    simp only [Prefix.Append_all, hrun2]
  · exact hE2.read_keep hv1' hnode_ne (by simp)
      (hE1.read_keep hv0' hnode_ne (by simp) hrd0)

theorem C10_witness :
    ∃ art0 art1, Prefix.New 4 scenario (Ref.var 1) = some (art0, scenario.next) ∧
      Prefix.Append_all 4 [1, 2, 3, 4, 5] art0 scenario.next = some (art1, scenario.next + 1) ∧
      art1.next = scenario.next + 2 ∧ art1.read (Ref.var 1) = some (Node.pfx scenario.next) ∧
      Chain art1 (Node.pfx scenario.next) [scenario.next, scenario.next + 1]
        (art1.segments (scenario.next + 1)).ptr ∧
      art1.count 4 scenario.next = 4 ∧ (art1.segments scenario.next).bytes 4 = [1, 2, 3, 4, 5].take 4 ∧
      art1.count 4 (scenario.next + 1) = 1 ∧
      (art1.segments (scenario.next + 1)).bytes 4 = [1, 2, 3, 4, 5].drop 4 :=
  C10_Append_byte_overflow 4 (by decide) (by decide) scenario (Ref.var 1) trivial [1, 2, 3, 4, 5]
    (by decide)

/-- A chain that leads to the node at `a` stays in place, in front of what an extension of
that node built. -/
theorem Ext.with_front {P : Nat} {art art1 : ART} {a a1 : Nat} {bs dead L front : List Nat}
    {n t : Node} (h : Ext P art a bs dead art1 a1 L) (hfront : Chain art n front (Node.pfx a))
    (hne : ∀ x ∈ front, x ≠ a ∧ x ∉ dead) (hptr : (art1.segments a1).ptr = t) :
    Chain art1 n (front ++ L) t ∧
      flat P art1 (front ++ L) = flat P art front ++ ((art.segments a).bytes P ++ bs) := by
  have hlive := Chain.live hfront
  have hseg : ∀ x ∈ front, art1.segments x = art.segments x := fun x hx =>
    h.seg x (hlive x hx).1 (hne x hx).1
  constructor
  · refine Chain.append (Chain.frame (fun x hx hl => ⟨h.live_keep hl (hne x hx).2, ?_⟩) hfront) ?_
    · rw [hseg x hx]
    · have := h.chain
      rw [hptr] at this
      exact this
  · rw [flat_append, h.flat_eq, @flat_frame P art art1 front (fun x hx => by rw [hseg x hx])]

/-- Setting the `ptr` of the node the last byte landed in. -/
theorem Ext.set_ptr {P : Nat} {art art1 : ART} {a a1 : Nat} {bs dead L : List Nat}
    (h : Ext P art a bs dead art1 a1 L) (n : Node) :
    Ext P art a bs dead (art1.setPtr a1 n) a1 L ∧ ((art1.setPtr a1 n).segments a1).ptr = n := by
  refine ⟨?_, by simp⟩
  exact
    { next_le := h.next_le
      freed := h.freed
      vars := h.vars
      released := h.released
      seg := fun x hx hxa => by
        have hx1 : x ≠ a1 := by
          rcases h.last_cases with e | e
          · rw [e]; exact hxa
          · omega
        rw [setPtr_segments_ne _ _ _ _ hx1, h.seg x hx hxa]
      chain := Chain.set_last h.chain h.last h.nodup
        (fun x _ hx1 => setPtr_segments_ne _ _ _ _ hx1) (fun x _ hl => hl) rfl
      last := h.last
      fresh := h.fresh
      nodup := h.nodup
      flat_eq := by
        rw [← h.flat_eq]
        exact flat_frame (fun x _ => setPtr_data _ _ _ _)
      count := fun x hx => by
        have := h.count x hx
        simp only [ART.count] at this ⊢
        rw [setPtr_data]; exact this
      full := fun x hx hne => by
        have := h.full x hx hne
        simp only [ART.count] at this ⊢
        rw [setPtr_data]; exact this }

/-- The tail walk of `Concatenate` ends on the last node of the chain. -/
theorem Concatenate_tail_spec (art : ART) :
    ∀ (rest : List Nat) (fuel a : Nat) (t : Node), Chain art (Node.pfx a) (a :: rest) t →
      t.IsPrefix = false → t.IsSwizzled = false → rest.length < fuel →
      ∃ tl, Prefix.Concatenate_tail fuel art a = some tl ∧ (a :: rest).getLast? = some tl := by
  intro rest
  induction rest with
  | nil =>
    intro fuel a t hch ht hs hf
    cases fuel with
    | zero => omega
    | succ fuel =>
      obtain ⟨_, _, h3⟩ := hch
      cases h3
      refine ⟨a, ?_, rfl⟩
      unfold Prefix.Concatenate_tail
      simp only [hs, Bool.false_eq_true, if_false]
      cases hp : (art.segments a).ptr with
      | pfx b => rw [hp] at ht; simp [Node.IsPrefix] at ht
      | unset => rfl
      | inner id => rfl
      | swizzled b o => rfl
  | cons b rest ih =>
    intro fuel a t hch ht hs hf
    cases fuel with
    | zero => omega
    | succ fuel =>
      obtain ⟨_, _, h3⟩ := hch
      have hb := h3.1
      obtain ⟨tl, h1, h2⟩ := ih fuel b t (by rw [← hb]; exact ⟨hb, h3.2.1, h3.2.2⟩) ht hs
        (by simp at hf; omega)
      refine ⟨tl, ?_, by rw [List.getLast?_cons_cons]; exact h2⟩
      unfold Prefix.Concatenate_tail
      rw [hb]
      simp only [Node.IsSwizzled, Bool.false_eq_true, if_false, Prefix.Get, h3.2.1, if_true]
      exact h1

/-- What `Prefix::New(art, node, byte, next)` does. -/
theorem New_byte_spec (P : Nat) (hP : 0 < P) (art : ART) (node : Ref) (byte : Nat) (next : Node)
    (hv : art.valid node) :
    ∃ art1, Prefix.New_byte P art node byte next = some (art1, art.next) ∧
      art1.next = art.next + 1 ∧ art1.freed = art.freed ∧ art1.released = art.released ∧
      art1.live art.next ∧ art1.count P art.next = 1 ∧
      (art1.segments art.next).bytes P = [byte] ∧
      art1.read node = some (Node.pfx art.next) ∧ (art1.segments art.next).ptr = next ∧
      (∀ x, x ≠ art.next → (art1.segments x).data = (art.segments x).data) ∧
      (∀ x, x ≠ art.next → node ≠ Ref.ptr x → (art1.segments x).ptr = (art.segments x).ptr) ∧
      (∀ i, node ≠ Ref.var i → art1.vars i = art.vars i) := by
  have hv1 : art.allocNew.1.valid node := by
    cases node with
    | var i => trivial
    | ptr b => exact (allocNew_live art b).2 (Or.inl hv)
  obtain ⟨art2, hw, hn2, hf2, hr2, hrd2, hd2, hp2, hvar2, hl2⟩ :=
    write_spec (Node.pfx art.next) hv1
  have hnode_ne : node ≠ Ref.ptr art.next := by
    intro e; subst e; exact not_live_next art hv
  have hlive_a : art2.live art.next := (hl2 _).2 ((allocNew_live art _).2 (Or.inr rfl))
  have hP0 : (0 : Nat) ≠ P := by omega
  have hcount : Function.update (Function.update (art2.segments art.next).data P 1) 0 byte P = 1 := by
    have hP1 : P ≠ 0 := by omega
    simp [Function.update_apply, hP1]
  refine ⟨art2.setPfx art.next
    { data := Function.update (Function.update (art2.segments art.next).data P 1) 0 byte,
      ptr := next }, ?_, ?_, ?_, ?_, ?_, ?_, ?_, ?_, ?_, ?_, ?_, ?_⟩
  · unfold Prefix.New_byte
    simp only [allocNew_snd, hw]
  · simp [hn2]
  · simp [hf2]
  · simp [hr2]
  · exact hlive_a
  · simp only [ART.count, setPfx_segments_self, hcount]
  · simp only [Prefix.bytes, setPfx_segments_self, hcount]
    show [_] = [byte]
    simp
  · cases node with
    | var i => simpa [ART.read] using hrd2
    | ptr b =>
      have hlb : art2.live b := (hl2 _).2 hv1
      have hb : b ≠ art.next := fun e => hnode_ne (by rw [e])
      simp only [ART.read, hlb, if_true, Option.some.injEq] at hrd2
      simp [ART.read, hlb, hrd2, hb]
  · simp
  · intro x hx
    rw [setPfx_segments_ne _ _ _ _ hx, hd2]; rfl
  · intro x hx hxn
    rw [setPfx_segments_ne _ _ _ _ hx, hp2 x hxn]; rfl
  · intro i hi
    rw [setPfx_vars, hvar2 i hi]; rfl

theorem valid_of_read {art : ART} {r : Ref} {n : Node} (h : art.read r = some n) :
    art.valid r := by
  cases r with
  | var i => trivial
  | ptr b =>
    simp only [ART.read] at h
    by_contra hc
    have hc2 : ¬ art.live b := hc
    simp [hc2] at h

theorem flat_concat_last (P : Nat) (art : ART) (front : List Nat) (a : Nat) :
    flat P art (front ++ [a]) = flat P art front ++ (art.segments a).bytes P := by
  rw [flat_append]; simp [flat]

/-- The first branch of `Concatenate`: the parent reference names a Prefix chain. -/
theorem Concatenate_onto_chain (P : Nat) (hP : 0 < P) (hP2 : P < 256) (fuel : Nat) (art : ART)
    (prefix_node : Ref) (byte : Nat) (child : Ref) (a : Nat) (cn tp tc : Node)
    (rest cs : List Nat)
    (hrp : art.read prefix_node = some (Node.pfx a)) (hrc : art.read child = some cn)
    (hps : Chain art (Node.pfx a) (a :: rest) tp) (htp : tp.IsPrefix = false)
    (hsp : tp.IsSwizzled = false)
    (hcs : Chain art cn cs tc) (htc : tc.IsPrefix = false) (hsc : tc.IsSwizzled = false)
    (hcp : ∀ x ∈ a :: rest, art.count P x ≤ P) (hcc : ∀ x ∈ cs, art.count P x ≤ P)
    (hdisj : ∀ x ∈ a :: rest, x ∉ cs)
    (hpslot : ∀ b, prefix_node = Ref.ptr b → b ∉ a :: rest ∧ b ∉ cs)
    (hcslot : ∀ b, child = Ref.ptr b → b ∉ a :: rest)
    (hfuel : (a :: rest).length + cs.length + P + 1 ≤ fuel) :
    ∃ art1 L, Prefix.Concatenate P fuel art prefix_node byte child = some art1 ∧
      art1.read prefix_node = some (Node.pfx a) ∧ Chain art1 (Node.pfx a) L tc ∧ L ≠ [] ∧
      flat P art1 L = flat P art (a :: rest) ++ byte :: flat P art cs ∧
      (∀ x ∈ L, art1.count P x ≤ P) := by
  have hla : art.live a := hps.2.1
  simp only [List.length_cons] at hfuel
  obtain ⟨tl, htail, hlast⟩ := Concatenate_tail_spec art rest fuel a tp hps htp hsp (by omega)
  obtain ⟨front, efront⟩ := getLast?_eq_some_iff_append hlast
  have hnd : (front ++ [tl]).Nodup := efront ▸ Chain.nodup hps htp
  have htl_not_front : tl ∉ front := fun hm =>
    (List.nodup_append.1 hnd).2.2 hm (List.mem_singleton_self _)
  obtain ⟨hfrontch, hltl, _⟩ := Chain.last_ptr (efront ▸ hps)
  have htl_mem : tl ∈ a :: rest := by rw [efront]; simp
  have hfront_mem : ∀ x ∈ front, x ∈ a :: rest := fun x hx => by
    rw [efront]; exact List.mem_append_left _ hx
  obtain ⟨art1, t1, L1, hrun1, hE1, _⟩ := Append_spec P hP hP2 art tl byte hltl (hcp tl htl_mem)
  have hvc : art.valid child := valid_of_read hrc
  have hvp : art.valid prefix_node := valid_of_read hrp
  have hchild_ne : child ≠ Ref.ptr tl := fun e => hcslot tl e htl_mem
  have hrc1 : art1.read child = some cn := hE1.read_keep hvc hchild_ne (by simp) hrc
  have hcs_live := Chain.live hcs
  have hcs_seg1 : ∀ x ∈ cs, art1.segments x = art.segments x := fun x hx =>
    hE1.seg x (hcs_live x hx).1 (fun e => hdisj tl htl_mem (e ▸ hx))
  have hcs1 : Chain art1 cn cs tc :=
    Chain.frame (fun x hx hl => ⟨hE1.live_keep hl (by simp), by rw [hcs_seg1 x hx]⟩) hcs
  have ht1 : t1 ∉ cs := by
    intro hm
    rcases hE1.last_cases with e | e
    · exact hdisj tl htl_mem (e ▸ hm)
    · have := (hcs_live t1 hm).1; omega
  -- both shapes of the child lead to the same description
  have key : ∃ art2 t2 L2, Prefix.Concatenate P fuel art prefix_node byte child = some art2 ∧
      Ext P art tl (byte :: flat P art cs) cs art2 t2 L2 ∧ (art2.segments t2).ptr = tc := by
    cases cs with
    | nil =>
      cases hcs
      obtain ⟨hE2, hptr2⟩ := hE1.set_ptr cn
      refine ⟨art1.setPtr t1 cn, t1, L1, ?_, hE2, hptr2⟩
      unfold Prefix.Concatenate
      simp only [hrp, Prefix.Get, hla, if_true, htail, hrun1, hrc1]
      cases cn with
      | pfx c => simp [Node.IsPrefix] at htc
      | unset => simp [hE1.live_last]
      | inner id => simp [hE1.live_last]
      | swizzled b o => simp [hE1.live_last]
    | cons c cs2 =>
      have hcn := hcs.1
      subst hcn
      obtain ⟨art2, t2, L2, hrun2, hE2, hp2, _⟩ := Append_node_spec P hP hP2 (c :: cs2) fuel art1 t1
        (Node.pfx c) tc hcs1 htc hsc hE1.live_last ht1 (hE1.count t1 hE1.mem_last)
        (fun x hx => by simp only [ART.count, hcs_seg1 x hx]; exact hcc x hx)
        (by simp only [List.length_cons] at hfuel ⊢; omega)
      have hE := Ext.trans hE1 hE2 (fun x hx hm => by
        rcases hE1.fresh x hx with e | e
        · exact hdisj tl htl_mem (e ▸ hm)
        · have := (hcs_live x hm).1; omega)
      rw [@flat_frame P art art1 (c :: cs2) (fun x hx => by rw [hcs_seg1 x hx])] at hE
      refine ⟨art2, t2, L1.dropLast ++ L2, ?_, hE, hp2 (by simp)⟩
      unfold Prefix.Concatenate
      simp only [hrp, Prefix.Get, hla, if_true, htail, hrun1, hrc1, hrun2, Option.map]
  obtain ⟨art2, t2, L2, hrun, hE, hptr⟩ := key
  obtain ⟨hch, hfl⟩ := hE.with_front hfrontch
    (fun x hx => ⟨fun e => htl_not_front (e ▸ hx), hdisj x (hfront_mem x hx)⟩) hptr
  refine ⟨art2, front ++ L2, hrun, ?_, hch, ?_, ?_, ?_⟩
  · exact hE.read_keep hvp (fun e => (hpslot tl e).1 htl_mem) (fun x e => (hpslot x e).2) hrp
  · obtain ⟨T, hT⟩ := hE.head
    rw [hT]; simp
  · rw [hfl, efront, flat_concat_last]
    simp
  · intro x hx
    rcases List.mem_append.1 hx with hx | hx
    · have hlx := (Chain.live hfrontch x hx)
      simp only [ART.count]
      rw [hE.seg x hlx.1 (fun e => htl_not_front (e ▸ hx))]
      exact hcp x (hfront_mem x hx)
    · exact hE.count x hx

/-- The two other branches of `Concatenate`: the parent reference names no Prefix node. The
chain built consists of fresh nodes; of what existed only the place `prefix_node` is written
and only the nodes of the child chain are freed. -/
theorem Concatenate_fresh (P : Nat) (hP : 0 < P) (hP2 : P < 256) (fuel : Nat) (art : ART)
    (prefix_node : Ref) (byte : Nat) (child : Ref) (pn cn tc : Node) (cs : List Nat)
    (hrp : art.read prefix_node = some pn) (hpn : pn.IsPrefix = false)
    (hrc : art.read child = some cn)
    (hcs : Chain art cn cs tc) (htc : tc.IsPrefix = false) (hsc : tc.IsSwizzled = false)
    (hcc : ∀ x ∈ cs, art.count P x ≤ P)
    (hpslot : ∀ b, prefix_node = Ref.ptr b → b ∉ cs)
    (hfuel : cs.length + P + 1 ≤ fuel) :
    ∃ art1 L, Prefix.Concatenate P fuel art prefix_node byte child = some art1 ∧
      art1.read prefix_node = some (Node.pfx art.next) ∧
      Chain art1 (Node.pfx art.next) L tc ∧ L ≠ [] ∧
      flat P art1 L = byte :: flat P art cs ∧ (∀ x ∈ L, art1.count P x ≤ P) ∧
      (∀ x, x < art.next → (art1.segments x).data = (art.segments x).data) ∧
      (∀ x, x < art.next → prefix_node ≠ Ref.ptr x →
        (art1.segments x).ptr = (art.segments x).ptr) ∧
      (∀ x, art.live x → x ∉ cs → art1.live x) ∧
      (∀ i, prefix_node ≠ Ref.var i → art1.vars i = art.vars i) := by
  have hvp : art.valid prefix_node := valid_of_read hrp
  have hcs_live := Chain.live hcs
  cases cs with
  | nil =>
    cases hcs
    obtain ⟨art1, hnew, hn1, hf1, _, hl1, hc1, hb1, hrd1, hp1, hd1, hpp1, hv1⟩ :=
      New_byte_spec P hP art prefix_node byte cn hvp
    refine ⟨art1, [art.next], ?_, hrd1, ⟨rfl, hl1, hp1⟩, by simp, by simp [flat, hb1], ?_,
      fun x hx => hd1 x (by omega), fun x hx hpx => hpp1 x (by omega) hpx,
      fun x hx _ => ⟨by rw [hn1]; have := hx.1; omega, by rw [hf1]; exact hx.2⟩, hv1⟩
    · unfold Prefix.Concatenate
      rw [hrp, hrc]
      cases pn with
      | pfx b => simp [Node.IsPrefix] at hpn
      | unset =>
        cases cn with
        | pfx c => simp [Node.IsPrefix] at htc
        | unset => simp [hnew]
        | inner id => simp [hnew]
        | swizzled b o => simp [hnew]
      | inner id2 =>
        cases cn with
        | pfx c => simp [Node.IsPrefix] at htc
        | unset => simp [hnew]
        | inner id => simp [hnew]
        | swizzled b o => simp [hnew]
      | swizzled b2 o2 =>
        cases cn with
        | pfx c => simp [Node.IsPrefix] at htc
        | unset => simp [hnew]
        | inner id => simp [hnew]
        | swizzled b o => simp [hnew]
    · intro x hx
      rw [List.mem_singleton.1 hx, hc1]; omega
  | cons c cs2 =>
    have hcn := hcs.1
    subst hcn
    obtain ⟨art1, hnew, hn1, hf1, _, hl1, hc1, hb1, hrd1, _, hd1, hpp1, hv1⟩ :=
      New_byte_spec P hP art prefix_node byte Node.unset hvp
    have hne_next : ∀ x ∈ c :: cs2, x ≠ art.next := fun x hx e => by
      have := (hcs_live x hx).1; omega
    have hseg_data : ∀ x ∈ c :: cs2, (art1.segments x).data = (art.segments x).data :=
      fun x hx => hd1 x (hne_next x hx)
    have hcs1 : Chain art1 (Node.pfx c) (c :: cs2) tc :=
      Chain.frame (fun x hx hl => ⟨⟨by rw [hn1]; have := hl.1; omega, by rw [hf1]; exact hl.2⟩,
        hpp1 x (hne_next x hx) (fun e => hpslot x e hx)⟩) hcs
    obtain ⟨art2, t2, L2, hrun2, hE2, hp2, _⟩ := Append_node_spec P hP hP2 (c :: cs2) fuel art1
      art.next (Node.pfx c) tc hcs1 htc hsc hl1 (fun hm => hne_next _ hm rfl) (by rw [hc1]; omega)
      (fun x hx => by simp only [ART.count, hseg_data x hx]; exact hcc x hx) hfuel
    have hv1' : art1.valid prefix_node := valid_of_read hrd1
    refine ⟨art2, L2, ?_, ?_, ?_, ?_, ?_, hE2.count, ?_, ?_, ?_, ?_⟩
    · unfold Prefix.Concatenate
      rw [hrp, hrc]
      cases pn with
      | pfx b => simp [Node.IsPrefix] at hpn
      | unset => simp [hnew, hrun2]
      | inner id2 => simp [hnew, hrun2]
      | swizzled b2 o2 => simp [hnew, hrun2]
    · refine hE2.read_keep hv1' ?_ (fun x e => hpslot x e) hrd1
      intro e
      rw [e] at hvp
      exact not_live_next art hvp
    · have := hE2.chain
      rw [hp2 (by simp)] at this
      exact this
    · obtain ⟨T, hT⟩ := hE2.head
      rw [hT]; simp
    · rw [hE2.flat_eq, hb1, @flat_frame P art art1 (c :: cs2) hseg_data]
      rfl
    · intro x hx
      have hxn : x ≠ art.next := by omega
      rw [hE2.seg x (by rw [hn1]; omega) hxn, hd1 x hxn]
    · intro x hx hpx
      have hxn : x ≠ art.next := by omega
      rw [hE2.seg x (by rw [hn1]; omega) hxn, hpp1 x hxn hpx]
    · intro x hx hxc
      exact hE2.live_keep ⟨by rw [hn1]; have := hx.1; omega, by rw [hf1]; exact hx.2⟩ hxc
    · intro i hi
      rw [hE2.vars, hv1 i hi]

/-- C7: `Concatenate(prefix_node, byte, child_prefix_node)`, called with a parent reference
that names a well-formed Prefix chain `ps` or (when `ps` is empty) a node that is not a
Prefix, and a child reference that names a well-formed Prefix chain `cs` or (when `cs` is
empty) a node that is not a Prefix, the two chains disjoint, returns; afterwards the parent
reference names a non-empty Prefix chain whose bytes are those of `ps`, then `byte`, then
those of `cs`, and which ends in the node `tc` the child chain ended in (the child itself
when it is not a Prefix). Neither reference needs to be set for this. -/
theorem C7_Concatenate_bytes (P : Nat) (hP : 0 < P) (hP2 : P < 256) (fuel : Nat) (art : ART)
    (prefix_node : Ref) (byte : Nat) (child : Ref) (pn cn tp tc : Node) (ps cs : List Nat)
    (hrp : art.read prefix_node = some pn) (hrc : art.read child = some cn)
    (hps : Chain art pn ps tp) (htp : tp.IsPrefix = false) (hsp : tp.IsSwizzled = false)
    (hcs : Chain art cn cs tc) (htc : tc.IsPrefix = false) (hsc : tc.IsSwizzled = false)
    (hcp : ∀ x ∈ ps, 1 ≤ art.count P x ∧ art.count P x ≤ P)
    (hcc : ∀ x ∈ cs, 1 ≤ art.count P x ∧ art.count P x ≤ P)
    (hdisj : ∀ x ∈ ps, x ∉ cs)
    (hpslot : ∀ b, prefix_node = Ref.ptr b → b ∉ ps ∧ b ∉ cs)
    (hcslot : ∀ b, child = Ref.ptr b → b ∉ ps)
    (hfuel : ps.length + cs.length + P + 1 ≤ fuel) :
    ∃ art1 n1 L, Prefix.Concatenate P fuel art prefix_node byte child = some art1 ∧
      art1.read prefix_node = some n1 ∧ Chain art1 n1 L tc ∧ L ≠ [] ∧
      flat P art1 L = flat P art ps ++ byte :: flat P art cs ∧ tc.IsPrefix = false := by
  cases ps with
  | nil =>
    cases hps
    obtain ⟨art1, L, h1, h2, h3, h4, h5, _⟩ := Concatenate_fresh P hP hP2 fuel art prefix_node byte
      child pn cn tc cs hrp htp hrc hcs htc hsc (fun x hx => (hcc x hx).2)
      (fun b e => (hpslot b e).2) (by simp at hfuel; omega)
    exact ⟨art1, _, L, h1, h2, h3, h4, by simpa [flat] using h5, htc⟩
  | cons a rest =>
    have hpn := hps.1
    subst hpn
    obtain ⟨art1, L, h1, h2, h3, h4, h5, _⟩ := Concatenate_onto_chain P hP hP2 fuel art
      prefix_node byte child a cn tp tc rest cs hrp hrc hps htp hsp hcs htc hsc
      (fun x hx => (hcp x hx).2) (fun x hx => (hcc x hx).2) hdisj hpslot hcslot hfuel
    exact ⟨art1, _, L, h1, h2, h3, h4, h5, htc⟩

theorem C7_witness :
    ∃ art1 n1 L, Prefix.Concatenate 4 8 scenario_node (Ref.var 1) 9 (Ref.var 0) = some art1 ∧
      art1.read (Ref.var 1) = some n1 ∧ Chain art1 n1 L (Node.inner 7) ∧ L ≠ [] ∧
      flat 4 art1 L = flat 4 scenario_node [2] ++ 9 :: flat 4 scenario_node [0, 1] ∧
      (Node.inner 7).IsPrefix = false :=
  C7_Concatenate_bytes 4 (by decide) (by decide) 8 scenario_node (Ref.var 1) 9 (Ref.var 0)
    (Node.pfx 2) (Node.pfx 0) Node.unset (Node.inner 7) [2] [0, 1] (by decide) (by decide)
    (by decide) rfl rfl (by decide) rfl rfl (by decide) (by decide) (by decide)
    (fun b e => by cases e) (fun b e => by cases e) (by decide)

theorem take_map_range (d : Nat → Nat) (p c : Nat) (h : p ≤ c) :
    ((List.range c).map d).take p = (List.range p).map d := by
  rw [← List.map_take]
  congr 1
  rw [List.take_range]
  congr 1
  omega

theorem drop_map_range (d : Nat → Nat) (p c : Nat) :
    ((List.range c).map d).drop p = (List.range (c - p)).map fun j => d (p + j) := by
  apply List.ext_getElem
  · simp
  · intro i h1 h2
    simp

/-- `Node::Free` on a reference to a Prefix node whose `ptr` was reset: the node is freed,
nothing below it is, and the reference is unset afterwards. -/
theorem Node_Free_detached (fuel : Nat) (art : ART) (r : Ref) (a : Nat)
    (hr : art.read r = some (Node.pfx a)) (hl : art.live a)
    (hp : (art.segments a).ptr = Node.unset) (hra : r ≠ Ref.ptr a) :
    ∃ art1, Node.Free (fuel + 2) art r = some art1 ∧ art1.next = art.next ∧
      art1.freed = a :: art.freed ∧ art1.released = art.released ∧
      art1.read r = some Node.unset ∧
      (∀ x, (art1.segments x).data = (art.segments x).data) ∧
      (∀ x, r ≠ Ref.ptr x → (art1.segments x).ptr = (art.segments x).ptr) ∧
      (∀ i, r ≠ Ref.var i → art1.vars i = art.vars i) := by
  obtain ⟨art2, hfree, hs2, hn2, hf2, hv2, hr2⟩ := allocFree_spec hl
  have hval : art2.valid r := by
    cases r with
    | var i => trivial
    | ptr b =>
      have hb : art.live b := valid_of_read hr
      have hba : b ≠ a := fun e => hra (by rw [e])
      exact ⟨by rw [hn2]; exact hb.1, by rw [hf2]; simp [hba, hb.2]⟩
  obtain ⟨art3, hw, hn3, hf3, hr3, hrd3, hd3, hp3, hvar3, _⟩ := write_spec Node.unset hval
  refine ⟨art3, ?_, by rw [hn3, hn2], by rw [hf3, hf2], by rw [hr3, hr2], hrd3, ?_, ?_, ?_⟩
  · have hinner : Node.Free (fuel + 1) art (Ref.ptr a) = some art := by
      unfold Node.Free
      simp only [ART.read, hl, if_true, hp]
    unfold Node.Free
    simp only [hr, Prefix.Get, hl, if_true, hinner, hfree, hw]
  · intro x; rw [hd3, hs2]
  · intro x hx; rw [hp3 x hx, hs2]
  · intro i hi; rw [hvar3 i hi, hv2]

theorem read_write_other {art art1 : ART} {r q : Ref} {n m : Node} (hw : art.write q m = some art1)
    (hne : r ≠ q) (hr : art.read r = some n) : art1.read r = some n := by
  have hvq : art.valid q := by
    cases q with
    | var i => trivial
    | ptr b =>
      simp only [ART.write] at hw
      by_contra hc
      have hc2 : ¬ art.live b := hc
      simp [hc2] at hw
  obtain ⟨art2, hw2, _, _, _, _, _, hp, hv, hl⟩ := write_spec m hvq
  rw [hw] at hw2
  injection hw2 with e
  subst e
  cases r with
  | var i =>
    simp only [ART.read] at hr ⊢
    rw [hv i (fun e => hne e.symm)]; exact hr
  | ptr b =>
    have hb : art.live b := valid_of_read hr
    simp only [ART.read, hb, (hl b).2 hb, if_true] at hr ⊢
    rw [hp b (fun e => hne e.symm)]; exact hr

/-- `Split` at the last slot of a full node (`position + 1 == PREFIX_SIZE`). -/
theorem Split_last_slot (P : Nat) (hP2 : P < 256) (fuel : Nat) (art : ART)
    (prefix_node child_node : Ref) (a p : Nat) (t : Node) (ss : List Nat)
    (hrp : art.read prefix_node = some (Node.pfx a))
    (hch : Chain art (Node.pfx a) (a :: ss) t) (ht : t.IsPrefix = false)
    (hcnt : ∀ x ∈ a :: ss, art.count P x ≤ P) (hp : p < art.count P a)
    (hvc : art.valid child_node) (hcp : child_node ≠ prefix_node)
    (hcslot : ∀ b, child_node = Ref.ptr b → b ∉ a :: ss)
    (hcase : p + 1 = P) :
    ∃ art1 r1 cn L, Prefix.Split P fuel art prefix_node child_node p = some (art1, r1) ∧
      SplitPost P art prefix_node child_node a p ss t art1 r1 cn L := by
  have hnd : a ∉ ss := (List.nodup_cons.1 (Chain.nodup hch ht)).1
  obtain ⟨_, hla, hss⟩ := hch
  have hss_ne : ∀ x ∈ ss, x ≠ a := fun x hx e => hnd (e ▸ hx)
  have hca : art.count P a = P := by
    have := hcnt a (List.mem_cons_self _ _); omega
  have hca2 : (art.segments a).data P = P := hca
  have hval : (art.setData a (Function.update (art.segments a).data P
      (((art.segments a).data P + 255) % 256))).valid child_node := by
    cases child_node with
    | var i => trivial
    | ptr b => exact hvc
  obtain ⟨art2, hw, hn2, hf2, _, hrd2, hd2, hp2, hv2, hl2⟩ :=
    write_spec (art.segments a).ptr hval
  have hmod : ((art.segments a).data P + 255) % 256 = p := by rw [hca2]; omega
  have hchild_a : child_node ≠ Ref.ptr a := fun e => hcslot a e (List.mem_cons_self _ _)
  have hss_live := Chain.live hss
  refine ⟨art2, Ref.ptr a, (art.segments a).ptr, ss, ?_, ?_⟩
  · unfold Prefix.Split
    simp only [hrp, Prefix.Get, hla, if_true, hcase, setData_ptr, hw]
  · exact
      { child_read := by rw [hrd2]
        child_chain := by
          refine @Chain.frame art art2 ss _ _ (fun x hx hl => ⟨(hl2 x).2 hl, ?_⟩) hss
          rw [hp2 x (fun e => hcslot x e (List.mem_cons_of_mem _ hx)), setData_ptr]
        child_flat := by
          have : ((art.segments a).bytes P).drop (p + 1) = [] := by
            apply List.drop_eq_nil_of_le
            rw [bytes_length, hca2]; omega
          rw [this, List.nil_append]
          apply flat_frame
          intro x hx
          rw [hd2, setData_segments_ne _ _ _ _ (hss_ne x hx)]
        child_count := fun x hx => by
          simp only [ART.count]
          rw [hd2, setData_segments_ne _ _ _ _ (hss_ne x hx)]
          exact hcnt x (List.mem_cons_of_mem _ hx)
        child_fresh := fun x hx => Or.inl hx
        child_pos := fun h x hx => by
          simp only [ART.count]
          rw [hd2, setData_segments_ne _ _ _ _ (hss_ne x hx)]
          exact h x hx
        unfolded := fun _ => ⟨rfl, rfl⟩
        data_a := by rw [hd2, setData_data_self, hmod]
        freed_case := fun h0 h1 => by omega
        kept_case := fun _ => by
          refine ⟨rfl, read_write_other hw (Ne.symm hcp) (by simpa [ART.read] using hrp), ?_, ?_⟩
          · exact (hl2 a).2 hla
          · rw [hp2 a hchild_a, setData_ptr]
        folded := fun _ h => absurd hcase h
        next_le := by rw [hn2]; exact Nat.le_refl _
        live_keep := fun x hx _ _ => (hl2 x).2 hx
        data_keep := fun x _ hxa => by rw [hd2, setData_segments_ne _ _ _ _ hxa]
        ptr_keep := fun x _ hxa _ hc => by
          rw [hp2 x hc, setData_segments_ne _ _ _ _ hxa]
        vars_keep := fun i hc _ => by rw [hv2 i hc]; rfl }

/-- A reference keeps its value when the place it names is not written. -/
theorem read_keep_of_frame {art art1 : ART} {r : Ref} {n : Node} (hr : art.read r = some n)
    (hlive : ∀ b, r = Ref.ptr b → art.live b → art1.live b)
    (hptr : ∀ b, r = Ref.ptr b → (art1.segments b).ptr = (art.segments b).ptr)
    (hvar : ∀ i, r = Ref.var i → art1.vars i = art.vars i) : art1.read r = some n := by
  cases r with
  | var i => simp only [ART.read] at hr ⊢; rw [hvar i rfl]; exact hr
  | ptr b =>
    have hb : art.live b := valid_of_read hr
    simp only [ART.read, hb, hlive b rfl hb, if_true] at hr ⊢
    rw [hptr b rfl]; exact hr

/-- The end of `Split` when the retained node is empty (lines 275-279). -/
theorem Split_free (fuel : Nat) (hfuel : 2 ≤ fuel) (art4 : ART) (prefix_node : Ref) (a : Nat)
    (D : Nat → Nat) (hrp4 : art4.read prefix_node = some (Node.pfx a)) (hl4 : art4.live a)
    (hpa : prefix_node ≠ Ref.ptr a) :
    ∃ art6, Node.Free fuel ((art4.setData a D).setPtr a Node.unset) prefix_node = some art6 ∧
      art6.next = art4.next ∧ art6.freed = a :: art4.freed ∧
      art6.read prefix_node = some Node.unset ∧ (art6.segments a).data = D ∧
      (∀ x, x ≠ a → (art6.segments x).data = (art4.segments x).data) ∧
      (∀ x, x ≠ a → prefix_node ≠ Ref.ptr x → (art6.segments x).ptr = (art4.segments x).ptr) ∧
      (∀ i, prefix_node ≠ Ref.var i → art6.vars i = art4.vars i) := by
  obtain ⟨f, rfl⟩ : ∃ f, fuel = f + 2 := ⟨fuel - 2, by omega⟩
  have hr : ((art4.setData a D).setPtr a Node.unset).read prefix_node = some (Node.pfx a) := by
    cases prefix_node with
    | var i => exact hrp4
    | ptr b =>
      have hb : art4.live b := valid_of_read hrp4
      have hba : b ≠ a := fun e => hpa (by rw [e])
      simp only [ART.read, hb, if_true] at hrp4
      simp only [ART.read, setPtr_live, setData_live, hb, if_true,
        setPtr_segments_ne _ _ _ _ hba, setData_segments_ne _ _ _ _ hba]
      exact hrp4
  obtain ⟨art6, h1, h2, h3, _, h5, h6, h7, h8⟩ := Node_Free_detached f
    ((art4.setData a D).setPtr a Node.unset) prefix_node a hr hl4 (by simp) hpa
  refine ⟨art6, h1, h2, h3, h5, ?_, ?_, ?_, h8⟩
  · rw [h6]; simp
  · intro x hx
    rw [h6, setPtr_data, setData_segments_ne _ _ _ _ hx]
  · intro x hx hpx
    rw [h7 x hpx, setPtr_segments_ne _ _ _ _ hx, setData_segments_ne _ _ _ _ hx]

/-- The end of `Split` (lines 271-283), from the memory `art4` in which the child has been
emitted and the node at `a` is as it was. -/
theorem Split_finish (P : Nat) (fuel : Nat) (hfuel : 2 ≤ fuel) (art art4 : ART)
    (prefix_node child_node : Ref) (a p : Nat) (t cn : Node) (ss L : List Nat)
    (hp256 : p < 256) (hcase : p + 1 ≠ P) (hla : art.live a) (hnd : a ∉ ss)
    (hcp : child_node ≠ prefix_node)
    (hca : child_node ≠ Ref.ptr a) (hpa : prefix_node ≠ Ref.ptr a)
    (hpslot : ∀ b, prefix_node = Ref.ptr b → b ∉ ss)
    (hvp : art.valid prefix_node)
    (hrun : Prefix.Split P fuel art prefix_node child_node p =
      if p = 0 then
        (Node.Free fuel ((art4.setData a (Function.update (art4.segments a).data P (p % 256))).setPtr
          a Node.unset) prefix_node).map fun art6 => (art6, prefix_node)
      else some (art4.setData a (Function.update (art4.segments a).data P (p % 256)), Ref.ptr a))
    (child_read4 : art4.read child_node = some cn) (child_chain4 : Chain art4 cn L t)
    (child_flat4 : flat P art4 L = ((art.segments a).bytes P).drop (p + 1) ++ flat P art ss)
    (child_count4 : ∀ x ∈ L, art4.count P x ≤ P)
    (child_fresh : ∀ x ∈ L, x ∈ ss ∨ art.next ≤ x)
    (child_pos4 : (∀ x ∈ ss, 1 ≤ art.count P x) → ∀ x ∈ L, 1 ≤ art4.count P x)
    (unfolded4 : (p + 1 = P ∨ ¬ p + 1 < art.count P a) → L = ss ∧ cn = (art.segments a).ptr)
    (a_seg4 : art4.segments a = art.segments a)
    (read_p4 : art4.read prefix_node = some (Node.pfx a)) (live_a4 : art4.live a)
    (folded4 : p + 1 < art.count P a → ∀ x ∈ ss, ¬ art4.live x)
    (next_le4 : art.next ≤ art4.next)
    (live_keep4 : ∀ x, art.live x → x ∉ ss → art4.live x)
    (data_keep4 : ∀ x, x < art.next → (art4.segments x).data = (art.segments x).data)
    (ptr_keep4 : ∀ x, x < art.next → child_node ≠ Ref.ptr x →
      (art4.segments x).ptr = (art.segments x).ptr)
    (vars_keep4 : ∀ i, child_node ≠ Ref.var i → art4.vars i = art.vars i) :
    ∃ art1 r1, Prefix.Split P fuel art prefix_node child_node p = some (art1, r1) ∧
      SplitPost P art prefix_node child_node a p ss t art1 r1 cn L := by
  have haL : ∀ x ∈ L, x ≠ a := by
    intro x hx e
    rcases child_fresh x hx with h | h
    · exact hnd (e ▸ h)
    · have := hla.1; omega
  have hpL : ∀ x ∈ L, prefix_node ≠ Ref.ptr x := by
    intro x hx e
    rcases child_fresh x hx with h | h
    · exact hpslot x e h
    · rw [e] at hvp
      have : x < art.next := hvp.1
      omega
  have hmod : p % 256 = p := Nat.mod_eq_of_lt hp256
  by_cases h0 : p = 0
  · -- the node is freed
    obtain ⟨art6, hfree, hn6, hf6, hrd6, hda6, hd6, hp6, hv6⟩ := Split_free fuel hfuel art4
      prefix_node a (Function.update (art4.segments a).data P (p % 256)) read_p4 live_a4 hpa
    have hlive6 : ∀ x, art4.live x → x ≠ a → art6.live x := fun x hx hxa =>
      ⟨by rw [hn6]; exact hx.1, by rw [hf6]; simp [hxa, hx.2]⟩
    refine ⟨art6, prefix_node, ?_, ?_⟩
    · rw [hrun]; simp only [h0, if_true]
      have := hfree
      simp only [h0] at this
      rw [this]; rfl
    · exact
        { child_read := read_keep_of_frame child_read4 (fun b e hb => hlive6 b hb
              (fun e2 => hca (by rw [e, e2])))
            (fun b e => hp6 b (fun e2 => hca (by rw [e, e2])) (fun e2 => hcp (by rw [e, e2])))
            (fun i e => hv6 i (fun e2 => hcp (by rw [e, e2])))
          child_chain := Chain.frame (fun x hx hl => ⟨hlive6 x hl (haL x hx),
            hp6 x (haL x hx) (hpL x hx)⟩) child_chain4
          child_flat := by
            rw [← child_flat4]
            exact flat_frame (fun x hx => hd6 x (haL x hx))
          child_count := fun x hx => by
            simp only [ART.count]
            rw [hd6 x (haL x hx)]
            exact child_count4 x hx
          child_fresh := child_fresh
          child_pos := fun h x hx => by
            simp only [ART.count]
            rw [hd6 x (haL x hx)]
            exact child_pos4 h x hx
          unfolded := unfolded4
          data_a := by rw [hda6, a_seg4, hmod]
          freed_case := fun _ _ => ⟨rfl, hrd6, fun hl => hl.2 (by rw [hf6]; simp)⟩
          kept_case := fun h => by omega
          folded := fun h _ x hx hl => folded4 h x hx
            ⟨by rw [← hn6]; exact hl.1, fun hm => hl.2 (by rw [hf6]; exact List.mem_cons_of_mem _ hm)⟩
          next_le := by rw [hn6]; exact next_le4
          live_keep := fun x hx hxa hxs => hlive6 x (live_keep4 x hx hxs) hxa
          data_keep := fun x hx hxa => by rw [hd6 x hxa, data_keep4 x hx]
          ptr_keep := fun x hx hxa hpx hcx => by rw [hp6 x hxa hpx, ptr_keep4 x hx hcx]
          vars_keep := fun i hci hpi => by rw [hv6 i hpi, vars_keep4 i hci] }
  · -- the node stays, shortened
    refine ⟨art4.setData a (Function.update (art4.segments a).data P (p % 256)), Ref.ptr a, ?_, ?_⟩
    · rw [hrun]; simp only [h0, if_false]
    · exact
        { child_read := read_keep_of_frame child_read4 (fun b _ hb => hb)
            (fun b _ => by rw [setData_ptr]) (fun i _ => rfl)
          child_chain := @Chain.frame art4 _ L _ _ (fun x hx hl => ⟨hl, by rw [setData_ptr]⟩)
            child_chain4
          child_flat := by
            rw [← child_flat4]
            exact flat_frame (fun x hx => by rw [setData_segments_ne _ _ _ _ (haL x hx)])
          child_count := fun x hx => by
            simp only [ART.count]
            rw [setData_segments_ne _ _ _ _ (haL x hx)]
            exact child_count4 x hx
          child_fresh := child_fresh
          child_pos := fun h x hx => by
            simp only [ART.count]
            rw [setData_segments_ne _ _ _ _ (haL x hx)]
            exact child_pos4 h x hx
          unfolded := unfolded4
          data_a := by rw [setData_data_self, a_seg4, hmod]
          freed_case := fun h => absurd h h0
          kept_case := fun _ => ⟨rfl, read_keep_of_frame read_p4 (fun b _ hb => hb)
            (fun b _ => by rw [setData_ptr]) (fun i _ => rfl), live_a4,
            by rw [setData_ptr, a_seg4]⟩
          folded := fun h _ x hx hl => folded4 h x hx hl
          next_le := next_le4
          live_keep := fun x hx _ hxs => live_keep4 x hx hxs
          data_keep := fun x hx hxa => by rw [setData_segments_ne _ _ _ _ hxa, data_keep4 x hx]
          ptr_keep := fun x hx _ _ hcx => by rw [setData_ptr, ptr_keep4 x hx hcx]
          vars_keep := fun i hci _ => vars_keep4 i hci }

/-- `Split` at the last byte of a node that is not full: the child is the successor. -/
theorem Split_last_byte (P : Nat) (hP2 : P < 256) (fuel : Nat) (hfuel : 2 ≤ fuel) (art : ART)
    (prefix_node child_node : Ref) (a p : Nat) (t : Node) (ss : List Nat)
    (hrp : art.read prefix_node = some (Node.pfx a))
    (hch : Chain art (Node.pfx a) (a :: ss) t) (ht : t.IsPrefix = false)
    (hcnt : ∀ x ∈ a :: ss, art.count P x ≤ P)
    (hvc : art.valid child_node) (hcp : child_node ≠ prefix_node)
    (hcslot : ∀ b, child_node = Ref.ptr b → b ∉ a :: ss)
    (hpslot : ∀ b, prefix_node = Ref.ptr b → b ∉ a :: ss)
    (hcase : p + 1 ≠ P) (hlast : p + 1 = art.count P a) :
    ∃ art1 r1 cn L, Prefix.Split P fuel art prefix_node child_node p = some (art1, r1) ∧
      SplitPost P art prefix_node child_node a p ss t art1 r1 cn L := by
  have hnd : a ∉ ss := (List.nodup_cons.1 (Chain.nodup hch ht)).1
  obtain ⟨_, hla, hss⟩ := hch
  have hss_ne : ∀ x ∈ ss, x ≠ a := fun x hx e => hnd (e ▸ hx)
  have hc2 : (p + 1 = (art.segments a).data P) ↔ True := iff_true_intro hlast
  have hc3 : p + 1 = (art.segments a).data P := hlast
  have hnlt : ¬ p + 1 < (art.segments a).data P := by omega
  have hca := hcnt a (List.mem_cons_self _ _)
  obtain ⟨art4, hw, hn4, hf4, _, hrd4, hd4, hp4, hv4, hl4⟩ := write_spec (art.segments a).ptr hvc
  have hchild_a : child_node ≠ Ref.ptr a := fun e => hcslot a e (List.mem_cons_self _ _)
  have hpref_a : prefix_node ≠ Ref.ptr a := fun e => (hpslot a e) (List.mem_cons_self _ _)
  have hseg_a : art4.segments a = art.segments a := by
    have h1 := hd4 a
    have h2 := hp4 a hchild_a
    cases hx : art4.segments a with
    | mk d q =>
      cases hy : art.segments a with
      | mk d2 q2 =>
        rw [hx, hy] at h1 h2
        simp only at h1 h2
        rw [h1, h2]
  obtain ⟨art1, r1, hrun, hpost⟩ := Split_finish P fuel hfuel art art4 prefix_node child_node a p t
    (art.segments a).ptr ss ss (by simp only [ART.count] at hca; omega) hcase hla hnd hcp hchild_a
    hpref_a (fun b e hb => hpslot b e (List.mem_cons_of_mem _ hb)) (valid_of_read hrp)
    (by
      unfold Prefix.Split
      simp only [hrp, Prefix.Get, hla, if_true, hcase, if_false, hnlt, hc2, hw, hseg_a]
      by_cases h0 : p = 0
      · simp only [h0, if_true]
        cases Node.Free fuel ((art4.setData a (Function.update (art.segments a).data P
          (0 % 256))).setPtr a Node.unset) prefix_node <;> rfl
      · simp only [h0, if_false])
    hrd4
    (Chain.frame (fun x hx hl => ⟨(hl4 x).2 hl,
      hp4 x (fun e => hcslot x e (List.mem_cons_of_mem _ hx))⟩) hss)
    (by
      have : ((art.segments a).bytes P).drop (p + 1) = [] := by
        apply List.drop_eq_nil_of_le
        rw [bytes_length]; omega
      rw [this, List.nil_append]
      exact flat_frame (fun x _ => hd4 x))
    (fun x hx => by
      simp only [ART.count]
      rw [hd4]
      exact hcnt x (List.mem_cons_of_mem _ hx))
    (fun x hx => Or.inl hx)
    (fun h x hx => by
      simp only [ART.count]
      rw [hd4]
      exact h x hx)
    (fun _ => ⟨rfl, rfl⟩)
    hseg_a (read_write_other hw (Ne.symm hcp) hrp) ((hl4 a).2 hla)
    (fun h => by omega)
    (by rw [hn4]) (fun x hx _ => (hl4 x).2 hx) (fun x _ => hd4 x)
    (fun x _ hc => hp4 x hc) (fun i hc => hv4 i hc)
  exact ⟨art1, r1, _, _, hrun, hpost⟩

theorem prefix_ext {p q : Prefix} (h1 : p.data = q.data) (h2 : p.ptr = q.ptr) : p = q := by
  cases p; cases q; simp only at h1 h2; rw [h1, h2]

/-- `Split` in the middle of a node: the bytes after the position go to a fresh node, onto
which the successor chain is folded. -/
theorem Split_middle (P : Nat) (hP : 0 < P) (hP2 : P < 256) (fuel : Nat) (art : ART)
    (prefix_node child_node : Ref) (a p : Nat) (t : Node) (ss : List Nat)
    (hrp : art.read prefix_node = some (Node.pfx a))
    (hch : Chain art (Node.pfx a) (a :: ss) t) (ht : t.IsPrefix = false)
    (hs : t.IsSwizzled = false)
    (hcnt : ∀ x ∈ a :: ss, art.count P x ≤ P)
    (hvc : art.valid child_node) (hcp : child_node ≠ prefix_node)
    (hcslot : ∀ b, child_node = Ref.ptr b → b ∉ a :: ss)
    (hpslot : ∀ b, prefix_node = Ref.ptr b → b ∉ a :: ss)
    (hcase : p + 1 ≠ P) (hlt : p + 1 < art.count P a)
    (hfuel : ss.length + P + 2 ≤ fuel) :
    ∃ art1 r1 cn L, Prefix.Split P fuel art prefix_node child_node p = some (art1, r1) ∧
      SplitPost P art prefix_node child_node a p ss t art1 r1 cn L := by
  have hnd : a ∉ ss := (List.nodup_cons.1 (Chain.nodup hch ht)).1
  obtain ⟨_, hla, hss⟩ := hch
  have hss_live := Chain.live hss
  have hca := hcnt a (List.mem_cons_self _ _)
  have hlt2 : p + 1 < (art.segments a).data P := hlt
  have hchild_a : child_node ≠ Ref.ptr a := fun e => hcslot a e (List.mem_cons_self _ _)
  have hpref_a : prefix_node ≠ Ref.ptr a := fun e => (hpslot a e) (List.mem_cons_self _ _)
  have hvp : art.valid prefix_node := valid_of_read hrp
  -- the fresh node
  obtain ⟨art0, hnew, hn0, hf0, hr0, hl0, hc0, hrd0, _, hd0, hp0, hv0⟩ :=
    New_spec P art child_node hvc
  have hlive0 : ∀ x, art.live x → art0.live x := fun x hx =>
    ⟨by rw [hn0]; have := hx.1; omega, by rw [hf0]; exact hx.2⟩
  have hne_next : ∀ x, art.live x → x ≠ art.next := fun x hx e => by
    have := hx.1; omega
  have hseg0 : ∀ x, art.live x → child_node ≠ Ref.ptr x → art0.segments x = art.segments x :=
    fun x hx hc => prefix_ext (hd0 x (hne_next x hx)) (hp0 x hc)
  have hseg0a : art0.segments a = art.segments a := hseg0 a hla hchild_a
  -- the bytes after the position
  obtain ⟨art2, c1, L1, hrunb, hE1, _, hpos1⟩ := Append_bytes_spec P hP hP2 a
    ((art.segments a).data P - (p + 1)) fuel art0 art.next (p + 1)
    (by simp only [ART.count] at hca; omega) hl0 (by rw [hc0]; omega) (hne_next a hla)
    (by rw [hn0]; have := hla.1; omega)
    (by simp only [ART.count, hseg0a]; omega) (by simp only [ART.count, hseg0a]; exact hca)
  rw [hseg0a] at hE1
  have hpos2 : 1 ≤ art2.count P c1 := hpos1 (by omega)
  have hseg2 : ∀ x, art.live x → child_node ≠ Ref.ptr x → art2.segments x = art.segments x :=
    fun x hx hc => by
      rw [hE1.seg x (by rw [hn0]; have := hx.1; omega) (hne_next x hx), hseg0 x hx hc]
  have hseg2a : art2.segments a = art.segments a := hseg2 a hla hchild_a
  have hss_child : ∀ x ∈ ss, child_node ≠ Ref.ptr x := fun x hx e =>
    hcslot x e (List.mem_cons_of_mem _ hx)
  have hc1 : c1 ∉ ss := by
    intro hm
    rcases hE1.last_cases with e | e
    · exact hne_next c1 (hss_live c1 hm) e
    · have := (hss_live c1 hm).1; rw [hn0] at e; omega
  -- the successor chain, folded or attached
  have key : ∃ art3 c2 L,
      (if (art2.segments a).ptr.IsPrefix then
        (Prefix.Append_node P fuel art2 c1 (art2.segments a).ptr).map Prod.fst
      else if art2.live c1 then some (art2.setPtr c1 (art2.segments a).ptr)
      else none) = some art3 ∧
      Ext P art0 art.next ((art.segments a).bytesFrom (p + 1) ((art.segments a).data P - (p + 1))
        ++ flat P art ss) ss art3 c2 L ∧ (art3.segments c2).ptr = t ∧
      1 ≤ art3.count P c2 := by
    rw [hseg2a]
    cases ss with
    | nil =>
      cases hss
      obtain ⟨hE2, hptr2⟩ := hE1.set_ptr (art.segments a).ptr
      refine ⟨art2.setPtr c1 (art.segments a).ptr, c1, L1, ?_, by simpa [flat] using hE2, hptr2,
        by simpa [ART.count, ART.setPtr, ART.setPfx] using hpos2⟩
      simp only [ht, Bool.false_eq_true, if_false, hE1.live_last, if_true]
    | cons s0 ss2 =>
      have hq := hss.1
      have hss2 : Chain art2 (Node.pfx s0) (s0 :: ss2) t := by
        rw [← hq]
        exact Chain.frame (fun x hx hl => ⟨hE1.live_keep (hlive0 x hl) (by simp),
          by rw [hseg2 x hl (hss_child x hx)]⟩) hss
      obtain ⟨art3, c2, L2, hrunn, hE2, hp2, _⟩ := Append_node_spec P hP hP2 (s0 :: ss2) fuel
        art2 c1 (Node.pfx s0) t hss2 ht hs hE1.live_last hc1 (hE1.count c1 hE1.mem_last)
        (fun x hx => by
          simp only [ART.count, hseg2 x (hss_live x hx) (hss_child x hx)]
          exact hcnt x (List.mem_cons_of_mem _ hx))
        (by omega)
      have hE := Ext.trans hE1 hE2 (fun x hx hm => by
        rcases hE1.fresh x hx with e | e
        · exact hne_next x (hss_live x hm) e
        · have := (hss_live x hm).1; rw [hn0] at e; omega)
      rw [@flat_frame P art art2 (s0 :: ss2)
        (fun x hx => by rw [hseg2 x (hss_live x hx) (hss_child x hx)])] at hE
      refine ⟨art3, c2, L1.dropLast ++ L2, ?_, hE, hp2 (by simp),
        Append_node_pos P hP hP2 fuel art2 c1 _ art3 c2 hrunn hpos2⟩
      rw [hq]
      simp only [Node.IsPrefix, if_true, hrunn, Option.map]
  obtain ⟨art3, c2, L, hstep, hE, hptr, hpos3⟩ := key
  have hseg3 : ∀ x, art.live x → child_node ≠ Ref.ptr x → art3.segments x = art.segments x :=
    fun x hx hc => by
      rw [hE.seg x (by rw [hn0]; have := hx.1; omega) (hne_next x hx), hseg0 x hx hc]
  have hseg3a : art3.segments a = art.segments a := hseg3 a hla hchild_a
  have hv0c : art0.valid child_node := valid_of_read hrd0
  have hrp0 : art0.read prefix_node = some (Node.pfx a) :=
    read_keep_of_frame hrp (fun b _ hb => hlive0 b hb)
      (fun b e => hp0 b (fun e2 => hcp (by rw [e, e2])))
      (fun i e => hv0 i (fun e2 => hcp (by rw [e, e2])))
  have hne3 : ¬ p + 1 = (art.segments a).data P := by omega
  obtain ⟨art1, r1, hrun, hpost⟩ := Split_finish P fuel (by omega) art art3 prefix_node child_node
    a p t (Node.pfx art.next) ss L (by simp only [ART.count] at hca; omega) hcase hla hnd hcp
    hchild_a hpref_a (fun b e hb => hpslot b e (List.mem_cons_of_mem _ hb)) hvp
    (by
      unfold Prefix.Split
      simp only [hrp, Prefix.Get, hla, if_true, hcase, if_false, hlt2, hnew, hrunb, hstep,
        hseg3a, hne3]
      by_cases h0 : p = 0
      · simp only [h0, if_true]
        cases Node.Free fuel ((art3.setData a (Function.update (art.segments a).data P
          (0 % 256))).setPtr a Node.unset) prefix_node <;> rfl
      · simp only [h0, if_false])
    (hE.read_keep hv0c (fun e => by
        rw [e] at hvc
        exact not_live_next art hvc)
      (fun x e hx => hss_child x hx e) hrd0)
    (by have := hE.chain; rw [hptr] at this; exact this)
    (by
      rw [hE.flat_eq]
      have h1 : (art0.segments art.next).bytes P = [] := by
        simp only [Prefix.bytes]
        simp only [ART.count] at hc0
        rw [hc0]; rfl
      rw [h1, List.nil_append]
      congr 1
      simp only [Prefix.bytes, Prefix.bytesFrom]
      rw [drop_map_range])
    hE.count
    (fun x hx => by
      rcases hE.fresh x hx with e | e
      · exact Or.inr (by omega)
      · exact Or.inr (by rw [hn0] at e; omega))
    (fun _ x hx => (hE.bounds hP hpos3 x hx).1)
    (fun h => by
      exfalso
      rcases h with h | h
      · exact hcase h
      · exact h hlt)
    hseg3a
    (hE.read_keep (valid_of_read hrp0) (fun e => by
        rw [e] at hvp
        exact not_live_next art hvp)
      (fun x e hx => hpslot x e (List.mem_cons_of_mem _ hx)) hrp0)
    (hE.live_keep (hlive0 a hla) hnd)
    (fun _ x hx => hE.dead_not_live hx)
    (by have := hE.next_le; rw [hn0] at this; omega)
    (fun x hx hxs => hE.live_keep (hlive0 x hx) hxs)
    (fun x hx => by
      have hxn : x ≠ art.next := by omega
      rw [hE.seg x (by rw [hn0]; omega) hxn, hd0 x hxn])
    (fun x hx hc => by
      have hxn : x ≠ art.next := by omega
      rw [hE.seg x (by rw [hn0]; omega) hxn, hp0 x hc])
    (fun i hc => by rw [hE.vars, hv0 i hc])
  exact ⟨art1, r1, _, _, hrun, hpost⟩

/-- `Split(prefix_node, child_node, position)` on a node of a chain, all cases. -/
theorem Split_spec (P : Nat) (hP : 0 < P) (hP2 : P < 256) (fuel : Nat) (art : ART)
    (prefix_node child_node : Ref) (a p : Nat) (t : Node) (ss : List Nat)
    (hrp : art.read prefix_node = some (Node.pfx a))
    (hch : Chain art (Node.pfx a) (a :: ss) t) (ht : t.IsPrefix = false)
    (hs : t.IsSwizzled = false)
    (hcnt : ∀ x ∈ a :: ss, art.count P x ≤ P) (hp : p < art.count P a)
    (hvc : art.valid child_node) (hcp : child_node ≠ prefix_node)
    (hcslot : ∀ b, child_node = Ref.ptr b → b ∉ a :: ss)
    (hpslot : ∀ b, prefix_node = Ref.ptr b → b ∉ a :: ss)
    (hfuel : ss.length + P + 2 ≤ fuel) :
    ∃ art1 r1 cn L, Prefix.Split P fuel art prefix_node child_node p = some (art1, r1) ∧
      SplitPost P art prefix_node child_node a p ss t art1 r1 cn L := by
  by_cases h1 : p + 1 = P
  · exact Split_last_slot P hP2 fuel art prefix_node child_node a p t ss hrp hch ht hcnt hp hvc hcp
      hcslot h1
  · by_cases h2 : p + 1 < art.count P a
    · exact Split_middle P hP hP2 fuel art prefix_node child_node a p t ss hrp hch ht hs hcnt hvc
        hcp hcslot hpslot h1 h2 hfuel
    · exact Split_last_byte P hP2 fuel (by omega) art prefix_node child_node a p t ss hrp hch ht
        hcnt hvc hcp hcslot hpslot h1 (by omega)

theorem bytes_after_cut (P : Nat) (d : Nat → Nat) (q : Node) (p : Nat) (hp : p < P) (q2 : Node)
    (hc : p ≤ d P) :
    Prefix.bytes P ⟨Function.update d P p, q2⟩ = (Prefix.bytes P ⟨d, q⟩).take p := by
  simp only [Prefix.bytes, Function.update_same]
  rw [take_map_range _ _ _ hc]
  apply List.map_congr_left
  intro j hj
  have := List.mem_range.1 hj
  have : j ≠ P := by omega
  simp [Function.update_apply, this]

theorem bytes_split_at (P : Nat) (pr : Prefix) (p : Nat) (hp : p < pr.data P) :
    pr.bytes P = (pr.bytes P).take p ++ pr.data p :: (pr.bytes P).drop (p + 1) := by
  have hlen : p < (pr.bytes P).length := by rw [bytes_length]; exact hp
  conv_lhs => rw [← List.take_append_drop p (pr.bytes P)]
  congr 1
  rw [List.drop_eq_getElem_cons hlen]
  congr 1
  simp [Prefix.bytes]

/-- C5: `Split(prefix_node, child_node, p)` on a Prefix node with count `c > p`, bytes `b` and
a well-formed successor chain `ss` ending in `t` returns; afterwards the node holds exactly
`b[0 .. p)` (and is live when `p > 0`), the child reference names a chain that holds
`b[p+1 .. c)` followed by the bytes of `ss` and ends in `t`, not a Prefix; the byte `b[p]` is
in neither: the old bytes are the retained bytes, then `b[p]`, then the child's bytes. -/
theorem C5_Split_parts (P : Nat) (hP : 0 < P) (hP2 : P < 256) (fuel : Nat) (art : ART)
    (prefix_node child_node : Ref) (a p : Nat) (t : Node) (ss : List Nat)
    (hrp : art.read prefix_node = some (Node.pfx a))
    (hwf : WfChain P art (Node.pfx a) (a :: ss) t) (hp : p < art.count P a)
    (hvc : art.valid child_node) (hcp : child_node ≠ prefix_node)
    (hcslot : ∀ b, child_node = Ref.ptr b → b ∉ a :: ss)
    (hpslot : ∀ b, prefix_node = Ref.ptr b → b ∉ a :: ss)
    (hfuel : ss.length + P + 2 ≤ fuel) :
    ∃ art1 r1 cn L, Prefix.Split P fuel art prefix_node child_node p = some (art1, r1) ∧
      (art1.segments a).bytes P = ((art.segments a).bytes P).take p ∧ (0 < p → art1.live a) ∧
      art1.read child_node = some cn ∧ Chain art1 cn L t ∧ t.IsPrefix = false ∧
      flat P art1 L = ((art.segments a).bytes P).drop (p + 1) ++ flat P art ss ∧
      (art.segments a).bytes P ++ flat P art ss =
        (art1.segments a).bytes P ++ (art.segments a).data p :: flat P art1 L := by
  obtain ⟨hch, _, hcnt, ht, hs⟩ := hwf
  obtain ⟨art1, r1, cn, L, hrun, hpost⟩ := Split_spec P hP hP2 fuel art prefix_node child_node a p t
    ss hrp hch ht hs (fun x hx => (hcnt x hx).2) hp hvc hcp hcslot hpslot hfuel
  have hca := (hcnt a (List.mem_cons_self _ _)).2
  simp only [ART.count] at hca hp
  have hbytes : (art1.segments a).bytes P = ((art.segments a).bytes P).take p := by
    have := bytes_after_cut P (art.segments a).data (art.segments a).ptr p (by omega)
      (art1.segments a).ptr (by omega)
    rw [← hpost.data_a] at this
    exact this
  refine ⟨art1, r1, cn, L, hrun, hbytes, fun h => (hpost.kept_case (Or.inl h)).2.2.1,
    hpost.child_read, hpost.child_chain, ht, hpost.child_flat, ?_⟩
  rw [hbytes, hpost.child_flat]
  conv_lhs => rw [bytes_split_at P (art.segments a) p hp]
  simp

theorem C5_witness :
    ∃ art1 r1 cn L, Prefix.Split 4 7 scenario (Ref.var 0) (Ref.var 1) 1 = some (art1, r1) ∧
      (art1.segments 0).bytes 4 = ((scenario.segments 0).bytes 4).take 1 ∧ (0 < 1 → art1.live 0) ∧
      art1.read (Ref.var 1) = some cn ∧ Chain art1 cn L (Node.inner 7) ∧
      (Node.inner 7).IsPrefix = false ∧
      flat 4 art1 L = ((scenario.segments 0).bytes 4).drop (1 + 1) ++ flat 4 scenario [1] ∧
      (scenario.segments 0).bytes 4 ++ flat 4 scenario [1] =
        (art1.segments 0).bytes 4 ++ (scenario.segments 0).data 1 :: flat 4 art1 L :=
  C5_Split_parts 4 (by decide) (by decide) 7 scenario (Ref.var 0) (Ref.var 1) 0 1 (Node.inner 7)
    [1] (by decide) (by decide) (by decide) trivial (by decide) (fun b e => by cases e)
    (fun b e => by cases e) (by decide)

/-- `Split` followed by `Concatenate` through the reference `Split` hands back, seen from
the reference that was passed to `Split`. -/
theorem Split_Concatenate_core (P : Nat) (hP : 0 < P) (hP2 : P < 256) (fuel : Nat) (art : ART)
    (prefix_node child_node : Ref) (a p : Nat) (t : Node) (ss : List Nat)
    (hrp : art.read prefix_node = some (Node.pfx a))
    (hch : Chain art (Node.pfx a) (a :: ss) t) (ht : t.IsPrefix = false)
    (hs : t.IsSwizzled = false)
    (hcnt : ∀ x ∈ a :: ss, art.count P x ≤ P) (hp : p < art.count P a)
    (hscope : (p = 0 ∧ 2 ≤ P) ∨ ss = [])
    (hvc : art.valid child_node) (hcp : child_node ≠ prefix_node)
    (hcslot : ∀ b, child_node = Ref.ptr b → b ∉ a :: ss)
    (hpslot : ∀ b, prefix_node = Ref.ptr b → b ∉ a :: ss)
    (hfuel : ss.length + P + 2 ≤ fuel) :
    ∃ art1 r1, Prefix.Split P fuel art prefix_node child_node p = some (art1, r1) ∧
      ∃ N, ∀ f2, N ≤ f2 → ∃ art2 n1 Lf,
        Prefix.Concatenate P f2 art1 r1 ((art.segments a).data p) child_node = some art2 ∧
        art2.read prefix_node = some n1 ∧ Chain art2 n1 Lf t ∧
        flat P art2 Lf = (art.segments a).bytes P ++ flat P art ss ∧
        (∀ x, art.live x → x ≠ a → x ∉ ss → art2.live x) ∧
        (∀ x, x < art.next → x ≠ a → (art2.segments x).data = (art.segments x).data) ∧
        (∀ x, x < art.next → x ≠ a → prefix_node ≠ Ref.ptr x → child_node ≠ Ref.ptr x →
          (art2.segments x).ptr = (art.segments x).ptr) ∧
        (∀ i, child_node ≠ Ref.var i → prefix_node ≠ Ref.var i → art2.vars i = art.vars i) := by
  have hnd : a ∉ ss := (List.nodup_cons.1 (Chain.nodup hch ht)).1
  have hla : art.live a := hch.2.1
  have hca := hcnt a (List.mem_cons_self _ _)
  have hvp : art.valid prefix_node := valid_of_read hrp
  have hpref_a : prefix_node ≠ Ref.ptr a := fun e => (hpslot a e) (List.mem_cons_self _ _)
  obtain ⟨art1, r1, cn, L, hrun, hpost⟩ := Split_spec P hP hP2 fuel art prefix_node child_node a p t
    ss hrp hch ht hs hcnt hp hvc hcp hcslot hpslot hfuel
  have haL : a ∉ L := by
    intro hm
    rcases hpost.child_fresh a hm with h | h
    · exact hnd h
    · have := hla.1; omega
  have hold : ∀ x, x < art.next → x ∉ ss → x ∉ L := by
    intro x hx hxs hm
    rcases hpost.child_fresh x hm with h | h
    · exact hxs h
    · omega
  simp only [ART.count] at hca hp
  have hbytes : (art1.segments a).bytes P = ((art.segments a).bytes P).take p := by
    have := bytes_after_cut P (art.segments a).data (art.segments a).ptr p (by omega)
      (art1.segments a).ptr (by omega)
    rw [← hpost.data_a] at this
    exact this
  refine ⟨art1, r1, hrun, L.length + P + 1, fun f2 hf2 => ?_⟩
  by_cases hfreed : p = 0 ∧ P ≠ 1
  · -- the node was freed; the reference is unset and gets a fresh chain
    obtain ⟨hr1, hrd1, _⟩ := hpost.freed_case hfreed.1 hfreed.2
    obtain ⟨art2, Lf, hc1, hc2, hc3, _, hc5, _, hF1, hF2, hF3, hF4⟩ := Concatenate_fresh P hP hP2 f2
      art1 prefix_node ((art.segments a).data p) child_node Node.unset cn t L hrd1 rfl
      hpost.child_read hpost.child_chain ht hs hpost.child_count
      (fun b e => hold b (by rw [e] at hvp; exact hvp.1)
        (fun h => hpslot b e (List.mem_cons_of_mem _ h))) hf2
    refine ⟨art2, _, Lf, by rw [hr1]; exact hc1, hc2, hc3, ?_, ?_, ?_, ?_, ?_⟩
    · rw [hc5, hpost.child_flat]
      conv_rhs => rw [bytes_split_at P (art.segments a) p hp]
      simp [hfreed.1]
    · intro x hx hxa hxs
      exact hF3 x (hpost.live_keep x hx hxa hxs) (hold x hx.1 hxs)
    · intro x hx hxa
      rw [hF1 x (Nat.lt_of_lt_of_le hx hpost.next_le), hpost.data_keep x hx hxa]
    · intro x hx hxa hpx hcx
      rw [hF2 x (Nat.lt_of_lt_of_le hx hpost.next_le) hpx, hpost.ptr_keep x hx hxa hpx hcx]
    · intro i hci hpi
      rw [hF4 i hpi, hpost.vars_keep i hci hpi]
  · -- the node stays; its `ptr`, the reference handed back, gets the fresh chain
    have hkept : 0 < p ∨ P = 1 := by omega
    have hss : ss = [] := by
      rcases hscope with h | h
      · omega
      · exact h
    subst hss
    obtain ⟨hr1, hrd1, hl1, hptr1⟩ := hpost.kept_case hkept
    have hpt : (art.segments a).ptr = t := by
      have := hch.2.2
      exact this
    have hrda : art1.read (Ref.ptr a) = some t := by
      simp only [ART.read, hl1, if_true, hptr1, hpt]
    obtain ⟨art2, Lf, hc1, hc2, hc3, _, hc5, _, hF1, hF2, hF3, hF4⟩ := Concatenate_fresh P hP hP2 f2
      art1 (Ref.ptr a) ((art.segments a).data p) child_node t cn t L hrda ht
      hpost.child_read hpost.child_chain ht hs hpost.child_count
      (fun b e => by injection e with e; rw [← e]; exact haL) hf2
    have hl2 : art2.live a := hF3 a hl1 haL
    have hptr2 : (art2.segments a).ptr = Node.pfx art1.next := by
      simp only [ART.read, hl2, if_true, Option.some.injEq] at hc2
      exact hc2
    have hlt1 : a < art1.next := hl1.1
    refine ⟨art2, Node.pfx a, a :: Lf, by rw [hr1]; exact hc1, ?_, ?_, ?_, ?_, ?_, ?_, ?_⟩
    · exact read_keep_of_frame hrd1 (fun b e hb => hF3 b hb (fun hm => by
          have hb0 : art.live b := by rw [e] at hvp; exact hvp
          exact hold b hb0.1 (by simp) hm))
        (fun b e => hF2 b (by
          have hb0 : art.live b := by rw [e] at hvp; exact hvp
          exact Nat.lt_of_lt_of_le hb0.1 hpost.next_le)
          (fun e2 => hpref_a (by rw [e]; exact e2.symm)))
        (fun i _ => hF4 i (by simp))
    · exact ⟨rfl, hl2, by rw [hptr2]; exact hc3⟩
    · simp only [flat, List.append_nil]
      rw [hc5, hpost.child_flat]
      have : (art2.segments a).bytes P = (art1.segments a).bytes P := by
        simp only [Prefix.bytes]
        rw [hF1 a hlt1]
      rw [this, hbytes]
      conv_rhs => rw [bytes_split_at P (art.segments a) p hp]
      simp [flat]
    · intro x hx hxa hxs
      exact hF3 x (hpost.live_keep x hx hxa hxs) (hold x hx.1 hxs)
    · intro x hx hxa
      rw [hF1 x (Nat.lt_of_lt_of_le hx hpost.next_le), hpost.data_keep x hx hxa]
    · intro x hx hxa hpx hcx
      rw [hF2 x (Nat.lt_of_lt_of_le hx hpost.next_le) (fun e => hxa (by injection e with e; exact e.symm)),
        hpost.ptr_keep x hx hxa hpx hcx]
    · intro i hci hpi
      rw [hF4 i (by simp), hpost.vars_keep i hci hpi]

/-- C4 (amended): take a well-formed Prefix chain `front ++ a :: ss` named by the reference
`root`, a node `a` of it and a position `p` below its count, such that `p = 0` (capacity at
least 2) or `a` is the last Prefix node of the chain. `Split` of that node, through the
reference that names it, returns, and `Concatenate` through the reference `Split` hands
back, with the discarded byte and the emitted child, returns for every sufficient fuel;
afterwards `root` names a chain that ends in the same node and whose flattened bytes are
those of the original chain. -/
theorem C4_Split_Concatenate_roundtrip (P : Nat) (hP : 0 < P) (hP2 : P < 256) (fuel : Nat)
    (art : ART) (root prefix_node child_node : Ref) (head : Node) (front : List Nat)
    (a p : Nat) (t : Node) (ss : List Nat)
    (hroot : art.read root = some head)
    (hwf : WfChain P art head (front ++ a :: ss) t)
    (hslot : (front = [] ∧ prefix_node = root) ∨
      (∃ b, front.getLast? = some b ∧ prefix_node = Ref.ptr b))
    (hp : p < art.count P a)
    (hscope : (p = 0 ∧ 2 ≤ P) ∨ ss = [])
    (hvc : art.valid child_node) (hcr : child_node ≠ root)
    (hcslot : ∀ b, child_node = Ref.ptr b → b ∉ front ++ a :: ss)
    (hrslot : ∀ b, root = Ref.ptr b → b ∉ front ++ a :: ss)
    (hfuel : ss.length + P + 2 ≤ fuel) :
    ∃ art1 r1, Prefix.Split P fuel art prefix_node child_node p = some (art1, r1) ∧
      ∃ N, ∀ f2, N ≤ f2 → ∃ art2 head2 L2,
        Prefix.Concatenate P f2 art1 r1 ((art.segments a).data p) child_node = some art2 ∧
        art2.read root = some head2 ∧ Chain art2 head2 L2 t ∧
        flat P art2 L2 = flat P art (front ++ a :: ss) := by
  obtain ⟨hch, _, hcnt, ht, hs⟩ := hwf
  have hnd : (front ++ a :: ss).Nodup := Chain.nodup hch ht
  obtain ⟨m, hfront, hrest⟩ := Chain.split hch
  have hm : m = Node.pfx a := hrest.1
  subst hm
  have hfront_live := Chain.live hfront
  have hfront_a : ∀ x ∈ front, x ≠ a ∧ x ∉ ss := fun x hx => by
    have := (List.nodup_append.1 hnd).2.2
    exact ⟨fun e => this hx (by rw [e]; exact List.mem_cons_self _ _),
      fun h => this hx (List.mem_cons_of_mem _ h)⟩
  -- the reference passed to `Split` names the node
  have hrp : art.read prefix_node = some (Node.pfx a) := by
    rcases hslot with ⟨h1, h2⟩ | ⟨b, h1, h2⟩
    · subst h1; cases hfront; rw [h2]; exact hroot
    · obtain ⟨f2, e⟩ := getLast?_eq_some_iff_append h1
      rw [e] at hfront
      obtain ⟨_, hlb, hpb⟩ := Chain.last_ptr hfront
      rw [h2]
      simp only [ART.read, hlb, if_true, ← hpb]
  have hcp : child_node ≠ prefix_node := by
    rcases hslot with ⟨_, h2⟩ | ⟨b, h1, h2⟩
    · rw [h2]; exact hcr
    · intro e
      obtain ⟨f2, e2⟩ := getLast?_eq_some_iff_append h1
      exact hcslot b (e.trans h2) (List.mem_append_left _ (by rw [e2]; simp))
  have hpslot : ∀ b, prefix_node = Ref.ptr b → b ∉ a :: ss := by
    intro b e
    rcases hslot with ⟨_, h2⟩ | ⟨b2, h1, h2⟩
    · exact fun h => hrslot b (h2 ▸ e) (List.mem_append_right _ h)
    · have : b = b2 := by
        have := e.symm.trans h2
        injection this
      subst this
      obtain ⟨f2, e2⟩ := getLast?_eq_some_iff_append h1
      have hb : b ∈ front := by rw [e2]; simp
      intro h
      exact (List.nodup_append.1 hnd).2.2 hb h
  obtain ⟨art1, r1, hrun, N, hN⟩ := Split_Concatenate_core P hP hP2 fuel art prefix_node child_node
    a p t ss hrp hrest ht hs (fun x hx => (hcnt x (List.mem_append_right _ hx)).2) hp hscope hvc hcp
    (fun b e h => hcslot b e (List.mem_append_right _ h)) hpslot hfuel
  refine ⟨art1, r1, hrun, N, fun f2 hf2 => ?_⟩
  obtain ⟨art2, n1, Lf, hcon, hrd2, hch2, hfl2, hG1, hG2, hG3, hG4⟩ := hN f2 hf2
  rcases hslot with ⟨h1, h2⟩ | ⟨b, h1, h2⟩
  · -- the node heads the chain
    subst h1
    refine ⟨art2, n1, Lf, hcon, by rw [← h2]; exact hrd2, hch2, by rw [hfl2]; rfl⟩
  · -- the node follows the nodes `front`, the last of which holds the reference
    obtain ⟨f2', e2⟩ := getLast?_eq_some_iff_append h1
    have hb : b ∈ front := by rw [e2]; simp
    have hfnd : front.Nodup := (List.nodup_append.1 hnd).1
    have hlb2 : art2.live b := hG1 b (hfront_live b hb) (hfront_a b hb).1 (hfront_a b hb).2
    have hptr_b : (art2.segments b).ptr = n1 := by
      rw [h2] at hrd2
      simp only [ART.read, hlb2, if_true, Option.some.injEq] at hrd2
      exact hrd2
    have hfront2 : Chain art2 head front n1 := by
      refine Chain.set_last hfront h1 hfnd (fun x hx hxb => ?_)
        (fun x hx hl => hG1 x hl (hfront_a x hx).1 (hfront_a x hx).2) hptr_b
      have hlx := hfront_live x hx
      refine prefix_ext (hG2 x hlx.1 (hfront_a x hx).1) (hG3 x hlx.1 (hfront_a x hx).1 ?_ ?_)
      · rw [h2]; intro e; injection e with e; exact hxb e.symm
      · exact fun e => hcslot x e (List.mem_append_left _ hx)
    have hroot_ne : root ≠ prefix_node := by
      rw [h2]
      intro e
      exact hrslot b e (List.mem_append_left _ hb)
    have hroot2 : art2.read root = some head := by
      refine read_keep_of_frame hroot (fun x e hl => ?_) (fun x e => ?_) (fun i e => ?_)
      · have hx := hrslot x e
        exact hG1 x hl (fun e2 => hx (by rw [e2]; simp)) (fun h => hx (by simp [h]))
      · have hx := hrslot x e
        have hl : art.live x := by
          have := valid_of_read hroot
          rw [e] at this
          exact this
        exact hG3 x hl.1 (fun e2 => hx (by rw [e2]; simp))
          (fun e3 => hroot_ne (by rw [e, ← e3])) (fun e3 => hcr (by rw [e, ← e3]))
      · exact hG4 i (fun e3 => hcr (by rw [e, ← e3])) (fun e3 => hroot_ne (by rw [e, ← e3]))
    refine ⟨art2, head, front ++ Lf, hcon, hroot2, Chain.append hfront2 hch2, ?_⟩
    rw [flat_append, flat_append, hfl2]
    congr 1
    exact flat_frame (fun x hx => hG2 x (hfront_live x hx).1 (hfront_a x hx).1)

theorem C4_witness :
    ∃ art1 r1, Prefix.Split 4 6 scenario (Ref.ptr 0) (Ref.var 1) 1 = some (art1, r1) ∧
      ∃ N, ∀ f2, N ≤ f2 → ∃ art2 head2 L2,
        Prefix.Concatenate 4 f2 art1 r1 ((scenario.segments 1).data 1) (Ref.var 1) = some art2 ∧
        art2.read (Ref.var 0) = some head2 ∧ Chain art2 head2 L2 (Node.inner 7) ∧
        flat 4 art2 L2 = flat 4 scenario ([0] ++ 1 :: []) :=
  C4_Split_Concatenate_roundtrip 4 (by decide) (by decide) 6 scenario (Ref.var 0) (Ref.ptr 0)
    (Ref.var 1) (Node.pfx 0) [0] 1 1 (Node.inner 7) [] (by decide) (by decide)
    (Or.inr ⟨0, rfl, rfl⟩) (by decide) (Or.inr rfl) trivial (by decide) (fun b e => by cases e)
    (fun b e => by cases e) (by decide)

/-- C4 (as stated) fails: capacity 4, the chain `[10,20,30,40] → [50,60]`, `Split` of the
first node at position 1. Whatever the fuel, when `Split` returns, `Concatenate` with the
discarded byte 20 and the emitted child never returns, neither through the reference
`Split` hands back nor through the chain's own reference: the successor `[50,60]` was
folded into the child and freed, and the retained node's `ptr`, which is the reference
handed back, still points at it. -/
theorem C4_counterexample :
    ¬ ∃ f1 f2 art1 r1 art2,
      Prefix.Split 4 f1 scenario (Ref.var 0) (Ref.var 1) 1 = some (art1, r1) ∧
      (Prefix.Concatenate 4 f2 art1 r1 20 (Ref.var 1) = some art2 ∨
        Prefix.Concatenate 4 f2 art1 (Ref.var 0) 20 (Ref.var 1) = some art2) := by
  rintro ⟨f1, f2, art1, r1, art2, hS, hC⟩
  have hgood : r1 = Ref.ptr 0 ∧ art1.read (Ref.ptr 0) = some (Node.pfx 1) ∧ ¬ art1.live 1 ∧
      art1.read (Ref.var 0) = some (Node.pfx 0) := by
    by_cases hf : 7 ≤ f1
    · obtain ⟨art1b, r1b, cn, L, hrun, hpost⟩ := Split_spec 4 (by decide) (by decide) f1 scenario
        (Ref.var 0) (Ref.var 1) 0 1 (Node.inner 7) [1] (by decide) (by decide) rfl rfl
        (by decide) (by decide) trivial (by decide) (fun b e => by cases e)
        (fun b e => by cases e) hf
      rw [hS] at hrun
      injection hrun with hrun
      injection hrun with e1 e2
      subst e1; subst e2
      obtain ⟨h1, h2, h3, h4⟩ := hpost.kept_case (Or.inl (by decide))
      refine ⟨h1, ?_, hpost.folded (by decide) (by decide) 1 (by simp), h2⟩
      simp only [ART.read, h3, if_true, h4]
      rfl
    · have hsmall : ∀ f, f < 7 →
          ((Prefix.Split 4 f scenario (Ref.var 0) (Ref.var 1) 1).map fun x =>
            decide (x.2 = Ref.ptr 0 ∧ x.1.read (Ref.ptr 0) = some (Node.pfx 1) ∧ ¬ x.1.live 1 ∧
              x.1.read (Ref.var 0) = some (Node.pfx 0))).getD true = true := by
        decide
      have := hsmall f1 (by omega)
      rw [hS] at this
      simpa using this
  obtain ⟨hr1, hrd, hdead, hrd0⟩ := hgood
  have hl0 : art1.live 0 := valid_of_read hrd
  have hptr0 : (art1.segments 0).ptr = Node.pfx 1 := by
    simp only [ART.read, hl0, if_true, Option.some.injEq] at hrd
    exact hrd
  rcases hC with hC | hC
  · rw [hr1] at hC
    unfold Prefix.Concatenate at hC
    simp [hrd, Prefix.Get, hdead] at hC
  · unfold Prefix.Concatenate at hC
    cases f2 with
    | zero => simp [hrd0, Prefix.Get, hl0, Prefix.Concatenate_tail] at hC
    | succ f =>
      simp [hrd0, Prefix.Get, hl0, Prefix.Concatenate_tail, hptr0, Node.IsSwizzled, hdead] at hC

/-- C6, the failing input: capacity 4, a well-formed chain of one node holding `[10, 20]`,
`Reduce(head, 0)`. The claim asks for the flattened bytes `[20]`; the call leaves the node
with count 3 and the bytes `[20, 77, 88]`, two of them stale buffer content. -/
theorem C6_Reduce_short_head :
    WfChain 4 short_head (Node.pfx 0) [0] (Node.inner 7) ∧
    (flat 4 short_head [0]).drop (0 + 1) = [20] ∧
    (Prefix.Reduce 4 5 short_head (Ref.var 0) 0).map (fun art1 =>
        (art1.read (Ref.var 0), art1.count 4 0, flat 4 art1 [0], (art1.segments 0).ptr))
      = some (some (Node.pfx 0), 3, [20, 77, 88], Node.inner 7) := by
  decide

/-! ## Chain against chain -/

theorem Traverse_bytes_spec (P : Nat) (l r : Prefix) :
    ∀ (n i : Nat), i + n ≤ P + 1 →
      Prefix.Traverse_bytes P l r n i =
        some (if matched (l.bytesFrom i n) (r.bytesFrom i n) = n then none
              else some (i + matched (l.bytesFrom i n) (r.bytesFrom i n))) := by
  intro n
  induction n with
  | zero => intro i _; simp [Prefix.Traverse_bytes, Prefix.bytesFrom, matched]
  | succ n ih =>
    intro i h
    have hi : ¬ P < i := by omega
    unfold Prefix.Traverse_bytes
    simp only [hi, if_false]
    rw [bytesFrom_succ, bytesFrom_succ]
    simp only [matched]
    by_cases e : l.data i = r.data i
    · simp only [e, ne_eq, not_true_eq_false, if_false, if_true]
      rw [ih (i + 1) (by omega)]
      simp only [Nat.add_right_cancel_iff]
      by_cases hm : matched (l.bytesFrom (i + 1) n) (r.bytesFrom (i + 1) n) = n
      · simp [hm]
      · simp [hm]; omega
    · simp [e]

theorem cursor_append (r : Ref) (as : List Nat) (a : Nat) : cursor r (as ++ [a]) = Ref.ptr a := by
  induction as generalizing r with
  | nil => rfl
  | cons b bs ih => exact ih (Ref.ptr b)

theorem visited_length (r : Ref) (as : List Nat) : (visited r as).length = as.length := by
  induction as generalizing r with
  | nil => rfl
  | cons b bs ih => simp [visited, ih]

/-- One step of the loop on a pair of nodes with equal bytes: both cursors advance. -/
theorem Traverse_loop_step (P : Nat) (fuel : Nat) (art : ART) (l r : Ref) (tl tr : List Ref)
    (a b : Nat) (hl : art.read l = some (Node.pfx a)) (hr : art.read r = some (Node.pfx b))
    (hla : art.live a) (hlb : art.live b)
    (hb : (art.segments a).bytes P = (art.segments b).bytes P) (hc : art.count P a ≤ P) :
    Prefix.Traverse_loop P (fuel + 1) art l r tl tr =
      Prefix.Traverse_loop P fuel art (Ref.ptr a) (Ref.ptr b) (tl ++ [l]) (tr ++ [r]) := by
  have hcnt : (art.segments a).data P = (art.segments b).data P := by
    rw [← bytes_length P, ← bytes_length P (art.segments b), hb]
  have hcmp : Prefix.Traverse_bytes P (art.segments a) (art.segments b)
      ((art.segments b).data P) 0 = some none := by
    rw [Traverse_bytes_spec P _ _ _ 0 (by rw [← hcnt]; simp only [ART.count] at hc; omega)]
    have h1 := bytes_eq_bytesFrom P (art.segments a)
    have h2 := bytes_eq_bytesFrom P (art.segments b)
    rw [hcnt] at h1
    rw [← h1, ← h2, hb]
    have := (matched_eq_length ((art.segments b).bytes P) ((art.segments b).bytes P) rfl).2 rfl
    rw [bytes_length] at this
    simp [this]
  rw [Prefix.Traverse_loop]
  simp only [hl, hr, Node.IsPrefix, and_self, if_true, Prefix.Get, hla, hlb, hcnt, Nat.min_self,
    hcmp]

/-- The loop advances over node pairs that hold the same bytes. -/
theorem Traverse_loop_advance (P : Nat) (art : ART) :
    ∀ (fl fr : List Nat) (fuel : Nat) (l r : Ref) (tl tr : List Ref) (nl nr ml mr : Node),
      art.read l = some nl → art.read r = some nr → Chain art nl fl ml → Chain art nr fr mr →
      fl.map (fun a => (art.segments a).bytes P) = fr.map (fun a => (art.segments a).bytes P) →
      (∀ a ∈ fl, art.count P a ≤ P) →
      Prefix.Traverse_loop P (fuel + fl.length) art l r tl tr =
        Prefix.Traverse_loop P fuel art (cursor l fl) (cursor r fr)
          (tl ++ visited l fl) (tr ++ visited r fr) ∧
      art.read (cursor l fl) = some ml ∧ art.read (cursor r fr) = some mr := by
  intro fl
  induction fl with
  | nil =>
    intro fr fuel l r tl tr nl nr ml mr hl hr hcl hcr hmap _
    cases fr with
    | cons b bs => simp at hmap
    | nil =>
      cases hcl; cases hcr
      simp [cursor, visited, hl, hr]
  | cons a as ih =>
    intro fr fuel l r tl tr nl nr ml mr hl hr hcl hcr hmap hc
    cases fr with
    | nil => simp at hmap
    | cons b bs =>
      obtain ⟨e1, la, hcl2⟩ := hcl
      obtain ⟨e2, lb, hcr2⟩ := hcr
      subst e1; subst e2
      simp only [List.map_cons, List.cons.injEq] at hmap
      have hra : art.read (Ref.ptr a) = some (art.segments a).ptr := by simp [ART.read, la]
      have hrb : art.read (Ref.ptr b) = some (art.segments b).ptr := by simp [ART.read, lb]
      obtain ⟨h1, h2, h3⟩ := ih bs fuel (Ref.ptr a) (Ref.ptr b) (tl ++ [l]) (tr ++ [r]) _ _ ml mr
        hra hrb hcl2 hcr2 hmap.2 (fun x hx => hc x (List.mem_cons_of_mem _ hx))
      refine ⟨?_, h2, h3⟩
      have hstep := Traverse_loop_step P (fuel + as.length) art l r tl tr a b hl hr la lb hmap.1
        (hc a (List.mem_cons_self _ _))
      simp only [List.length_cons, cursor, visited]
      rw [← Nat.add_assoc, hstep, h1]
      simp

theorem matched_take_take (B : List Nat) :
    ∀ (K : List Nat) (n : Nat), matched (B.take n) (K.take n) = min n (matched B K) := by
  induction B with
  | nil => intro K n; simp [matched]
  | cons b bs ih =>
    intro K n
    cases K with
    | nil => simp [matched]
    | cons k ks =>
      cases n with
      | zero => simp [matched]
      | succ n =>
        simp only [List.take_succ_cons, matched]
        by_cases e : b = k
        · simp only [e, if_true, ih ks n]; omega
        · simp [e]

/-- The first position at which two byte sequences differ lies in their leading parts
`B1` and `K1` when it is below both lengths. -/
theorem matched_append_lt (B1 B2 K1 K2 : List Nat)
    (h1 : matched (B1 ++ B2) (K1 ++ K2) < B1.length)
    (h2 : matched (B1 ++ B2) (K1 ++ K2) < K1.length) :
    matched B1 K1 = matched (B1 ++ B2) (K1 ++ K2) := by
  have e1 := matched_take_take (B1 ++ B2) (K1 ++ K2) (min B1.length K1.length)
  have e2 := matched_take_take B1 K1 (min B1.length K1.length)
  have t1 : (B1 ++ B2).take (min B1.length K1.length) = B1.take (min B1.length K1.length) :=
    List.take_append_of_le_length (Nat.min_le_left _ _)
  have t2 : (K1 ++ K2).take (min B1.length K1.length) = K1.take (min B1.length K1.length) :=
    List.take_append_of_le_length (Nat.min_le_right _ _)
  rw [t1, t2, e2] at e1
  omega

/-- The loop ends with the sentinel as soon as one cursor is not at a Prefix node. -/
theorem Traverse_loop_end (P : Nat) (fuel : Nat) (art : ART) (l r : Ref) (tl tr : List Ref)
    (ml mr : Node) (hl : art.read l = some ml) (hr : art.read r = some mr)
    (h : ml.IsPrefix = false ∨ mr.IsPrefix = false) :
    Prefix.Traverse_loop P (fuel + 1) art l r tl tr = some (art, INVALID_INDEX, l, r) := by
  rw [Prefix.Traverse_loop]
  simp only [hl, hr]
  rcases h with h | h <;> simp [h]

/-- The loop on a node pair with a differing byte below both counts returns its index. -/
theorem Traverse_loop_differ (P : Nat) (fuel : Nat) (art : ART) (l r : Ref) (tl tr : List Ref)
    (a b : Nat) (hl : art.read l = some (Node.pfx a)) (hr : art.read r = some (Node.pfx b))
    (hla : art.live a) (hlb : art.live b) (hca : art.count P a ≤ P)
    (hm1 : matched ((art.segments a).bytes P) ((art.segments b).bytes P) < art.count P a)
    (hm2 : matched ((art.segments a).bytes P) ((art.segments b).bytes P) < art.count P b) :
    Prefix.Traverse_loop P (fuel + 1) art l r tl tr =
      some (art, matched ((art.segments a).bytes P) ((art.segments b).bytes P), l, r) := by
  simp only [ART.count] at hca hm1 hm2
  have hcmp : Prefix.Traverse_bytes P (art.segments a) (art.segments b)
      (min ((art.segments a).data P) ((art.segments b).data P)) 0 =
      some (some (matched ((art.segments a).bytes P) ((art.segments b).bytes P))) := by
    rw [Traverse_bytes_spec P _ _ _ 0 (by omega)]
    have h1 : (art.segments a).bytesFrom 0 (min ((art.segments a).data P)
        ((art.segments b).data P)) = ((art.segments a).bytes P).take
          (min ((art.segments a).data P) ((art.segments b).data P)) := by
      rw [Prefix.bytes, take_map_range _ _ _ (Nat.min_le_left _ _)]
      simp [Prefix.bytesFrom]
    have h2 : (art.segments b).bytesFrom 0 (min ((art.segments a).data P)
        ((art.segments b).data P)) = ((art.segments b).bytes P).take
          (min ((art.segments a).data P) ((art.segments b).data P)) := by
      rw [Prefix.bytes, take_map_range _ _ _ (Nat.min_le_right _ _)]
      simp [Prefix.bytesFrom]
    rw [h1, h2, matched_take_take]
    have hlt : matched ((art.segments a).bytes P) ((art.segments b).bytes P) <
        min ((art.segments a).data P) ((art.segments b).data P) := by omega
    have hmin : min (min ((art.segments a).data P) ((art.segments b).data P))
        (matched ((art.segments a).bytes P) ((art.segments b).bytes P)) =
        matched ((art.segments a).bytes P) ((art.segments b).bytes P) := by omega
    rw [hmin]
    have hne : ¬ matched ((art.segments a).bytes P) ((art.segments b).bytes P) =
        min ((art.segments a).data P) ((art.segments b).data P) := by omega
    simp [hne]
  rw [Prefix.Traverse_loop]
  simp only [hl, hr, Node.IsPrefix, and_self, if_true, Prefix.Get, hla, hlb, hcmp]

/-- `Node::Free` on a reference to a chain of Prefix nodes whose last `ptr` is unset: every
node of the chain is freed and the reference is unset afterwards. -/
theorem Node_Free_chain :
    ∀ (as : List Nat) (fuel : Nat) (art : ART) (r : Ref) (n : Node),
      art.read r = some n → Chain art n as Node.unset → (∀ x ∈ as, r ≠ Ref.ptr x) →
      as.length < fuel →
      ∃ art1, Node.Free fuel art r = some art1 ∧ art1.next = art.next ∧
        art1.freed = as ++ art.freed ∧ art1.released = art.released ∧
        art1.read r = some Node.unset ∧
        (∀ x, (art1.segments x).data = (art.segments x).data) ∧
        (∀ x, x ∉ as → r ≠ Ref.ptr x → (art1.segments x).ptr = (art.segments x).ptr) ∧
        (∀ i, r ≠ Ref.var i → art1.vars i = art.vars i) := by
  intro as
  induction as with
  | nil =>
    intro fuel art r n hr hch _ hfuel
    cases hch
    obtain ⟨f, rfl⟩ : ∃ f, fuel = f + 1 := ⟨fuel - 1, by omega⟩
    refine ⟨art, ?_, rfl, rfl, rfl, hr, fun _ => rfl, fun _ _ _ => rfl, fun _ _ => rfl⟩
    unfold Node.Free
    simp only [hr]
  | cons a as ih =>
    intro fuel art r n hr hch hout hfuel
    have hnd : (a :: as).Nodup := Chain.nodup hch rfl
    obtain ⟨e, hla, hch2⟩ := hch
    subst e
    obtain ⟨f, rfl⟩ : ∃ f, fuel = f + 1 := ⟨fuel - 1, by omega⟩
    have hnot : a ∉ as := (List.nodup_cons.1 hnd).1
    have hra : art.read (Ref.ptr a) = some (art.segments a).ptr := by simp [ART.read, hla]
    obtain ⟨art1, hf1, hn1, hfr1, hrel1, hrd1, hd1, hp1, hv1⟩ := ih f art (Ref.ptr a) _ hra hch2
      (fun x hx e => hnot (by injection e with e; rw [e]; exact hx))
      (by simp only [List.length_cons] at hfuel; omega)
    have hla1 : art1.live a := by
      refine ⟨by rw [hn1]; exact hla.1, ?_⟩
      rw [hfr1]
      intro hm
      rcases List.mem_append.1 hm with h | h
      · exact hnot h
      · exact hla.2 h
    obtain ⟨art2, hfree, hs2, hn2, hf2, hv2, hr2⟩ := allocFree_spec hla1
    have hval : art2.valid r := by
      cases r with
      | var i => trivial
      | ptr b =>
        have hb : art.live b := valid_of_read hr
        have hb1 : b ∉ a :: as := fun hm => hout b hm rfl
        refine ⟨by rw [hn2, hn1]; exact hb.1, ?_⟩
        rw [hf2, hfr1]
        intro hm
        rcases List.mem_cons.1 hm with h | h
        · exact hb1 (by rw [h]; exact List.mem_cons_self _ _)
        · rcases List.mem_append.1 h with h | h
          · exact hb1 (List.mem_cons_of_mem _ h)
          · exact hb.2 h
    obtain ⟨art3, hw, hn3, hf3, hr3, hrd3, hd3, hp3, hvar3, _⟩ := write_spec Node.unset hval
    refine ⟨art3, ?_, by rw [hn3, hn2, hn1], ?_, by rw [hr3, hr2, hrel1], hrd3, ?_, ?_, ?_⟩
    · unfold Node.Free
      simp only [hr, Prefix.Get, hla, if_true, hf1, hfree, hw]
    · rw [hf3, hf2, hfr1]; rfl
    · intro x; rw [hd3, hs2, hd1]
    · intro x hx hrx
      have hxa : x ≠ a := fun e => hx (by rw [e]; exact List.mem_cons_self _ _)
      rw [hp3 x hrx, hs2, hp1 x (fun h => hx (List.mem_cons_of_mem _ h))
        (fun e => hxa (by injection e with e; exact e.symm))]
    · intro i hi
      rw [hvar3 i hi, hv2, hv1 i (fun e => by cases e)]

theorem visited_append (r : Ref) (as : List Nat) (a : Nat) :
    visited r (as ++ [a]) = visited r as ++ [cursor r as] := by
  induction as generalizing r with
  | nil => rfl
  | cons b bs ih => simp [visited, cursor, ih]

theorem visited_head (r : Ref) (as : List Nat) (h : as ≠ []) : (visited r as).head? = some r := by
  cases as with
  | nil => exact absurd rfl h
  | cons b bs => rfl

/-- The cursor that advanced over the nodes `as` names what the chain leads to. -/
theorem read_cursor {art : ART} :
    ∀ (as : List Nat) (r : Ref) (n m : Node), art.read r = some n → Chain art n as m →
      art.read (cursor r as) = some m := by
  intro as
  induction as with
  | nil => intro r n m hr hch; cases hch; exact hr
  | cons a as ih =>
    intro r n m hr hch
    obtain ⟨_, hla, hch2⟩ := hch
    exact ih (Ref.ptr a) _ m (by simp [ART.read, hla]) hch2

/-- The release of the nodes `fr` one side advanced over: all of them are freed, the
reference the side started from is unset, nothing else is written. -/
theorem Traverse_free_spec (fuel : Nat) (art : ART) (r0 : Ref) (n m : Node) (fr : List Nat)
    (hr : art.read r0 = some n) (hch : Chain art n fr m) (hnd : fr.Nodup)
    (hout : ∀ x ∈ fr, r0 ≠ Ref.ptr x) (hfuel : fr.length < fuel) :
    ∃ art1, Prefix.Traverse_free fuel art (visited r0 fr) = some art1 ∧
      art1.next = art.next ∧ art1.freed = fr ++ art.freed ∧ art1.released = art.released ∧
      (fr ≠ [] → art1.read r0 = some Node.unset) ∧ (fr = [] → art1 = art) ∧
      (∀ x, (art1.segments x).data = (art.segments x).data) ∧
      (∀ x, x ∉ fr → r0 ≠ Ref.ptr x → (art1.segments x).ptr = (art.segments x).ptr) ∧
      (∀ i, r0 ≠ Ref.var i → art1.vars i = art.vars i) := by
  rcases List.eq_nil_or_concat fr with h | ⟨front, k, h⟩
  · subst h
    exact ⟨art, rfl, rfl, rfl, rfl, fun h => absurd rfl h, fun _ => rfl, fun _ => rfl,
      fun _ _ _ => rfl, fun _ _ => rfl⟩
  · rw [List.concat_eq_append] at h
    subst h
    obtain ⟨hc1, hlk, _⟩ := Chain.last_ptr hch
    have hback : (visited r0 (front ++ [k])).getLast? = some (cursor r0 front) := by
      rw [visited_append]; simp
    have hhead := visited_head r0 (front ++ [k]) (by simp)
    have hrk : art.read (cursor r0 front) = some (Node.pfx k) := read_cursor front r0 n _ hr hc1
    have hch3 : Chain (art.setPtr k Node.unset) n (front ++ [k]) Node.unset :=
      Chain.set_last hch (by simp) hnd
        (fun x _ hx => setPtr_segments_ne _ _ _ _ hx) (fun x _ h => by simpa using h) (by simp)
    have hr3 : (art.setPtr k Node.unset).read r0 = some n := by
      cases r0 with
      | var i => exact hr
      | ptr b =>
        have hb : art.live b := valid_of_read hr
        have hbk : b ≠ k := fun e => hout k (by simp) (by rw [e])
        simp only [ART.read, hb, if_true] at hr
        simp only [ART.read, setPtr_live, hb, if_true, setPtr_segments_ne _ _ _ _ hbk]
        exact hr
    obtain ⟨art1, h1, h2, h3, h4, h5, h6, h7, h8⟩ := Node_Free_chain (front ++ [k]) fuel
      (art.setPtr k Node.unset) r0 n hr3 hch3 hout hfuel
    refine ⟨art1, ?_, by rw [h2]; simp, by rw [h3]; simp, by rw [h4]; simp, fun _ => h5,
      fun h => absurd h (by simp), fun x => by rw [h6]; simp, ?_, fun i hi => by rw [h8 i hi]; simp⟩
    · unfold Prefix.Traverse_free
      simp only [hback, hhead, hrk, Prefix.Get, hlk, if_true, h1]
    · intro x hx hrx
      have hxk : x ≠ k := fun e => hx (by rw [e]; simp)
      rw [h7 x hx hrx, setPtr_segments_ne _ _ _ _ hxk]

theorem Traverse_bytes_same (P : Nat) (l r : Prefix) :
    ∀ (n i : Nat), i + n ≤ P + 1 → (∀ j, i ≤ j → j < i + n → l.data j = r.data j) →
      Prefix.Traverse_bytes P l r n i = some none := by
  intro n
  induction n with
  | zero => intro i _ _; rfl
  | succ n ih =>
    intro i h hs
    have hi : ¬ P < i := by omega
    unfold Prefix.Traverse_bytes
    simp only [hi, if_false, hs i (Nat.le_refl _) (by omega), ne_eq, not_true_eq_false]
    exact ih (i + 1) (by omega) (fun j h1 h2 => hs j (by omega) (by omega))

/-- The loop on a node pair of which the left node is the shorter one and agrees with the
leading bytes of the right node (lines 153-163). -/
theorem Traverse_loop_contains_left (P : Nat) (fuel : Nat) (art : ART) (l r : Ref)
    (tl tr : List Ref) (a b : Nat) (hl : art.read l = some (Node.pfx a))
    (hr : art.read r = some (Node.pfx b)) (hla : art.live a) (hlb : art.live b)
    (hca : art.count P a ≤ P) (hlt : art.count P a < art.count P b)
    (hsame : ∀ i, i < art.count P a → (art.segments a).data i = (art.segments b).data i) :
    Prefix.Traverse_loop P (fuel + 1) art l r tl tr =
      (Prefix.Traverse_free fuel art tr).map fun art1 => (art1, art.count P a, Ref.ptr a, r) := by
  simp only [ART.count] at hca hlt hsame ⊢
  have hmin : min ((art.segments a).data P) ((art.segments b).data P) =
      (art.segments a).data P := by omega
  have hcmp : Prefix.Traverse_bytes P (art.segments a) (art.segments b)
      ((art.segments a).data P) 0 = some none :=
    Traverse_bytes_same P _ _ _ 0 (by omega) (fun j _ h => hsame j (by omega))
  have hne : ¬ (art.segments a).data P = (art.segments b).data P := by omega
  rw [Prefix.Traverse_loop]
  simp only [hl, hr, Node.IsPrefix, and_self, if_true, Prefix.Get, hla, hlb, hmin, hcmp, hne,
    if_false]
  cases Prefix.Traverse_free fuel art tr <;> rfl

/-- The loop on a node pair of which the right node is the shorter one and agrees with the
leading bytes of the left node (lines 165-175). -/
theorem Traverse_loop_contains_right (P : Nat) (fuel : Nat) (art : ART) (l r : Ref)
    (tl tr : List Ref) (a b : Nat) (hl : art.read l = some (Node.pfx a))
    (hr : art.read r = some (Node.pfx b)) (hla : art.live a) (hlb : art.live b)
    (hcb : art.count P b ≤ P) (hlt : art.count P b < art.count P a)
    (hsame : ∀ i, i < art.count P b → (art.segments a).data i = (art.segments b).data i) :
    Prefix.Traverse_loop P (fuel + 1) art l r tl tr =
      (Prefix.Traverse_free fuel art tl).map fun art1 => (art1, art.count P b, l, Ref.ptr b) := by
  simp only [ART.count] at hcb hlt hsame ⊢
  have hmin : min ((art.segments a).data P) ((art.segments b).data P) =
      (art.segments b).data P := by omega
  have hcmp : Prefix.Traverse_bytes P (art.segments a) (art.segments b)
      ((art.segments b).data P) 0 = some none :=
    Traverse_bytes_same P _ _ _ 0 (by omega) (fun j _ h => hsame j (by omega))
  have hne : ¬ (art.segments a).data P = (art.segments b).data P := by omega
  rw [Prefix.Traverse_loop]
  simp only [hl, hr, Node.IsPrefix, and_self, if_true, Prefix.Get, hla, hlb, hmin, hcmp, hne,
    if_false]
  cases Prefix.Traverse_free fuel art tl <;> rfl

/-- Chain-vs-chain when, after the node pairs `fl`, `fr` with equal bytes, the left node `al`
is shorter than the right node `ar` and agrees with its leading bytes: the call returns the
count of `al` with the left cursor on the `ptr` of `al`; the nodes `fr` are freed. -/
theorem Traverse_contains_left (P : Nat) (fuel : Nat) (art : ART) (l r : Ref) (nl nr : Node)
    (fl fr : List Nat) (al ar : Nat) (hrl : art.read l = some nl) (hrr : art.read r = some nr)
    (hchl : Chain art nl fl (Node.pfx al)) (hchr : Chain art nr fr (Node.pfx ar))
    (hlal : art.live al) (hlar : art.live ar)
    (hmap : fl.map (fun a => (art.segments a).bytes P) =
      fr.map (fun a => (art.segments a).bytes P))
    (hcl : ∀ a ∈ fl, art.count P a ≤ P) (hca : art.count P al ≤ P)
    (hlt : art.count P al < art.count P ar)
    (hsame : ∀ i, i < art.count P al → (art.segments al).data i = (art.segments ar).data i)
    (hnd : fr.Nodup) (hout : ∀ x ∈ fr, r ≠ Ref.ptr x) (hfuel : 2 * fl.length + 2 ≤ fuel) :
    ∃ art1, Prefix.Traverse P fuel art l r =
        some (art1, art.count P al, Ref.ptr al, cursor r fr) ∧
      art1.next = art.next ∧ art1.freed = fr ++ art.freed ∧ art1.released = art.released ∧
      (fr ≠ [] → art1.read r = some Node.unset) ∧ (fr = [] → art1 = art) ∧
      (∀ x, (art1.segments x).data = (art.segments x).data) ∧
      (∀ x, x ∉ fr → r ≠ Ref.ptr x → (art1.segments x).ptr = (art.segments x).ptr) ∧
      (∀ i, r ≠ Ref.var i → art1.vars i = art.vars i) := by
  have hlen : fl.length = fr.length := by simpa using congrArg List.length hmap
  obtain ⟨f, rfl⟩ : ∃ f, fuel = (f + 1) + fl.length := ⟨fuel - 1 - fl.length, by omega⟩
  obtain ⟨hadv, hcl1, hcr1⟩ := Traverse_loop_advance P art fl fr (f + 1) l r [] [] nl nr _ _
    hrl hrr hchl hchr hmap hcl
  obtain ⟨art1, h1, h2⟩ := Traverse_free_spec f art r nr _ fr hrr hchr hnd hout (by omega)
  refine ⟨art1, ?_, h2⟩
  unfold Prefix.Traverse
  rw [hadv, Traverse_loop_contains_left P f art _ _ _ _ al ar hcl1 hcr1 hlal hlar hca hlt hsame]
  simp only [List.nil_append, h1, Option.map_some']

/-- Chain-vs-chain when, after the node pairs `fl`, `fr` with equal bytes, the right node `ar`
is shorter than the left node `al` and agrees with its leading bytes: the call returns the
count of `ar` with the right cursor on the `ptr` of `ar`; the nodes `fl` are freed. -/
theorem Traverse_contains_right (P : Nat) (fuel : Nat) (art : ART) (l r : Ref) (nl nr : Node)
    (fl fr : List Nat) (al ar : Nat) (hrl : art.read l = some nl) (hrr : art.read r = some nr)
    (hchl : Chain art nl fl (Node.pfx al)) (hchr : Chain art nr fr (Node.pfx ar))
    (hlal : art.live al) (hlar : art.live ar)
    (hmap : fl.map (fun a => (art.segments a).bytes P) =
      fr.map (fun a => (art.segments a).bytes P))
    (hcl : ∀ a ∈ fl, art.count P a ≤ P) (hcb : art.count P ar ≤ P)
    (hlt : art.count P ar < art.count P al)
    (hsame : ∀ i, i < art.count P ar → (art.segments al).data i = (art.segments ar).data i)
    (hnd : fl.Nodup) (hout : ∀ x ∈ fl, l ≠ Ref.ptr x) (hfuel : 2 * fl.length + 2 ≤ fuel) :
    ∃ art1, Prefix.Traverse P fuel art l r =
        some (art1, art.count P ar, cursor l fl, Ref.ptr ar) ∧
      art1.next = art.next ∧ art1.freed = fl ++ art.freed ∧ art1.released = art.released ∧
      (fl ≠ [] → art1.read l = some Node.unset) ∧ (fl = [] → art1 = art) ∧
      (∀ x, (art1.segments x).data = (art.segments x).data) ∧
      (∀ x, x ∉ fl → l ≠ Ref.ptr x → (art1.segments x).ptr = (art.segments x).ptr) ∧
      (∀ i, l ≠ Ref.var i → art1.vars i = art.vars i) := by
  obtain ⟨f, rfl⟩ : ∃ f, fuel = (f + 1) + fl.length := ⟨fuel - 1 - fl.length, by omega⟩
  obtain ⟨hadv, hcl1, hcr1⟩ := Traverse_loop_advance P art fl fr (f + 1) l r [] [] nl nr _ _
    hrl hrr hchl hchr hmap hcl
  obtain ⟨art1, h1, h2⟩ := Traverse_free_spec f art l nl _ fl hrl hchl hnd hout (by omega)
  refine ⟨art1, ?_, h2⟩
  unfold Prefix.Traverse
  rw [hadv, Traverse_loop_contains_right P f art _ _ _ _ al ar hcl1 hcr1 hlal hlar hcb hlt hsame]
  simp only [List.nil_append, h1, Option.map_some']

/-- A place outside the freed nodes keeps its value through the release of one side. -/
theorem read_after_free {art art1 : ART} {q r : Ref} {fr : List Nat} {n : Node}
    (hq : art.read q = some n) (hn : art1.next = art.next) (hf : art1.freed = fr ++ art.freed)
    (hp : ∀ x, x ∉ fr → r ≠ Ref.ptr x → (art1.segments x).ptr = (art.segments x).ptr)
    (hv : ∀ i, r ≠ Ref.var i → art1.vars i = art.vars i) (hqr : q ≠ r)
    (hqf : ∀ x ∈ fr, q ≠ Ref.ptr x) : art1.read q = some n := by
  cases q with
  | var i => simp only [ART.read] at hq ⊢; rw [hv i (fun e => hqr e.symm)]; exact hq
  | ptr b =>
    have hb : art.live b := valid_of_read hq
    have hbf : b ∉ fr := fun hm => hqf b hm rfl
    have hb1 : art1.live b := by
      refine ⟨by rw [hn]; exact hb.1, ?_⟩
      rw [hf]
      intro hm
      rcases List.mem_append.1 hm with h | h
      · exact hbf h
      · exact hb.2 h
    simp only [ART.read, hb, hb1, if_true] at hq ⊢
    rw [hp b hbf (fun e => hqr e.symm)]; exact hq

/-- The reference a well-formed chain is held by is not the `ptr` of one of its own nodes. -/
theorem ref_outside_chain {art : ART} {r : Ref} {n t : Node} {as : List Nat}
    (hr : art.read r = some n) (hch : Chain art n as t) (ht : t.IsPrefix = false) :
    ∀ x ∈ as, r ≠ Ref.ptr x := by
  intro x hx e
  subst e
  obtain ⟨l1, l2, rfl⟩ := List.append_of_mem hx
  obtain ⟨m, _, h2⟩ := Chain.split hch
  obtain ⟨_, hlx, h3⟩ := h2
  simp only [ART.read, hlx, if_true, Option.some.injEq] at hr
  rw [hr] at h3
  have := congrArg List.length (Chain.unique h3 hch ht ht).1
  simp at this
  omega

theorem flat_length (P : Nat) (art : ART) (as : List Nat) :
    (flat P art as).length = (as.map (art.count P)).sum := by
  induction as with
  | nil => rfl
  | cons a as ih => simp [flat, bytes_length, ih, ART.count]

/-- Chains with the same node counts and the same flattened bytes hold the same bytes node
by node. -/
theorem bytes_of_flat_eq (P : Nat) (art : ART) :
    ∀ (fl fr : List Nat), fl.map (art.count P) = fr.map (art.count P) →
      flat P art fl = flat P art fr →
      fl.map (fun a => (art.segments a).bytes P) = fr.map (fun a => (art.segments a).bytes P) := by
  intro fl
  induction fl with
  | nil =>
    intro fr hc _
    cases fr with
    | nil => rfl
    | cons b bs => simp at hc
  | cons a as ih =>
    intro fr hc hf
    cases fr with
    | nil => simp at hc
    | cons b bs =>
      simp only [List.map_cons, List.cons.injEq] at hc
      simp only [flat] at hf
      obtain ⟨e1, e2⟩ := List.append_inj hf (by
        rw [bytes_length, bytes_length]; exact hc.1)
      simp only [List.map_cons, e1, ih bs hc.2 e2]

/-- C11: chain-vs-chain on two well-formed Prefix chains that hold the same bytes node by
node (hence the same counts), each ending in a node that is not a Prefix, returns the
sentinel `INVALID_INDEX`; the memory is as it was before the call, so no node was freed. -/
theorem C11_Traverse_identical_chains (P : Nat) (art : ART) (l r : Ref) (nl nr tl tr : Node)
    (asl asr : List Nat) (hrl : art.read l = some nl) (hrr : art.read r = some nr)
    (hwl : WfChain P art nl asl tl) (hwr : WfChain P art nr asr tr)
    (hsame : asl.map (fun a => (art.segments a).bytes P) =
      asr.map (fun a => (art.segments a).bytes P))
    (fuel : Nat) (hfuel : asl.length < fuel) :
    ∃ art1 l1 r1, Prefix.Traverse P fuel art l r = some (art1, INVALID_INDEX, l1, r1) ∧
      art1 = art ∧ art1.freed = art.freed ∧ (∀ x ∈ asl ++ asr, art1.live x) := by
  obtain ⟨f, rfl⟩ : ∃ f, fuel = (f + 1) + asl.length := ⟨fuel - 1 - asl.length, by omega⟩
  obtain ⟨hadv, h1, h2⟩ := Traverse_loop_advance P art asl asr (f + 1) l r [] [] nl nr tl tr
    hrl hrr hwl.1 hwr.1 hsame (fun a ha => (hwl.2.2.1 a ha).2)
  refine ⟨art, cursor l asl, cursor r asr, ?_, rfl, rfl, ?_⟩
  · unfold Prefix.Traverse
    rw [hadv, Traverse_loop_end P f art _ _ _ _ tl tr h1 h2 (Or.inl hwl.2.2.2.1)]
  · intro x hx
    rcases List.mem_append.1 hx with h | h
    · exact Chain.live hwl.1 x h
    · exact Chain.live hwr.1 x h

theorem C11_witness :
    ∃ art1 l1 r1, Prefix.Traverse 4 3 (chains_with [50, 60]) (Ref.var 0) (Ref.var 1) =
        some (art1, INVALID_INDEX, l1, r1) ∧
      art1 = chains_with [50, 60] ∧ art1.freed = (chains_with [50, 60]).freed ∧
      (∀ x ∈ [0, 1] ++ [2, 3], art1.live x) :=
  C11_Traverse_identical_chains 4 (chains_with [50, 60]) (Ref.var 0) (Ref.var 1) (Node.pfx 0)
    (Node.pfx 2) (Node.inner 7) (Node.inner 8) [0, 1] [2, 3] rfl rfl (by decide) (by decide)
    (by decide) 3 (by decide)

/-- C12 (as stated) fails: the two well-formed chains `[1,2] → [3,4]` and `[1,2,3,9]`
flatten to sequences that first differ at offset 3, where both hold a byte. The first node
pair has the counts 2 and 4, so no node pair is advanced past; the call returns the compared
length 2 with the right cursor still at the head of its chain, and with no fuel does it
return the offset 3. -/
theorem C12_counterexample :
    WfChain 4 misaligned (Node.pfx 0) [0, 1] (Node.inner 7) ∧
    WfChain 4 misaligned (Node.pfx 2) [2] (Node.inner 8) ∧
    matched (flat 4 misaligned [0, 1]) (flat 4 misaligned [2]) = 3 ∧
    (flat 4 misaligned [0, 1])[3]? = some 4 ∧ (flat 4 misaligned [2])[3]? = some 9 ∧
    Prefix.Traverse 4 2 misaligned (Ref.var 0) (Ref.var 1) =
      some (misaligned, 2, Ref.ptr 0, Ref.var 1) ∧
    ¬ ∃ fuel art1 l1 r1, Prefix.Traverse 4 fuel misaligned (Ref.var 0) (Ref.var 1) =
      some (art1, 3, l1, r1) := by
  refine ⟨by decide, by decide, by decide, by decide, by decide, rfl, ?_⟩
  rintro ⟨fuel, art1, l1, r1, h⟩
  by_cases hf : 2 ≤ fuel
  · obtain ⟨art2, h2, _⟩ := Traverse_contains_left 4 fuel misaligned (Ref.var 0) (Ref.var 1)
      (Node.pfx 0) (Node.pfx 2) [] [] 0 2 rfl rfl rfl rfl (by decide) (by decide) rfl
      (by decide) (by decide) (by decide) (by decide) (by decide) (by decide) (by simpa using hf)
    rw [h] at h2
    have h3 : (3 : Nat) = misaligned.count 4 0 := by
      injection h2 with h2
      injection h2 with _ h2
      injection h2 with h2 _
    revert h3
    decide
  · have hsmall : ∀ f, f < 2 →
        ((Prefix.Traverse 4 f misaligned (Ref.var 0) (Ref.var 1)).map fun x =>
          decide (x.2.1 ≠ 3)).getD true = true := by
      decide
    have := hsmall fuel (by omega)
    rw [h] at this
    simp at this

/-- C12 (amended): for two well-formed Prefix chains whose flattened byte sequences first
differ at the offset `k`, when the node pairs `fl`, `fr` before the one that holds the offset
`k` have the same counts pair by pair and `k` lies below the counts of both nodes `al`, `ar`
of that pair, chain-vs-chain returns an offset `p` other than the sentinel with the cursors
on that pair, and the total count of the node pairs advanced past plus `p` equals `k`; no
memory is changed. -/
theorem C12_Traverse_first_difference (P : Nat) (hP2 : P < 256) (art : ART) (l r : Ref)
    (nl nr tl tr : Node) (fl fr restl restr : List Nat) (al ar k : Nat)
    (hrl : art.read l = some nl) (hrr : art.read r = some nr)
    (hwl : WfChain P art nl (fl ++ al :: restl) tl)
    (hwr : WfChain P art nr (fr ++ ar :: restr) tr)
    (hk : matched (flat P art (fl ++ al :: restl)) (flat P art (fr ++ ar :: restr)) = k)
    (hcounts : fl.map (art.count P) = fr.map (art.count P))
    (hlo : (fl.map (art.count P)).sum ≤ k)
    (hhi1 : k < (fl.map (art.count P)).sum + art.count P al)
    (hhi2 : k < (fl.map (art.count P)).sum + art.count P ar)
    (fuel : Nat) (hfuel : fl.length < fuel) :
    ∃ p, Prefix.Traverse P fuel art l r = some (art, p, cursor l fl, cursor r fr) ∧
      p ≠ INVALID_INDEX ∧ (fl.map (art.count P)).sum + p = k ∧
      art.read (cursor l fl) = some (Node.pfx al) ∧
      art.read (cursor r fr) = some (Node.pfx ar) := by
  obtain ⟨ml, hchl, hchl2⟩ := Chain.split hwl.1
  obtain ⟨mr, hchr, hchr2⟩ := Chain.split hwr.1
  obtain ⟨e1, hlal, _⟩ := hchl2
  obtain ⟨e2, hlar, _⟩ := hchr2
  subst e1; subst e2
  have hcl : ∀ a ∈ fl, art.count P a ≤ P := fun a ha =>
    (hwl.2.2.1 a (List.mem_append_left _ ha)).2
  have hca : art.count P al ≤ P := (hwl.2.2.1 al (by simp)).2
  have hLl : (flat P art fl).length = (fl.map (art.count P)).sum := flat_length P art fl
  have hLr : (flat P art fr).length = (fl.map (art.count P)).sum := by
    rw [flat_length, hcounts]
  have hsplit := matched_append (flat P art fl) (flat P art (al :: restl)) (flat P art fr)
    (flat P art (ar :: restr)) (by rw [hLl, hLr])
  rw [← flat_append, ← flat_append, hk, hLl] at hsplit
  have hle := matched_le (flat P art fl) (flat P art fr)
  rw [hLl] at hle
  by_cases hfull : matched (flat P art fl) (flat P art fr) = (fl.map (art.count P)).sum
  · rw [if_pos hfull] at hsplit
    have hflat : flat P art fl = flat P art fr :=
      (matched_eq_length _ _ (by rw [hLl, hLr])).1 (by rw [hLl]; exact hfull)
    have hmap := bytes_of_flat_eq P art fl fr hcounts hflat
    have hm : matched ((art.segments al).bytes P) ((art.segments ar).bytes P) =
        matched (flat P art (al :: restl)) (flat P art (ar :: restr)) := by
      simp only [flat]
      apply matched_append_lt
      · rw [bytes_length]; simp only [flat, ART.count] at hsplit hhi1; omega
      · rw [bytes_length]; simp only [flat, ART.count] at hsplit hhi2; omega
    obtain ⟨f, rfl⟩ : ∃ f, fuel = (f + 1) + fl.length := ⟨fuel - 1 - fl.length, by omega⟩
    obtain ⟨hadv, h1, h2⟩ := Traverse_loop_advance P art fl fr (f + 1) l r [] [] nl nr _ _
      hrl hrr hchl hchr hmap hcl
    refine ⟨matched ((art.segments al).bytes P) ((art.segments ar).bytes P), ?_, ?_, ?_, h1, h2⟩
    · unfold Prefix.Traverse
      rw [hadv, Traverse_loop_differ P f art _ _ _ _ al ar h1 h2 hlal hlar hca (by omega)
        (by omega)]
    · have : matched ((art.segments al).bytes P) ((art.segments ar).bytes P) < 256 := by omega
      intro e
      rw [e] at this
      revert this
      decide
    · omega
  · rw [if_neg hfull] at hsplit
    omega

theorem C12_witness :
    ∃ p, Prefix.Traverse 4 2 (chains_with [50, 61]) (Ref.var 0) (Ref.var 1) =
        some (chains_with [50, 61], p, cursor (Ref.var 0) [0], cursor (Ref.var 1) [2]) ∧
      p ≠ INVALID_INDEX ∧ ([0].map ((chains_with [50, 61]).count 4)).sum + p = 5 ∧
      (chains_with [50, 61]).read (cursor (Ref.var 0) [0]) = some (Node.pfx 1) ∧
      (chains_with [50, 61]).read (cursor (Ref.var 1) [2]) = some (Node.pfx 3) :=
  C12_Traverse_first_difference 4 (by decide) (chains_with [50, 61]) (Ref.var 0) (Ref.var 1)
    (Node.pfx 0) (Node.pfx 2) (Node.inner 7) (Node.inner 8) [0] [2] [] [] 1 3 5 rfl rfl
    (by decide) (by decide) (by decide) (by decide) (by decide) (by decide) (by decide) 2
    (by decide)

/-- A node that was live and is not among the freed ones is live afterwards. -/
theorem live_after_free {art art1 : ART} {fr : List Nat} {x : Nat} (hx : art.live x)
    (hn : art1.next = art.next) (hf : art1.freed = fr ++ art.freed) (hxf : x ∉ fr) :
    art1.live x := by
  refine ⟨by rw [hn]; exact hx.1, ?_⟩
  rw [hf]
  intro hm
  rcases List.mem_append.1 hm with h | h
  · exact hxf h
  · exact hx.2 h

/-- C13: in chain-vs-chain, when the node pair the cursors reach (after the node pairs `fl`,
`fr` that hold the same bytes) has different counts and the two nodes agree on the leading
bytes that both hold, the call returns the compared length `min(count_left, count_right)`,
which is smaller than the count of the longer node. -/
theorem C13_Traverse_compared_length (P : Nat) (art : ART) (l r : Ref) (nl nr tl tr : Node)
    (fl fr restl restr : List Nat) (al ar : Nat)
    (hrl : art.read l = some nl) (hrr : art.read r = some nr)
    (hwl : WfChain P art nl (fl ++ al :: restl) tl)
    (hwr : WfChain P art nr (fr ++ ar :: restr) tr)
    (hmap : fl.map (fun a => (art.segments a).bytes P) =
      fr.map (fun a => (art.segments a).bytes P))
    (hne : art.count P al ≠ art.count P ar)
    (hsame : ∀ i, i < min (art.count P al) (art.count P ar) →
      (art.segments al).data i = (art.segments ar).data i)
    (fuel : Nat) (hfuel : 2 * fl.length + 2 ≤ fuel) :
    ∃ art1 l1 r1, Prefix.Traverse P fuel art l r =
        some (art1, min (art.count P al) (art.count P ar), l1, r1) ∧
      min (art.count P al) (art.count P ar) < max (art.count P al) (art.count P ar) := by
  obtain ⟨ml, hchl, hchl2⟩ := Chain.split hwl.1
  obtain ⟨mr, hchr, hchr2⟩ := Chain.split hwr.1
  obtain ⟨e1, hlal, _⟩ := hchl2
  obtain ⟨e2, hlar, _⟩ := hchr2
  subst e1; subst e2
  have hcl : ∀ a ∈ fl, art.count P a ≤ P := fun a ha =>
    (hwl.2.2.1 a (List.mem_append_left _ ha)).2
  have hndl := (List.nodup_append.1 (Chain.nodup hwl.1 hwl.2.2.2.1)).1
  have hndr := (List.nodup_append.1 (Chain.nodup hwr.1 hwr.2.2.2.1)).1
  have houtl := fun x (hx : x ∈ fl) =>
    ref_outside_chain hrl hwl.1 hwl.2.2.2.1 x (List.mem_append_left _ hx)
  have houtr := fun x (hx : x ∈ fr) =>
    ref_outside_chain hrr hwr.1 hwr.2.2.2.1 x (List.mem_append_left _ hx)
  rcases Nat.lt_or_gt_of_ne hne with hlt | hlt
  · obtain ⟨art1, h1, _⟩ := Traverse_contains_left P fuel art l r nl nr fl fr al ar hrl hrr hchl
      hchr hlal hlar hmap hcl (hwl.2.2.1 al (by simp)).2 hlt
      (fun i hi => hsame i (by omega)) hndr houtr hfuel
    refine ⟨art1, Ref.ptr al, cursor r fr, ?_, by omega⟩
    rw [h1, Nat.min_eq_left (Nat.le_of_lt hlt)]
  · obtain ⟨art1, h1, _⟩ := Traverse_contains_right P fuel art l r nl nr fl fr al ar hrl hrr hchl
      hchr hlal hlar hmap hcl (hwr.2.2.1 ar (by simp)).2 hlt
      (fun i hi => hsame i (by omega)) hndl houtl hfuel
    refine ⟨art1, cursor l fl, Ref.ptr ar, ?_, by omega⟩
    rw [h1, Nat.min_eq_right (Nat.le_of_lt hlt)]

theorem C13_witness :
    ∃ art1 l1 r1, Prefix.Traverse 4 4 (chains_with [50, 60, 70]) (Ref.var 0) (Ref.var 1) =
        some (art1, min ((chains_with [50, 60, 70]).count 4 1)
          ((chains_with [50, 60, 70]).count 4 3), l1, r1) ∧
      min ((chains_with [50, 60, 70]).count 4 1) ((chains_with [50, 60, 70]).count 4 3) <
        max ((chains_with [50, 60, 70]).count 4 1) ((chains_with [50, 60, 70]).count 4 3) :=
  C13_Traverse_compared_length 4 (chains_with [50, 60, 70]) (Ref.var 0) (Ref.var 1) (Node.pfx 0)
    (Node.pfx 2) (Node.inner 7) (Node.inner 8) [0] [2] [] [] 1 3 rfl rfl (by decide) (by decide)
    (by decide) (by decide) (by decide) 4 (by decide)

/-- C18 (as stated) fails: the left node `[10,20]` is entirely consumed as a strict prefix
of the right node `[10,20,30,40]`, whose successor is the node `inner 8`. On return the
right side's tracked pointer is the reference it was, still naming the right node, not its
successor; the pointer that was rewired is the left one, to the left node's successor. -/
theorem C18_counterexample :
    WfChain 4 one_in_other (Node.pfx 0) [0] (Node.inner 7) ∧
    WfChain 4 one_in_other (Node.pfx 1) [1] (Node.inner 8) ∧
    (Prefix.Traverse 4 2 one_in_other (Ref.var 0) (Ref.var 1)).map
        (fun x => (x.2.1, x.2.2.1, x.2.2.2, x.1.read x.2.2.1, x.1.read x.2.2.2)) =
      some (2, Ref.ptr 0, Ref.var 1, some (Node.inner 7), some (Node.pfx 1)) ∧
    ¬ ∃ fuel art1 p l1 r1, Prefix.Traverse 4 fuel one_in_other (Ref.var 0) (Ref.var 1) =
      some (art1, p, l1, r1) ∧ art1.read r1 = some (Node.inner 8) := by
  refine ⟨by decide, by decide, by decide, ?_⟩
  rintro ⟨fuel, art1, p, l1, r1, h, hr⟩
  by_cases hf : 2 ≤ fuel
  · obtain ⟨art2, h2, _, _, _, _, h3, _⟩ := Traverse_contains_left 4 fuel one_in_other
      (Ref.var 0) (Ref.var 1) (Node.pfx 0) (Node.pfx 1) [] [] 0 1 rfl rfl rfl rfl (by decide)
      (by decide) rfl (by decide) (by decide) (by decide) (by decide) (by decide) (by decide)
      (by simpa using hf)
    rw [h] at h2
    injection h2 with h2
    injection h2 with e1 h2
    injection h2 with _ h2
    injection h2 with _ e2
    rw [e1, h3 rfl, e2] at hr
    revert hr
    decide
  · have hsmall : ∀ f, f < 2 →
        ((Prefix.Traverse 4 f one_in_other (Ref.var 0) (Ref.var 1)).map fun x =>
          decide (x.1.read x.2.2.2 ≠ some (Node.inner 8))).getD true = true := by
      decide
    have := hsmall fuel (by omega)
    rw [h] at this
    simp at this
    exact this hr

/-- C18 (amended): in chain-vs-chain, when one side's node is entirely consumed as a strict
prefix of the other side's node, on return the tracked pointer of the consumed (shorter)
side has been rewired to the `ptr` of the shorter node, whose value is that node's own
successor; when no node pair was advanced past before, the longer side's tracked pointer is
the reference it was and still names the longer node. -/
theorem C18_Traverse_rewires_shorter_side (P : Nat) (art : ART) (l r : Ref)
    (nl nr tl tr : Node) (fl fr restl restr : List Nat) (al ar : Nat)
    (hrl : art.read l = some nl) (hrr : art.read r = some nr)
    (hwl : WfChain P art nl (fl ++ al :: restl) tl)
    (hwr : WfChain P art nr (fr ++ ar :: restr) tr)
    (hmap : fl.map (fun a => (art.segments a).bytes P) =
      fr.map (fun a => (art.segments a).bytes P))
    (hsame : ∀ i, i < min (art.count P al) (art.count P ar) →
      (art.segments al).data i = (art.segments ar).data i)
    (hdis : ∀ x ∈ fl ++ al :: restl, x ∉ fr ++ ar :: restr)
    (hlout : ∀ x ∈ fr ++ ar :: restr, l ≠ Ref.ptr x)
    (hrout : ∀ x ∈ fl ++ al :: restl, r ≠ Ref.ptr x)
    (fuel : Nat) (hfuel : 2 * fl.length + 2 ≤ fuel) :
    (art.count P al < art.count P ar →
      ∃ art1 r1, Prefix.Traverse P fuel art l r =
          some (art1, art.count P al, Ref.ptr al, r1) ∧
        art1.read (Ref.ptr al) = some (art.segments al).ptr ∧
        (fr = [] → r1 = r ∧ art1.read r = some (Node.pfx ar))) ∧
    (art.count P ar < art.count P al →
      ∃ art1 l1, Prefix.Traverse P fuel art l r =
          some (art1, art.count P ar, l1, Ref.ptr ar) ∧
        art1.read (Ref.ptr ar) = some (art.segments ar).ptr ∧
        (fl = [] → l1 = l ∧ art1.read l = some (Node.pfx al))) := by
  obtain ⟨ml, hchl, hchl2⟩ := Chain.split hwl.1
  obtain ⟨mr, hchr, hchr2⟩ := Chain.split hwr.1
  obtain ⟨e1, hlal, _⟩ := hchl2
  obtain ⟨e2, hlar, _⟩ := hchr2
  subst e1; subst e2
  have hcl : ∀ a ∈ fl, art.count P a ≤ P := fun a ha =>
    (hwl.2.2.1 a (List.mem_append_left _ ha)).2
  have hndl := (List.nodup_append.1 (Chain.nodup hwl.1 hwl.2.2.2.1)).1
  have hndr := (List.nodup_append.1 (Chain.nodup hwr.1 hwr.2.2.2.1)).1
  have houtl := fun x (hx : x ∈ fl) =>
    ref_outside_chain hrl hwl.1 hwl.2.2.2.1 x (List.mem_append_left _ hx)
  have houtr := fun x (hx : x ∈ fr) =>
    ref_outside_chain hrr hwr.1 hwr.2.2.2.1 x (List.mem_append_left _ hx)
  have hral : art.read (Ref.ptr al) = some (art.segments al).ptr := by simp [ART.read, hlal]
  have hrar : art.read (Ref.ptr ar) = some (art.segments ar).ptr := by simp [ART.read, hlar]
  constructor
  · intro hlt
    obtain ⟨art1, h1, h2, h3, _, _, h6, _, h8, h9⟩ := Traverse_contains_left P fuel art l r nl nr
      fl fr al ar hrl hrr hchl hchr hlal hlar hmap hcl (hwl.2.2.1 al (by simp)).2 hlt
      (fun i hi => hsame i (by omega)) hndr houtr hfuel
    refine ⟨art1, cursor r fr, h1, ?_, ?_⟩
    · exact read_after_free hral h2 h3 h8 h9 (fun e => hrout al (by simp) e.symm)
        (fun x hx e => hdis al (by simp) (by
          injection e with e; rw [e]; exact List.mem_append_left _ hx))
    · intro e
      subst e
      cases hchr
      rw [h6 rfl]
      exact ⟨rfl, hrr⟩
  · intro hlt
    obtain ⟨art1, h1, h2, h3, _, _, h6, _, h8, h9⟩ := Traverse_contains_right P fuel art l r nl
      nr fl fr al ar hrl hrr hchl hchr hlal hlar hmap hcl (hwr.2.2.1 ar (by simp)).2 hlt
      (fun i hi => hsame i (by omega)) hndl houtl hfuel
    refine ⟨art1, cursor l fl, h1, ?_, ?_⟩
    · exact read_after_free hrar h2 h3 h8 h9 (fun e => hlout ar (by simp) e.symm)
        (fun x hx e => hdis x (List.mem_append_left _ hx) (by
          injection e with e; rw [← e]; simp))
    · intro e
      subst e
      cases hchl
      rw [h6 rfl]
      exact ⟨rfl, hrl⟩

theorem C18_witness :
    (∃ art1 r1, Prefix.Traverse 4 4 (chains_with [50, 60, 70]) (Ref.var 0) (Ref.var 1) =
        some (art1, (chains_with [50, 60, 70]).count 4 1, Ref.ptr 1, r1) ∧
      art1.read (Ref.ptr 1) = some ((chains_with [50, 60, 70]).segments 1).ptr ∧
      ([2] = [] → r1 = Ref.var 1 ∧ art1.read (Ref.var 1) = some (Node.pfx 3))) ∧
    (∃ art1 l1, Prefix.Traverse 4 4 (chains_with [50, 60, 70]) (Ref.var 1) (Ref.var 0) =
        some (art1, (chains_with [50, 60, 70]).count 4 1, l1, Ref.ptr 1) ∧
      art1.read (Ref.ptr 1) = some ((chains_with [50, 60, 70]).segments 1).ptr ∧
      ([2] = [] → l1 = Ref.var 1 ∧ art1.read (Ref.var 1) = some (Node.pfx 3))) :=
  ⟨(C18_Traverse_rewires_shorter_side 4 (chains_with [50, 60, 70]) (Ref.var 0) (Ref.var 1)
      (Node.pfx 0) (Node.pfx 2) (Node.inner 7) (Node.inner 8) [0] [2] [] [] 1 3 rfl rfl
      (by decide) (by decide) (by decide) (by decide) (by decide)
      (fun x _ e => by cases e) (fun x _ e => by cases e) 4 (by decide)).1 (by decide),
    (C18_Traverse_rewires_shorter_side 4 (chains_with [50, 60, 70]) (Ref.var 1) (Ref.var 0)
      (Node.pfx 2) (Node.pfx 0) (Node.inner 8) (Node.inner 7) [2] [0] [] [] 3 1 rfl rfl
      (by decide) (by decide) (by decide) (by decide) (by decide)
      (fun x _ e => by cases e) (fun x _ e => by cases e) 4 (by decide)).2 (by decide)⟩

/-- C19: in chain-vs-chain on two well-formed Prefix chains that share no node, when one
side's node is entirely consumed as a strict prefix of the other side's node, the nodes the
call frees are exactly the nodes of the longer side that were advanced past (`fr`, or `fl`):
none of them is live afterwards, the longer side's node of the pair is still live, and every
node of the shorter side is still live. -/
theorem C19_Traverse_frees_matched_nodes (P : Nat) (art : ART) (l r : Ref)
    (nl nr tl tr : Node) (fl fr restl restr : List Nat) (al ar : Nat)
    (hrl : art.read l = some nl) (hrr : art.read r = some nr)
    (hwl : WfChain P art nl (fl ++ al :: restl) tl)
    (hwr : WfChain P art nr (fr ++ ar :: restr) tr)
    (hmap : fl.map (fun a => (art.segments a).bytes P) =
      fr.map (fun a => (art.segments a).bytes P))
    (hsame : ∀ i, i < min (art.count P al) (art.count P ar) →
      (art.segments al).data i = (art.segments ar).data i)
    (hdis : ∀ x ∈ fl ++ al :: restl, x ∉ fr ++ ar :: restr)
    (fuel : Nat) (hfuel : 2 * fl.length + 2 ≤ fuel) :
    (art.count P al < art.count P ar →
      ∃ art1 l1 r1, Prefix.Traverse P fuel art l r = some (art1, art.count P al, l1, r1) ∧
        art1.freed = fr ++ art.freed ∧ (∀ x ∈ fr, ¬ art1.live x) ∧ art1.live ar ∧
        (∀ x ∈ fl ++ al :: restl, art1.live x)) ∧
    (art.count P ar < art.count P al →
      ∃ art1 l1 r1, Prefix.Traverse P fuel art l r = some (art1, art.count P ar, l1, r1) ∧
        art1.freed = fl ++ art.freed ∧ (∀ x ∈ fl, ¬ art1.live x) ∧ art1.live al ∧
        (∀ x ∈ fr ++ ar :: restr, art1.live x)) := by
  obtain ⟨ml, hchl, hchl2⟩ := Chain.split hwl.1
  obtain ⟨mr, hchr, hchr2⟩ := Chain.split hwr.1
  obtain ⟨e1, hlal, _⟩ := hchl2
  obtain ⟨e2, hlar, _⟩ := hchr2
  subst e1; subst e2
  have hcl : ∀ a ∈ fl, art.count P a ≤ P := fun a ha =>
    (hwl.2.2.1 a (List.mem_append_left _ ha)).2
  have hnl := List.nodup_append.1 (Chain.nodup hwl.1 hwl.2.2.2.1)
  have hnr := List.nodup_append.1 (Chain.nodup hwr.1 hwr.2.2.2.1)
  have houtl := fun x (hx : x ∈ fl) =>
    ref_outside_chain hrl hwl.1 hwl.2.2.2.1 x (List.mem_append_left _ hx)
  have houtr := fun x (hx : x ∈ fr) =>
    ref_outside_chain hrr hwr.1 hwr.2.2.2.1 x (List.mem_append_left _ hx)
  constructor
  · intro hlt
    obtain ⟨art1, h1, h2, h3, _⟩ := Traverse_contains_left P fuel art l r nl nr
      fl fr al ar hrl hrr hchl hchr hlal hlar hmap hcl (hwl.2.2.1 al (by simp)).2 hlt
      (fun i hi => hsame i (by omega)) hnr.1 houtr hfuel
    refine ⟨art1, Ref.ptr al, cursor r fr, h1, h3, ?_, ?_, ?_⟩
    · intro x hx hlive
      exact hlive.2 (by rw [h3]; exact List.mem_append_left _ hx)
    · exact live_after_free hlar h2 h3 (fun hm => hnr.2.2 hm (by simp))
    · intro x hx
      exact live_after_free (Chain.live hwl.1 x hx) h2 h3
        (fun hm => hdis x hx (List.mem_append_left _ hm))
  · intro hlt
    obtain ⟨art1, h1, h2, h3, _⟩ := Traverse_contains_right P fuel art l r nl nr
      fl fr al ar hrl hrr hchl hchr hlal hlar hmap hcl (hwr.2.2.1 ar (by simp)).2 hlt
      (fun i hi => hsame i (by omega)) hnl.1 houtl hfuel
    refine ⟨art1, cursor l fl, Ref.ptr ar, h1, h3, ?_, ?_, ?_⟩
    · intro x hx hlive
      exact hlive.2 (by rw [h3]; exact List.mem_append_left _ hx)
    · exact live_after_free hlal h2 h3 (fun hm => hnl.2.2 hm (by simp))
    · intro x hx
      exact live_after_free (Chain.live hwr.1 x hx) h2 h3
        (fun hm => hdis x (List.mem_append_left _ hm) hx)

theorem C19_witness :
    (∃ art1 l1 r1, Prefix.Traverse 4 4 (chains_with [50, 60, 70]) (Ref.var 0) (Ref.var 1) =
        some (art1, (chains_with [50, 60, 70]).count 4 1, l1, r1) ∧
      art1.freed = [2] ++ (chains_with [50, 60, 70]).freed ∧ (∀ x ∈ [2], ¬ art1.live x) ∧
      art1.live 3 ∧ (∀ x ∈ [0] ++ 1 :: [], art1.live x)) ∧
    (∃ art1 l1 r1, Prefix.Traverse 4 4 (chains_with [50, 60, 70]) (Ref.var 1) (Ref.var 0) =
        some (art1, (chains_with [50, 60, 70]).count 4 1, l1, r1) ∧
      art1.freed = [2] ++ (chains_with [50, 60, 70]).freed ∧ (∀ x ∈ [2], ¬ art1.live x) ∧
      art1.live 3 ∧ (∀ x ∈ [0] ++ 1 :: [], art1.live x)) :=
  ⟨(C19_Traverse_frees_matched_nodes 4 (chains_with [50, 60, 70]) (Ref.var 0) (Ref.var 1)
      (Node.pfx 0) (Node.pfx 2) (Node.inner 7) (Node.inner 8) [0] [2] [] [] 1 3 rfl rfl
      (by decide) (by decide) (by decide) (by decide) (by decide) 4 (by decide)).1 (by decide),
    (C19_Traverse_frees_matched_nodes 4 (chains_with [50, 60, 70]) (Ref.var 1) (Ref.var 0)
      (Node.pfx 2) (Node.pfx 0) (Node.inner 8) (Node.inner 7) [2] [0] [] [] 3 1 rfl rfl
      (by decide) (by decide) (by decide) (by decide) (by decide) 4 (by decide)).2 (by decide)⟩

/-- C20, the failing input: capacity 4, the well-formed chains `[10,20,30,40]` and
`[10,20,30,40] → [50,60]`. After the first node pair the left cursor is at a node that is
not a Prefix and the loop ends; the call returns the sentinel with the right cursor at the
Prefix node `[50,60]`, against the assertion of line 180. -/
theorem C20_Traverse_sentinel_at_Prefix_node :
    WfChain 4 short_and_long (Node.pfx 0) [0] (Node.inner 7) ∧
    WfChain 4 short_and_long (Node.pfx 1) [1, 2] (Node.inner 8) ∧
    (Prefix.Traverse 4 2 short_and_long (Ref.var 0) (Ref.var 1)).map
        (fun x => (x.2.1, x.2.2.1, x.2.2.2, x.1.read x.2.2.1, x.1.read x.2.2.2,
          (x.1.read x.2.2.2).map Node.IsPrefix)) =
      some (INVALID_INDEX, Ref.ptr 0, Ref.ptr 1, some (Node.inner 7), some (Node.pfx 2),
        some true) :=
  ⟨by decide, by decide, rfl⟩

/-! ## Block storage -/

theorem Serialize_bytes_spec (P : Nat) (p : Prefix) :
    ∀ (n i : Nat) (writer : MetaBlockWriter), i + n ≤ P + 1 →
      Prefix.Serialize_bytes P p n i writer =
        some ⟨writer.block_id, writer.written ++ (p.bytesFrom i n).map Prim.uint8⟩ := by
  intro n
  induction n with
  | zero => intro i writer _; simp [Prefix.Serialize_bytes, Prefix.bytesFrom]
  | succ n ih =>
    intro i writer h
    have hi : ¬ P < i := by omega
    unfold Prefix.Serialize_bytes
    simp only [hi, if_false]
    rw [ih (i + 1) _ (by omega), bytesFrom_succ]
    simp [MetaBlockWriter.Write]

/-- What `Prefix::Serialize` writes once the successor has been serialized: the record of
the node, at the location the writer was at after the successor. -/
theorem Prefix_Serialize_spec (P : Nat)
    (NS : Node → MetaBlockWriter → Option (MetaBlockWriter × BlockPointer)) (p : Prefix)
    (writer writer1 : MetaBlockWriter) (child : BlockPointer)
    (hs : NS p.ptr writer = some (writer1, child)) (hc : p.data P ≤ P) :
    Prefix.Serialize P NS p writer =
      some (⟨writer1.block_id, writer1.written ++ record (p.bytes P) child⟩,
        writer1.GetBlockPointer) := by
  unfold Prefix.Serialize
  simp only [hs]
  rw [Serialize_bytes_spec P p _ 0 _ (by omega)]
  simp [MetaBlockWriter.Write, record, bytes_eq_bytesFrom, Prefix.bytesFrom]

theorem drop_append_cells (cells ext : List Prim) (o : Nat) (x : Prim) (tl : List Prim)
    (h : cells.drop o = x :: tl) : (cells ++ ext).drop o = x :: (tl ++ ext) := by
  have hle : o ≤ cells.length := by
    by_contra hc
    rw [List.drop_eq_nil_of_le (by omega)] at h
    cases h
  rw [List.drop_append_of_le_length hle, h]
  rfl

theorem Stored.mono (cells ext : List Prim) (bid : Nat) :
    ∀ (bss : List (List Nat)) (bp : BlockPointer) (id : Nat),
      Stored cells bid bp bss id → Stored (cells ++ ext) bid bp bss id := by
  intro bss
  induction bss with
  | nil =>
    intro bp id h
    obtain ⟨h1, tl, h2⟩ := h
    exact ⟨h1, tl ++ ext, drop_append_cells cells ext _ _ _ h2⟩
  | cons bs rest ih =>
    intro bp id h
    obtain ⟨h1, child, tl, h2, h3⟩ := h
    refine ⟨h1, child, tl ++ ext, ?_, ih child id h3⟩
    have := drop_append_cells cells ext bp.offset Prim.PREFIX
      ((record bs child).tail ++ tl) (by rw [h2]; rfl)
    rw [this]
    simp [record]

/-- Serializing a well-formed chain that ends in the node `id`: the call returns, what was
written before stays, and the block holds the records of the chain at the location
returned. -/
theorem Node_Serialize_spec (P : Nat) (art : ART) (id : Nat) :
    ∀ (as : List Nat) (fuel : Nat) (n : Node) (writer : MetaBlockWriter),
      Chain art n as (Node.inner id) → (∀ a ∈ as, art.count P a ≤ P) → as.length < fuel →
      ∃ writer1 bp, Node.Serialize P fuel art n writer = some (writer1, bp) ∧
        writer1.block_id = writer.block_id ∧
        (∃ ext, writer1.written = writer.written ++ ext) ∧
        Stored writer1.written writer.block_id bp
          (as.map fun a => (art.segments a).bytes P) id := by
  intro as
  induction as with
  | nil =>
    intro fuel n writer hch _ hfuel
    cases hch
    obtain ⟨f, rfl⟩ : ∃ f, fuel = f + 1 := ⟨fuel - 1, by omega⟩
    refine ⟨writer.Write (Prim.other id), writer.GetBlockPointer, rfl, rfl, ⟨[Prim.other id], rfl⟩,
      rfl, [], ?_⟩
    simp [MetaBlockWriter.Write, MetaBlockWriter.GetBlockPointer]
  | cons a as ih =>
    intro fuel n writer hch hc hfuel
    obtain ⟨e, hla, hch2⟩ := hch
    subst e
    obtain ⟨f, rfl⟩ : ∃ f, fuel = f + 1 := ⟨fuel - 1, by omega⟩
    obtain ⟨w1, child, hs, hb, ⟨ext, hext⟩, hst⟩ := ih f _ writer hch2
      (fun x hx => hc x (List.mem_cons_of_mem _ hx))
      (by simp only [List.length_cons] at hfuel; omega)
    have hrun := Prefix_Serialize_spec P (Node.Serialize P f art) (art.segments a) writer w1 child
      hs (hc a (List.mem_cons_self _ _))
    refine ⟨⟨w1.block_id, w1.written ++ record ((art.segments a).bytes P) child⟩,
      w1.GetBlockPointer, ?_, hb, ⟨ext ++ record ((art.segments a).bytes P) child, ?_⟩, ?_⟩
    · rw [Node.Serialize]
      simp only [Prefix.Get, hla, if_true]
      exact hrun
    · simp [hext]
    · refine ⟨hb, child, [], ?_, Stored.mono _ _ _ _ _ _ hst⟩
      simp [MetaBlockWriter.GetBlockPointer]

/-- C15: `Prefix::Serialize` on a Prefix node of a well-formed chain returns; it first
serializes the successor (what that call wrote comes first in the block) and then appends,
in this order, the Prefix type tag, the count as one `uint8_t`, the `count` bytes
`data[0 .. count)` and the block id and the offset of the successor's location; it
returns the location the writer was at before the type tag was written. -/
theorem C15_Serialize_order (P : Nat) (art : ART) (a id : Nat) (rest : List Nat)
    (hwf : WfChain P art (Node.pfx a) (a :: rest) (Node.inner id)) (writer : MetaBlockWriter)
    (fuel : Nat) (hfuel : rest.length < fuel) :
    ∃ writer1 child,
      Node.Serialize P fuel art (art.segments a).ptr writer = some (writer1, child) ∧
      (∃ ext, writer1.written = writer.written ++ ext) ∧
      Prefix.Serialize P (Node.Serialize P fuel art) (art.segments a) writer =
        some (⟨writer1.block_id, writer1.written ++
          ([Prim.PREFIX, Prim.uint8 (art.count P a)] ++
            ((art.segments a).bytes P).map Prim.uint8 ++
            [Prim.block_id child.block_id, Prim.offset child.offset])⟩,
          writer1.GetBlockPointer) ∧
      ((art.segments a).bytes P).length = art.count P a := by
  obtain ⟨hch, _, hcnt, _, _⟩ := hwf
  obtain ⟨_, hla, hch2⟩ := hch
  obtain ⟨w1, child, hs, _, hext, _⟩ := Node_Serialize_spec P art id rest fuel _ writer hch2
    (fun x hx => (hcnt x (List.mem_cons_of_mem _ hx)).2) hfuel
  refine ⟨w1, child, hs, hext, ?_, bytes_length P _⟩
  rw [Prefix_Serialize_spec P _ _ writer w1 child hs (hcnt a (List.mem_cons_self _ _)).2]
  simp [record, bytes_length, ART.count]

theorem C15_witness :
    ∃ writer1 child,
      Node.Serialize 4 4 long_chain (long_chain.segments 0).ptr ⟨3, []⟩ = some (writer1, child) ∧
      (∃ ext, writer1.written = (⟨3, []⟩ : MetaBlockWriter).written ++ ext) ∧
      Prefix.Serialize 4 (Node.Serialize 4 4 long_chain) (long_chain.segments 0) ⟨3, []⟩ =
        some (⟨writer1.block_id, writer1.written ++
          ([Prim.PREFIX, Prim.uint8 (long_chain.count 4 0)] ++
            ((long_chain.segments 0).bytes 4).map Prim.uint8 ++
            [Prim.block_id child.block_id, Prim.offset child.offset])⟩,
          writer1.GetBlockPointer) ∧
      ((long_chain.segments 0).bytes 4).length = long_chain.count 4 0 :=
  C15_Serialize_order 4 long_chain 0 7 [1, 2, 3] (by decide) ⟨3, []⟩ 4 (by decide)

theorem read_uint8_of_drop (reader : MetaBlockReader) (v : Nat) (tl : List Prim)
    (h : reader.block.drop reader.offset = Prim.uint8 v :: tl) :
    reader.Read_uint8 = some (v, ⟨reader.block, reader.offset + 1⟩) ∧
      reader.block.drop (reader.offset + 1) = tl := by
  constructor
  · unfold MetaBlockReader.Read_uint8
    rw [h]
  · rw [← List.drop_drop, h]
    rfl

/-- The loop of `Prefix::Deserialize` reads the bytes `bs` into `data[i ..]` when the count
is `i + bs.length` and fits the capacity. -/
theorem Deserialize_bytes_spec (P : Nat) :
    ∀ (bs : List Nat) (k : Nat) (d : Nat → Nat) (i : Nat) (reader : MetaBlockReader)
      (tl : List Prim), reader.block.drop reader.offset = bs.map Prim.uint8 ++ tl →
      d P = i + bs.length → i + bs.length ≤ P → bs.length < k →
      ∃ d1, Prefix.Deserialize_bytes P k d i reader =
          some (d1, ⟨reader.block, reader.offset + bs.length⟩) ∧
        reader.block.drop (reader.offset + bs.length) = tl ∧ d1 P = d P ∧
        (∀ j, j < i → d1 j = d j) ∧ (List.range bs.length).map (fun j => d1 (i + j)) = bs := by
  intro bs
  induction bs with
  | nil =>
    intro k d i reader tl h hc _ hk
    obtain ⟨k, rfl⟩ : ∃ k1, k = k1 + 1 := ⟨k - 1, by omega⟩
    refine ⟨d, ?_, by simpa using h, rfl, fun _ _ => rfl, rfl⟩
    unfold Prefix.Deserialize_bytes
    simp [hc]
  | cons b bs ih =>
    intro k d i reader tl h hc hle hk
    obtain ⟨k, rfl⟩ : ∃ k1, k = k1 + 1 := ⟨k - 1, by omega⟩
    simp only [List.length_cons] at hc hle hk
    obtain ⟨hr, hd⟩ := read_uint8_of_drop reader b (bs.map Prim.uint8 ++ tl) (by simpa using h)
    have hiP : i ≠ P := by omega
    obtain ⟨d1, h1, h2, h3, h4, h5⟩ := ih k (Function.update d i b) (i + 1)
      ⟨reader.block, reader.offset + 1⟩ tl hd
      (by rw [Function.update_noteq hiP.symm]; omega) (by omega) (by omega)
    refine ⟨d1, ?_, ?_, ?_, ?_, ?_⟩
    · unfold Prefix.Deserialize_bytes
      have hlt : i < d P := by omega
      have hn : ¬ P < i := by omega
      simp only [hlt, if_true, hn, if_false, hr, h1, List.length_cons]
      simp [Nat.add_assoc, Nat.add_comm 1]
    · simp only [List.length_cons]
      rw [← h2]
      simp [Nat.add_assoc, Nat.add_comm 1]
    · rw [h3, Function.update_noteq hiP.symm]
    · intro j hj
      rw [h4 j (by omega), Function.update_noteq (by omega)]
    · simp only [List.length_cons]
      rw [List.range_succ_eq_map, List.map_cons, List.map_map]
      have e0 : d1 (i + 0) = b := by
        rw [Nat.add_zero, h4 i (by omega)]; simp
      rw [e0]
      congr 1
      refine Eq.trans ?_ h5
      apply List.map_congr_left
      intro j _
      simp [Nat.add_assoc, Nat.add_comm 1]

theorem ofReader_of_drop (reader : MetaBlockReader) (b o : Nat) (tl : List Prim)
    (h : reader.block.drop reader.offset = Prim.block_id b :: Prim.offset o :: tl) :
    Node.ofReader reader = some (Node.swizzled b o, ⟨reader.block, reader.offset + 2⟩) := by
  unfold Node.ofReader
  rw [h]

/-- `Prefix::Deserialize` on a reader positioned after the type tag of a record: the node
holds the recorded bytes and a swizzled `ptr` that carries the recorded location. -/
theorem Prefix_Deserialize_spec (P : Nat) (p : Prefix) (cells : List Prim) (o : Nat)
    (bs : List Nat) (child : BlockPointer) (tl : List Prim)
    (h : cells.drop o = record bs child ++ tl) (hle : bs.length ≤ P) :
    ∃ q reader, Prefix.Deserialize P p ⟨cells, o + 1⟩ = some (q, reader) ∧ q.bytes P = bs ∧
      q.data P = bs.length ∧ q.ptr = Node.swizzled child.block_id child.offset := by
  have h1 : cells.drop (o + 1) = Prim.uint8 bs.length ::
      (bs.map Prim.uint8 ++ (Prim.block_id child.block_id :: Prim.offset child.offset :: tl)) := by
    rw [← List.drop_drop, h]
    simp [record]
  obtain ⟨hr, hd⟩ := read_uint8_of_drop ⟨cells, o + 1⟩ bs.length _ h1
  obtain ⟨d1, e1, e2, e3, _, e5⟩ := Deserialize_bytes_spec P bs (P + 2)
    (Function.update p.data P bs.length) 0 ⟨cells, o + 1 + 1⟩ _ hd (by simp) (by omega) (by omega)
  have e4 := ofReader_of_drop ⟨cells, o + 1 + 1 + bs.length⟩ _ _ _ e2
  refine ⟨⟨d1, Node.swizzled child.block_id child.offset⟩,
    ⟨cells, o + 1 + 1 + bs.length + 2⟩, ?_, ?_, ?_, rfl⟩
  · unfold Prefix.Deserialize
    simp only [hr, e1, e4]
  · unfold Prefix.bytes
    simp only [e3, Function.update_same]
    simpa using e5
  · simp [e3]

/-- `Node::Deserialize` on a reference that carries the location of a Prefix record. -/
theorem Node_Deserialize_record (P : Nat) (storage : MetaBlockWriter) (art : ART) (node : Ref)
    (bp child : BlockPointer) (bs : List Nat) (tl : List Prim)
    (hr : art.read node = some (Node.swizzled bp.block_id bp.offset))
    (hb : bp.block_id = storage.block_id)
    (h : storage.written.drop bp.offset = record bs child ++ tl) (hle : bs.length ≤ P) :
    ∃ art1, Node.Deserialize P storage art node = some art1 ∧ art1.next = art.next + 1 ∧
      art1.freed = art.freed ∧ art1.live art.next ∧
      art1.read node = some (Node.pfx art.next) ∧
      (art1.segments art.next).bytes P = bs ∧
      (art1.segments art.next).ptr = Node.swizzled child.block_id child.offset ∧
      (∀ x, x ≠ art.next → (art1.segments x).data = (art.segments x).data) ∧
      (∀ x, x ≠ art.next → node ≠ Ref.ptr x → (art1.segments x).ptr = (art.segments x).ptr) ∧
      (∀ x, art.live x → art1.live x) ∧
      (∀ i, node ≠ Ref.var i → art1.vars i = art.vars i) := by
  have hv : art.allocNew.1.valid node := by
    cases node with
    | var i => trivial
    | ptr x =>
      have : art.live x := valid_of_read hr
      exact (allocNew_live art x).2 (Or.inl this)
  obtain ⟨art2, w1, w2, w3, _, w5, w6, w7, w8, w9⟩ := write_spec (Node.pfx art.allocNew.2) hv
  obtain ⟨q, rd, d1, d2, _, d4⟩ := Prefix_Deserialize_spec P (art2.segments art.allocNew.2)
    storage.written bp.offset bs child tl h hle
  have hnx : art.allocNew.2 = art.next := rfl
  have hnode : node ≠ Ref.ptr art.next := by
    rintro rfl
    exact not_live_next art (valid_of_read hr)
  refine ⟨art2.setPfx art.next q, ?_, ?_, ?_, ?_, ?_, ?_, ?_, ?_, ?_, ?_, ?_⟩
  · unfold Node.Deserialize
    have hh : storage.written.drop bp.offset = Prim.PREFIX :: (Prim.uint8 bs.length ::
        (bs.map Prim.uint8 ++ [Prim.block_id child.block_id, Prim.offset child.offset] ++ tl)) := by
      rw [h]; simp [record]
    rw [hnx] at w1 d1
    simp only [hr, hb, ne_eq, not_true_eq_false, if_false, hh, w1, d1, hnx]
  · show art2.next = _
    rw [w2]; rfl
  · show art2.freed = _
    rw [w3]; rfl
  · have : art2.live art.next := (w9 _).2 ((allocNew_live art _).2 (Or.inr rfl))
    exact this
  · cases node with
    | var i =>
      have := w5
      simpa [ART.read, ART.setPfx] using this
    | ptr x =>
      have hx : x ≠ art.next := fun e => hnode (by rw [e])
      have := w5
      simp only [ART.read, ART.setPfx] at this ⊢
      rw [Function.update_noteq hx]
      exact this
  · simp [ART.setPfx, d2]
  · simp [ART.setPfx, d4]
  · intro x hx
    simp only [ART.setPfx, Function.update_noteq hx]
    rw [w6]; rfl
  · intro x hx hn
    simp only [ART.setPfx, Function.update_noteq hx]
    rw [w7 x hn]; rfl
  · intro x hx
    have : art2.live x := (w9 x).2 ((allocNew_live art x).2 (Or.inl hx))
    exact this
  · intro i hi
    show art2.vars i = _
    rw [w8 i hi]; rfl

/-- `Node::Deserialize` on a reference that carries the location of the record of a node
that is not a Prefix. -/
theorem Node_Deserialize_other (P : Nat) (storage : MetaBlockWriter) (art : ART) (node : Ref)
    (bp : BlockPointer) (id : Nat) (tl : List Prim)
    (hr : art.read node = some (Node.swizzled bp.block_id bp.offset))
    (hb : bp.block_id = storage.block_id)
    (h : storage.written.drop bp.offset = Prim.other id :: tl) :
    ∃ art1, Node.Deserialize P storage art node = some art1 ∧ art1.next = art.next ∧
      art1.freed = art.freed ∧ art1.read node = some (Node.inner id) ∧
      (∀ x, (art1.segments x).data = (art.segments x).data) ∧
      (∀ x, node ≠ Ref.ptr x → (art1.segments x).ptr = (art.segments x).ptr) ∧
      (∀ x, art.live x → art1.live x) ∧
      (∀ i, node ≠ Ref.var i → art1.vars i = art.vars i) := by
  obtain ⟨art1, w1, w2, w3, _, w5, w6, w7, w8, w9⟩ := write_spec (Node.inner id) (valid_of_read hr)
  refine ⟨art1, ?_, w2, w3, w5, w6, w7, fun x hx => (w9 x).2 hx, w8⟩
  unfold Node.Deserialize
  simp only [hr, hb, ne_eq, not_true_eq_false, if_false, h, w1]

/-- Materializing a stored chain: `Node::Deserialize` applied along the chain builds, in
fresh nodes, a chain with the recorded bytes node by node that ends in the recorded node. -/
theorem Deserialize_chain_spec (P : Nat) (storage : MetaBlockWriter) (id : Nat) :
    ∀ (bss : List (List Nat)) (fuel : Nat) (art : ART) (node : Ref) (bp : BlockPointer),
      Stored storage.written storage.block_id bp bss id →
      art.read node = some (Node.swizzled bp.block_id bp.offset) →
      (∀ bs ∈ bss, bs.length ≤ P) → bss.length < fuel →
      ∃ art1 n as, Node.Deserialize_chain P storage fuel art node = some art1 ∧
        art1.read node = some n ∧ Chain art1 n as (Node.inner id) ∧
        as.map (fun a => (art1.segments a).bytes P) = bss ∧
        art.next ≤ art1.next ∧
        (∀ x, x < art.next → (art1.segments x).data = (art.segments x).data) ∧
        (∀ x, x < art.next → node ≠ Ref.ptr x → (art1.segments x).ptr = (art.segments x).ptr) ∧
        (∀ x, art.live x → art1.live x) ∧
        (∀ i, node ≠ Ref.var i → art1.vars i = art.vars i) := by
  intro bss
  induction bss with
  | nil =>
    intro fuel art node bp hst hr _ hfuel
    obtain ⟨fuel, rfl⟩ : ∃ f, fuel = f + 1 := ⟨fuel - 1, by omega⟩
    obtain ⟨hb, tl, hd⟩ := hst
    obtain ⟨art1, e1, e2, _, e4, e5, e6, e7, e8⟩ :=
      Node_Deserialize_other P storage art node bp id tl hr hb hd
    refine ⟨art1, Node.inner id, [], ?_, e4, rfl, rfl, by omega, fun x _ => e5 x,
      fun x _ hn => e6 x hn, e7, e8⟩
    unfold Node.Deserialize_chain
    simp only [e1, e4]
  | cons bs rest ih =>
    intro fuel art node bp hst hr hle hfuel
    obtain ⟨fuel, rfl⟩ : ∃ f, fuel = f + 1 := ⟨fuel - 1, by omega⟩
    simp only [List.length_cons] at hfuel
    obtain ⟨hb, child, tl, hd, hrest⟩ := hst
    obtain ⟨art1, e1, e2, _, e4, e5, e6, e7, e8, e9, e10, e11⟩ :=
      Node_Deserialize_record P storage art node bp child bs tl hr hb hd
        (hle bs (List.mem_cons_self _ _))
    have hrp : art1.read (Ref.ptr art.next) = some (Node.swizzled child.block_id child.offset) := by
      simp only [ART.read, e4, if_true, e7]
    obtain ⟨art2, n2, as2, f1, f2, f3, f4, f5, f6, f7, f8, f9⟩ := ih fuel art1 (Ref.ptr art.next)
      child hrest hrp (fun b hb => hle b (List.mem_cons_of_mem _ hb)) (by omega)
    have hnode : node ≠ Ref.ptr art.next := by
      rintro rfl
      exact not_live_next art (valid_of_read hr)
    have hlt : art.next < art1.next := by omega
    have hl2 : art2.live art.next := f8 _ e4
    have hp2 : (art2.segments art.next).ptr = n2 := by
      have := f2
      simp only [ART.read, hl2, if_true] at this
      exact Option.some.inj this
    have hread : art2.read node = some (Node.pfx art.next) := by
      refine read_keep_of_frame e5 ?_ ?_ ?_
      · intro b _ hb2; exact f8 b hb2
      · intro b hb2
        have hbl : art1.live b := by
          have := valid_of_read e5
          rw [hb2] at this
          exact this
        exact f7 b hbl.1 (by rw [← hb2]; exact hnode.symm)
      · intro i _; exact f9 i (by simp)
    refine ⟨art2, Node.pfx art.next, art.next :: as2, ?_, hread, ⟨rfl, hl2, hp2 ▸ f3⟩, ?_,
      by omega, ?_, ?_, fun x hx => f8 x (e10 x hx), ?_⟩
    · unfold Node.Deserialize_chain
      simp only [e1, e5, f1]
    · simp only [List.map_cons, f4]
      congr 1
      unfold Prefix.bytes
      rw [f6 _ hlt]
      exact e6
    · intro x hx
      rw [f6 x (by omega), e8 x (by omega)]
    · intro x hx hn
      rw [f7 x (by omega) (by intro e; cases e; omega), e9 x (by omega) hn]
    · intro i hi
      rw [f9 i (by simp), e11 i hi]

theorem flat_eq_join (P : Nat) (art : ART) (as : List Nat) :
    flat P art as = (as.map fun a => (art.segments a).bytes P).flatten := by
  induction as with
  | nil => rfl
  | cons a as ih => simp [flat, ih]

/-- C14: `Node::Serialize` of a well-formed chain that ends in a node of another type
returns a block location, and `Node::Deserialize` of a swizzled reference that carries this
location, repeated on the `ptr` of every node it materializes, returns and builds a chain
that ends in the same node, with the same bytes node by node, so with the same flattened
byte sequence and the same number of Prefix nodes. -/
theorem C14_Serialize_Deserialize_roundtrip (P : Nat) (art : ART) (n : Node) (as : List Nat)
    (id : Nat) (hwf : WfChain P art n as (Node.inner id)) (writer : MetaBlockWriter)
    (fuel : Nat) (hfuel : as.length < fuel) :
    ∃ storage bp, Node.Serialize P fuel art n writer = some (storage, bp) ∧
      ∀ (mem : ART) (node : Ref),
        mem.read node = some (Node.swizzled bp.block_id bp.offset) →
        ∃ mem1 n1 as1, Node.Deserialize_chain P storage fuel mem node = some mem1 ∧
          mem1.read node = some n1 ∧ WfChain P mem1 n1 as1 (Node.inner id) ∧
          as1.map (fun a => (mem1.segments a).bytes P) =
            as.map (fun a => (art.segments a).bytes P) ∧
          flat P mem1 as1 = flat P art as ∧ as1.length = as.length := by
  obtain ⟨hch, hne, hcnt, _, _⟩ := hwf
  obtain ⟨storage, bp, hs, hbid, _, hst⟩ := Node_Serialize_spec P art id as fuel n writer hch
    (fun a ha => (hcnt a ha).2) hfuel
  refine ⟨storage, bp, hs, ?_⟩
  intro mem node hr
  rw [← hbid] at hst
  obtain ⟨mem1, n1, as1, d1, d2, d3, d4, _⟩ := Deserialize_chain_spec P storage id _ fuel mem
    node bp hst hr (by
      intro bs hbs
      obtain ⟨a, ha, rfl⟩ := List.mem_map.1 hbs
      rw [bytes_length]
      exact (hcnt a ha).2) (by simpa using hfuel)
  have hlen : as1.length = as.length := by
    have := congrArg List.length d4
    simpa using this
  refine ⟨mem1, n1, as1, d1, d2, ⟨d3, ?_, ?_, rfl, rfl⟩, d4, ?_, hlen⟩
  · intro e
    rw [e] at hlen
    exact hne (List.length_eq_zero.1 hlen.symm)
  · intro a ha
    have hmem : (mem1.segments a).bytes P ∈ as.map (fun a => (art.segments a).bytes P) := by
      rw [← d4]
      exact List.mem_map_of_mem _ ha
    obtain ⟨b, hb, hbe⟩ := List.mem_map.1 hmem
    have h1 := congrArg List.length hbe
    rw [bytes_length, bytes_length] at h1
    unfold ART.count at hcnt ⊢
    have := hcnt b hb
    omega
  · rw [flat_eq_join, flat_eq_join, d4]

theorem C14_witness :
    ∃ storage bp, Node.Serialize 4 5 long_chain (Node.pfx 0) ⟨3, []⟩ = some (storage, bp) ∧
      ∀ (mem : ART) (node : Ref),
        mem.read node = some (Node.swizzled bp.block_id bp.offset) →
        ∃ mem1 n1 as1, Node.Deserialize_chain 4 storage 5 mem node = some mem1 ∧
          mem1.read node = some n1 ∧ WfChain 4 mem1 n1 as1 (Node.inner 7) ∧
          as1.map (fun a => (mem1.segments a).bytes 4) =
            [0, 1, 2, 3].map (fun a => (long_chain.segments a).bytes 4) ∧
          flat 4 mem1 as1 = flat 4 long_chain [0, 1, 2, 3] ∧ as1.length = [0, 1, 2, 3].length :=
  C14_Serialize_Deserialize_roundtrip 4 long_chain (Node.pfx 0) [0, 1, 2, 3] 7 (by decide)
    ⟨3, []⟩ 5 (by decide)

/-! ## Reduce, Split at position 0 and the cursor after a free -/

/-- The shift loop of `Reduce` copies `data[n + j + 1]` to `data[j]` for the indices it
visits: every read is from an index above the ones written so far. -/
theorem Reduce_shift_spec (n : Nat) : ∀ (k i : Nat) (d : Nat → Nat),
    Prefix.Reduce_shift n k i d = fun j => if i ≤ j ∧ j < i + k then d (n + j + 1) else d j := by
  intro k
  induction k with
  | zero =>
    intro i d
    funext j
    have : ¬ (i ≤ j ∧ j < i) := by omega
    simp [Prefix.Reduce_shift, this]
  | succ k ih =>
    intro i d
    unfold Prefix.Reduce_shift
    rw [ih]
    funext j
    by_cases h1 : i + 1 ≤ j ∧ j < i + 1 + k
    · have h2 : i ≤ j ∧ j < i + (k + 1) := by omega
      have h3 : n + j + 1 ≠ i := by omega
      simp [h1, h2, Function.update_noteq h3]
    · by_cases h4 : j = i
      · subst h4
        have h2 : j ≤ j ∧ j < j + (k + 1) := by omega
        simp [h1, h2]
      · have h2 : ¬ (i ≤ j ∧ j < i + (k + 1)) := by omega
        simp [h1, h2, Function.update_noteq h4]

/-- The first branch of `Reduce` (lines 215-223): the node is detached from its successor
and freed, and the caller's reference is set to the successor. -/
theorem Reduce_free (P : Nat) (hP : 0 < P) (fuel : Nat) (hfuel : 2 ≤ fuel) (art : ART)
    (prefix_node : Ref) (a : Nat) (hr : art.read prefix_node = some (Node.pfx a))
    (hl : art.live a) (hpa : prefix_node ≠ Ref.ptr a) :
    ∃ art1, Prefix.Reduce P fuel art prefix_node (P - 1) = some art1 ∧
      art1.read prefix_node = some (art.segments a).ptr ∧
      art1.next = art.next ∧ art1.freed = a :: art.freed ∧ art1.released = art.released ∧
      (∀ x, (art1.segments x).data = (art.segments x).data) ∧
      (∀ x, x ≠ a → prefix_node ≠ Ref.ptr x → (art1.segments x).ptr = (art.segments x).ptr) ∧
      (∀ i, prefix_node ≠ Ref.var i → art1.vars i = art.vars i) := by
  obtain ⟨f, rfl⟩ : ∃ f, fuel = f + 2 := ⟨fuel - 2, by omega⟩
  have hr0 : (art.setPtr a Node.unset).read prefix_node = some (Node.pfx a) := by
    cases prefix_node with
    | var i => exact hr
    | ptr b =>
      have hb : art.live b := valid_of_read hr
      have hba : b ≠ a := fun e => hpa (by rw [e])
      simp only [ART.read, hb, if_true] at hr
      simp only [ART.read, setPtr_live, hb, if_true, setPtr_segments_ne _ _ _ _ hba]
      exact hr
  obtain ⟨art2, h1, h2, h3, h4, h5, h6, h7, h8⟩ := Node_Free_detached f
    (art.setPtr a Node.unset) prefix_node a hr0 hl (by simp) hpa
  obtain ⟨art3, w1, w2, w3, w4, w5, w6, w7, w8, _⟩ :=
    write_spec (art.segments a).ptr (valid_of_read h5)
  refine ⟨art3, ?_, w5, by rw [w2, h2]; rfl, by rw [w3, h3]; rfl, by rw [w4, h4]; rfl, ?_, ?_, ?_⟩
  · unfold Prefix.Reduce
    have hn : P - 1 < P := by omega
    simp only [hn, not_true_eq_false, if_false, hr, Prefix.Get, hl, if_true, h1, w1]
  · intro x
    rw [w6, h6, setPtr_data]
  · intro x hx hpx
    rw [w7 x hpx, h7 x hpx, setPtr_segments_ne _ _ _ _ hx]
  · intro i hi
    rw [w8 i hi, h8 i hi]
    rfl

/-- The second branch of `Reduce` (lines 225-232) on the head of a chain: the bytes
`data[n + 1 .. PREFIX_SIZE)` are moved to the front, the count is set to
`PREFIX_SIZE - n - 1`, and the successor chain is folded into the node. -/
theorem Reduce_fold (P : Nat) (hP2 : P < 256) (fuel : Nat) (art : ART) (prefix_node : Ref)
    (a n : Nat) (t : Node) (rest : List Nat)
    (hr : art.read prefix_node = some (Node.pfx a))
    (hch : Chain art (Node.pfx a) (a :: rest) t) (ht : t.IsPrefix = false)
    (hs : t.IsSwizzled = false) (hcnt : ∀ x ∈ rest, art.count P x ≤ P)
    (hn : n + 1 < P) (hfuel : rest.length + P + 1 ≤ fuel) :
    ∃ art1 a1 L, Prefix.Reduce P fuel art prefix_node n = some art1 ∧
      art1.read prefix_node = some (Node.pfx a) ∧
      Chain art1 (Node.pfx a) L t ∧ L.getLast? = some a1 ∧
      flat P art1 L = (art.segments a).bytesFrom (n + 1) (P - n - 1) ++ flat P art rest ∧
      (∀ x ∈ L, 1 ≤ art1.count P x ∧ art1.count P x ≤ P) ∧
      (∀ x ∈ L.dropLast, art1.count P x = P) ∧
      (∀ x ∈ L, x = a ∨ art.next ≤ x) ∧
      art1.freed = rest.reverse ++ art.freed ∧
      (∀ x, x < art.next → x ≠ a → art1.segments x = art.segments x) ∧
      art1.vars = art.vars := by
  have hP : 0 < P := by omega
  have hnd : a ∉ rest := (List.nodup_cons.1 (Chain.nodup hch ht)).1
  have hpa : prefix_node ≠ Ref.ptr a :=
    ref_outside_chain hr hch ht a (List.mem_cons_self _ _)
  have hprest : ∀ x, prefix_node = Ref.ptr x → x ∉ rest := fun x e hx =>
    ref_outside_chain hr hch ht x (List.mem_cons_of_mem _ hx) e
  obtain ⟨_, hla, hrest⟩ := hch
  generalize hd2 : Function.update (Prefix.Reduce_shift n (P - n - 1) 0 (art.segments a).data) P
    (P - n - 1) = d2
  have hmod : (P - n - 1) % 256 = P - n - 1 := Nat.mod_eq_of_lt (by omega)
  have hc0 : (art.setData a d2).count P a = P - n - 1 := by
    simp [ART.count, ← hd2]
  have hrest0 : Chain (art.setData a d2) ((art.setData a d2).segments a).ptr rest t := by
    rw [setData_ptr]
    exact @Chain.frame art (art.setData a d2) rest _ _
      (fun x _ hl => ⟨hl, by rw [setData_ptr]⟩) hrest
  obtain ⟨art1, a1, L, hrun, hE, hp, hz⟩ := Append_node_spec P hP hP2 rest fuel (art.setData a d2)
    a _ t hrest0 ht hs hla hnd (by rw [hc0]; omega)
    (fun x hx => by
      have hxa : x ≠ a := fun e => hnd (e ▸ hx)
      simp only [ART.count, setData_segments_ne _ _ _ _ hxa]
      exact hcnt x hx) hfuel
  have hpos : 1 ≤ art1.count P a1 :=
    Append_node_pos P hP hP2 fuel _ a _ art1 a1 hrun (by rw [hc0]; omega)
  have hptr : (art1.segments a1).ptr = t := by
    by_cases e : rest = []
    · obtain ⟨e1, e2⟩ := hz e
      subst e
      cases hrest
      rw [e1, e2, setData_ptr]
    · exact hp e
  have hr0 : (art.setData a d2).read prefix_node = some (Node.pfx a) :=
    read_keep_of_frame hr (fun b _ hb => hb) (fun b _ => by rw [setData_ptr]) (fun i _ => rfl)
  refine ⟨art1, a1, L, ?_, hE.read_keep (valid_of_read hr0) hpa hprest hr0, ?_, hE.last, ?_,
    hE.bounds hP hpos, hE.all_full, hE.fresh, hE.freed, ?_, hE.vars⟩
  · unfold Prefix.Reduce
    have h1 : n < P := by omega
    have h2 : n ≠ P - 1 := by omega
    simp only [h1, not_true_eq_false, if_false, hr, Prefix.Get, hla, if_true, h2, hmod, hd2,
      hrun, Option.map]
  · have := hE.chain
    rw [hptr] at this
    exact this
  · rw [hE.flat_eq, @flat_frame P art (art.setData a d2) rest (fun x hx => by
      rw [setData_segments_ne _ _ _ _ (fun e => hnd (by rw [← e]; exact hx))])]
    congr 1
    unfold Prefix.bytes Prefix.bytesFrom
    have hcc : ((art.setData a d2).segments a).data P = P - n - 1 := hc0
    rw [hcc]
    apply List.map_congr_left
    intro j hj
    have hj2 : j < P - n - 1 := List.mem_range.1 hj
    have hjP : j ≠ P := by omega
    have hin : 0 ≤ j ∧ j < 0 + (P - n - 1) := by omega
    simp only [setData_data_self, ← hd2, Function.update_noteq hjP, Reduce_shift_spec, hin,
      and_self, if_true]
    congr 1
    omega
  · intro x hx hxa
    rw [hE.seg x hx hxa, setData_segments_ne _ _ _ _ hxa]

/-- C21: `Reduce(prefix_node, PREFIX_SIZE - 1)` on a Prefix node with the successor `s`
(the reference not being the node's own successor field) returns; the node has been
returned to the allocator, it is the only node freed and nothing is handed to the
node-free entry point of other node types; every other node is live as before with the
bytes it had, and with the successor it had unless the caller's reference is its successor
field; the caller's reference holds `s`. -/
theorem C21_Reduce_frees_node (P : Nat) (hP : 0 < P) (fuel : Nat) (hfuel : 2 ≤ fuel) (art : ART)
    (prefix_node : Ref) (a : Nat) (s : Node)
    (hr : art.read prefix_node = some (Node.pfx a)) (hl : art.live a)
    (hs : (art.segments a).ptr = s) (_hset : s.IsSet = true) (hpa : prefix_node ≠ Ref.ptr a) :
    ∃ art1, Prefix.Reduce P fuel art prefix_node (P - 1) = some art1 ∧
      art1.read prefix_node = some s ∧ ¬ art1.live a ∧
      art1.freed = a :: art.freed ∧ art1.released = art.released ∧
      (∀ x, x ≠ a → (art1.live x ↔ art.live x)) ∧
      (∀ x, x ≠ a → (art1.segments x).data = (art.segments x).data) ∧
      (∀ x, x ≠ a → prefix_node ≠ Ref.ptr x → (art1.segments x).ptr = (art.segments x).ptr) := by
  obtain ⟨art1, h1, h2, h3, h4, h5, h6, h7, _⟩ :=
    Reduce_free P hP fuel hfuel art prefix_node a hr hl hpa
  refine ⟨art1, h1, hs ▸ h2, ?_, h4, h5, ?_, fun x _ => h6 x, h7⟩
  · intro hla
    exact hla.2 (by rw [h4]; simp)
  · intro x hx
    unfold ART.live
    rw [h3, h4]
    simp [hx]

theorem C21_witness :
    ∃ art1, Prefix.Reduce 4 2 scenario (Ref.var 0) (4 - 1) = some art1 ∧
      art1.read (Ref.var 0) = some (Node.pfx 1) ∧ ¬ art1.live 0 ∧
      art1.freed = 0 :: scenario.freed ∧ art1.released = scenario.released ∧
      (∀ x, x ≠ 0 → (art1.live x ↔ scenario.live x)) ∧
      (∀ x, x ≠ 0 → (art1.segments x).data = (scenario.segments x).data) ∧
      (∀ x, x ≠ 0 → Ref.var 0 ≠ Ref.ptr x →
        (art1.segments x).ptr = (scenario.segments x).ptr) :=
  C21_Reduce_frees_node 4 (by decide) 2 (by decide) scenario (Ref.var 0) 0 (Node.pfx 1)
    (by decide) (by decide) rfl rfl (by decide)

/-- C25: `Reduce(prefix_node, n)` with `n < PREFIX_SIZE - 1` on the head of a well-formed
chain whose head node is full returns; the caller's reference still names the head node,
which is live, and the chain it heads holds the bytes of the chain before without the first
`n + 1` and ends in the same node, which is not a Prefix. -/
theorem C25_Reduce_full_head (P : Nat) (hP2 : P < 256) (fuel : Nat) (art : ART)
    (prefix_node : Ref) (a n : Nat) (t : Node) (rest : List Nat)
    (hr : art.read prefix_node = some (Node.pfx a))
    (hwf : WfChain P art (Node.pfx a) (a :: rest) t) (hfull : art.count P a = P)
    (hn : n < P - 1) (hfuel : rest.length + P + 1 ≤ fuel) :
    ∃ art1 L, Prefix.Reduce P fuel art prefix_node n = some art1 ∧
      art1.read prefix_node = some (Node.pfx a) ∧ art1.live a ∧
      Chain art1 (Node.pfx a) L t ∧ t.IsPrefix = false ∧
      flat P art1 L = (flat P art (a :: rest)).drop (n + 1) := by
  obtain ⟨hch, _, hcnt, ht, hs⟩ := hwf
  obtain ⟨art1, a1, L, h1, h2, h3, _, h5, _⟩ := Reduce_fold P hP2 fuel art prefix_node a n t rest
    hr hch ht hs (fun x hx => (hcnt x (List.mem_cons_of_mem _ hx)).2) (by omega) hfuel
  have hla : art1.live a := by
    cases L with
    | nil => cases h3; simp [Node.IsPrefix] at ht
    | cons b L2 =>
      have e : a = b := by
        have := h3.1
        injection this
      rw [e]
      exact h3.2.1
  refine ⟨art1, L, h1, h2, hla, h3, ht, ?_⟩
  rw [h5]
  simp only [flat]
  have hlen : ((art.segments a).bytes P).length = P := by rw [bytes_length]; exact hfull
  rw [List.drop_append_of_le_length (by rw [hlen]; omega)]
  congr 1
  unfold Prefix.bytes Prefix.bytesFrom
  have hc : (art.segments a).data P = P := hfull
  rw [hc, drop_map_range]
  have e : P - (n + 1) = P - n - 1 := by omega
  rw [e]

theorem C25_witness :
    ∃ art1 L, Prefix.Reduce 4 6 scenario (Ref.var 0) 1 = some art1 ∧
      art1.read (Ref.var 0) = some (Node.pfx 0) ∧ art1.live 0 ∧
      Chain art1 (Node.pfx 0) L (Node.inner 7) ∧ (Node.inner 7).IsPrefix = false ∧
      flat 4 art1 L = (flat 4 scenario (0 :: [1])).drop (1 + 1) :=
  C25_Reduce_full_head 4 (by decide) 6 scenario (Ref.var 0) 0 1 (Node.inner 7) [1] (by decide)
    (by decide) (by decide) (by decide) (by decide)

/-- C22, a counterexample: capacity 4, the chain `[10,20,30,40] → [50,60]`, `Split` at
position 0 of the first node. The bytes `[20,30,40]` go to a fresh node onto which the
successor node `[50,60]` is folded by `Append`, which returns it to the allocator: the call
frees the nodes 0 and 1, for every fuel with which it returns. -/
theorem C22_counterexample :
    WfChain 4 scenario (Node.pfx 0) [0, 1] (Node.inner 7) ∧
    (Prefix.Split 4 7 scenario (Ref.var 0) (Ref.var 1) 0).map
        (fun x => (x.2, x.1.read (Ref.var 0), x.1.freed)) =
      some (Ref.var 0, some Node.unset, [0, 1]) ∧
    ¬ ∃ fuel art1 r1, Prefix.Split 4 fuel scenario (Ref.var 0) (Ref.var 1) 0 = some (art1, r1) ∧
      art1.live 1 := by
  refine ⟨by decide, by decide, ?_⟩
  rintro ⟨fuel, art1, r1, h, hl⟩
  by_cases hf : 7 ≤ fuel
  · obtain ⟨art1b, r1b, cn, L, hrun, hpost⟩ := Split_spec 4 (by decide) (by decide) fuel scenario
      (Ref.var 0) (Ref.var 1) 0 0 (Node.inner 7) [1] (by decide) (by decide) rfl rfl
      (by decide) (by decide) trivial (by decide) (fun b e => by cases e)
      (fun b e => by cases e) hf
    rw [h] at hrun
    injection hrun with hrun
    injection hrun with e1 e2
    subst e1
    exact hpost.folded (by decide) (by decide) 1 (by simp) hl
  · have hsmall : ∀ f, f < 7 →
        ((Prefix.Split 4 f scenario (Ref.var 0) (Ref.var 1) 0).map fun x =>
          decide (¬ x.1.live 1)).getD true = true := by
      decide
    have := hsmall fuel (by omega)
    rw [h] at this
    simp at this
    exact this hl

/-- C22 (amended): with a capacity of at least 2, `Split(prefix_node, child_node, 0)` on the
head of a well-formed chain returns; the node has been returned to the allocator and the
caller's reference is unset; the child reference names a chain of live nodes that holds the
bytes after position 0 followed by the bytes of the successor chain and ends in the node
the chain ended in; every other node outside the successor chain stays live. When the node
held one byte the child chain is the successor chain itself, untouched; when it held more,
the Prefix nodes of the successor chain have been folded into the child chain and returned
to the allocator. -/
theorem C22_Split_at_zero (P : Nat) (hP : 2 ≤ P) (hP2 : P < 256) (fuel : Nat) (art : ART)
    (prefix_node child_node : Ref) (a : Nat) (t : Node) (ss : List Nat)
    (hrp : art.read prefix_node = some (Node.pfx a))
    (hwf : WfChain P art (Node.pfx a) (a :: ss) t)
    (hvc : art.valid child_node) (hcp : child_node ≠ prefix_node)
    (hcslot : ∀ b, child_node = Ref.ptr b → b ∉ a :: ss)
    (hfuel : ss.length + P + 2 ≤ fuel) :
    ∃ art1 cn L, Prefix.Split P fuel art prefix_node child_node 0 = some (art1, prefix_node) ∧
      art1.read prefix_node = some Node.unset ∧ ¬ art1.live a ∧
      art1.read child_node = some cn ∧ Chain art1 cn L t ∧ (∀ x ∈ L, art1.live x) ∧
      flat P art1 L = ((art.segments a).bytes P).drop 1 ++ flat P art ss ∧
      (∀ x, art.live x → x ≠ a → x ∉ ss → art1.live x) ∧
      (art.count P a = 1 → L = ss ∧ cn = (art.segments a).ptr) ∧
      (1 < art.count P a → ∀ x ∈ ss, ¬ art1.live x) := by
  obtain ⟨hch, _, hcnt, ht, hs⟩ := hwf
  obtain ⟨art1, r1, cn, L, hrun, hpost⟩ := Split_spec P (by omega) hP2 fuel art prefix_node
    child_node a 0 t ss hrp hch ht hs (fun x hx => (hcnt x hx).2)
    (hcnt a (List.mem_cons_self _ _)).1 hvc hcp hcslot
    (fun b e hb => ref_outside_chain hrp hch ht b hb e) hfuel
  obtain ⟨e1, e2, e3⟩ := hpost.freed_case rfl (by omega)
  subst e1
  refine ⟨art1, cn, L, hrun, e2, e3, hpost.child_read, hpost.child_chain,
    Chain.live hpost.child_chain, hpost.child_flat, hpost.live_keep, ?_, ?_⟩
  · intro h1
    exact hpost.unfolded (Or.inr (by omega))
  · intro h1
    exact hpost.folded (by omega) (by omega)

theorem C22_witness :
    ∃ art1 cn L, Prefix.Split 4 7 scenario (Ref.var 0) (Ref.var 1) 0 = some (art1, Ref.var 0) ∧
      art1.read (Ref.var 0) = some Node.unset ∧ ¬ art1.live 0 ∧
      art1.read (Ref.var 1) = some cn ∧ Chain art1 cn L (Node.inner 7) ∧
      (∀ x ∈ L, art1.live x) ∧
      flat 4 art1 L = ((scenario.segments 0).bytes 4).drop 1 ++ flat 4 scenario [1] ∧
      (∀ x, scenario.live x → x ≠ 0 → x ∉ [1] → art1.live x) ∧
      (scenario.count 4 0 = 1 → L = [1] ∧ cn = (scenario.segments 0).ptr) ∧
      (1 < scenario.count 4 0 → ∀ x ∈ [1], ¬ art1.live x) :=
  C22_Split_at_zero 4 (by decide) (by decide) 7 scenario (Ref.var 0) (Ref.var 1) 0
    (Node.inner 7) [1] (by decide) (by decide) trivial (by decide) (fun b e => by cases e)
    (by decide)

/-- C23, a counterexample: capacity 4, one node holding `[10, 20]` followed by a node that
is not a Prefix, `Split` at position 1. The call rebinds the caller's reference to the `ptr`
field of the node (line 282): read through the reference, the node is the successor, for
every fuel with which the call returns. -/
theorem C23_counterexample :
    WfChain 4 short_head (Node.pfx 0) [0] (Node.inner 7) ∧
    (Prefix.Split 4 6 short_head (Ref.var 0) (Ref.var 1) 1).map
        (fun x => (x.2, x.1.read x.2, x.1.read (Ref.var 0), x.1.count 4 0)) =
      some (Ref.ptr 0, some (Node.inner 7), some (Node.pfx 0), 1) ∧
    ¬ ∃ fuel art1 r1, Prefix.Split 4 fuel short_head (Ref.var 0) (Ref.var 1) 1 =
      some (art1, r1) ∧ art1.read r1 = some (Node.pfx 0) := by
  refine ⟨by decide, by decide, ?_⟩
  rintro ⟨fuel, art1, r1, h, hr⟩
  by_cases hf : 6 ≤ fuel
  · obtain ⟨art1b, r1b, cn, L, hrun, hpost⟩ := Split_spec 4 (by decide) (by decide) fuel
      short_head (Ref.var 0) (Ref.var 1) 0 1 (Node.inner 7) [] (by decide) (by decide) rfl rfl
      (by decide) (by decide) trivial (by decide) (fun b e => by cases e)
      (fun b e => by cases e) hf
    rw [h] at hrun
    injection hrun with hrun
    injection hrun with e1 e2
    subst e1; subst e2
    obtain ⟨h1, _, h3, h4⟩ := hpost.kept_case (Or.inl (by decide))
    rw [h1] at hr
    simp only [ART.read, h3, if_true, h4] at hr
    revert hr
    decide
  · have hsmall : ∀ f, f < 6 →
        ((Prefix.Split 4 f short_head (Ref.var 0) (Ref.var 1) 1).map fun x =>
          decide (x.1.read x.2 ≠ some (Node.pfx 0))).getD true = true := by
      decide
    have := hsmall fuel (by omega)
    rw [h] at this
    simp at this
    exact this hr

/-- C23 (amended): `Split(prefix_node, child_node, position)` with
`0 < position < count` on the head of a well-formed chain returns; the node is live, its
count is `position` and it holds the bytes it held before the position; the place the
caller's reference named before the call still holds the handle of this node, while the
reference itself is rebound to the `ptr` field of the node, which the call leaves as it
was. -/
theorem C23_Split_keeps_node (P : Nat) (hP2 : P < 256) (fuel : Nat) (art : ART)
    (prefix_node child_node : Ref) (a p : Nat) (t : Node) (ss : List Nat)
    (hrp : art.read prefix_node = some (Node.pfx a))
    (hwf : WfChain P art (Node.pfx a) (a :: ss) t) (hp0 : 0 < p) (hp : p < art.count P a)
    (hvc : art.valid child_node) (hcp : child_node ≠ prefix_node)
    (hcslot : ∀ b, child_node = Ref.ptr b → b ∉ a :: ss)
    (hfuel : ss.length + P + 2 ≤ fuel) :
    ∃ art1, Prefix.Split P fuel art prefix_node child_node p = some (art1, Ref.ptr a) ∧
      art1.live a ∧ art1.count P a = p ∧
      (art1.segments a).bytes P = ((art.segments a).bytes P).take p ∧
      art1.read prefix_node = some (Node.pfx a) ∧
      art1.read (Ref.ptr a) = some (art.segments a).ptr := by
  obtain ⟨hch, _, hcnt, ht, hs⟩ := hwf
  have hca := hcnt a (List.mem_cons_self _ _)
  obtain ⟨art1, r1, cn, L, hrun, hpost⟩ := Split_spec P (by omega) hP2 fuel art prefix_node
    child_node a p t ss hrp hch ht hs (fun x hx => (hcnt x hx).2) hp hvc hcp hcslot
    (fun b e hb => ref_outside_chain hrp hch ht b hb e) hfuel
  obtain ⟨e1, e2, e3, e4⟩ := hpost.kept_case (Or.inl hp0)
  subst e1
  have hcount : art1.count P a = p := by
    simp [ART.count, hpost.data_a]
  refine ⟨art1, hrun, e3, hcount, ?_, e2, ?_⟩
  · have h1 := bytes_after_cut P (art.segments a).data (art.segments a).ptr p (by omega)
      (art1.segments a).ptr (by unfold ART.count at hp; omega)
    rw [← hpost.data_a] at h1
    exact h1
  · simp only [ART.read, e3, if_true, e4]

theorem C23_witness :
    ∃ art1, Prefix.Split 4 7 scenario (Ref.var 0) (Ref.var 1) 2 = some (art1, Ref.ptr 0) ∧
      art1.live 0 ∧ art1.count 4 0 = 2 ∧
      (art1.segments 0).bytes 4 = ((scenario.segments 0).bytes 4).take 2 ∧
      art1.read (Ref.var 0) = some (Node.pfx 0) ∧
      art1.read (Ref.ptr 0) = some (scenario.segments 0).ptr :=
  C23_Split_keeps_node 4 (by decide) 7 scenario (Ref.var 0) (Ref.var 1) 0 2 (Node.inner 7) [1]
    (by decide) (by decide) (by decide) (by decide) trivial (by decide)
    (fun b e => by cases e) (by decide)

/-- C24, the failing input: capacity 4, the left chain `[10,20,30,40] → [50,60]` and the
right chain `[10,20,30,40] → [50,60,70]`, both well-formed. The first node pair matches and
is advanced past; in the second pair the left node is a strict beginning of the right one.
The call returns 2; it has reset the `ptr` of the first right node, the very field the right
cursor refers to, and freed that node: the right cursor is the `ptr` field of the freed node
2 and holds no node, and the divergence node 3, still live, is named by no reference. -/
theorem C24_Traverse_cursor_after_free :
    WfChain 4 (chains_with [50, 60, 70]) (Node.pfx 0) [0, 1] (Node.inner 7) ∧
    WfChain 4 (chains_with [50, 60, 70]) (Node.pfx 2) [2, 3] (Node.inner 8) ∧
    (Prefix.Traverse 4 4 (chains_with [50, 60, 70]) (Ref.var 0) (Ref.var 1)).map
        (fun x => (x.2.1, x.2.2.2, x.1.read x.2.2.2, x.1.freed, (x.1.segments 2).ptr)) =
      some (2, Ref.ptr 2, none, [2], Node.unset) ∧
    (Prefix.Traverse 4 4 (chains_with [50, 60, 70]) (Ref.var 0) (Ref.var 1)).map
        (fun x => (decide (x.1.live 3), x.1.count 4 3, x.1.vars 1)) =
      some (true, 3, Node.unset) := by
  refine ⟨by decide, by decide, by decide, by decide⟩

/-- With a count that fits the capacity, the loop of `Prefix::Deserialize` writes below the
count only: the count and the bytes from the count on stay as they were. -/
theorem Deserialize_bytes_frame (P : Nat) :
    ∀ (k : Nat) (d : Nat → Nat) (i : Nat) (reader : MetaBlockReader) (d1 : Nat → Nat)
      (reader1 : MetaBlockReader),
      Prefix.Deserialize_bytes P k d i reader = some (d1, reader1) → d P ≤ P →
      d1 P = d P ∧ ∀ j, d P ≤ j → j ≠ P → d1 j = d j := by
  intro k
  induction k with
  | zero => intro d i reader d1 reader1 h; cases h
  | succ k ih =>
    intro d i reader d1 reader1 h hc
    unfold Prefix.Deserialize_bytes at h
    split at h
    · rename_i hlt
      split at h
      · cases h
      · split at h
        · cases h
        · rename_i v reader2 _
          have hiP : i ≠ P := by omega
          have hP : Function.update d i v P = d P := Function.update_noteq hiP.symm _ _
          obtain ⟨e1, e2⟩ := ih (Function.update d i v) (i + 1) reader2 d1 reader1 h
            (by rw [hP]; exact hc)
          rw [hP] at e1 e2
          refine ⟨e1, fun j hj hjP => ?_⟩
          rw [e2 j hj hjP, Function.update_noteq (by omega)]
    · cases h
      exact ⟨rfl, fun _ _ _ => rfl⟩

/-- C27, a counterexample: capacity 4 and a block whose count byte is 5. `Deserialize` reads
five bytes and stores the fifth at index 4, the entry of the buffer that holds the count:
with the fifth byte 5 the node is left with the count 5, above the capacity; with the fifth
byte 3 the count read, 5, has been overwritten by the byte 3. -/
theorem C27_counterexample :
    (Prefix.Deserialize 4 ⟨fun _ => 0, Node.unset⟩
        ⟨[Prim.uint8 5, Prim.uint8 1, Prim.uint8 2, Prim.uint8 3, Prim.uint8 4, Prim.uint8 5,
          Prim.block_id 0, Prim.offset 0], 0⟩).map
        (fun x => (x.1.data 4, x.1.ptr, x.2.offset)) = some (5, Node.swizzled 0 0, 8) ∧
    (Prefix.Deserialize 4 ⟨fun _ => 0, Node.unset⟩
        ⟨[Prim.uint8 5, Prim.uint8 1, Prim.uint8 2, Prim.uint8 3, Prim.uint8 4, Prim.uint8 3,
          Prim.block_id 0, Prim.offset 0], 0⟩).map
        (fun x => (x.1.data 4, x.1.ptr, x.2.offset)) = some (3, Node.swizzled 0 0, 8) := by
  refine ⟨by decide, by decide⟩

/-- C27 (amended): when the count byte the reader delivers is at most the capacity,
`Deserialize` leaves the node, whenever it returns, with this count and with every entry of
the buffer from the count on (other than the count itself) as it was, so it writes bytes
below the count only; and it returns when the reader delivers as many bytes as the count
says and a block location after them, the node then holding these bytes. -/
theorem C27_Deserialize_bounded_count (P : Nat) (p : Prefix) (reader reader1 : MetaBlockReader)
    (c : Nat) (hread : reader.Read_uint8 = some (c, reader1)) (hc : c ≤ P) :
    (∀ q r, Prefix.Deserialize P p reader = some (q, r) →
      q.data P = c ∧ q.data P ≤ P ∧ ∀ j, c ≤ j → j ≠ P → q.data j = p.data j) ∧
    (∀ (bs : List Nat) (b o : Nat) (tl : List Prim), bs.length = c →
      reader1.block.drop reader1.offset =
        bs.map Prim.uint8 ++ Prim.block_id b :: Prim.offset o :: tl →
      ∃ q r, Prefix.Deserialize P p reader = some (q, r) ∧ q.bytes P = bs ∧
        q.ptr = Node.swizzled b o) := by
  constructor
  · intro q r h
    unfold Prefix.Deserialize at h
    simp only [hread] at h
    split at h
    · cases h
    · rename_i d reader2 hb
      split at h
      · cases h
      · cases h
        obtain ⟨e1, e2⟩ := Deserialize_bytes_frame P (P + 2) _ 0 reader1 d reader2 hb
          (by simp [hc])
        simp only [Function.update_same] at e1 e2
        refine ⟨e1, ?_, fun j hj hjP => ?_⟩
        · show d P ≤ P
          rw [e1]; exact hc
        · show d j = p.data j
          rw [e2 j hj hjP, Function.update_noteq hjP]
  · intro bs b o tl hlen hd
    obtain ⟨d1, e1, e2, e3, _, e5⟩ := Deserialize_bytes_spec P bs (P + 2)
      (Function.update p.data P c) 0 reader1 _ hd (by simp [hlen]) (by omega) (by omega)
    have e4 := ofReader_of_drop ⟨reader1.block, reader1.offset + bs.length⟩ _ _ _ e2
    refine ⟨⟨d1, Node.swizzled b o⟩, ⟨reader1.block, reader1.offset + bs.length + 2⟩,
      ?_, ?_, rfl⟩
    · unfold Prefix.Deserialize
      simp only [hread, e1, e4]
    · unfold Prefix.bytes
      simp only [e3, Function.update_same, ← hlen]
      simpa using e5

theorem C27_witness :
    (∀ q r, Prefix.Deserialize 4 ⟨fun _ => 0, Node.unset⟩
        ⟨[Prim.uint8 2, Prim.uint8 10, Prim.uint8 20, Prim.block_id 3, Prim.offset 0], 0⟩ =
          some (q, r) →
      q.data 4 = 2 ∧ q.data 4 ≤ 4 ∧
        ∀ j, 2 ≤ j → j ≠ 4 → q.data j = (⟨fun _ => 0, Node.unset⟩ : Prefix).data j) ∧
    (∀ (bs : List Nat) (b o : Nat) (tl : List Prim), bs.length = 2 →
      (⟨[Prim.uint8 2, Prim.uint8 10, Prim.uint8 20, Prim.block_id 3, Prim.offset 0], 1⟩ :
          MetaBlockReader).block.drop
        (⟨[Prim.uint8 2, Prim.uint8 10, Prim.uint8 20, Prim.block_id 3, Prim.offset 0], 1⟩ :
          MetaBlockReader).offset =
        bs.map Prim.uint8 ++ Prim.block_id b :: Prim.offset o :: tl →
      ∃ q r, Prefix.Deserialize 4 ⟨fun _ => 0, Node.unset⟩
          ⟨[Prim.uint8 2, Prim.uint8 10, Prim.uint8 20, Prim.block_id 3, Prim.offset 0], 0⟩ =
            some (q, r) ∧ q.bytes 4 = bs ∧ q.ptr = Node.swizzled b o) :=
  C27_Deserialize_bounded_count 4 ⟨fun _ => 0, Node.unset⟩
    ⟨[Prim.uint8 2, Prim.uint8 10, Prim.uint8 20, Prim.block_id 3, Prim.offset 0], 0⟩
    ⟨[Prim.uint8 2, Prim.uint8 10, Prim.uint8 20, Prim.block_id 3, Prim.offset 0], 1⟩
    2 rfl (by decide)

/-! ## Counts, compact chains and freed nodes -/

theorem dropLast_append_ne_nil (front L : List Nat) (h : L ≠ []) :
    (front ++ L).dropLast = front ++ L.dropLast := by
  induction front with
  | nil => rfl
  | cons a front ih =>
    cases hfl : front ++ L with
    | nil =>
      have := List.append_eq_nil.1 hfl
      exact absurd this.2 h
    | cons b T =>
      rw [List.cons_append, hfl, List.dropLast_cons₂, ← hfl, ih]
      rfl

/-- The first branch of `Concatenate`, with the counts of the chain it leaves and what
becomes of the child: the nodes of the child chain are returned to the allocator while the
child reference is left as it was. -/
theorem Concatenate_onto_chain_shape (P : Nat) (hP : 0 < P) (hP2 : P < 256) (fuel : Nat)
    (art : ART) (prefix_node : Ref) (byte : Nat) (child : Ref) (a : Nat) (cn tp tc : Node)
    (rest cs : List Nat)
    (hrp : art.read prefix_node = some (Node.pfx a)) (hrc : art.read child = some cn)
    (hps : Chain art (Node.pfx a) (a :: rest) tp) (htp : tp.IsPrefix = false)
    (hsp : tp.IsSwizzled = false)
    (hcs : Chain art cn cs tc) (htc : tc.IsPrefix = false) (hsc : tc.IsSwizzled = false)
    (hcp : ∀ x ∈ a :: rest, art.count P x ≤ P) (hcc : ∀ x ∈ cs, art.count P x ≤ P)
    (hdisj : ∀ x ∈ a :: rest, x ∉ cs)
    (hpslot : ∀ b, prefix_node = Ref.ptr b → b ∉ a :: rest ∧ b ∉ cs)
    (hcslot : ∀ b, child = Ref.ptr b → b ∉ a :: rest)
    (hfuel : (a :: rest).length + cs.length + P + 1 ≤ fuel) :
    ∃ art1 L, Prefix.Concatenate P fuel art prefix_node byte child = some art1 ∧
      art1.read prefix_node = some (Node.pfx a) ∧ Chain art1 (Node.pfx a) L tc ∧
      ((∀ x ∈ a :: rest, 1 ≤ art.count P x) →
        ∀ x ∈ L, 1 ≤ art1.count P x ∧ art1.count P x ≤ P) ∧
      ((∀ x ∈ (a :: rest).dropLast, art.count P x = P) →
        ∀ x ∈ L.dropLast, art1.count P x = P) ∧
      art1.read child = some cn ∧ (∀ x ∈ cs, ¬ art1.live x) := by
  have hla : art.live a := hps.2.1
  simp only [List.length_cons] at hfuel
  obtain ⟨tl, htail, hlast⟩ := Concatenate_tail_spec art rest fuel a tp hps htp hsp (by omega)
  obtain ⟨front, efront⟩ := getLast?_eq_some_iff_append hlast
  have hnd : (front ++ [tl]).Nodup := efront ▸ Chain.nodup hps htp
  have htl_not_front : tl ∉ front := fun hm =>
    (List.nodup_append.1 hnd).2.2 hm (List.mem_singleton_self _)
  obtain ⟨hfrontch, hltl, _⟩ := Chain.last_ptr (efront ▸ hps)
  have htl_mem : tl ∈ a :: rest := by rw [efront]; simp
  have hfront_mem : ∀ x ∈ front, x ∈ a :: rest := fun x hx => by
    rw [efront]; exact List.mem_append_left _ hx
  obtain ⟨art1, t1, L1, hrun1, hE1, hpos1⟩ :=
    Append_spec P hP hP2 art tl byte hltl (hcp tl htl_mem)
  have hvc : art.valid child := valid_of_read hrc
  have hvp : art.valid prefix_node := valid_of_read hrp
  have hchild_ne : child ≠ Ref.ptr tl := fun e => hcslot tl e htl_mem
  have hrc1 : art1.read child = some cn := hE1.read_keep hvc hchild_ne (by simp) hrc
  have hcs_live := Chain.live hcs
  have hcs_seg1 : ∀ x ∈ cs, art1.segments x = art.segments x := fun x hx =>
    hE1.seg x (hcs_live x hx).1 (fun e => hdisj tl htl_mem (e ▸ hx))
  have hcs1 : Chain art1 cn cs tc :=
    Chain.frame (fun x hx hl => ⟨hE1.live_keep hl (by simp), by rw [hcs_seg1 x hx]⟩) hcs
  have ht1 : t1 ∉ cs := by
    intro hm
    rcases hE1.last_cases with e | e
    · exact hdisj tl htl_mem (e ▸ hm)
    · have := (hcs_live t1 hm).1; omega
  have key : ∃ art2 t2 L2, Prefix.Concatenate P fuel art prefix_node byte child = some art2 ∧
      Ext P art tl (byte :: flat P art cs) cs art2 t2 L2 ∧ (art2.segments t2).ptr = tc ∧
      1 ≤ art2.count P t2 := by
    cases cs with
    | nil =>
      cases hcs
      obtain ⟨hE2, hptr2⟩ := hE1.set_ptr cn
      refine ⟨art1.setPtr t1 cn, t1, L1, ?_, hE2, hptr2,
        by simpa [ART.count, ART.setPtr, ART.setPfx] using hpos1⟩
      unfold Prefix.Concatenate
      simp only [hrp, Prefix.Get, hla, if_true, htail, hrun1, hrc1]
      cases cn with
      | pfx c => simp [Node.IsPrefix] at htc
      | unset => simp [hE1.live_last]
      | inner id => simp [hE1.live_last]
      | swizzled b o => simp [hE1.live_last]
    | cons c cs2 =>
      have hcn := hcs.1
      subst hcn
      obtain ⟨art2, t2, L2, hrun2, hE2, hp2, _⟩ := Append_node_spec P hP hP2 (c :: cs2) fuel art1
        t1 (Node.pfx c) tc hcs1 htc hsc hE1.live_last ht1 (hE1.count t1 hE1.mem_last)
        (fun x hx => by simp only [ART.count, hcs_seg1 x hx]; exact hcc x hx)
        (by simp only [List.length_cons] at hfuel ⊢; omega)
      have hE := Ext.trans hE1 hE2 (fun x hx hm => by
        rcases hE1.fresh x hx with e | e
        · exact hdisj tl htl_mem (e ▸ hm)
        · have := (hcs_live x hm).1; omega)
      rw [@flat_frame P art art1 (c :: cs2) (fun x hx => by rw [hcs_seg1 x hx])] at hE
      refine ⟨art2, t2, L1.dropLast ++ L2, ?_, hE, hp2 (by simp),
        Append_node_pos P hP hP2 fuel art1 t1 _ art2 t2 hrun2 hpos1⟩
      unfold Prefix.Concatenate
      simp only [hrp, Prefix.Get, hla, if_true, htail, hrun1, hrc1, hrun2, Option.map]
  obtain ⟨art2, t2, L2, hrun, hE, hptr, hpos⟩ := key
  obtain ⟨hch, _⟩ := hE.with_front hfrontch
    (fun x hx => ⟨fun e => htl_not_front (e ▸ hx), hdisj x (hfront_mem x hx)⟩) hptr
  have hfront_seg : ∀ x ∈ front, art2.segments x = art.segments x := fun x hx =>
    hE.seg x (Chain.live hfrontch x hx).1 (fun e => htl_not_front (e ▸ hx))
  have hL2 : L2 ≠ [] := by
    obtain ⟨T, hT⟩ := hE.head
    rw [hT]; simp
  refine ⟨art2, front ++ L2, hrun, ?_, hch, ?_, ?_, ?_, fun x hx => hE.dead_not_live hx⟩
  · exact hE.read_keep hvp (fun e => (hpslot tl e).1 htl_mem) (fun x e => (hpslot x e).2) hrp
  · intro hlow x hx
    rcases List.mem_append.1 hx with hx | hx
    · simp only [ART.count]
      rw [hfront_seg x hx]
      exact ⟨hlow x (hfront_mem x hx), hcp x (hfront_mem x hx)⟩
    · exact hE.bounds hP hpos x hx
  · intro hfull x hx
    rw [dropLast_append_ne_nil front L2 hL2] at hx
    rcases List.mem_append.1 hx with hx | hx
    · simp only [ART.count]
      rw [hfront_seg x hx]
      refine hfull x ?_
      rw [efront, List.dropLast_concat]
      exact hx
    · exact hE.all_full x hx
  · exact hE.read_keep hvc hchild_ne (fun x e hx =>
      ref_outside_chain hrc hcs htc x hx e) hrc

/-- The two other branches of `Concatenate`, with the counts of the chain they build and
what becomes of the child. -/
theorem Concatenate_fresh_shape (P : Nat) (hP : 0 < P) (hP2 : P < 256) (fuel : Nat) (art : ART)
    (prefix_node : Ref) (byte : Nat) (child : Ref) (pn cn tc : Node) (cs : List Nat)
    (hrp : art.read prefix_node = some pn) (hpn : pn.IsPrefix = false)
    (hrc : art.read child = some cn)
    (hcs : Chain art cn cs tc) (htc : tc.IsPrefix = false) (hsc : tc.IsSwizzled = false)
    (hcc : ∀ x ∈ cs, art.count P x ≤ P)
    (hpslot : ∀ b, prefix_node = Ref.ptr b → b ∉ cs)
    (hfuel : cs.length + P + 1 ≤ fuel) :
    ∃ art1 L, Prefix.Concatenate P fuel art prefix_node byte child = some art1 ∧
      art1.read prefix_node = some (Node.pfx art.next) ∧
      Chain art1 (Node.pfx art.next) L tc ∧
      (∀ x ∈ L, 1 ≤ art1.count P x ∧ art1.count P x ≤ P) ∧
      (∀ x ∈ L.dropLast, art1.count P x = P) ∧
      (child ≠ prefix_node → art1.read child = some cn) ∧ (∀ x ∈ cs, ¬ art1.live x) := by
  have hvp : art.valid prefix_node := valid_of_read hrp
  have hvc : art.valid child := valid_of_read hrc
  have hcs_live := Chain.live hcs
  have hchild_next : child ≠ Ref.ptr art.next := by
    intro e
    rw [e] at hvc
    exact not_live_next art hvc
  cases cs with
  | nil =>
    cases hcs
    obtain ⟨art1, hnew, hn1, hf1, _, hl1, hc1, hb1, hrd1, hp1, hd1, hpp1, hv1⟩ :=
      New_byte_spec P hP art prefix_node byte cn hvp
    refine ⟨art1, [art.next], ?_, hrd1, ⟨rfl, hl1, hp1⟩, ?_, by simp, ?_, by simp⟩
    · unfold Prefix.Concatenate
      rw [hrp, hrc]
      cases pn with
      | pfx b => simp [Node.IsPrefix] at hpn
      | unset =>
        cases cn with
        | pfx c => simp [Node.IsPrefix] at htc
        | unset => simp [hnew]
        | inner id => simp [hnew]
        | swizzled b o => simp [hnew]
      | inner id2 =>
        cases cn with
        | pfx c => simp [Node.IsPrefix] at htc
        | unset => simp [hnew]
        | inner id => simp [hnew]
        | swizzled b o => simp [hnew]
      | swizzled b2 o2 =>
        cases cn with
        | pfx c => simp [Node.IsPrefix] at htc
        | unset => simp [hnew]
        | inner id => simp [hnew]
        | swizzled b o => simp [hnew]
    · intro x hx
      rw [List.mem_singleton.1 hx, hc1]; omega
    · intro hne
      refine read_keep_of_frame hrc ?_ ?_ ?_
      · intro b _ hb
        exact ⟨by rw [hn1]; have := hb.1; omega, by rw [hf1]; exact hb.2⟩
      · intro b e
        refine hpp1 b ?_ (fun e2 => hne (by rw [e, e2]))
        intro e2
        exact hchild_next (by rw [e, e2])
      · intro i e
        exact hv1 i (fun e2 => hne (by rw [e, e2]))
  | cons c cs2 =>
    have hcn := hcs.1
    subst hcn
    obtain ⟨art1, hnew, hn1, hf1, _, hl1, hc1, hb1, hrd1, _, hd1, hpp1, hv1⟩ :=
      New_byte_spec P hP art prefix_node byte Node.unset hvp
    have hne_next : ∀ x ∈ c :: cs2, x ≠ art.next := fun x hx e => by
      have := (hcs_live x hx).1; omega
    have hseg_data : ∀ x ∈ c :: cs2, (art1.segments x).data = (art.segments x).data :=
      fun x hx => hd1 x (hne_next x hx)
    have hcs1 : Chain art1 (Node.pfx c) (c :: cs2) tc :=
      Chain.frame (fun x hx hl => ⟨⟨by rw [hn1]; have := hl.1; omega, by rw [hf1]; exact hl.2⟩,
        hpp1 x (hne_next x hx) (fun e => hpslot x e hx)⟩) hcs
    obtain ⟨art2, t2, L2, hrun2, hE2, hp2, _⟩ := Append_node_spec P hP hP2 (c :: cs2) fuel art1
      art.next (Node.pfx c) tc hcs1 htc hsc hl1 (fun hm => hne_next _ hm rfl) (by rw [hc1]; omega)
      (fun x hx => by simp only [ART.count, hseg_data x hx]; exact hcc x hx) hfuel
    have hpos : 1 ≤ art2.count P t2 :=
      Append_node_pos P hP hP2 fuel art1 art.next _ art2 t2 hrun2 (by rw [hc1])
    have hv1' : art1.valid prefix_node := valid_of_read hrd1
    refine ⟨art2, L2, ?_, ?_, ?_, hE2.bounds hP hpos, hE2.all_full, ?_,
      fun x hx => hE2.dead_not_live hx⟩
    · unfold Prefix.Concatenate
      rw [hrp, hrc]
      cases pn with
      | pfx b => simp [Node.IsPrefix] at hpn
      | unset => simp [hnew, hrun2]
      | inner id2 => simp [hnew, hrun2]
      | swizzled b2 o2 => simp [hnew, hrun2]
    · refine hE2.read_keep hv1' ?_ (fun x e => hpslot x e) hrd1
      intro e
      rw [e] at hvp
      exact not_live_next art hvp
    · have := hE2.chain
      rw [hp2 (by simp)] at this
      exact this
    · intro hne
      have hrc1 : art1.read child = some (Node.pfx c) := by
        refine read_keep_of_frame hrc ?_ ?_ ?_
        · intro b _ hb
          exact ⟨by rw [hn1]; have := hb.1; omega, by rw [hf1]; exact hb.2⟩
        · intro b e
          refine hpp1 b ?_ (fun e2 => hne (by rw [e, e2]))
          intro e2
          exact hchild_next (by rw [e, e2])
        · intro i e
          exact hv1 i (fun e2 => hne (by rw [e, e2]))
      exact hE2.read_keep (valid_of_read hrc1) hchild_next
        (fun x e hx => ref_outside_chain hrc hcs htc x hx e) hrc1

theorem Shape.front_full {P : Nat} {art : ART} {as : List Nat} :
    ∀ {L : Nat}, Shape P art as L → ∀ x ∈ as.dropLast, art.count P x = P := by
  induction as with
  | nil => intro L h; exact h.elim
  | cons a as ih =>
    intro L h x hx
    cases as with
    | nil => simp at hx
    | cons b rest =>
      obtain ⟨h1, _, h3⟩ := h
      rw [List.dropLast_cons₂] at hx
      rcases List.mem_cons.1 hx with e | e
      · rw [e]; exact h1
      · exact ih h3 x e

/-- The chain an append leaves behind a front of full nodes is compact. -/
theorem Ext.compact_with_front {P : Nat} {art art1 : ART} {a a1 : Nat}
    {bs dead L front : List Nat} {n : Node} (h : Ext P art a bs dead art1 a1 L)
    (hfront : Chain art n front (Node.pfx a)) (hne : ∀ x ∈ front, x ≠ a)
    (hfull : ∀ x ∈ front, art.count P x = P) :
    ∀ x ∈ (front ++ L).dropLast, art1.count P x = P := by
  intro x hx
  have hL : L ≠ [] := by
    obtain ⟨T, hT⟩ := h.head
    rw [hT]; simp
  rw [dropLast_append_ne_nil front L hL] at hx
  rcases List.mem_append.1 hx with hx | hx
  · simp only [ART.count]
    rw [h.seg x (Chain.live hfront x hx).1 (hne x hx)]
    exact hfull x hx
  · exact h.all_full x hx

/-- C26: with a chain called compact when every node of it but the last is full,
`New(art, node, key, depth, count)` builds a compact chain; `Append(art, byte)` on the last
node of a compact chain, `Append(art, other_prefix)` on the last node of a compact chain (with
a well-formed other chain, disjoint from it), `Concatenate` on a compact parent chain (or a
parent that is no Prefix) and `Reduce` on the head of a compact well-formed chain all
return and leave a compact chain. -/
theorem C26_compact_chains (P : Nat) (hP : 0 < P) (hP2 : P < 256) :
    (∀ (art : ART) (node : Ref) (key : ARTKey) (d L fuel : Nat), art.valid node → 1 ≤ L →
      L < fuel →
      ∃ art1 last n as, Prefix.New_key P fuel art node key d L = some (art1, Ref.ptr last) ∧
        art1.read node = some n ∧ Chain art1 n as (art1.segments last).ptr ∧
        as.getLast? = some last ∧ Compact P art1 as) ∧
    (∀ (art : ART) (n t : Node) (as : List Nat) (a byte : Nat), Chain art n as t →
      t.IsPrefix = false → as.getLast? = some a → (∀ x ∈ as, art.count P x ≤ P) →
      Compact P art as →
      ∃ art1 a1 L, Prefix.Append P art a byte = some (art1, a1) ∧
        Chain art1 n L (art1.segments a1).ptr ∧ L.getLast? = some a1 ∧ Compact P art1 L) ∧
    (∀ (art : ART) (n t0 m t : Node) (as os : List Nat) (a fuel : Nat), Chain art n as t0 →
      as.Nodup → as.getLast? = some a → (∀ x ∈ as, art.count P x ≤ P) → Compact P art as →
      WfChain P art m os t → (∀ x ∈ as, x ∉ os) → os.length + P + 1 ≤ fuel →
      ∃ art1 a1 L, Prefix.Append_node P fuel art a m = some (art1, a1) ∧
        Chain art1 n L t ∧ L.getLast? = some a1 ∧ Compact P art1 L) ∧
    (∀ (art : ART) (prefix_node child : Ref) (byte fuel : Nat) (pn cn tp tc : Node)
      (ps cs : List Nat), art.read prefix_node = some pn → art.read child = some cn →
      Chain art pn ps tp → tp.IsPrefix = false → tp.IsSwizzled = false →
      Chain art cn cs tc → tc.IsPrefix = false → tc.IsSwizzled = false →
      (∀ x ∈ ps, art.count P x ≤ P) → (∀ x ∈ cs, art.count P x ≤ P) →
      (∀ x ∈ ps, x ∉ cs) → (∀ b, prefix_node = Ref.ptr b → b ∉ ps ∧ b ∉ cs) →
      (∀ b, child = Ref.ptr b → b ∉ ps) → ps.length + cs.length + P + 1 ≤ fuel →
      Compact P art ps →
      ∃ art1 n1 L, Prefix.Concatenate P fuel art prefix_node byte child = some art1 ∧
        art1.read prefix_node = some n1 ∧ Chain art1 n1 L tc ∧ Compact P art1 L) ∧
    (∀ (art : ART) (prefix_node : Ref) (a n fuel : Nat) (t : Node) (rest : List Nat),
      art.read prefix_node = some (Node.pfx a) → WfChain P art (Node.pfx a) (a :: rest) t →
      Compact P art (a :: rest) → n < P → rest.length + P + 1 ≤ fuel →
      ∃ art1 n1 L, Prefix.Reduce P fuel art prefix_node n = some art1 ∧
        art1.read prefix_node = some n1 ∧ Chain art1 n1 L t ∧ Compact P art1 L) := by
  refine ⟨?_, ?_, ?_, ?_, ?_⟩
  · intro art node key d L fuel hnode hL hfuel
    obtain ⟨art1, as, last, hrun, hlast, _, _, _, _, hrd, hch, hsh, _⟩ :=
      New_key_loop_spec P hP hP2 key d fuel art node 0 L hL hfuel hnode
    refine ⟨art1, last, Node.pfx art.next, as, ?_, hrd, hch, hlast, Shape.front_full hsh⟩
    unfold Prefix.New_key
    have : L ≠ 0 := by omega
    simp only [this, if_false]
    exact hrun
  · intro art n t as a byte hch ht hlast hcnt hcomp
    obtain ⟨front, rfl⟩ := getLast?_eq_some_iff_append hlast
    have hnd := Chain.nodup hch ht
    have hna : ∀ x ∈ front, x ≠ a := fun x hx e =>
      (List.nodup_append.1 hnd).2.2 hx (by simp [e])
    obtain ⟨hfrontch, hla, _⟩ := Chain.last_ptr hch
    obtain ⟨art1, a1, L, hrun, hE, _⟩ := Append_spec P hP hP2 art a byte hla
      (hcnt a (by simp))
    obtain ⟨hch1, _⟩ := hE.with_front hfrontch (fun x hx => ⟨hna x hx, by simp⟩) rfl
    refine ⟨art1, a1, front ++ L, hrun, hch1, ?_, ?_⟩
    · obtain ⟨T, hT⟩ := getLast?_eq_some_iff_append hE.last
      rw [hT, ← List.append_assoc]
      simp
    · refine hE.compact_with_front hfrontch hna (fun x hx => hcomp x ?_)
      rw [List.dropLast_concat]
      exact hx
  · intro art n t0 m t as os a fuel hch hnd hlast hcnt hcomp hwf hdisj hfuel
    obtain ⟨front, rfl⟩ := getLast?_eq_some_iff_append hlast
    have hna : ∀ x ∈ front, x ≠ a := fun x hx e =>
      (List.nodup_append.1 hnd).2.2 hx (by simp [e])
    obtain ⟨hfrontch, hla, _⟩ := Chain.last_ptr hch
    obtain ⟨hos, hne, hoc, ht, hs⟩ := hwf
    obtain ⟨art1, a1, L, hrun, hE, hp, _⟩ := Append_node_spec P hP hP2 os fuel art a m t hos ht hs
      hla (hdisj a (by simp)) (hcnt a (by simp)) (fun x hx => (hoc x hx).2) hfuel
    obtain ⟨hch1, _⟩ := hE.with_front hfrontch
      (fun x hx => ⟨hna x hx, hdisj x (List.mem_append_left _ hx)⟩) (hp hne)
    refine ⟨art1, a1, front ++ L, hrun, hch1, ?_, ?_⟩
    · obtain ⟨T, hT⟩ := getLast?_eq_some_iff_append hE.last
      rw [hT, ← List.append_assoc]
      simp
    · refine hE.compact_with_front hfrontch hna (fun x hx => hcomp x ?_)
      rw [List.dropLast_concat]
      exact hx
  · intro art prefix_node child byte fuel pn cn tp tc ps cs hrp hrc hps htp hsp hcs htc hsc
      hcp hcc hdisj hpslot hcslot hfuel hcomp
    cases ps with
    | nil =>
      cases hps
      obtain ⟨art1, L, h1, h2, h3, _, h5, _⟩ := Concatenate_fresh_shape P hP hP2 fuel art
        prefix_node byte child pn cn tc cs hrp htp hrc hcs htc hsc hcc
        (fun b e => (hpslot b e).2) (by simp at hfuel; omega)
      exact ⟨art1, _, L, h1, h2, h3, h5⟩
    | cons a rest =>
      have hpn := hps.1
      subst hpn
      obtain ⟨art1, L, h1, h2, h3, _, h5, _⟩ := Concatenate_onto_chain_shape P hP hP2 fuel art
        prefix_node byte child a cn tp tc rest cs hrp hrc hps htp hsp hcs htc hsc hcp hcc
        hdisj hpslot hcslot hfuel
      exact ⟨art1, _, L, h1, h2, h3, h5 hcomp⟩
  · intro art prefix_node a n fuel t rest hrp hwf hcomp hn hfuel
    obtain ⟨hch, _, hcnt, ht, hs⟩ := hwf
    by_cases hlast : n = P - 1
    · subst hlast
      have hpa : prefix_node ≠ Ref.ptr a :=
        ref_outside_chain hrp hch ht a (List.mem_cons_self _ _)
      have hnd : a ∉ rest := (List.nodup_cons.1 (Chain.nodup hch ht)).1
      obtain ⟨art1, h1, h2, h3, h4, _, h6, h7, _⟩ :=
        Reduce_free P hP fuel (by omega) art prefix_node a hrp hch.2.1 hpa
      refine ⟨art1, _, rest, h1, h2, ?_, ?_⟩
      · refine Chain.frame (fun x hx hl => ⟨?_, ?_⟩) hch.2.2
        · refine ⟨by rw [h3]; exact hl.1, ?_⟩
          rw [h4]
          simp only [List.mem_cons, not_or]
          exact ⟨fun e => hnd (e ▸ hx), hl.2⟩
        · exact h7 x (fun e => hnd (e ▸ hx))
            (ref_outside_chain hrp hch ht x (List.mem_cons_of_mem _ hx))
      · intro x hx
        simp only [ART.count]
        rw [h6 x]
        refine hcomp x ?_
        cases rest with
        | nil => simp at hx
        | cons b r2 =>
          rw [List.dropLast_cons₂]
          exact List.mem_cons_of_mem _ hx
    · obtain ⟨art1, a1, L, h1, h2, h3, _, _, _, h7, _⟩ := Reduce_fold P hP2 fuel art prefix_node
        a n t rest hrp hch ht hs (fun x hx => (hcnt x (List.mem_cons_of_mem _ hx)).2)
        (by omega) hfuel
      exact ⟨art1, _, L, h1, h2, h3, h7⟩

theorem C26_witness :
    (∃ art1 last n as, Prefix.New_key 4 7 empty_memory (Ref.var 0) ⟨6, fun i => 10 * (i + 1)⟩
          0 6 = some (art1, Ref.ptr last) ∧
        art1.read (Ref.var 0) = some n ∧ Chain art1 n as (art1.segments last).ptr ∧
        as.getLast? = some last ∧ Compact 4 art1 as) ∧
    (∃ art1 a1 L, Prefix.Append 4 scenario 1 70 = some (art1, a1) ∧
        Chain art1 (Node.pfx 0) L (art1.segments a1).ptr ∧ L.getLast? = some a1 ∧
        Compact 4 art1 L) ∧
    (∃ art1 a1 L, Prefix.Append_node 4 7 scenario_node 2 (Node.pfx 0) = some (art1, a1) ∧
        Chain art1 (Node.pfx 2) L (Node.inner 7) ∧ L.getLast? = some a1 ∧ Compact 4 art1 L) ∧
    (∃ art1 n1 L, Prefix.Concatenate 4 8 scenario_node (Ref.var 1) 9 (Ref.var 0) = some art1 ∧
        art1.read (Ref.var 1) = some n1 ∧ Chain art1 n1 L (Node.inner 7) ∧ Compact 4 art1 L) ∧
    (∃ art1 n1 L, Prefix.Reduce 4 6 scenario (Ref.var 0) 1 = some art1 ∧
        art1.read (Ref.var 0) = some n1 ∧ Chain art1 n1 L (Node.inner 7) ∧ Compact 4 art1 L) :=
  ⟨(C26_compact_chains 4 (by decide) (by decide)).1 empty_memory (Ref.var 0)
      ⟨6, fun i => 10 * (i + 1)⟩ 0 6 7 trivial (by decide) (by decide),
    (C26_compact_chains 4 (by decide) (by decide)).2.1 scenario (Node.pfx 0) (Node.inner 7)
      [0, 1] 1 70 (by decide) rfl rfl (by decide) (by decide),
    (C26_compact_chains 4 (by decide) (by decide)).2.2.1 scenario_node (Node.pfx 2) Node.unset
      (Node.pfx 0) (Node.inner 7) [2] [0, 1] 2 7 (by decide) (by decide) rfl (by decide)
      (by decide) (by decide) (by decide) (by decide),
    (C26_compact_chains 4 (by decide) (by decide)).2.2.2.1 scenario_node (Ref.var 1) (Ref.var 0)
      9 8 (Node.pfx 2) (Node.pfx 0) Node.unset (Node.inner 7) [2] [0, 1] (by decide) (by decide)
      (by decide) rfl rfl (by decide) rfl rfl (by decide) (by decide) (by decide)
      (fun b e => by cases e) (fun b e => by cases e) (by decide) (by decide),
    (C26_compact_chains 4 (by decide) (by decide)).2.2.2.2 scenario (Ref.var 0) 0 1 6
      (Node.inner 7) [1] (by decide) (by decide) (by decide) (by decide) (by decide)⟩

/-- C16: the count invariant. When every Prefix node of the chains an operation is called
on holds between 1 and `PREFIX_SIZE` bytes, the operation returns and every Prefix node of
the chains it leaves holds between 1 and `PREFIX_SIZE` bytes: the chain `New` builds from a
key range; the chain from the node `Append(art, byte)` or `Append(art, other_prefix)` was
called on (no other node that existed is written); the chain the parent reference names
after `Concatenate`; the chain the caller's reference names after `Reduce` with `n` below
the count of the head; and, with a capacity of at least 2, the child chain and the retained
node (when it is still live) after `Split` at a position below the count. -/
theorem C16_count_invariant (P : Nat) (hP : 0 < P) (hP2 : P < 256) :
    (∀ (art : ART) (node : Ref) (key : ARTKey) (d L fuel : Nat), art.valid node → 1 ≤ L →
      L < fuel →
      ∃ art1 last n as, Prefix.New_key P fuel art node key d L = some (art1, Ref.ptr last) ∧
        art1.read node = some n ∧ Chain art1 n as (art1.segments last).ptr ∧
        as.getLast? = some last ∧ ∀ x ∈ as, 1 ≤ art1.count P x ∧ art1.count P x ≤ P) ∧
    (∀ (art : ART) (a byte : Nat), art.live a → 1 ≤ art.count P a → art.count P a ≤ P →
      ∃ art1 a1 L, Prefix.Append P art a byte = some (art1, a1) ∧
        Chain art1 (Node.pfx a) L (art1.segments a1).ptr ∧ L.getLast? = some a1 ∧
        (∀ x ∈ L, 1 ≤ art1.count P x ∧ art1.count P x ≤ P) ∧
        (∀ x, x < art.next → x ≠ a → art1.segments x = art.segments x)) ∧
    (∀ (art : ART) (m t : Node) (os : List Nat) (a fuel : Nat), art.live a →
      1 ≤ art.count P a → art.count P a ≤ P → WfChain P art m os t → a ∉ os →
      os.length + P + 1 ≤ fuel →
      ∃ art1 a1 L, Prefix.Append_node P fuel art a m = some (art1, a1) ∧
        Chain art1 (Node.pfx a) L t ∧ L.getLast? = some a1 ∧
        (∀ x ∈ L, 1 ≤ art1.count P x ∧ art1.count P x ≤ P) ∧
        (∀ x, x < art.next → x ≠ a → art1.segments x = art.segments x)) ∧
    (∀ (art : ART) (prefix_node child : Ref) (byte fuel : Nat) (pn cn tp tc : Node)
      (ps cs : List Nat), art.read prefix_node = some pn → art.read child = some cn →
      Chain art pn ps tp → tp.IsPrefix = false → tp.IsSwizzled = false →
      Chain art cn cs tc → tc.IsPrefix = false → tc.IsSwizzled = false →
      (∀ x ∈ ps, 1 ≤ art.count P x ∧ art.count P x ≤ P) →
      (∀ x ∈ cs, 1 ≤ art.count P x ∧ art.count P x ≤ P) →
      (∀ x ∈ ps, x ∉ cs) → (∀ b, prefix_node = Ref.ptr b → b ∉ ps ∧ b ∉ cs) →
      (∀ b, child = Ref.ptr b → b ∉ ps) → ps.length + cs.length + P + 1 ≤ fuel →
      ∃ art1 n1 L, Prefix.Concatenate P fuel art prefix_node byte child = some art1 ∧
        art1.read prefix_node = some n1 ∧ Chain art1 n1 L tc ∧
        ∀ x ∈ L, 1 ≤ art1.count P x ∧ art1.count P x ≤ P) ∧
    (∀ (art : ART) (prefix_node : Ref) (a n fuel : Nat) (t : Node) (rest : List Nat),
      art.read prefix_node = some (Node.pfx a) → WfChain P art (Node.pfx a) (a :: rest) t →
      n < art.count P a → rest.length + P + 1 ≤ fuel →
      ∃ art1 n1 L, Prefix.Reduce P fuel art prefix_node n = some art1 ∧
        art1.read prefix_node = some n1 ∧ Chain art1 n1 L t ∧
        ∀ x ∈ L, 1 ≤ art1.count P x ∧ art1.count P x ≤ P) ∧
    (2 ≤ P → ∀ (art : ART) (prefix_node child_node : Ref) (a p fuel : Nat) (t : Node)
      (ss : List Nat), art.read prefix_node = some (Node.pfx a) →
      WfChain P art (Node.pfx a) (a :: ss) t → p < art.count P a → art.valid child_node →
      child_node ≠ prefix_node → (∀ b, child_node = Ref.ptr b → b ∉ a :: ss) →
      ss.length + P + 2 ≤ fuel →
      ∃ art1 r1 cn L, Prefix.Split P fuel art prefix_node child_node p = some (art1, r1) ∧
        art1.read child_node = some cn ∧ Chain art1 cn L t ∧
        (∀ x ∈ L, 1 ≤ art1.count P x ∧ art1.count P x ≤ P) ∧
        (art1.live a → 1 ≤ art1.count P a ∧ art1.count P a ≤ P)) := by
  refine ⟨?_, ?_, ?_, ?_, ?_, ?_⟩
  · intro art node key d L fuel hnode hL hfuel
    obtain ⟨art1, as, last, hrun, hlast, _, _, _, _, hrd, hch, hsh, _⟩ :=
      New_key_loop_spec P hP hP2 key d fuel art node 0 L hL hfuel hnode
    refine ⟨art1, last, Node.pfx art.next, as, ?_, hrd, hch, hlast, Shape.count_bounds hsh hP⟩
    unfold Prefix.New_key
    have : L ≠ 0 := by omega
    simp only [this, if_false]
    exact hrun
  · intro art a byte hl _ hc
    obtain ⟨art1, a1, L, hrun, hE, hpos⟩ := Append_spec P hP hP2 art a byte hl hc
    exact ⟨art1, a1, L, hrun, hE.chain, hE.last, hE.bounds hP hpos, hE.seg⟩
  · intro art m t os a fuel hl hlow hc hwf hnot hfuel
    obtain ⟨hos, hne, hoc, ht, hs⟩ := hwf
    obtain ⟨art1, a1, L, hrun, hE, hp, _⟩ := Append_node_spec P hP hP2 os fuel art a m t hos ht hs
      hl hnot hc (fun x hx => (hoc x hx).2) hfuel
    have hpos := Append_node_pos P hP hP2 fuel art a m art1 a1 hrun hlow
    refine ⟨art1, a1, L, hrun, ?_, hE.last, hE.bounds hP hpos, hE.seg⟩
    have := hE.chain
    rw [hp hne] at this
    exact this
  · intro art prefix_node child byte fuel pn cn tp tc ps cs hrp hrc hps htp hsp hcs htc hsc
      hcp hcc hdisj hpslot hcslot hfuel
    cases ps with
    | nil =>
      cases hps
      obtain ⟨art1, L, h1, h2, h3, h4, _⟩ := Concatenate_fresh_shape P hP hP2 fuel art
        prefix_node byte child pn cn tc cs hrp htp hrc hcs htc hsc (fun x hx => (hcc x hx).2)
        (fun b e => (hpslot b e).2) (by simp at hfuel; omega)
      exact ⟨art1, _, L, h1, h2, h3, h4⟩
    | cons a rest =>
      have hpn := hps.1
      subst hpn
      obtain ⟨art1, L, h1, h2, h3, h4, _⟩ := Concatenate_onto_chain_shape P hP hP2 fuel art
        prefix_node byte child a cn tp tc rest cs hrp hrc hps htp hsp hcs htc hsc
        (fun x hx => (hcp x hx).2) (fun x hx => (hcc x hx).2) hdisj hpslot hcslot hfuel
      exact ⟨art1, _, L, h1, h2, h3, h4 (fun x hx => (hcp x hx).1)⟩
  · intro art prefix_node a n fuel t rest hrp hwf hn hfuel
    obtain ⟨hch, _, hcnt, ht, hs⟩ := hwf
    have hca := hcnt a (List.mem_cons_self _ _)
    by_cases hlast : n = P - 1
    · subst hlast
      have hpa : prefix_node ≠ Ref.ptr a :=
        ref_outside_chain hrp hch ht a (List.mem_cons_self _ _)
      have hnd : a ∉ rest := (List.nodup_cons.1 (Chain.nodup hch ht)).1
      obtain ⟨art1, h1, h2, h3, h4, _, h6, h7, _⟩ :=
        Reduce_free P hP fuel (by omega) art prefix_node a hrp hch.2.1 hpa
      refine ⟨art1, _, rest, h1, h2, ?_, ?_⟩
      · refine Chain.frame (fun x hx hl => ⟨?_, ?_⟩) hch.2.2
        · refine ⟨by rw [h3]; exact hl.1, ?_⟩
          rw [h4]
          simp only [List.mem_cons, not_or]
          exact ⟨fun e => hnd (e ▸ hx), hl.2⟩
        · exact h7 x (fun e => hnd (e ▸ hx))
            (ref_outside_chain hrp hch ht x (List.mem_cons_of_mem _ hx))
      · intro x hx
        simp only [ART.count]
        rw [h6 x]
        exact hcnt x (List.mem_cons_of_mem _ hx)
    · obtain ⟨art1, a1, L, h1, h2, h3, _, _, h6, _⟩ := Reduce_fold P hP2 fuel art prefix_node
        a n t rest hrp hch ht hs (fun x hx => (hcnt x (List.mem_cons_of_mem _ hx)).2)
        (by omega) hfuel
      exact ⟨art1, _, L, h1, h2, h3, h6⟩
  · intro hP3 art prefix_node child_node a p fuel t ss hrp hwf hp hvc hcp hcslot hfuel
    obtain ⟨hch, _, hcnt, ht, hs⟩ := hwf
    have hca := hcnt a (List.mem_cons_self _ _)
    obtain ⟨art1, r1, cn, L, hrun, hpost⟩ := Split_spec P hP hP2 fuel art prefix_node
      child_node a p t ss hrp hch ht hs (fun x hx => (hcnt x hx).2) hp hvc hcp hcslot
      (fun b e hb => ref_outside_chain hrp hch ht b hb e) hfuel
    refine ⟨art1, r1, cn, L, hrun, hpost.child_read, hpost.child_chain, ?_, ?_⟩
    · intro x hx
      exact ⟨hpost.child_pos (fun y hy => (hcnt y (List.mem_cons_of_mem _ hy)).1) x hx,
        hpost.child_count x hx⟩
    · intro hl
      have hcount : art1.count P a = p := by
        simp [ART.count, hpost.data_a]
      rw [hcount]
      by_cases h0 : p = 0
      · exact absurd hl (hpost.freed_case h0 (by omega)).2.2
      · omega

theorem C16_witness :
    (∃ art1 last n as, Prefix.New_key 4 7 empty_memory (Ref.var 0) ⟨6, fun i => 10 * (i + 1)⟩
          0 6 = some (art1, Ref.ptr last) ∧
        art1.read (Ref.var 0) = some n ∧ Chain art1 n as (art1.segments last).ptr ∧
        as.getLast? = some last ∧ ∀ x ∈ as, 1 ≤ art1.count 4 x ∧ art1.count 4 x ≤ 4) ∧
    (∃ art1 a1 L, Prefix.Append 4 scenario 0 70 = some (art1, a1) ∧
        Chain art1 (Node.pfx 0) L (art1.segments a1).ptr ∧ L.getLast? = some a1 ∧
        (∀ x ∈ L, 1 ≤ art1.count 4 x ∧ art1.count 4 x ≤ 4) ∧
        (∀ x, x < scenario.next → x ≠ 0 → art1.segments x = scenario.segments x)) ∧
    (∃ art1 a1 L, Prefix.Append_node 4 7 scenario_node 2 (Node.pfx 0) = some (art1, a1) ∧
        Chain art1 (Node.pfx 2) L (Node.inner 7) ∧ L.getLast? = some a1 ∧
        (∀ x ∈ L, 1 ≤ art1.count 4 x ∧ art1.count 4 x ≤ 4) ∧
        (∀ x, x < scenario_node.next → x ≠ 2 → art1.segments x = scenario_node.segments x)) ∧
    (∃ art1 n1 L, Prefix.Concatenate 4 8 scenario_node (Ref.var 1) 9 (Ref.var 0) = some art1 ∧
        art1.read (Ref.var 1) = some n1 ∧ Chain art1 n1 L (Node.inner 7) ∧
        ∀ x ∈ L, 1 ≤ art1.count 4 x ∧ art1.count 4 x ≤ 4) ∧
    (∃ art1 n1 L, Prefix.Reduce 4 6 short_head (Ref.var 0) 0 = some art1 ∧
        art1.read (Ref.var 0) = some n1 ∧ Chain art1 n1 L (Node.inner 7) ∧
        ∀ x ∈ L, 1 ≤ art1.count 4 x ∧ art1.count 4 x ≤ 4) ∧
    (∃ art1 r1 cn L, Prefix.Split 4 7 scenario (Ref.var 0) (Ref.var 1) 1 = some (art1, r1) ∧
        art1.read (Ref.var 1) = some cn ∧ Chain art1 cn L (Node.inner 7) ∧
        (∀ x ∈ L, 1 ≤ art1.count 4 x ∧ art1.count 4 x ≤ 4) ∧
        (art1.live 0 → 1 ≤ art1.count 4 0 ∧ art1.count 4 0 ≤ 4)) :=
  ⟨(C16_count_invariant 4 (by decide) (by decide)).1 empty_memory (Ref.var 0)
      ⟨6, fun i => 10 * (i + 1)⟩ 0 6 7 trivial (by decide) (by decide),
    (C16_count_invariant 4 (by decide) (by decide)).2.1 scenario 0 70 (by decide) (by decide)
      (by decide),
    (C16_count_invariant 4 (by decide) (by decide)).2.2.1 scenario_node (Node.pfx 0)
      (Node.inner 7) [0, 1] 2 7 (by decide) (by decide) (by decide) (by decide) (by decide)
      (by decide),
    (C16_count_invariant 4 (by decide) (by decide)).2.2.2.1 scenario_node (Ref.var 1) (Ref.var 0)
      9 8 (Node.pfx 2) (Node.pfx 0) Node.unset (Node.inner 7) [2] [0, 1] (by decide) (by decide)
      (by decide) rfl rfl (by decide) rfl rfl (by decide) (by decide) (by decide)
      (fun b e => by cases e) (fun b e => by cases e) (by decide),
    (C16_count_invariant 4 (by decide) (by decide)).2.2.2.2.1 short_head (Ref.var 0) 0 0 6
      (Node.inner 7) [] (by decide) (by decide) (by decide) (by decide),
    (C16_count_invariant 4 (by decide) (by decide)).2.2.2.2.2 (by decide) scenario (Ref.var 0)
      (Ref.var 1) 0 1 7 (Node.inner 7) [1] (by decide) (by decide) (by decide) trivial
      (by decide) (fun b e => by cases e) (by decide)⟩

/-- C17, a counterexample: capacity 4. `Concatenate` of the node `[5]` (variable 1), the byte
9 and the child chain `[10,20,30,40] → [50,60]` (variable 0) folds the child chain into the
parent and returns its nodes to the allocator, while the child reference, passed to `Append`
by value, still holds the handle of the freed node 0, for every fuel with which the call
returns. `Split` at position 1 of the first node of `[10,20,30,40] → [50,60]` leaves that
node live with its `ptr` still holding the handle of node 1, which has been folded into the
child and freed; the caller's reference is rebound to this field. -/
theorem C17_counterexample :
    (Prefix.Concatenate 4 8 scenario_node (Ref.var 1) 9 (Ref.var 0)).map
        (fun x => (x.read (Ref.var 0), decide (x.live 0), x.freed)) =
      some (some (Node.pfx 0), false, [1, 0]) ∧
    (¬ ∃ fuel art1, Prefix.Concatenate 4 fuel scenario_node (Ref.var 1) 9 (Ref.var 0) =
        some art1 ∧ ∀ x, art1.read (Ref.var 0) = some (Node.pfx x) → art1.live x) ∧
    (Prefix.Split 4 7 scenario (Ref.var 0) (Ref.var 1) 1).map
        (fun x => (x.2, decide (x.1.live 0), (x.1.segments 0).ptr, decide (x.1.live 1))) =
      some (Ref.ptr 0, true, Node.pfx 1, false) := by
  refine ⟨by decide, ?_, by decide⟩
  rintro ⟨fuel, art1, h, hl⟩
  by_cases hf : 8 ≤ fuel
  · obtain ⟨art2, L, h1, _, _, _, _, h6, h7⟩ := Concatenate_onto_chain_shape 4 (by decide)
      (by decide) fuel scenario_node (Ref.var 1) 9 (Ref.var 0) 2 (Node.pfx 0) Node.unset
      (Node.inner 7) [] [0, 1] (by decide) (by decide) (by decide) rfl rfl (by decide) rfl rfl
      (by decide) (by decide) (by decide) (fun b e => by cases e) (fun b e => by cases e)
      (by simpa using hf)
    rw [h] at h1
    injection h1 with h1
    subst h1
    exact h7 0 (by simp) (hl 0 h6)
  · have hsmall : ∀ f, f < 8 →
        ((Prefix.Concatenate 4 f scenario_node (Ref.var 1) 9 (Ref.var 0)).map fun x =>
          decide (x.read (Ref.var 0) = some (Node.pfx 0) ∧ ¬ x.live 0)).getD true = true := by
      decide
    have := hsmall fuel (by omega)
    rw [h] at this
    simp at this
    exact this.2 (hl 0 this.1)

/-- C17 (amended): the chains the operations leave do not lead to freed nodes.
`Append(art, other_prefix)` returns the nodes of the other chain to the allocator and leaves
a chain of live nodes from the node it was called on to the node the other chain ended in.
After `Reduce` the caller's reference names a chain of live nodes that ends in the node the
chain ended in. After `Concatenate` the parent reference names such a chain as well; the
nodes of the child chain have been freed and the child reference (when it is another place
than the parent reference) still holds what it held. After `Split` the child reference
names a chain of live nodes; at a position above 0 the retained node is live and its `ptr`
is as it was, while the nodes of the successor chain have been freed when bytes followed
the position in a node that was not split at its last slot. -/
theorem C17_result_chains_live (P : Nat) (hP : 0 < P) (hP2 : P < 256) :
    (∀ (art : ART) (m t : Node) (os : List Nat) (a fuel : Nat), art.live a →
      art.count P a ≤ P → WfChain P art m os t → a ∉ os → os.length + P + 1 ≤ fuel →
      ∃ art1 a1 L, Prefix.Append_node P fuel art a m = some (art1, a1) ∧
        Chain art1 (Node.pfx a) L t ∧ (∀ x ∈ L, art1.live x) ∧ (∀ x ∈ os, ¬ art1.live x) ∧
        art1.freed = os.reverse ++ art.freed) ∧
    (∀ (art : ART) (prefix_node : Ref) (a n fuel : Nat) (t : Node) (rest : List Nat),
      art.read prefix_node = some (Node.pfx a) → WfChain P art (Node.pfx a) (a :: rest) t →
      n < P → rest.length + P + 1 ≤ fuel →
      ∃ art1 n1 L, Prefix.Reduce P fuel art prefix_node n = some art1 ∧
        art1.read prefix_node = some n1 ∧ Chain art1 n1 L t ∧ (∀ x ∈ L, art1.live x)) ∧
    (∀ (art : ART) (prefix_node child : Ref) (byte fuel : Nat) (pn cn tp tc : Node)
      (ps cs : List Nat), art.read prefix_node = some pn → art.read child = some cn →
      Chain art pn ps tp → tp.IsPrefix = false → tp.IsSwizzled = false →
      Chain art cn cs tc → tc.IsPrefix = false → tc.IsSwizzled = false →
      (∀ x ∈ ps, art.count P x ≤ P) → (∀ x ∈ cs, art.count P x ≤ P) →
      (∀ x ∈ ps, x ∉ cs) → (∀ b, prefix_node = Ref.ptr b → b ∉ ps ∧ b ∉ cs) →
      (∀ b, child = Ref.ptr b → b ∉ ps) → ps.length + cs.length + P + 1 ≤ fuel →
      ∃ art1 n1 L, Prefix.Concatenate P fuel art prefix_node byte child = some art1 ∧
        art1.read prefix_node = some n1 ∧ Chain art1 n1 L tc ∧ (∀ x ∈ L, art1.live x) ∧
        (∀ x ∈ cs, ¬ art1.live x) ∧ (child ≠ prefix_node → art1.read child = some cn)) ∧
    (∀ (art : ART) (prefix_node child_node : Ref) (a p fuel : Nat) (t : Node)
      (ss : List Nat), art.read prefix_node = some (Node.pfx a) →
      WfChain P art (Node.pfx a) (a :: ss) t → p < art.count P a → art.valid child_node →
      child_node ≠ prefix_node → (∀ b, child_node = Ref.ptr b → b ∉ a :: ss) →
      ss.length + P + 2 ≤ fuel →
      ∃ art1 r1 cn L, Prefix.Split P fuel art prefix_node child_node p = some (art1, r1) ∧
        art1.read child_node = some cn ∧ Chain art1 cn L t ∧ (∀ x ∈ L, art1.live x) ∧
        (0 < p → r1 = Ref.ptr a ∧ art1.live a ∧ (art1.segments a).ptr = (art.segments a).ptr) ∧
        (p + 1 < art.count P a → p + 1 ≠ P → ∀ x ∈ ss, ¬ art1.live x)) := by
  refine ⟨?_, ?_, ?_, ?_⟩
  · intro art m t os a fuel hl hc hwf hnot hfuel
    obtain ⟨hos, hne, hoc, ht, hs⟩ := hwf
    obtain ⟨art1, a1, L, hrun, hE, hp, _⟩ := Append_node_spec P hP hP2 os fuel art a m t hos ht hs
      hl hnot hc (fun x hx => (hoc x hx).2) hfuel
    have hch : Chain art1 (Node.pfx a) L t := by
      have := hE.chain
      rw [hp hne] at this
      exact this
    exact ⟨art1, a1, L, hrun, hch, Chain.live hch, fun x hx => hE.dead_not_live hx, hE.freed⟩
  · intro art prefix_node a n fuel t rest hrp hwf hn hfuel
    obtain ⟨hch, _, hcnt, ht, hs⟩ := hwf
    by_cases hlast : n = P - 1
    · subst hlast
      have hpa : prefix_node ≠ Ref.ptr a :=
        ref_outside_chain hrp hch ht a (List.mem_cons_self _ _)
      have hnd : a ∉ rest := (List.nodup_cons.1 (Chain.nodup hch ht)).1
      obtain ⟨art1, h1, h2, h3, h4, _, _, h7, _⟩ :=
        Reduce_free P hP fuel (by omega) art prefix_node a hrp hch.2.1 hpa
      have hch1 : Chain art1 (art.segments a).ptr rest t := by
        refine Chain.frame (fun x hx hl => ⟨?_, ?_⟩) hch.2.2
        · refine ⟨by rw [h3]; exact hl.1, ?_⟩
          rw [h4]
          simp only [List.mem_cons, not_or]
          exact ⟨fun e => hnd (e ▸ hx), hl.2⟩
        · exact h7 x (fun e => hnd (e ▸ hx))
            (ref_outside_chain hrp hch ht x (List.mem_cons_of_mem _ hx))
      exact ⟨art1, _, rest, h1, h2, hch1, Chain.live hch1⟩
    · obtain ⟨art1, a1, L, h1, h2, h3, _⟩ := Reduce_fold P hP2 fuel art prefix_node
        a n t rest hrp hch ht hs (fun x hx => (hcnt x (List.mem_cons_of_mem _ hx)).2)
        (by omega) hfuel
      exact ⟨art1, _, L, h1, h2, h3, Chain.live h3⟩
  · intro art prefix_node child byte fuel pn cn tp tc ps cs hrp hrc hps htp hsp hcs htc hsc
      hcp hcc hdisj hpslot hcslot hfuel
    cases ps with
    | nil =>
      cases hps
      obtain ⟨art1, L, h1, h2, h3, _, _, h6, h7⟩ := Concatenate_fresh_shape P hP hP2 fuel art
        prefix_node byte child pn cn tc cs hrp htp hrc hcs htc hsc hcc
        (fun b e => (hpslot b e).2) (by simp at hfuel; omega)
      exact ⟨art1, _, L, h1, h2, h3, Chain.live h3, h7, h6⟩
    | cons a rest =>
      have hpn := hps.1
      subst hpn
      obtain ⟨art1, L, h1, h2, h3, _, _, h6, h7⟩ := Concatenate_onto_chain_shape P hP hP2 fuel
        art prefix_node byte child a cn tp tc rest cs hrp hrc hps htp hsp hcs htc hsc hcp hcc
        hdisj hpslot hcslot hfuel
      exact ⟨art1, _, L, h1, h2, h3, Chain.live h3, h7, fun _ => h6⟩
  · intro art prefix_node child_node a p fuel t ss hrp hwf hp hvc hcp hcslot hfuel
    obtain ⟨hch, _, hcnt, ht, hs⟩ := hwf
    obtain ⟨art1, r1, cn, L, hrun, hpost⟩ := Split_spec P hP hP2 fuel art prefix_node
      child_node a p t ss hrp hch ht hs (fun x hx => (hcnt x hx).2) hp hvc hcp hcslot
      (fun b e hb => ref_outside_chain hrp hch ht b hb e) hfuel
    refine ⟨art1, r1, cn, L, hrun, hpost.child_read, hpost.child_chain,
      Chain.live hpost.child_chain, ?_, hpost.folded⟩
    intro h0
    obtain ⟨e1, _, e3, e4⟩ := hpost.kept_case (Or.inl h0)
    exact ⟨e1, e3, e4⟩

theorem C17_witness :
    (∃ art1 a1 L, Prefix.Append_node 4 7 scenario_node 2 (Node.pfx 0) = some (art1, a1) ∧
        Chain art1 (Node.pfx 2) L (Node.inner 7) ∧ (∀ x ∈ L, art1.live x) ∧
        (∀ x ∈ [0, 1], ¬ art1.live x) ∧ art1.freed = [0, 1].reverse ++ scenario_node.freed) ∧
    (∃ art1 n1 L, Prefix.Reduce 4 6 scenario (Ref.var 0) 1 = some art1 ∧
        art1.read (Ref.var 0) = some n1 ∧ Chain art1 n1 L (Node.inner 7) ∧
        (∀ x ∈ L, art1.live x)) ∧
    (∃ art1 n1 L, Prefix.Concatenate 4 8 scenario_node (Ref.var 1) 9 (Ref.var 0) = some art1 ∧
        art1.read (Ref.var 1) = some n1 ∧ Chain art1 n1 L (Node.inner 7) ∧
        (∀ x ∈ L, art1.live x) ∧ (∀ x ∈ [0, 1], ¬ art1.live x) ∧
        (Ref.var 0 ≠ Ref.var 1 → art1.read (Ref.var 0) = some (Node.pfx 0))) ∧
    (∃ art1 r1 cn L, Prefix.Split 4 7 scenario (Ref.var 0) (Ref.var 1) 1 = some (art1, r1) ∧
        art1.read (Ref.var 1) = some cn ∧ Chain art1 cn L (Node.inner 7) ∧
        (∀ x ∈ L, art1.live x) ∧
        (0 < 1 → r1 = Ref.ptr 0 ∧ art1.live 0 ∧
          (art1.segments 0).ptr = (scenario.segments 0).ptr) ∧
        (1 + 1 < scenario.count 4 0 → 1 + 1 ≠ 4 → ∀ x ∈ [1], ¬ art1.live x)) :=
  ⟨(C17_result_chains_live 4 (by decide) (by decide)).1 scenario_node (Node.pfx 0)
      (Node.inner 7) [0, 1] 2 7 (by decide) (by decide) (by decide) (by decide) (by decide),
    (C17_result_chains_live 4 (by decide) (by decide)).2.1 scenario (Ref.var 0) 0 1 6
      (Node.inner 7) [1] (by decide) (by decide) (by decide) (by decide),
    (C17_result_chains_live 4 (by decide) (by decide)).2.2.1 scenario_node (Ref.var 1)
      (Ref.var 0) 9 8 (Node.pfx 2) (Node.pfx 0) Node.unset (Node.inner 7) [2] [0, 1] (by decide)
      (by decide) (by decide) rfl rfl (by decide) rfl rfl (by decide) (by decide) (by decide)
      (fun b e => by cases e) (fun b e => by cases e) (by decide),
    (C17_result_chains_live 4 (by decide) (by decide)).2.2.2 scenario (Ref.var 0) (Ref.var 1)
      0 1 7 (Node.inner 7) [1] (by decide) (by decide) (by decide) trivial (by decide)
      (fun b e => by cases e) (by decide)⟩

end duckdb
